import Mathlib

/-!
# Demand-paged virtual memory simulator (lab3_vm)

Shallow embedding of `src/lab3_vm/michael/machine.c` (namespace `Michael`): the
memory system, the instruction words and the executor; and of the memory system
of `src/lab3_vm/c/machine.c` (namespace `CVariant`), whose executor is the same
text.

* The global arrays `page_table`, `coremap`, `memory` and `swap` are total maps
  from indices to entries.  Indexing outside an array is undefined behaviour in
  C; the theorems below restrict accesses to in-range addresses.
* The pointer `coremap[i].owner` is either `NULL` or `&page_table[v]`; it is
  represented by `Option Nat` (`none` for `NULL`, `some v` for `&page_table[v]`).
* Function-local `static` variables are fields of the machine state.
* A failing `assert` and a `NULL` dereference abort the program: the functions
  that can abort return `Option`, with `none` for the abort.
* The four `unsigned long long` statistics counters are natural numbers (a run
  of 2^64 accesses is out of reach); the 27-bit field `page` is truncated on
  assignment.
* The frame count `RAM_PAGES` is a build-time constant; the operations take it
  as the parameter `F`, and `RAM_PAGES` below is the value in the source.
* The function pointer `replace` is a parameter of the operations; the three
  functions that `main` can install are `fifo_page_replace`,
  `second_chance_replace` and `optimal_page_replace`.
-/

namespace Michael

/-! ## Configuration constants -/

def PAGESIZE_WIDTH : Nat := 2
def PAGESIZE : Nat := 1 <<< PAGESIZE_WIDTH
def NPAGES : Nat := 2048
def RAM_PAGES : Nat := 8
def SWAP_PAGES : Nat := 128

/-- Width of the bit field `page` of a page table entry. -/
def PAGE_FIELD : Nat := 2 ^ 27

/-! ## Data model -/

/-- One entry of `page_table` (`page_table_entry_t`). -/
structure page_table_entry_t where
  page : Nat
  inmemory : Bool
  ondisk : Bool
  modified : Bool
  referenced : Bool
  readonly : Bool

/-- One entry of `coremap` (`coremap_entry_t`). -/
structure coremap_entry_t where
  owner : Option Nat
  page : Nat

/-- The global state of the simulator, statics of the functions included. -/
structure Machine where
  num_memoryaccesses : Nat
  num_pagefault : Nat
  num_diskwrites : Nat
  num_diskreads : Nat
  page_table : Nat → page_table_entry_t
  coremap : Nat → coremap_entry_t
  memory : Nat → Nat
  swap : Nat → Nat
  /-- The static `count` of `new_swap_page`. -/
  count : Nat
  /-- The static `next_page` of `fifo_page_replace`. -/
  fifo_next_page : Nat
  /-- The static `next_page` of `second_chance_replace`. -/
  sc_next_page : Nat
  /-- The static `next_unused_page` of `take_phys_page`. -/
  next_unused_page : Int

/-- Zero-initialised globals, as at program start. -/
def init_machine : Machine where
  num_memoryaccesses := 0
  num_pagefault := 0
  num_diskwrites := 0
  num_diskreads := 0
  page_table := fun _ => ⟨0, false, false, false, false, false⟩
  coremap := fun _ => ⟨none, 0⟩
  memory := fun _ => 0
  swap := fun _ => 0
  count := 0
  fifo_next_page := 0
  sc_next_page := 0
  next_unused_page := 0

/-- A replacement policy: the function behind the pointer `replace`. -/
abbrev Policy := Machine → Option (Nat × Machine)

/-! ## Operations -/

/-- Word copy `memcpy(&dst[d], &src[s], n * sizeof(unsigned))` between two
different arrays. -/
def memcpy (dst : Nat → Nat) (d : Nat) (src : Nat → Nat) (s : Nat) : Nat → Nat → Nat
  | 0 => dst
  | n + 1 => Function.update (memcpy dst d src s n) (d + n) (src (s + n))

/-- The loop `for (i = 0; i < n; ++i) mem[base + i] = 0`. -/
def zero_fill (mem : Nat → Nat) (base : Nat) : Nat → Nat → Nat
  | 0 => mem
  | n + 1 => Function.update (zero_fill mem base n) (base + n) 0

/-- Assignment through a pointer to `page_table[v]`. -/
def set_pte (s : Machine) (v : Nat) (f : page_table_entry_t → page_table_entry_t) : Machine :=
  { s with page_table := Function.update s.page_table v (f (s.page_table v)) }

/-- Assignment to `coremap[i]`. -/
def set_cme (s : Machine) (i : Nat) (f : coremap_entry_t → coremap_entry_t) : Machine :=
  { s with coremap := Function.update s.coremap i (f (s.coremap i)) }

def read_page (phys_page swap_page : Nat) (s : Machine) : Machine :=
  { s with
    num_diskreads := s.num_diskreads + 1
    memory := memcpy s.memory (phys_page * PAGESIZE) s.swap (swap_page * PAGESIZE) PAGESIZE }

def write_page (phys_page swap_page : Nat) (s : Machine) : Machine :=
  { s with
    num_diskwrites := s.num_diskwrites + 1
    swap := memcpy s.swap (swap_page * PAGESIZE) s.memory (phys_page * PAGESIZE) PAGESIZE }

def new_swap_page (s : Machine) : Option (Nat × Machine) :=
  if s.count < SWAP_PAGES then some (s.count, { s with count := s.count + 1 }) else none

def fifo_page_replace (F : Nat) : Policy := fun s =>
  let page := s.fifo_next_page
  let s1 := { s with fifo_next_page := (page + 1) % F }
  if page < F then some (page, s1) else none

/-- The `while (true)` loop of `second_chance_replace`, run for at most `fuel`
iterations. -/
def second_chance_scan (F : Nat) : Nat → Machine → Nat → Option (Nat × Machine)
  | 0, _, _ => none
  | fuel + 1, s, page =>
    match (s.coremap page).owner with
    | none => none
    | some o =>
      if (s.page_table o).referenced = false then some (page, s)
      else
        second_chance_scan F fuel (set_pte s o (fun e => { e with referenced := false }))
          ((page + 1) % F)

/-- The loop clears one reference bit per iteration, so `F + 1` iterations are
enough: see `second_chance_replace_returns`. -/
def second_chance_replace (F : Nat) : Policy := fun s =>
  match second_chance_scan F (F + 1) s s.sc_next_page with
  | none => none
  | some (page, s1) =>
    let s2 := { s1 with sc_next_page := (page + 1) % F }
    if page < F then some (page, s2) else none

/-- The static array `trace` of `optimal_page_replace`, nine entries a row. -/
def optimal_trace : List Nat :=
  [0, 0, 0, 0, 1, 1, 1, 1, 2] ++
  [2, 2, 2, 3, 3, 3, 3, 4, 4] ++
  [4, 4, 5, 5, 5, 5, 6, 6, 0] ++
  [0, 4, 255, 4, 5, 5, 0, 255, 1] ++
  [255, 1, 1, 1, 2, 3, 0, 255, 1] ++
  [254, 1, 1, 1, 2, 3, 0, 254, 1] ++
  [254, 1, 1, 1, 2, 3, 0, 254, 1] ++
  [253, 1, 1, 1, 2, 3, 0, 253, 1] ++
  [253, 1, 1, 1, 2, 3, 0, 253, 1] ++
  [252, 1, 1, 1, 2, 3, 0, 252, 1] ++
  [252, 1, 1, 1, 2, 3, 0, 252, 1] ++
  [251, 1, 1, 1, 2, 3, 0, 251, 1] ++
  [251, 1, 1, 1, 2, 3, 0, 251, 1] ++
  [250, 1, 1, 1, 2, 3, 0, 250, 1] ++
  [250, 1, 1, 1, 2, 3, 0, 250, 1] ++
  [249, 1, 1, 1, 2, 2, 2, 3, 250] ++
  [3, 3, 250, 4, 4, 3, 250, 3, 3] ++
  [251, 4, 4, 3, 251, 3, 3, 251, 4] ++
  [4, 3, 251, 3, 3, 252, 4, 4, 3] ++
  [252, 3, 3, 252, 4, 4, 3, 252, 3] ++
  [3, 253, 4, 4, 3, 253, 3, 3, 253] ++
  [4, 4, 3, 253, 3, 3, 254, 4, 4] ++
  [3, 254, 3, 3, 254, 4, 4, 3, 254] ++
  [3, 3, 255, 4, 4, 3, 255, 3, 3] ++
  [255, 4, 4, 5, 255, 5, 6, 0, 6]

/-- The inner loop `for (j = start; j < size; ++j)` of `optimal_page_replace`,
with `fuel` iterations left: the distance `j - start` of the first `j` with
`trace[j] == virtual_page`, if there is one. -/
def optimal_search (start virtual_page : Nat) : Nat → Nat → Option Nat
  | 0, _ => none
  | fuel + 1, j =>
    if virtual_page = optimal_trace.getD j 0 then some (j - start)
    else optimal_search start virtual_page fuel (j + 1)

/-- The value of `distance` after the inner loop; `size - start` is computed in
`unsigned` arithmetic. -/
def optimal_distance (start virtual_page : Nat) : Nat :=
  match optimal_search start virtual_page (optimal_trace.length - start) start with
  | some d => d
  | none => (optimal_trace.length + 2 ^ 32 - start) % 2 ^ 32

/-- The outer loop `for (i = 0; i < RAM_PAGES; ++i)` of `optimal_page_replace`
with `n` iterations left; the accumulator is `(max_distance, max_index)`. -/
def optimal_scan (s : Machine) (start : Nat) : Nat → Nat → Nat × Nat → Option (Nat × Nat)
  | 0, _, acc => some acc
  | n + 1, i, (max_distance, max_index) =>
    match (s.coremap i).owner with
    | none => none
    | some o =>
      let distance := optimal_distance start (s.page_table o).page
      optimal_scan s start n (i + 1)
        (if distance > max_distance then (distance, i) else (max_distance, max_index))

/-- The conversion `unsigned start = num_memoryaccesses - 1` keeps the low 32
bits of the 64-bit difference. -/
def optimal_page_replace (F : Nat) : Policy := fun s =>
  let start := (s.num_memoryaccesses + (2 ^ 64 - 1)) % 2 ^ 64 % 2 ^ 32
  match optimal_scan s start F 0 (0, 0) with
  | none => none
  | some (_, max_index) => some (max_index, s)

def take_phys_page (F : Nat) (replace : Policy) (s : Machine) : Option (Nat × Machine) :=
  if 0 ≤ s.next_unused_page then
    let phys_page := s.next_unused_page.toNat
    let n := s.next_unused_page + 1
    some (phys_page, { s with next_unused_page := if n = (F : Int) then -1 else n })
  else
    match replace s with
    | none => none
    | some (phys_page, s1) =>
      match (s1.coremap phys_page).owner with
      | none => some (phys_page, s1)
      | some o =>
        let s2 := set_pte s1 o (fun e => { e with inmemory := false })
        let swap_page := (s2.coremap phys_page).page
        if (s2.page_table o).modified then
          if (s2.page_table o).ondisk = false then
            let s3 := set_pte s2 o (fun e => { e with ondisk := true })
            match new_swap_page s3 with
            | none => none
            | some (swap_page, s4) =>
              let s5 := write_page phys_page swap_page s4
              some (phys_page, set_pte s5 o (fun e => { e with page := swap_page % PAGE_FIELD }))
          else
            let s5 := write_page phys_page swap_page s2
            some (phys_page, set_pte s5 o (fun e => { e with page := swap_page % PAGE_FIELD }))
        else
          some (phys_page, set_pte s2 o (fun e => { e with page := swap_page % PAGE_FIELD }))

def pagefault (F : Nat) (replace : Policy) (s : Machine) (virt_page : Nat) : Option Machine :=
  let s0 := { s with num_pagefault := s.num_pagefault + 1 }
  match take_phys_page F replace s0 with
  | none => none
  | some (phys_page, s1) =>
    let s2 :=
      if (s1.page_table virt_page).ondisk then
        read_page phys_page (s1.page_table virt_page).page
          (set_cme s1 phys_page (fun c => { c with page := (s1.page_table virt_page).page }))
      else
        let s1a := set_cme s1 phys_page (fun c => { c with page := 0 })
        { s1a with memory := zero_fill s1a.memory (phys_page * PAGESIZE) PAGESIZE }
    let s3 := set_cme s2 phys_page (fun c => { c with owner := some virt_page })
    some (set_pte s3 virt_page (fun e =>
      { e with page := phys_page % PAGE_FIELD, inmemory := true, modified := false,
               referenced := false }))

/-- The result is the physical address and the new state. -/
def translate (F : Nat) (replace : Policy) (s : Machine) (virt_addr : Nat) (write : Bool) :
    Option (Nat × Machine) :=
  let s0 := { s with num_memoryaccesses := s.num_memoryaccesses + 1 }
  let virt_page := virt_addr / PAGESIZE
  let offset := virt_addr &&& (PAGESIZE - 1)
  match (if (s0.page_table virt_page).inmemory = false then pagefault F replace s0 virt_page
         else some s0) with
  | none => none
  | some s1 =>
    let s2 := set_pte s1 virt_page (fun e => { e with referenced := true })
    let s3 := if write then set_pte s2 virt_page (fun e => { e with modified := true }) else s2
    some ((s3.page_table virt_page).page * PAGESIZE + offset, s3)

/-- The result is the word read and the new state. -/
def read_memory (F : Nat) (replace : Policy) (s : Machine) (addr : Nat) : Option (Nat × Machine) :=
  match translate F replace s addr false with
  | none => none
  | some (phys_addr, s1) => some (s1.memory phys_addr, s1)

def write_memory (F : Nat) (replace : Policy) (s : Machine) (addr data : Nat) : Option Machine :=
  match translate F replace s addr true with
  | none => none
  | some (phys_addr, s1) => some { s1 with memory := Function.update s1.memory phys_addr data }

/-- One call made by the program: `read_memory`, `write_memory`, or a bare
`translate`. -/
inductive Access where
  | read (addr : Nat)
  | write (addr data : Nat)
  | xlate (addr : Nat) (write : Bool)

/-- The virtual address of an access. -/
def Access.addr : Access → Nat
  | .read a => a
  | .write a _ => a
  | .xlate a _ => a

/-- The virtual page of an access. -/
def Access.vpage (a : Access) : Nat := a.addr / PAGESIZE

/-- Whether the access is a `write_memory` to address `A`. -/
def Access.writes (A : Nat) : Access → Bool
  | .write a _ => decide (a = A)
  | _ => false

/-- Performs one access; the result is the value returned to the caller (the
word read, the physical address for a bare `translate`, and `0` for the `void`
function `write_memory`) and the new state. -/
def access (F : Nat) (replace : Policy) (s : Machine) : Access → Option (Nat × Machine)
  | .read a => read_memory F replace s a
  | .write a d =>
    match write_memory F replace s a d with
    | none => none
    | some s1 => some (0, s1)
  | .xlate a w => translate F replace s a w

/-- Performs a sequence of accesses in order, stopping at the first abort. -/
def run (F : Nat) (replace : Policy) : Machine → List Access → Option Machine
  | s, [] => some s
  | s, a :: rest =>
    match access F replace s a with
    | none => none
    | some (_, s1) => run F replace s1 rest

/-! ## Predicates used in the statements -/

/-- The states `s` and `t` differ at most in the `referenced` bits of the page
table and in the cursors of the replacement policies. -/
structure SameButRefs (s t : Machine) : Prop where
  num_memoryaccesses : t.num_memoryaccesses = s.num_memoryaccesses
  num_pagefault : t.num_pagefault = s.num_pagefault
  num_diskwrites : t.num_diskwrites = s.num_diskwrites
  num_diskreads : t.num_diskreads = s.num_diskreads
  coremap : t.coremap = s.coremap
  memory : t.memory = s.memory
  swap : t.swap = s.swap
  count : t.count = s.count
  next_unused_page : t.next_unused_page = s.next_unused_page
  page : ∀ p, (t.page_table p).page = (s.page_table p).page
  inmemory : ∀ p, (t.page_table p).inmemory = (s.page_table p).inmemory
  ondisk : ∀ p, (t.page_table p).ondisk = (s.page_table p).ondisk
  modified : ∀ p, (t.page_table p).modified = (s.page_table p).modified
  readonly : ∀ p, (t.page_table p).readonly = (s.page_table p).readonly

/-- A replacement policy for `F` frames: whenever it returns, the frame index is
below `F` and it has touched nothing but reference bits and policy cursors. -/
def PolicyFrame (F : Nat) (replace : Policy) : Prop :=
  ∀ s i t, replace s = some (i, t) → i < F ∧ SameButRefs s t

/-- The policy `replace` with the check `num_memoryaccesses == n` at its entry;
the guarded policy aborts when the check fails. -/
def guard_accesses (n : Nat) (replace : Policy) : Policy := fun s =>
  if s.num_memoryaccesses = n then replace s else none

/-- Residency invariant: a resident page sits in one of the `F` frames and owns
it, an owned frame holds its resident owner, and the frames not yet handed out
by the cold start have no owner. -/
structure Resident (F : Nat) (s : Machine) : Prop where
  res : ∀ p, (s.page_table p).inmemory = true →
    (s.page_table p).page < F ∧ (s.coremap (s.page_table p).page).owner = some p
  own : ∀ f p, (s.coremap f).owner = some p →
    (s.page_table p).inmemory = true ∧ (s.page_table p).page = f
  cold : s.next_unused_page = -1 ∨ (0 ≤ s.next_unused_page ∧ s.next_unused_page < (F : Int))
  unused : ∀ f : Nat, 0 ≤ s.next_unused_page → s.next_unused_page ≤ (f : Int) →
    (s.coremap f).owner = none

/-- The residency invariant between `take_phys_page` and the installation of
the new owner: the frame `phys` holds no resident page, and its `owner` field
may be stale. -/
structure ResidentFree (F : Nat) (s : Machine) (phys : Nat) : Prop where
  lt : phys < F
  res : ∀ p, (s.page_table p).inmemory = true →
    (s.page_table p).page < F ∧ (s.page_table p).page ≠ phys ∧
      (s.coremap (s.page_table p).page).owner = some p
  own : ∀ f p, f ≠ phys → (s.coremap f).owner = some p →
    (s.page_table p).inmemory = true ∧ (s.page_table p).page = f
  cold : s.next_unused_page = -1 ∨ (0 ≤ s.next_unused_page ∧ s.next_unused_page < (F : Int))
  unused : ∀ f : Nat, 0 ≤ s.next_unused_page → s.next_unused_page ≤ (f : Int) →
    (s.coremap f).owner = none
  handed : 0 ≤ s.next_unused_page → (phys : Int) < s.next_unused_page

/-- The number of page table entries with `inmemory = 1`. -/
def resident_count (s : Machine) : Nat :=
  ((Finset.range NPAGES).filter (fun p => (s.page_table p).inmemory = true)).card

/-- A state with two frames owned by the pages 0 and 1, of which only page 0 is
referenced. -/
def clock_example : Machine :=
  { init_machine with
    coremap := fun f => ⟨some f, 0⟩
    page_table := fun p => ⟨p, true, false, false, decide (p = 0), false⟩
    next_unused_page := -1 }

/-- The access mode handed to `translate` by an access. -/
def Access.mode : Access → Bool
  | .read _ => false
  | .write _ _ => true
  | .xlate _ w => w

/-- The accesses visit the pages 0, 1, 2, ... in order, never beyond page `F`
and never returning to an earlier page: with `n` pages visited so far, the next
access stays in page `n - 1` or moves on to page `n`. -/
def in_order (F : Nat) : Nat → List Access → Prop
  | _, [] => True
  | n, x :: rest =>
    (x.vpage + 1 = n ∧ in_order F n rest) ∨ (x.vpage = n ∧ n ≤ F ∧ in_order F (n + 1) rest)

/-- The number of pages visited, when `n` pages were visited before the accesses. -/
def pages_after : Nat → List Access → Nat
  | n, [] => n
  | n, x :: rest => pages_after (if x.vpage = n then n + 1 else n) rest

/-- The three writes of the example scenario, to the addresses 0, 4 and 8. -/
def example_writes (d0 d1 d2 : Nat) : List Access := [.write 0 d0, .write 4 d1, .write 8 d2]

/-- The state in which `pagefault`, called by a `translate` that faults in state
`s`, reaches its `read_page` or zero-fill: `translate` has counted the access,
`pagefault` has counted the fault and `take_phys_page` has returned. -/
def at_frame_load (F : Nat) (replace : Policy) (s : Machine) : Option Machine :=
  match take_phys_page F replace
      { s with num_memoryaccesses := s.num_memoryaccesses + 1
               num_pagefault := s.num_pagefault + 1 } with
  | none => none
  | some (_, s1) => some s1

/-- The state of a FIFO run from the initial state in which the `n` pages
`0, ..., n - 1` have been visited in order, `n ≤ F + 1`: they are resident, page 0
excepted once page `F` has been visited, and each has faulted once. -/
structure InOrderState (F n : Nat) (s : Machine) : Prop where
  resident : ∀ p, (s.page_table p).inmemory = true ↔ (p < n ∧ ¬ (p = 0 ∧ n = F + 1))
  faults : s.num_pagefault = n
  unused : n ≤ F → s.next_unused_page = if n = F then -1 else (n : Int)
  cursor : n ≤ F → s.fifo_next_page = 0
  first : n ≤ F → 0 < n → (s.coremap 0).owner = some 0
  slots : n ≤ F → s.count = 0

/-- The swap slot associated with page `p`: recorded in the coremap entry of
its frame while the page is resident, in its own `page` field otherwise. -/
def slot (s : Machine) (p : Nat) : Nat :=
  if (s.page_table p).inmemory then (s.coremap (s.page_table p).page).page
  else (s.page_table p).page

/-- The word of the virtual address space at address `a`, as stored in the
machine: in the frame of a resident page, in the swap slot of an evicted page
that is on disk, and zero for a page with neither. -/
def vmem (s : Machine) (a : Nat) : Nat :=
  if (s.page_table (a / PAGESIZE)).inmemory then
    s.memory ((s.page_table (a / PAGESIZE)).page * PAGESIZE + a % PAGESIZE)
  else if (s.page_table (a / PAGESIZE)).ondisk then
    s.swap ((s.page_table (a / PAGESIZE)).page * PAGESIZE + a % PAGESIZE)
  else 0

/-- Backing store invariant: the pages on disk have pairwise different swap
slots among those handed out, and a resident page that is not dirty has in its
frame the content of its swap slot, or zeros when it has no slot. -/
structure Backed (s : Machine) : Prop where
  count_le : s.count ≤ SWAP_PAGES
  slot_lt : ∀ p, (s.page_table p).ondisk = true → slot s p < s.count
  slot_inj : ∀ p q, (s.page_table p).ondisk = true → (s.page_table q).ondisk = true →
    slot s p = slot s q → p = q
  clean : ∀ p, (s.page_table p).inmemory = true → (s.page_table p).modified = false →
    ∀ i, i < PAGESIZE →
      s.memory ((s.page_table p).page * PAGESIZE + i) =
        if (s.page_table p).ondisk then s.swap (slot s p * PAGESIZE + i) else 0

/-- The function `f` called `n` times in a row: the values returned, in order,
and the final state; an abort of one call aborts the sequence. -/
def calls (f : Machine → Option (Nat × Machine)) : Nat → Machine → Option (List Nat × Machine)
  | 0, s => some ([], s)
  | n + 1, s =>
    match f s with
    | none => none
    | some (r, s1) =>
      match calls f n s1 with
      | none => none
      | some (rs, s2) => some (r :: rs, s2)

/-- The victim's flags around an eviction: the frame returned by a call of
`take_phys_page` in the state reached by the accesses `accs`, and the flags
`inmemory`, `modified`, `ondisk` of page `p` when it returns. -/
def flags_after_take (F : Nat) (replace : Policy) (accs : List Access) (p : Nat) :
    Option (Nat × Bool × Bool × Bool) :=
  match run F replace init_machine accs with
  | none => none
  | some s =>
    match take_phys_page F replace s with
    | none => none
    | some (r, t) =>
      some (r, (t.page_table p).inmemory, (t.page_table p).modified, (t.page_table p).ondisk)

/-- Whether page `p` owns one of the `d` frames `c, c + 1, ..., c + d - 1`
(modulo `F`) that the second-chance scan passes over. -/
def scanned (F : Nat) (s : Machine) (c d p : Nat) : Bool :=
  (List.range d).any (fun j => decide ((s.coremap ((c + j) % F)).owner = some p))

/-- The state `s` with the reference bit cleared for the owners of the `d`
frames `c, c + 1, ..., c + d - 1` (modulo `F`), and nothing else changed. -/
def clear_scanned (F : Nat) (s : Machine) (c d : Nat) : Machine :=
  { s with page_table := fun p =>
      if scanned F s c d p then { s.page_table p with referenced := false }
      else s.page_table p }

/-- One operation with respect to the swap slots: a page that is on disk stays
on disk with the same slot, and the operation hands out at most one fresh swap
slot, namely to a resident dirty page without a slot that it evicts. -/
structure SlotStep (s t : Machine) : Prop where
  kept : ∀ p, (s.page_table p).ondisk = true →
    (t.page_table p).ondisk = true ∧ slot t p = slot s p
  alloc : t.count = s.count ∨
    (t.count = s.count + 1 ∧ ∃ o, (s.page_table o).inmemory = true ∧
      (s.page_table o).modified = true ∧ (s.page_table o).ondisk = false ∧
      (t.page_table o).inmemory = false ∧ (t.page_table o).ondisk = true ∧
      slot t o = s.count)

/-! ## The optimal policy as the specification words it -/

/-- The distance from position `start` of the trace to the next occurrence of
the virtual page `v` at or after `start`; `none` when `v` does not occur again. -/
def next_occurrence (start v : Nat) : Option Nat :=
  if v ∈ optimal_trace.drop start then some ((optimal_trace.drop start).indexOf v) else none

/-- The next occurrence `a` is farther away than `b`; a page that does not occur
again is farther than any that does. -/
def farther (a b : Option Nat) : Bool :=
  match a, b with
  | none, some _ => true
  | some x, some y => decide (y < x)
  | _, none => false

/-- The frame, among the first `n` frames, whose owner (a virtual page number)
has its next occurrence in the trace farthest away, the lowest frame index
among frames of equal distance; `none` when a frame has no owner or `n = 0`. -/
def farthest_frame (s : Machine) (start : Nat) : Nat → Option (Nat × Option Nat)
  | 0 => none
  | n + 1 =>
    match (s.coremap n).owner with
    | none => none
    | some v =>
      if n = 0 then some (0, next_occurrence start v)
      else
        match farthest_frame s start n with
        | none => none
        | some (best, d) =>
          if farther (next_occurrence start v) d then some (n, next_occurrence start v)
          else some (best, d)

/-- The state in which the fault of the last access of `accs` calls the
replacement policy: the state after the accesses before it, with the access
counted by `translate` and the fault counted by `pagefault`. -/
def at_replace (F : Nat) (replace : Policy) (accs : List Access) : Option Machine :=
  (run F replace init_machine accs.dropLast).map (fun s =>
    { s with num_memoryaccesses := s.num_memoryaccesses + 1,
             num_pagefault := s.num_pagefault + 1 })

/-! ## Instruction words -/

/-- The number of values of an `unsigned`: the executor computes modulo `WORD`. -/
def WORD : Nat := 2 ^ 32

def NREG : Nat := 32

/-- The shifts and the mask are computed in `unsigned` arithmetic. -/
def make_instr (opcode dest s1 s2 : Nat) : Nat :=
  ((opcode <<< 26) % WORD) ||| ((dest <<< 21) % WORD) ||| ((s1 <<< 16) % WORD) ||| (s2 &&& 0xffff)

def extract_opcode (instr : Nat) : Nat := instr >>> 26

def extract_dest (instr : Nat) : Nat := (instr >>> 21) &&& 0x1f

def extract_source1 (instr : Nat) : Nat := (instr >>> 16) &&& 0x1f

/-- The cast `(short)` of a 16-bit value, in two's complement. -/
def to_short (x : Nat) : Int :=
  if x % 2 ^ 16 < 2 ^ 15 then ((x % 2 ^ 16 : Nat) : Int) else ((x % 2 ^ 16 : Nat) : Int) - 2 ^ 16

def extract_constant (instr : Nat) : Int := to_short (instr &&& 0xffff)

/-- The conversion of an `int` to `unsigned`: the value modulo `2^32`. -/
def to_unsigned (i : Int) : Nat := (i % (WORD : Int)).toNat

/-- The conversion of an `unsigned` to `int`, in two's complement. -/
def to_int (x : Nat) : Int :=
  if x % WORD < 2 ^ 31 then ((x % WORD : Nat) : Int) else ((x % WORD : Nat) : Int) - (WORD : Int)

/-! ## The executor

One iteration of the loop of `run`: fetch, decode, the `switch` on the opcode,
write-back and the update of `pc`.  The output of `printf` and `puts` is not
part of the model.  The text of the loop is the same in both variants of
`machine.c`; the memory system enters it through the calls of `read_memory`
and `write_memory`, here the functions `rd` and `wr` on its states `σ`. -/

def ADD : Nat := 0
def ADDI : Nat := 1
def SUB : Nat := 2
def SUBI : Nat := 3
def SGE : Nat := 4
def SGT : Nat := 5
def SEQ : Nat := 6
def BT : Nat := 7
def BF : Nat := 8
def BA : Nat := 9
def ST : Nat := 10
def LD : Nat := 11
def CALL : Nat := 12
def JMP : Nat := 13
def MUL : Nat := 14
def SEQI : Nat := 15
def HALT : Nat := 16

/-- The function `read_memory` of a memory system with states `σ`: the word read
and the new state, or nothing when an assertion fails. -/
abbrev Reader (σ : Type) := σ → Nat → Option (Nat × σ)

/-- The function `write_memory` of a memory system with states `σ`. -/
abbrev Writer (σ : Type) := σ → Nat → Nat → Option σ

structure cpu_t where
  /-- Program counter. -/
  pc : Nat
  /-- Registers. -/
  reg : Nat → Nat

/-- The result of an `int` operation whose mathematical value is `i`: the value
in two's complement, wrapping around at `2^31`. -/
def int_wrap (i : Int) : Int := to_int (to_unsigned i)

/-- The value of a comparison in C. -/
def int_of_bool (b : Bool) : Int := if b then 1 else 0

/-- The local variables of `run` that the `switch` assigns, with `cpu.pc`. -/
structure locals_t where
  pc : Nat
  dest : Int
  dest_reg : Nat
  increment_pc : Bool
  writeback : Bool
  proceed : Bool

/-- How the `switch` ends: in `error` (the process exits), in an assertion
failure of the memory system, or at its end. -/
inductive switch_t (σ : Type) where
  | illegal (pc opcode : Nat)
  | abort
  | done (l : locals_t) (s : σ)

/-- How one iteration of the loop ends; `proceed` is the loop condition. -/
inductive step_t (σ : Type) where
  | illegal (pc opcode : Nat)
  | abort
  | next (proceed : Bool) (cpu : cpu_t) (s : σ)

/-- The `switch (opcode)` of `run`, entered with `increment_pc = true`,
`writeback = true` and `proceed = true` in `l`. -/
def exec_switch {σ : Type} (rd : Reader σ) (wr : Writer σ) (opcode : Nat) (cpu : cpu_t)
    (l : locals_t) (source1 source2 constant : Int) (s : σ) : switch_t σ :=
  if opcode = ADD then .done { l with dest := int_wrap (source1 + source2) } s
  else if opcode = ADDI then .done { l with dest := int_wrap (source1 + constant) } s
  else if opcode = SUB then .done { l with dest := int_wrap (source1 - source2) } s
  else if opcode = SUBI then .done { l with dest := int_wrap (source1 - constant) } s
  else if opcode = MUL then .done { l with dest := int_wrap (source1 * source2) } s
  else if opcode = SGE then .done { l with dest := int_of_bool (decide (source1 ≥ source2)) } s
  else if opcode = SGT then .done { l with dest := int_of_bool (decide (source1 > source2)) } s
  else if opcode = SEQ then .done { l with dest := int_of_bool (decide (source1 = source2)) } s
  else if opcode = SEQI then .done { l with dest := int_of_bool (decide (source1 = constant)) } s
  else if opcode = BT then
    if source1 ≠ 0 then
      .done { l with writeback := false, pc := to_unsigned constant, increment_pc := false } s
    else .done { l with writeback := false } s
  else if opcode = BF then
    if source1 = 0 then
      .done { l with writeback := false, pc := to_unsigned constant, increment_pc := false } s
    else .done { l with writeback := false } s
  else if opcode = BA then
    .done { l with writeback := false, increment_pc := false, pc := to_unsigned constant } s
  else if opcode = LD then
    match rd s (to_unsigned (int_wrap (source1 + constant))) with
    | none => .abort
    | some (data, s1) => .done { l with dest := to_int data } s1
  else if opcode = ST then
    match wr s (to_unsigned (int_wrap (source1 + constant)))
        (cpu.reg l.dest_reg) with
    | none => .abort
    | some s1 => .done { l with writeback := false } s1
  else if opcode = CALL then
    .done { l with increment_pc := false, dest := to_int ((l.pc + 1) % WORD), dest_reg := 31,
                   pc := to_unsigned constant } s
  else if opcode = JMP then
    .done { l with increment_pc := false, writeback := false, pc := to_unsigned source1 } s
  else if opcode = HALT then
    .done { l with increment_pc := false, writeback := false, proceed := false } s
  else .illegal l.pc opcode

/-- The loop body of `run` after the fetch of `instr`: decode, fetch of the
operands, the `switch`, write-back and increment of `pc`.  The variable `dest`
is not assigned on every path; it is read only where it has been assigned. -/
def execute {σ : Type} (rd : Reader σ) (wr : Writer σ) (instr : Nat) (cpu : cpu_t) (s : σ) :
    step_t σ :=
  let opcode := extract_opcode instr
  let source_reg1 := extract_source1 instr
  let constant := extract_constant instr
  let dest_reg := extract_dest instr
  let source1 := to_int (cpu.reg source_reg1)
  let source2 := to_int (cpu.reg (to_unsigned constant &&& (NREG - 1)))
  let l0 : locals_t := ⟨cpu.pc, 0, dest_reg, true, true, true⟩
  match exec_switch rd wr opcode cpu l0 source1 source2 constant s with
  | .illegal pc op => .illegal pc op
  | .abort => .abort
  | .done l s1 =>
    let reg := if l.writeback && l.dest_reg != 0 then
        Function.update cpu.reg l.dest_reg (to_unsigned l.dest)
      else cpu.reg
    let pc := if l.increment_pc then (l.pc + 1) % WORD else l.pc
    .next l.proceed ⟨pc, reg⟩ s1

/-- One iteration of the loop of `run`. -/
def step {σ : Type} (rd : Reader σ) (wr : Writer σ) (cpu : cpu_t) (s : σ) : step_t σ :=
  match rd s cpu.pc with
  | none => .abort
  | some (instr, s1) => execute rd wr instr cpu s1

/-- The loop `while (proceed)` of `run`, at most `n` iterations of it. -/
def run_loop {σ : Type} (rd : Reader σ) (wr : Writer σ) : Nat → cpu_t → σ → step_t σ
  | 0, cpu, s => .next true cpu s
  | n + 1, cpu, s =>
    match step rd wr cpu s with
    | .next true cpu1 s1 => run_loop rd wr n cpu1 s1
    | r => r

/-- The iteration has run to its end, without `error` and without an assertion
failure. -/
def step_t.completed {σ : Type} : step_t σ → Bool
  | .next _ _ _ => true
  | _ => false

/-- The registers and `pc` at the start of `run`, with every register 0 (the
source sets `pc` and `reg[0]` only). -/
def cpu_zero : cpu_t := ⟨0, fun _ => 0⟩

/-- The accesses to memory of the instruction `instr` itself, after its fetch:
one read for LD, one write for ST. -/
def instr_accesses (instr : Nat) (cpu : cpu_t) : List Access :=
  if extract_opcode instr = LD then
    [.read (to_unsigned
      (int_wrap (to_int (cpu.reg (extract_source1 instr)) + extract_constant instr)))]
  else if extract_opcode instr = ST then
    [.write (to_unsigned
      (int_wrap (to_int (cpu.reg (extract_source1 instr)) + extract_constant instr)))
      (cpu.reg (extract_dest instr))]
  else []

/-- The state of the memory system after a completed iteration. -/
def step_t.machine {σ : Type} : step_t σ → Option σ
  | .next _ _ s => some s
  | _ => none

/-! ## Sizes of the arrays -/

def RAM_SIZE : Nat := RAM_PAGES * PAGESIZE

/-- Every frame that the cold start has handed out has an owner; all `F` frames
have one when the cold start is over. -/
def Handed (F : Nat) (s : Machine) : Prop :=
  ∀ f, f < F → (s.next_unused_page < 0 ∨ (f : Int) < s.next_unused_page) →
    (s.coremap f).owner ≠ none

/-- Relations between the statistics counters and the cold start: the counters
are ordered, the number of page faults is the number of frames handed out while
the cold start lasts and at least `F` after it, the disk counters are 0 up to
the fault number `F`, and no page is on disk before the first disk write. -/
structure Stats (F : Nat) (s : Machine) : Prop where
  reads_le : s.num_diskreads ≤ s.num_pagefault
  faults_le : s.num_pagefault ≤ s.num_memoryaccesses
  writes_le : s.num_diskwrites ≤ s.num_pagefault
  cold : 0 ≤ s.next_unused_page → (s.num_pagefault : Int) = s.next_unused_page
  warm : s.next_unused_page < 0 → F ≤ s.num_pagefault
  first : s.num_pagefault ≤ F → s.num_diskreads = 0 ∧ s.num_diskwrites = 0
  clean : s.num_diskwrites = 0 → ∀ p, (s.page_table p).ondisk = false

end Michael

/-! # The variant `c/machine.c`

Shallow embedding of the memory system of `src/lab3_vm/c/machine.c`, with the
conventions of the embedding above.  The constants, the coremap entries and the
executor are those of the other variant; this variant has two statistics
counters, no cold start in `take_phys_page` and no zero-fill in `pagefault`. -/

namespace CVariant

open Michael (PAGESIZE PAGE_FIELD SWAP_PAGES RAM_PAGES NPAGES memcpy coremap_entry_t Access)


/-- One entry of `page_table`; this variant has the additional bit `index`. -/
structure page_table_entry_t where
  page : Nat
  inmemory : Bool
  ondisk : Bool
  modified : Bool
  referenced : Bool
  readonly : Bool
  index : Bool

/-- The global state of the simulator, statics of the functions included. -/
structure Machine where
  num_pagefault : Nat
  num_diskwrites : Nat
  page_table : Nat → page_table_entry_t
  coremap : Nat → coremap_entry_t
  memory : Nat → Nat
  swap : Nat → Nat
  /-- The static `count` of `new_swap_page`. -/
  count : Nat
  /-- The static `page` of `fifo_page_replace`. -/
  fifo_page : Nat
  /-- The static `page` of `second_chance_replace`. -/
  sc_page : Nat

/-- The state at the first access: zero-initialised globals, and the `index`
bits as the loop `page_table[i].index = i` at the start of `run` leaves them
(the bit-field keeps the low bit of `i`). -/
def init_machine : Machine where
  num_pagefault := 0
  num_diskwrites := 0
  page_table := fun i => ⟨0, false, false, false, false, false, decide (i < NPAGES ∧ i % 2 = 1)⟩
  coremap := fun _ => ⟨none, 0⟩
  memory := fun _ => 0
  swap := fun _ => 0
  count := 0
  fifo_page := 0
  sc_page := 0

/-- A replacement policy: the function behind the pointer `replace`. -/
abbrev Policy := Machine → Option (Nat × Machine)

/-- Assignment through a pointer to `page_table[v]`. -/
def set_pte (s : Machine) (v : Nat) (f : page_table_entry_t → page_table_entry_t) : Machine :=
  { s with page_table := Function.update s.page_table v (f (s.page_table v)) }

/-- Assignment to `coremap[i]`. -/
def set_cme (s : Machine) (i : Nat) (f : coremap_entry_t → coremap_entry_t) : Machine :=
  { s with coremap := Function.update s.coremap i (f (s.coremap i)) }

def read_page (phys_page swap_page : Nat) (s : Machine) : Machine :=
  { s with
    memory := memcpy s.memory (phys_page * PAGESIZE) s.swap (swap_page * PAGESIZE) PAGESIZE }

def write_page (phys_page swap_page : Nat) (s : Machine) : Machine :=
  { s with
    swap := memcpy s.swap (swap_page * PAGESIZE) s.memory (phys_page * PAGESIZE) PAGESIZE }

def new_swap_page (s : Machine) : Option (Nat × Machine) :=
  if s.count < SWAP_PAGES then some (s.count, { s with count := s.count + 1 }) else none

/-- The cursor is advanced before it is returned. -/
def fifo_page_replace (F : Nat) : Policy := fun s =>
  let page := (s.fifo_page + 1) % F
  let s1 := { s with fifo_page := page }
  if page < F then some (page, s1) else none

/-- The loop of `second_chance_replace` with `fuel` iterations left, the static
`page` in the state; a frame without owner ends the scan. -/
def second_chance_scan (F : Nat) : Nat → Machine → Option Machine
  | 0, _ => none
  | fuel + 1, s =>
    match (s.coremap s.sc_page).owner with
    | none => some s
    | some o =>
      if (s.page_table o).referenced then
        let s1 := set_pte s o (fun e => { e with referenced := false })
        second_chance_scan F fuel { s1 with sc_page := (s1.sc_page + 1) % F }
      else some s

/-- The scan clears at most `F` reference bits before it meets a cleared one;
`F + 1` iterations are enough whenever the loop ends. -/
def second_chance_replace (F : Nat) : Policy := fun s =>
  match second_chance_scan F (F + 1) s with
  | none => none
  | some s1 => if s1.sc_page < F then some (s1.sc_page, s1) else none

/-- The function `optimal_replace`: its static `page` is never assigned. -/
def optimal_replace (F : Nat) : Policy := fun s =>
  if 0 < F then some (0, s) else none

def take_phys_page (replace : Policy) (s : Machine) : Option (Nat × Machine) :=
  match replace s with
  | none => none
  | some (page, s1) =>
    match (s1.coremap page).owner with
    | none => some (page, s1)
    | some o =>
      let written : Option Machine :=
        if (s1.page_table o).modified then
          let s3 : Option Machine :=
            if (s1.page_table o).ondisk then some (write_page page (s1.coremap page).page s1)
            else
              match new_swap_page s1 with
              | none => none
              | some (swap_page, s2) =>
                some (set_cme (write_page page swap_page s2) page
                  (fun c => { c with page := swap_page }))
          s3.map (fun s4 =>
            let s5 := set_pte s4 o (fun e => { e with modified := false })
            let s6 := set_pte s5 o (fun e => { e with ondisk := true })
            { s6 with num_diskwrites := s6.num_diskwrites + 1 })
        else some s1
      written.map (fun s7 =>
        let s8 := set_pte s7 o (fun e => { e with inmemory := false })
        (page, set_pte s8 o (fun e => { e with page := (s8.coremap page).page % PAGE_FIELD })))

def pagefault (replace : Policy) (s : Machine) (virt_page : Nat) : Option Machine :=
  let s0 := { s with num_pagefault := s.num_pagefault + 1 }
  match take_phys_page replace s0 with
  | none => none
  | some (page, s1) =>
    let s2 :=
      if (s1.page_table virt_page).ondisk then
        read_page page (s1.page_table virt_page).page
          (set_cme s1 page (fun c => { c with page := (s1.page_table virt_page).page }))
      else s1
    let s3 := set_pte s2 virt_page (fun e => { e with inmemory := true })
    let s4 := set_pte s3 virt_page (fun e => { e with page := page % PAGE_FIELD })
    some (set_cme s4 page (fun c => { c with owner := some virt_page }))

/-- The result is the physical address and the new state; the output of `printf`
is not part of the model. -/
def translate (replace : Policy) (s : Machine) (virt_addr : Nat) (write : Bool) :
    Option (Nat × Machine) :=
  let virt_page := virt_addr / PAGESIZE
  let offset := virt_addr &&& (PAGESIZE - 1)
  match (if (s.page_table virt_page).inmemory = false then pagefault replace s virt_page
         else some s) with
  | none => none
  | some s1 =>
    let s2 := set_pte s1 virt_page (fun e => { e with referenced := true })
    let s3 := if write then set_pte s2 virt_page (fun e => { e with modified := true }) else s2
    some ((s3.page_table virt_page).page * PAGESIZE + offset, s3)

/-- The result is the word read and the new state. -/
def read_memory (replace : Policy) (s : Machine) (addr : Nat) : Option (Nat × Machine) :=
  match translate replace s addr false with
  | none => none
  | some (phys_addr, s1) => some (s1.memory phys_addr, s1)

def write_memory (replace : Policy) (s : Machine) (addr data : Nat) : Option Machine :=
  match translate replace s addr true with
  | none => none
  | some (phys_addr, s1) => some { s1 with memory := Function.update s1.memory phys_addr data }

/-- Performs one access; the result is the value returned to the caller and the
new state. -/
def access (replace : Policy) (s : Machine) : Access → Option (Nat × Machine)
  | .read a => read_memory replace s a
  | .write a d =>
    match write_memory replace s a d with
    | none => none
    | some s1 => some (0, s1)
  | .xlate a w => translate replace s a w

/-- Performs a sequence of accesses in order, stopping at the first abort. -/
def run (replace : Policy) : Machine → List Access → Option Machine
  | s, [] => some s
  | s, x :: rest =>
    match access replace s x with
    | none => none
    | some (_, s1) => run replace s1 rest

/-! ## Predicates used in the statements -/

/-- The states `s` and `t` differ at most in the `referenced` bits of the page
table and in the cursors of the replacement policies. -/
structure SameButRefs (s t : Machine) : Prop where
  num_pagefault : t.num_pagefault = s.num_pagefault
  num_diskwrites : t.num_diskwrites = s.num_diskwrites
  coremap : t.coremap = s.coremap
  memory : t.memory = s.memory
  swap : t.swap = s.swap
  count : t.count = s.count
  page : ∀ p, (t.page_table p).page = (s.page_table p).page
  inmemory : ∀ p, (t.page_table p).inmemory = (s.page_table p).inmemory
  ondisk : ∀ p, (t.page_table p).ondisk = (s.page_table p).ondisk
  modified : ∀ p, (t.page_table p).modified = (s.page_table p).modified

/-- A replacement policy for `F` frames: whenever it returns, the frame index is
below `F` and it has touched nothing but reference bits and policy cursors. -/
def PolicyFrame (F : Nat) (replace : Policy) : Prop :=
  ∀ s i t, replace s = some (i, t) → i < F ∧ SameButRefs s t

/-- The swap slot associated with the page `p`. -/
def slot (s : Machine) (p : Nat) : Nat :=
  if (s.page_table p).inmemory then (s.coremap (s.page_table p).page).page
  else (s.page_table p).page

/-- The word of the virtual address space at address `a`, as stored in the
machine: in the frame of a resident page, in the swap slot of an evicted page
that is on disk. -/
def vmem (s : Machine) (a : Nat) : Nat :=
  if (s.page_table (a / PAGESIZE)).inmemory then
    s.memory ((s.page_table (a / PAGESIZE)).page * PAGESIZE + a % PAGESIZE)
  else if (s.page_table (a / PAGESIZE)).ondisk then
    s.swap ((s.page_table (a / PAGESIZE)).page * PAGESIZE + a % PAGESIZE)
  else 0

/-- The page `p` has content that the machine keeps: it is on disk, or resident
and dirty.  A page that is neither loses its frame content at its eviction. -/
def Kept (s : Machine) (p : Nat) : Prop :=
  (s.page_table p).ondisk = true ∨
    ((s.page_table p).inmemory = true ∧ (s.page_table p).modified = true)

/-- The invariant of the memory system between two accesses: residency (a
resident page owns its frame, an owned frame holds its resident owner), a
non-resident page is not dirty, the pages on disk have pairwise different
slots among those handed out, and a resident clean page that is on disk has in
its frame the content of its slot. -/
structure Inv (F : Nat) (s : Machine) : Prop where
  res : ∀ p, (s.page_table p).inmemory = true →
    (s.page_table p).page < F ∧ (s.coremap (s.page_table p).page).owner = some p
  own : ∀ f p, (s.coremap f).owner = some p →
    (s.page_table p).inmemory = true ∧ (s.page_table p).page = f
  evicted : ∀ p, (s.page_table p).inmemory = false → (s.page_table p).modified = false
  count_le : s.count ≤ SWAP_PAGES
  slot_lt : ∀ p, (s.page_table p).ondisk = true → slot s p < s.count
  slot_inj : ∀ p q, (s.page_table p).ondisk = true → (s.page_table q).ondisk = true →
    slot s p = slot s q → p = q
  clean : ∀ p, (s.page_table p).inmemory = true → (s.page_table p).modified = false →
    (s.page_table p).ondisk = true → ∀ i, i < PAGESIZE →
      s.memory ((s.page_table p).page * PAGESIZE + i) = s.swap (slot s p * PAGESIZE + i)

/-- The invariant between `take_phys_page` and the installation of the new
owner: the frame `r` holds no resident page, and its `owner` field may be
stale. -/
structure InvFree (F : Nat) (s : Machine) (r : Nat) : Prop where
  lt : r < F
  res : ∀ p, (s.page_table p).inmemory = true →
    (s.page_table p).page < F ∧ (s.page_table p).page ≠ r ∧
      (s.coremap (s.page_table p).page).owner = some p
  own : ∀ f p, f ≠ r → (s.coremap f).owner = some p →
    (s.page_table p).inmemory = true ∧ (s.page_table p).page = f
  evicted : ∀ p, (s.page_table p).inmemory = false → (s.page_table p).modified = false
  count_le : s.count ≤ SWAP_PAGES
  slot_lt : ∀ p, (s.page_table p).ondisk = true → slot s p < s.count
  slot_inj : ∀ p q, (s.page_table p).ondisk = true → (s.page_table q).ondisk = true →
    slot s p = slot s q → p = q
  clean : ∀ p, (s.page_table p).inmemory = true → (s.page_table p).modified = false →
    (s.page_table p).ondisk = true → ∀ i, i < PAGESIZE →
      s.memory ((s.page_table p).page * PAGESIZE + i) = s.swap (slot s p * PAGESIZE + i)

/-- The relation between a state `m` of the other variant and a state `c` of
this variant along two runs of the same accesses with FIFO replacement on `F`
frames: the same pages are resident, a page resident in frame `f` there is in
frame `(f + 1) mod F` here, with the same `modified` bit and the same owner
field of the frame, the `ondisk` bits and the counters agree, and the frame
handed out next there is the cursor here. -/
structure FifoSim (F : Nat) (m : Michael.Machine) (c : Machine) : Prop where
  inmemory : ∀ p, (c.page_table p).inmemory = (m.page_table p).inmemory
  page : ∀ p, (m.page_table p).inmemory = true →
    (c.page_table p).page = ((m.page_table p).page + 1) % F
  modified : ∀ p, (m.page_table p).inmemory = true →
    (c.page_table p).modified = (m.page_table p).modified
  evicted : ∀ p, (m.page_table p).inmemory = false → (c.page_table p).modified = false
  ondisk : ∀ p, (c.page_table p).ondisk = (m.page_table p).ondisk
  num_pagefault : c.num_pagefault = m.num_pagefault
  num_diskwrites : c.num_diskwrites = m.num_diskwrites
  count : c.count = m.count
  owner : ∀ f, f < F → (c.coremap ((f + 1) % F)).owner = (m.coremap f).owner
  cold : 0 ≤ m.next_unused_page →
    (c.fifo_page : Int) = m.next_unused_page ∧ m.fifo_next_page = 0
  warm : m.next_unused_page < 0 → c.fifo_page = m.fifo_next_page ∧ m.fifo_next_page < F

end CVariant

/-! # Theorems -/

namespace Michael

theorem PAGESIZE_eq : PAGESIZE = 4 := rfl

theorem PAGE_FIELD_eq : PAGE_FIELD = 134217728 := rfl

theorem offset_mask (a : Nat) : a &&& (PAGESIZE - 1) = a % PAGESIZE :=
  Nat.and_pow_two_sub_one_eq_mod a 2

section projections

variable (s : Machine) (v : Nat) (f : page_table_entry_t → page_table_entry_t)
  (g : coremap_entry_t → coremap_entry_t)

@[simp] theorem set_pte_page_table :
    (set_pte s v f).page_table = Function.update s.page_table v (f (s.page_table v)) := rfl
@[simp] theorem set_pte_coremap : (set_pte s v f).coremap = s.coremap := rfl
@[simp] theorem set_pte_memory : (set_pte s v f).memory = s.memory := rfl
@[simp] theorem set_pte_swap : (set_pte s v f).swap = s.swap := rfl
@[simp] theorem set_pte_count : (set_pte s v f).count = s.count := rfl
@[simp] theorem set_pte_next_unused_page :
    (set_pte s v f).next_unused_page = s.next_unused_page := rfl
@[simp] theorem set_pte_fifo_next_page : (set_pte s v f).fifo_next_page = s.fifo_next_page := rfl
@[simp] theorem set_pte_sc_next_page : (set_pte s v f).sc_next_page = s.sc_next_page := rfl
@[simp] theorem set_pte_num_memoryaccesses :
    (set_pte s v f).num_memoryaccesses = s.num_memoryaccesses := rfl
@[simp] theorem set_pte_num_pagefault : (set_pte s v f).num_pagefault = s.num_pagefault := rfl
@[simp] theorem set_pte_num_diskwrites : (set_pte s v f).num_diskwrites = s.num_diskwrites := rfl
@[simp] theorem set_pte_num_diskreads : (set_pte s v f).num_diskreads = s.num_diskreads := rfl

@[simp] theorem set_cme_coremap :
    (set_cme s v g).coremap = Function.update s.coremap v (g (s.coremap v)) := rfl
@[simp] theorem set_cme_page_table : (set_cme s v g).page_table = s.page_table := rfl
@[simp] theorem set_cme_memory : (set_cme s v g).memory = s.memory := rfl
@[simp] theorem set_cme_swap : (set_cme s v g).swap = s.swap := rfl
@[simp] theorem set_cme_count : (set_cme s v g).count = s.count := rfl
@[simp] theorem set_cme_next_unused_page :
    (set_cme s v g).next_unused_page = s.next_unused_page := rfl
@[simp] theorem set_cme_fifo_next_page : (set_cme s v g).fifo_next_page = s.fifo_next_page := rfl
@[simp] theorem set_cme_sc_next_page : (set_cme s v g).sc_next_page = s.sc_next_page := rfl
@[simp] theorem set_cme_num_memoryaccesses :
    (set_cme s v g).num_memoryaccesses = s.num_memoryaccesses := rfl
@[simp] theorem set_cme_num_pagefault : (set_cme s v g).num_pagefault = s.num_pagefault := rfl
@[simp] theorem set_cme_num_diskwrites : (set_cme s v g).num_diskwrites = s.num_diskwrites := rfl
@[simp] theorem set_cme_num_diskreads : (set_cme s v g).num_diskreads = s.num_diskreads := rfl

end projections

/-- What `pagefault` leaves in the entry of the faulting page. -/
theorem pagefault_entry {F : Nat} {replace : Policy} {s t : Machine} {v : Nat}
    (h : pagefault F replace s v = some t) :
    (t.page_table v).inmemory = true ∧ (t.page_table v).modified = false ∧
      (t.page_table v).referenced = false := by
  unfold pagefault at h
  dsimp only at h
  split at h
  · exact absurd h (by simp)
  · simp only [Option.some.injEq] at h
    subst h
    simp

/-- Unfolding of `translate`: the state `m` is the one in which the page is
resident, before the reference and dirty bits are set. -/
theorem translate_some {F : Nat} {replace : Policy} {s t : Machine} {a pa : Nat} {w : Bool}
    (h : translate F replace s a w = some (pa, t)) :
    ∃ m, (if (s.page_table (a / PAGESIZE)).inmemory = false then
            pagefault F replace { s with num_memoryaccesses := s.num_memoryaccesses + 1 }
              (a / PAGESIZE)
          else some { s with num_memoryaccesses := s.num_memoryaccesses + 1 }) = some m ∧
      t = (if w then set_pte (set_pte m (a / PAGESIZE) (fun e => { e with referenced := true }))
                  (a / PAGESIZE) (fun e => { e with modified := true })
           else set_pte m (a / PAGESIZE) (fun e => { e with referenced := true })) ∧
      pa = (t.page_table (a / PAGESIZE)).page * PAGESIZE + (a &&& (PAGESIZE - 1)) := by
  unfold translate at h
  dsimp only at h
  split at h
  · exact absurd h (by simp)
  · rename_i m hm
    simp only [Option.some.injEq, Prod.mk.injEq] at h
    exact ⟨m, hm, h.2.symm, by rw [← h.2]; exact h.1.symm⟩

/-- The state after `take_phys_page` has evicted the owner `o` of frame `phys`
from the state `s1` left by the policy. -/
theorem take_phys_page_evict {F : Nat} {replace : Policy} {s s1 t : Machine} {phys o r : Nat}
    (hneg : ¬ 0 ≤ s.next_unused_page) (hrep : replace s = some (phys, s1))
    (hown : (s1.coremap phys).owner = some o)
    (h : take_phys_page F replace s = some (r, t)) :
    r = phys ∧
    (((s1.page_table o).modified = true ∧ (s1.page_table o).ondisk = false) →
      s1.count < SWAP_PAGES) ∧
    t = { s1 with
      page_table := Function.update s1.page_table o
        { s1.page_table o with
          inmemory := false
          ondisk := (s1.page_table o).ondisk || (s1.page_table o).modified
          page := (if (s1.page_table o).modified && !(s1.page_table o).ondisk then s1.count
                   else (s1.coremap phys).page) % PAGE_FIELD }
      swap := if (s1.page_table o).modified then
          memcpy s1.swap
            ((if (s1.page_table o).modified && !(s1.page_table o).ondisk then s1.count
              else (s1.coremap phys).page) * PAGESIZE) s1.memory (phys * PAGESIZE) PAGESIZE
        else s1.swap
      count := if (s1.page_table o).modified && !(s1.page_table o).ondisk then s1.count + 1
        else s1.count
      num_diskwrites := if (s1.page_table o).modified then s1.num_diskwrites + 1
        else s1.num_diskwrites } := by
  cases hm : (s1.page_table o).modified <;> cases hd : (s1.page_table o).ondisk
  · simp [take_phys_page, hneg, hrep, hown, set_pte, hm, hd] at h
    obtain ⟨rfl, rfl⟩ := h
    simp [hm, hd]
  · simp [take_phys_page, hneg, hrep, hown, set_pte, hm, hd] at h
    obtain ⟨rfl, rfl⟩ := h
    simp [hm, hd]
  · by_cases hc : s1.count < SWAP_PAGES
    · simp [take_phys_page, hneg, hrep, hown, set_pte, write_page, new_swap_page, hm, hd, hc] at h
      obtain ⟨rfl, rfl⟩ := h
      simp [hm, hd, hc]
    · simp [take_phys_page, hneg, hrep, hown, set_pte, write_page, new_swap_page, hm, hd, hc] at h
  · simp [take_phys_page, hneg, hrep, hown, set_pte, write_page, hm, hd] at h
    obtain ⟨rfl, rfl⟩ := h
    simp [hm, hd]

/-- The three ways in which `take_phys_page` returns: an unused frame, a frame
without owner chosen by the policy, or a frame whose owner is evicted. -/
theorem take_phys_page_cases {F : Nat} {replace : Policy} {s t : Machine} {r : Nat}
    (h : take_phys_page F replace s = some (r, t)) :
    (0 ≤ s.next_unused_page ∧ r = s.next_unused_page.toNat ∧
      t = { s with next_unused_page :=
              if s.next_unused_page + 1 = (F : Int) then -1 else s.next_unused_page + 1 }) ∨
    (¬ 0 ≤ s.next_unused_page ∧ replace s = some (r, t) ∧ (t.coremap r).owner = none) ∨
    (¬ 0 ≤ s.next_unused_page ∧ ∃ s1 o, replace s = some (r, s1) ∧
      (s1.coremap r).owner = some o) := by
  by_cases hneg : 0 ≤ s.next_unused_page
  · left
    unfold take_phys_page at h
    rw [if_pos hneg] at h
    simp only [Option.some.injEq, Prod.mk.injEq] at h
    exact ⟨hneg, h.1.symm, h.2.symm⟩
  · right
    have h0 := h
    unfold take_phys_page at h
    rw [if_neg hneg] at h
    split at h
    · exact absurd h (by simp)
    · rename_i phys s1 hrep
      split at h
      · rename_i hown
        simp only [Option.some.injEq, Prod.mk.injEq] at h
        obtain ⟨rfl, rfl⟩ := h
        exact Or.inl ⟨hneg, hrep, hown⟩
      · rename_i o hown
        have := (take_phys_page_evict hneg hrep hown h0).1
        subst this
        exact Or.inr ⟨hneg, s1, o, hrep, hown⟩

/-- The state after a completed `pagefault`, from the state `s1` left by
`take_phys_page`. -/
theorem pagefault_some {F : Nat} {replace : Policy} {s t : Machine} {v : Nat}
    (h : pagefault F replace s v = some t) :
    ∃ phys s1,
      take_phys_page F replace { s with num_pagefault := s.num_pagefault + 1 }
        = some (phys, s1) ∧
      t = { s1 with
        page_table := Function.update s1.page_table v
          { s1.page_table v with
            page := phys % PAGE_FIELD, inmemory := true, modified := false, referenced := false }
        coremap := Function.update s1.coremap phys
          ⟨some v, if (s1.page_table v).ondisk then (s1.page_table v).page else 0⟩
        memory := if (s1.page_table v).ondisk then
            memcpy s1.memory (phys * PAGESIZE) s1.swap ((s1.page_table v).page * PAGESIZE) PAGESIZE
          else zero_fill s1.memory (phys * PAGESIZE) PAGESIZE
        num_diskreads := if (s1.page_table v).ondisk then s1.num_diskreads + 1
          else s1.num_diskreads } := by
  unfold pagefault at h
  dsimp only at h
  split at h
  · exact absurd h (by simp)
  · rename_i phys s1 htake
    refine ⟨phys, s1, htake, ?_⟩
    simp only [Option.some.injEq] at h
    subst h
    cases hd : (s1.page_table v).ondisk <;> simp [set_pte, set_cme, read_page, hd]

/-- The counters that `take_phys_page` leaves alone. -/
theorem take_phys_page_counters {F : Nat} {replace : Policy} (hpol : PolicyFrame F replace)
    {s t : Machine} {r : Nat} (h : take_phys_page F replace s = some (r, t)) :
    t.num_memoryaccesses = s.num_memoryaccesses ∧ t.num_pagefault = s.num_pagefault ∧
      t.num_diskreads = s.num_diskreads := by
  rcases take_phys_page_cases h with ⟨_, _, rfl⟩ | ⟨_, hrep, _⟩ | ⟨hneg, s1, o, hrep, hown⟩
  · exact ⟨rfl, rfl, rfl⟩
  · have := (hpol _ _ _ hrep).2
    exact ⟨this.num_memoryaccesses, this.num_pagefault, this.num_diskreads⟩
  · have := (hpol _ _ _ hrep).2
    obtain ⟨-, -, rfl⟩ := take_phys_page_evict hneg hrep hown h
    exact ⟨this.num_memoryaccesses, this.num_pagefault, this.num_diskreads⟩

/-- The counters after a completed `pagefault`. -/
theorem pagefault_counters {F : Nat} {replace : Policy} (hpol : PolicyFrame F replace)
    {s t : Machine} {v : Nat} (h : pagefault F replace s v = some t) :
    t.num_memoryaccesses = s.num_memoryaccesses ∧ t.num_pagefault = s.num_pagefault + 1 := by
  obtain ⟨phys, s1, htake, rfl⟩ := pagefault_some h
  have := take_phys_page_counters hpol htake
  exact ⟨this.1, this.2.1⟩

/-- The policy is entered by `take_phys_page` with the counter
`num_memoryaccesses` that `take_phys_page` was entered with. -/
theorem take_phys_page_guard (F : Nat) (replace : Policy) (s : Machine) :
    take_phys_page F (guard_accesses s.num_memoryaccesses replace) s
      = take_phys_page F replace s := by
  simp [take_phys_page, guard_accesses]

theorem pagefault_guard (F : Nat) (replace : Policy) (s : Machine) (v : Nat) :
    pagefault F (guard_accesses s.num_memoryaccesses replace) s v = pagefault F replace s v := by
  have h := take_phys_page_guard F replace { s with num_pagefault := s.num_pagefault + 1 }
  unfold pagefault
  dsimp only at h ⊢
  rw [h]

/-- A `translate` on a resident page: no fault, no abort. -/
theorem translate_hit (F : Nat) (replace : Policy) (s : Machine) (a : Nat) (w : Bool)
    (hres : (s.page_table (a / PAGESIZE)).inmemory = true) :
    ∃ pa t, translate F replace s a w = some (pa, t) ∧ t.num_pagefault = s.num_pagefault := by
  unfold translate
  dsimp only
  rw [hres]
  simp only [Bool.true_eq_false, if_false]
  exact ⟨_, _, rfl, by cases w <;> rfl⟩

/-- What a completed `translate` returns, and the state of the target page. -/
theorem translate_result {F : Nat} {replace : Policy} {s t : Machine} {a pa : Nat} {w : Bool}
    (h : translate F replace s a w = some (pa, t)) :
    pa = (t.page_table (a / PAGESIZE)).page * PAGESIZE + a % PAGESIZE ∧
      (t.page_table (a / PAGESIZE)).inmemory = true ∧
      (w = true → (t.page_table (a / PAGESIZE)).modified = true) := by
  obtain ⟨m, hm, ht, hpa⟩ := translate_some h
  have hres : (m.page_table (a / PAGESIZE)).inmemory = true := by
    split at hm
    · exact (pagefault_entry hm).1
    · rename_i hmem
      simp only [Option.some.injEq] at hm
      subst hm
      simpa using hmem
  rw [offset_mask] at hpa
  subst ht
  exact ⟨hpa, by cases w <;> simp [hres], fun hw => by simp [hw]⟩

theorem SameButRefs.rfl_ (s : Machine) : SameButRefs s s :=
  ⟨rfl, rfl, rfl, rfl, rfl, rfl, rfl, rfl, rfl, fun _ => rfl, fun _ => rfl, fun _ => rfl,
    fun _ => rfl, fun _ => rfl⟩

theorem SameButRefs.trans_ {s t u : Machine} (h1 : SameButRefs s t) (h2 : SameButRefs t u) :
    SameButRefs s u where
  num_memoryaccesses := h2.num_memoryaccesses.trans h1.num_memoryaccesses
  num_pagefault := h2.num_pagefault.trans h1.num_pagefault
  num_diskwrites := h2.num_diskwrites.trans h1.num_diskwrites
  num_diskreads := h2.num_diskreads.trans h1.num_diskreads
  coremap := h2.coremap.trans h1.coremap
  memory := h2.memory.trans h1.memory
  swap := h2.swap.trans h1.swap
  count := h2.count.trans h1.count
  next_unused_page := h2.next_unused_page.trans h1.next_unused_page
  page := fun p => (h2.page p).trans (h1.page p)
  inmemory := fun p => (h2.inmemory p).trans (h1.inmemory p)
  ondisk := fun p => (h2.ondisk p).trans (h1.ondisk p)
  modified := fun p => (h2.modified p).trans (h1.modified p)
  readonly := fun p => (h2.readonly p).trans (h1.readonly p)

/-- Clearing or setting a reference bit. -/
theorem SameButRefs.set_referenced (s : Machine) (v : Nat) (b : Bool) :
    SameButRefs s (set_pte s v (fun e => { e with referenced := b })) := by
  refine ⟨rfl, rfl, rfl, rfl, rfl, rfl, rfl, rfl, rfl, ?_, ?_, ?_, ?_, ?_⟩ <;>
    intro p <;> by_cases hp : p = v <;> simp [Function.update_apply, hp]

theorem fifo_policy_frame (F : Nat) : PolicyFrame F (fifo_page_replace F) := by
  intro s i t h
  unfold fifo_page_replace at h
  dsimp only at h
  split at h
  · rename_i hlt
    simp only [Option.some.injEq, Prod.mk.injEq] at h
    obtain ⟨rfl, rfl⟩ := h
    exact ⟨hlt, ⟨rfl, rfl, rfl, rfl, rfl, rfl, rfl, rfl, rfl, fun _ => rfl, fun _ => rfl,
      fun _ => rfl, fun _ => rfl, fun _ => rfl⟩⟩
  · exact absurd h (by simp)

theorem second_chance_scan_same (F : Nat) :
    ∀ (fuel : Nat) (s t : Machine) (page r : Nat),
      second_chance_scan F fuel s page = some (r, t) → SameButRefs s t := by
  intro fuel
  induction fuel with
  | zero => intro s t page r h; simp [second_chance_scan] at h
  | succ n ih =>
    intro s t page r h
    unfold second_chance_scan at h
    split at h
    · exact absurd h (by simp)
    · split at h
      · simp only [Option.some.injEq, Prod.mk.injEq] at h
        rw [← h.2]
        exact SameButRefs.rfl_ s
      · exact (SameButRefs.set_referenced s _ false).trans_ (ih _ _ _ _ h)

theorem second_chance_policy_frame (F : Nat) : PolicyFrame F (second_chance_replace F) := by
  intro s i t h
  unfold second_chance_replace at h
  split at h
  · exact absurd h (by simp)
  · rename_i page s1 hscan
    dsimp only at h
    split at h
    · rename_i hlt
      simp only [Option.some.injEq, Prod.mk.injEq] at h
      obtain ⟨rfl, rfl⟩ := h
      have hs := second_chance_scan_same F _ _ _ _ _ hscan
      exact ⟨hlt, hs.trans_ ⟨rfl, rfl, rfl, rfl, rfl, rfl, rfl, rfl, rfl, fun _ => rfl,
        fun _ => rfl, fun _ => rfl, fun _ => rfl, fun _ => rfl⟩⟩
    · exact absurd h (by simp)

theorem optimal_scan_index (s : Machine) (start : Nat) :
    ∀ (n i : Nat) (acc r : Nat × Nat), optimal_scan s start n i acc = some r →
      acc.2 < i + n → r.2 < i + n := by
  intro n
  induction n with
  | zero =>
    intro i acc r h hacc
    simp only [optimal_scan, Option.some.injEq] at h
    subst h
    exact hacc
  | succ n ih =>
    intro i acc r h hacc
    obtain ⟨md, mi⟩ := acc
    unfold optimal_scan at h
    split at h
    · exact absurd h (by simp)
    · have hmi : mi < i + (n + 1) := hacc
      have := ih (i + 1) _ r h (by
        split
        · show i < i + 1 + n
          omega
        · show mi < i + 1 + n
          omega)
      omega

theorem optimal_policy_frame {F : Nat} (hF : 0 < F) : PolicyFrame F (optimal_page_replace F) := by
  intro s i t h
  unfold optimal_page_replace at h
  dsimp only at h
  split at h
  · exact absurd h (by simp)
  · rename_i md mi hscan
    simp only [Option.some.injEq, Prod.mk.injEq] at h
    obtain ⟨rfl, rfl⟩ := h
    have := optimal_scan_index s _ F 0 (0, 0) (md, mi) hscan (by simpa using hF)
    exact ⟨by simpa using this, SameButRefs.rfl_ s⟩

/-- No page becomes resident in `take_phys_page`. -/
theorem take_phys_page_inmemory {F : Nat} {replace : Policy} (hpol : PolicyFrame F replace)
    {s t : Machine} {r : Nat} (h : take_phys_page F replace s = some (r, t)) (p : Nat)
    (hp : (s.page_table p).inmemory = false) : (t.page_table p).inmemory = false := by
  rcases take_phys_page_cases h with ⟨_, _, rfl⟩ | ⟨_, hrep, _⟩ | ⟨hneg, s1, o, hrep, hown⟩
  · exact hp
  · rw [(hpol _ _ _ hrep).2.inmemory, hp]
  · obtain ⟨-, -, rfl⟩ := take_phys_page_evict hneg hrep hown h
    have := (hpol _ _ _ hrep).2.inmemory p
    by_cases hpo : p = o
    · subst hpo; simp
    · simp [Function.update_apply, hpo, this, hp]

/-- A completed `translate` on another page does not make page `p` resident. -/
theorem translate_other_inmemory {F : Nat} {replace : Policy} (hpol : PolicyFrame F replace)
    {s t : Machine} {a pa : Nat} {w : Bool} (h : translate F replace s a w = some (pa, t))
    (p : Nat) (hne : a / PAGESIZE ≠ p) (hp : (s.page_table p).inmemory = false) :
    (t.page_table p).inmemory = false := by
  obtain ⟨m, hm, rfl, -⟩ := translate_some h
  have hmp : (m.page_table p).inmemory = false := by
    split at hm
    · obtain ⟨phys, s1, htake, rfl⟩ := pagefault_some hm
      have := take_phys_page_inmemory hpol htake p hp
      simp [Function.update_apply, Ne.symm hne, this]
    · simp only [Option.some.injEq] at hm
      subst hm
      exact hp
  cases w <;> simp [Function.update_apply, Ne.symm hne, hmp]

/-- The page table after an access is the one left by its `translate`. -/
theorem access_translate {F : Nat} {replace : Policy} {s t : Machine} {x : Access} {r : Nat}
    (h : access F replace s x = some (r, t)) :
    ∃ w pa u, translate F replace s x.addr w = some (pa, u) ∧ t.page_table = u.page_table ∧
      t.num_pagefault = u.num_pagefault ∧ t.num_memoryaccesses = u.num_memoryaccesses := by
  cases x with
  | read a =>
    simp only [access, read_memory] at h
    split at h
    · exact absurd h (by simp)
    · rename_i pa u hu
      simp only [Option.some.injEq, Prod.mk.injEq] at h
      exact ⟨false, pa, u, hu, by rw [← h.2], by rw [← h.2], by rw [← h.2]⟩
  | write a d =>
    simp only [access, write_memory] at h
    split at h
    · exact absurd h (by simp)
    · rename_i s1 hs1
      split at hs1
      · exact absurd hs1 (by simp)
      · rename_i pa u hu
        simp only [Option.some.injEq] at hs1
        simp only [Option.some.injEq, Prod.mk.injEq] at h
        exact ⟨true, pa, u, hu, by rw [← h.2, ← hs1], by rw [← h.2, ← hs1],
          by rw [← h.2, ← hs1]⟩
  | xlate a w => exact ⟨w, r, t, h, rfl, rfl, rfl⟩

/-- A page that no access of the run has touched is not resident. -/
theorem run_untouched {F : Nat} {replace : Policy} (hpol : PolicyFrame F replace) (p : Nat) :
    ∀ (accs : List Access) (s t : Machine), run F replace s accs = some t →
      (∀ x ∈ accs, x.vpage ≠ p) → (s.page_table p).inmemory = false →
      (t.page_table p).inmemory = false := by
  intro accs
  induction accs with
  | nil =>
    intro s t h _ hp
    simp only [run, Option.some.injEq] at h
    subst h
    exact hp
  | cons x rest ih =>
    intro s t h hne hp
    simp only [run] at h
    split at h
    · exact absurd h (by simp)
    · rename_i r s1 hacc
      obtain ⟨w, pa, u, hu, hpt, -, -⟩ := access_translate hacc
      have h1 := translate_other_inmemory hpol hu p (hne x (List.mem_cons_self _ _)) hp
      exact ih s1 t h (fun y hy => hne y (List.mem_cons_of_mem _ hy)) (by rw [hpt]; exact h1)

theorem add_succ_mod_ne {F page j : Nat} (hp : page < F) (hj : j + 1 < F) :
    (page + (j + 1)) % F ≠ page := by
  by_cases h : page + (j + 1) < F
  · rw [Nat.mod_eq_of_lt h]; omega
  · rw [Nat.mod_eq_sub_mod (Nat.le_of_not_lt h), Nat.mod_eq_of_lt (by omega)]; omega

/-- The scan of `second_chance_replace` started at frame `page` stops at the
first frame, `d` steps further in cyclic order, whose owner is not referenced. -/
theorem second_chance_scan_find (F : Nat) :
    ∀ (d fuel : Nat) (s : Machine) (page : Nat), d < fuel → d < F → page < F →
      (∀ f, f < F → (s.coremap f).owner ≠ none) →
      (∀ f g, f < F → g < F → (s.coremap f).owner = (s.coremap g).owner → f = g) →
      (∀ o, (s.coremap ((page + d) % F)).owner = some o → (s.page_table o).referenced = false) →
      (∀ j, j < d → ∀ o, (s.coremap ((page + j) % F)).owner = some o →
        (s.page_table o).referenced = true) →
      ∃ t, second_chance_scan F fuel s page = some ((page + d) % F, t) := by
  intro d
  induction d with
  | zero =>
    intro fuel s page hfuel _ hpage hown _ htarget _
    obtain ⟨n, rfl⟩ : ∃ n, fuel = n + 1 := ⟨fuel - 1, by omega⟩
    simp only [Nat.add_zero, Nat.mod_eq_of_lt hpage] at htarget ⊢
    unfold second_chance_scan
    cases ho : (s.coremap page).owner with
    | none => exact absurd ho (hown page hpage)
    | some o => exact ⟨s, by simp [htarget o ho]⟩
  | succ d ih =>
    intro fuel s page hfuel hd hpage hown hdist htarget hbefore
    obtain ⟨n, rfl⟩ : ∃ n, fuel = n + 1 := ⟨fuel - 1, by omega⟩
    have hF : 0 < F := by omega
    unfold second_chance_scan
    cases ho : (s.coremap page).owner with
    | none => exact absurd ho (hown page hpage)
    | some o =>
      have href : (s.page_table o).referenced = true :=
        hbefore 0 (Nat.succ_pos d) o (by rw [Nat.add_zero, Nat.mod_eq_of_lt hpage]; exact ho)
      simp only [href, Bool.true_eq_false, if_false]
      have hstep : ∀ j, ((page + 1) % F + j) % F = (page + (j + 1)) % F := by
        intro j
        rw [Nat.mod_add_mod]
        congr 1
        omega
      obtain ⟨t, ht⟩ := ih n (set_pte s o (fun e => { e with referenced := false }))
        ((page + 1) % F) (by omega) (by omega) (Nat.mod_lt _ hF) hown hdist
        (by
          intro o2 ho2
          rw [hstep] at ho2
          by_cases h2 : o2 = o
          · subst h2; simp
          · simp only [set_pte_page_table, Function.update_apply, h2, if_false]
            exact htarget o2 ho2)
        (by
          intro j hj o2 ho2
          rw [hstep] at ho2
          have hne : o2 ≠ o := by
            rintro rfl
            have hfr := hdist _ _ (Nat.mod_lt _ hF) hpage (ho2.trans ho.symm)
            exact add_succ_mod_ne hpage (by omega) hfr
          simp only [set_pte_page_table, Function.update_apply, hne, if_false]
          exact hbefore (j + 1) (by omega) o2 ho2)
      rw [hstep] at ht
      exact ⟨t, ht⟩

theorem Resident.of_same_refs {F : Nat} {s t : Machine} (h : SameButRefs s t) (hs : Resident F s) :
    Resident F t where
  res := fun p hp => by
    rw [h.inmemory] at hp
    rw [h.page, h.coremap]
    exact hs.res p hp
  own := fun f p hf => by
    rw [h.coremap] at hf
    rw [h.inmemory, h.page]
    exact hs.own f p hf
  cold := by rw [h.next_unused_page]; exact hs.cold
  unused := fun f h0 hf => by
    rw [h.next_unused_page] at h0 hf
    rw [h.coremap]
    exact hs.unused f h0 hf

theorem init_resident {F : Nat} (hF : 0 < F) : Resident F init_machine where
  res := fun p hp => by simp [init_machine] at hp
  own := fun f p hf => by simp [init_machine] at hf
  cold := Or.inr ⟨le_refl _, by simpa [init_machine] using hF⟩
  unused := fun f _ _ => rfl

/-- After `take_phys_page` the returned frame holds no resident page. -/
theorem take_phys_page_free {F : Nat} {replace : Policy} (hpol : PolicyFrame F replace)
    {s t : Machine} {r : Nat} (hs : Resident F s)
    (h : take_phys_page F replace s = some (r, t)) : ResidentFree F t r := by
  rcases take_phys_page_cases h with ⟨h0, rfl, rfl⟩ | ⟨hneg, hrep, hnone⟩ |
    ⟨hneg, s1, o, hrep, hown⟩
  · have hlt : s.next_unused_page < (F : Int) := by
      rcases hs.cold with hc | hc
      · omega
      · exact hc.2
    have hk : ((s.next_unused_page.toNat : Nat) : Int) = s.next_unused_page :=
      Int.toNat_of_nonneg h0
    have hfree : (s.coremap s.next_unused_page.toNat).owner = none :=
      hs.unused _ h0 (by omega)
    refine ⟨by omega, fun p hp => ?_, fun f p _ hf => hs.own f p hf, ?_, fun f h1 hf => ?_,
      fun h1 => ?_⟩
    · obtain ⟨h1, h2⟩ := hs.res p hp
      refine ⟨h1, ?_, h2⟩
      intro heq
      rw [heq, hfree] at h2
      exact absurd h2 (by simp)
    · dsimp only
      split <;> omega
    · dsimp only at h1 hf ⊢
      apply hs.unused f h0
      split at hf <;> omega
    · dsimp only at h1 ⊢
      split <;> omega
  · obtain ⟨hr, hsame⟩ := hpol _ _ _ hrep
    have ht := hs.of_same_refs hsame
    refine ⟨hr, fun p hp => ?_, fun f p _ hf => ht.own f p hf, ht.cold, ht.unused, fun h1 => ?_⟩
    · obtain ⟨h1, h2⟩ := ht.res p hp
      refine ⟨h1, ?_, h2⟩
      intro heq
      rw [heq, hnone] at h2
      exact absurd h2 (by simp)
    · rw [hsame.next_unused_page] at h1
      exact absurd h1 hneg
  · obtain ⟨hr, hsame⟩ := hpol _ _ _ hrep
    have h1 := hs.of_same_refs hsame
    obtain ⟨-, -, rfl⟩ := take_phys_page_evict hneg hrep hown h
    have ho := h1.own r o hown
    refine ⟨hr, fun p hp => ?_, fun f p hf hfp => ?_, h1.cold, h1.unused, fun h2 => ?_⟩
    · by_cases hpo : p = o
      · subst hpo
        simp at hp
      · simp only [Function.update_apply, hpo, if_false] at hp ⊢
        obtain ⟨h2, h3⟩ := h1.res p hp
        refine ⟨h2, ?_, h3⟩
        intro heq
        rw [heq, hown] at h3
        exact hpo (Option.some.inj h3).symm
    · dsimp only at hfp
      obtain ⟨h2, h3⟩ := h1.own f p hfp
      have hpo : p ≠ o := by
        rintro rfl
        exact hf (h3.symm.trans ho.2)
      simp only [Function.update_apply, hpo, if_false]
      exact ⟨h2, h3⟩
    · dsimp only at h2
      rw [hsame.next_unused_page] at h2
      exact absurd h2 hneg

/-- Installing the faulting page in the free frame restores the residency
invariant. -/
theorem pagefault_resident {F : Nat} {replace : Policy} (hpol : PolicyFrame F replace)
    (hF27 : F ≤ PAGE_FIELD) {s t : Machine} {v : Nat} (hs : Resident F s)
    (hv : (s.page_table v).inmemory = false) (h : pagefault F replace s v = some t) :
    Resident F t := by
  obtain ⟨phys, s1, htake, rfl⟩ := pagefault_some h
  have hv1 : (s1.page_table v).inmemory = false := take_phys_page_inmemory hpol htake v hv
  have hfree : ResidentFree F s1 phys :=
    take_phys_page_free hpol (s := { s with num_pagefault := s.num_pagefault + 1 })
      ⟨hs.res, hs.own, hs.cold, hs.unused⟩ htake
  have hmod : phys % PAGE_FIELD = phys := Nat.mod_eq_of_lt (lt_of_lt_of_le hfree.lt hF27)
  refine ⟨fun p hp => ?_, fun f p hf => ?_, hfree.cold, fun f h0 hf => ?_⟩
  · by_cases hpv : p = v
    · subst hpv
      simp [Function.update_apply, hmod, hfree.lt]
    · simp only [Function.update_apply, hpv, if_false] at hp ⊢
      obtain ⟨h1, h2, h3⟩ := hfree.res p hp
      simp only [h2, if_false]
      exact ⟨h1, h3⟩
  · dsimp only at hf
    by_cases hfp : f = phys
    · subst hfp
      simp only [Function.update_same, Option.some.injEq] at hf
      subst hf
      simp [hmod]
    · simp only [Function.update_apply, hfp, if_false] at hf
      obtain ⟨h1, h2⟩ := hfree.own f p hfp hf
      have hpv : p ≠ v := by
        rintro rfl
        rw [hv1] at h1
        exact absurd h1 (by simp)
      simp only [Function.update_apply, hpv, if_false]
      exact ⟨h1, h2⟩
  · dsimp only at h0 hf ⊢
    have hlt := hfree.handed h0
    have hfp : f ≠ phys := by omega
    simp only [Function.update_apply, hfp, if_false]
    exact hfree.unused f h0 hf

/-- A completed `translate` preserves the residency invariant. -/
theorem translate_resident {F : Nat} {replace : Policy} (hpol : PolicyFrame F replace)
    (hF27 : F ≤ PAGE_FIELD) {s t : Machine} {a pa : Nat} {w : Bool} (hs : Resident F s)
    (h : translate F replace s a w = some (pa, t)) : Resident F t := by
  obtain ⟨m, hm, rfl, -⟩ := translate_some h
  have hmres : Resident F m := by
    split at hm
    · rename_i hv
      exact pagefault_resident hpol hF27
        (s := { s with num_memoryaccesses := s.num_memoryaccesses + 1 })
        ⟨hs.res, hs.own, hs.cold, hs.unused⟩ hv hm
    · simp only [Option.some.injEq] at hm
      subst hm
      exact ⟨hs.res, hs.own, hs.cold, hs.unused⟩
  have hbits : ∀ (u : Machine) (f : page_table_entry_t → page_table_entry_t),
      (∀ e, (f e).page = e.page ∧ (f e).inmemory = e.inmemory) → Resident F u →
      Resident F (set_pte u (a / PAGESIZE) f) := by
    intro u f hf hu
    have hfield : ∀ p, ((set_pte u (a / PAGESIZE) f).page_table p).page = (u.page_table p).page ∧
        ((set_pte u (a / PAGESIZE) f).page_table p).inmemory = (u.page_table p).inmemory := by
      intro p
      by_cases hp : p = a / PAGESIZE
      · subst hp; simpa using hf _
      · simp [Function.update_apply, hp]
    refine ⟨fun p hp => ?_, fun f2 p hf2 => ?_, hu.cold, hu.unused⟩
    · rw [(hfield p).2] at hp
      rw [(hfield p).1]
      exact hu.res p hp
    · rw [(hfield p).1, (hfield p).2]
      exact hu.own f2 p hf2
  cases w
  · simp only [Bool.false_eq_true, if_false]
    exact hbits m _ (fun e => ⟨rfl, rfl⟩) hmres
  · simp only [if_true]
    exact hbits _ _ (fun e => ⟨rfl, rfl⟩) (hbits m _ (fun e => ⟨rfl, rfl⟩) hmres)

/-- A completed access preserves the residency invariant. -/
theorem access_resident {F : Nat} {replace : Policy} (hpol : PolicyFrame F replace)
    (hF27 : F ≤ PAGE_FIELD) {s t : Machine} {x : Access} {r : Nat} (hs : Resident F s)
    (h : access F replace s x = some (r, t)) : Resident F t := by
  cases x with
  | read a =>
    simp only [access, read_memory] at h
    split at h
    · exact absurd h (by simp)
    · rename_i pa u hu
      simp only [Option.some.injEq, Prod.mk.injEq] at h
      rw [← h.2]
      exact translate_resident hpol hF27 hs hu
  | write a d =>
    simp only [access, write_memory] at h
    split at h
    · exact absurd h (by simp)
    · rename_i s1 hs1
      split at hs1
      · exact absurd hs1 (by simp)
      · rename_i pa u hu
        simp only [Option.some.injEq] at hs1
        simp only [Option.some.injEq, Prod.mk.injEq] at h
        have hu2 := translate_resident hpol hF27 hs hu
        rw [← h.2, ← hs1]
        exact ⟨hu2.res, hu2.own, hu2.cold, hu2.unused⟩
  | xlate a w => exact translate_resident hpol hF27 hs h

/-- The residency invariant holds along every run. -/
theorem run_resident {F : Nat} {replace : Policy} (hpol : PolicyFrame F replace)
    (hF27 : F ≤ PAGE_FIELD) :
    ∀ (accs : List Access) (s t : Machine), Resident F s → run F replace s accs = some t →
      Resident F t := by
  intro accs
  induction accs with
  | nil =>
    intro s t hs h
    simp only [run, Option.some.injEq] at h
    subst h
    exact hs
  | cons x rest ih =>
    intro s t hs h
    simp only [run] at h
    split at h
    · exact absurd h (by simp)
    · rename_i r s1 hacc
      exact ih s1 t (access_resident hpol hF27 hs hacc) h

/-! ### Completion of the operations -/

theorem take_phys_page_unused (F : Nat) (replace : Policy) (s : Machine)
    (h0 : 0 ≤ s.next_unused_page) :
    take_phys_page F replace s = some (s.next_unused_page.toNat,
      { s with next_unused_page :=
          if s.next_unused_page + 1 = (F : Int) then -1 else s.next_unused_page + 1 }) := by
  simp [take_phys_page, h0]

/-- An eviction completes when a swap slot is left. -/
theorem take_phys_page_evict_some {F : Nat} {replace : Policy} {s s1 : Machine} {phys o : Nat}
    (hneg : ¬ 0 ≤ s.next_unused_page) (hrep : replace s = some (phys, s1))
    (hown : (s1.coremap phys).owner = some o) (hc : s1.count < SWAP_PAGES) :
    ∃ t, take_phys_page F replace s = some (phys, t) := by
  cases hm : (s1.page_table o).modified <;> cases hd : (s1.page_table o).ondisk <;>
    simp [take_phys_page, hneg, hrep, hown, set_pte, write_page, new_swap_page, hm, hd, hc]

theorem pagefault_of_take {F : Nat} {replace : Policy} {s s1 : Machine} {v phys : Nat}
    (htake : take_phys_page F replace { s with num_pagefault := s.num_pagefault + 1 }
      = some (phys, s1)) :
    ∃ t, pagefault F replace s v = some t := by
  unfold pagefault
  dsimp only
  rw [htake]
  exact ⟨_, rfl⟩

theorem translate_of_resident {F : Nat} {replace : Policy} {s m : Machine} {a : Nat} (w : Bool)
    (hm : (if (s.page_table (a / PAGESIZE)).inmemory = false then
            pagefault F replace { s with num_memoryaccesses := s.num_memoryaccesses + 1 }
              (a / PAGESIZE)
          else some { s with num_memoryaccesses := s.num_memoryaccesses + 1 }) = some m) :
    ∃ pa t, translate F replace s a w = some (pa, t) := by
  unfold translate
  dsimp only
  rw [hm]
  exact ⟨_, _, rfl⟩

/-- An access completes when its `translate` does, and differs from it in the
RAM contents only. -/
theorem access_of_translate {F : Nat} {replace : Policy} {s u : Machine} {x : Access} {pa : Nat}
    (h : translate F replace s x.addr x.mode = some (pa, u)) :
    ∃ r mem, access F replace s x = some (r, { u with memory := mem }) := by
  cases x with
  | read a =>
    simp only [Access.addr, Access.mode] at h
    exact ⟨u.memory pa, u.memory, by simp [access, read_memory, h]⟩
  | write a d =>
    simp only [Access.addr, Access.mode] at h
    exact ⟨0, Function.update u.memory pa d, by simp [access, write_memory, h]⟩
  | xlate a w =>
    simp only [Access.addr, Access.mode] at h
    exact ⟨pa, u.memory, by simp [access, h]⟩

/-! ### FIFO on pages visited in order -/

theorem init_in_order_state {F : Nat} (hF : 0 < F) : InOrderState F 0 init_machine where
  resident := fun p => by simp [init_machine]
  faults := rfl
  unused := fun _ => by
    have h : ¬ 0 = F := by omega
    simp [init_machine, h]
  cursor := fun _ => rfl
  first := fun _ h => absurd h (lt_irrefl 0)
  slots := fun _ => rfl

/-- The reference and dirty bits set by `translate` and the store of
`write_memory` do not matter to `InOrderState`. -/
theorem InOrderState.of_tables {F n : Nat} {s t : Machine} (hs : InOrderState F n s)
    (hin : ∀ p, (t.page_table p).inmemory = (s.page_table p).inmemory)
    (hpf : t.num_pagefault = s.num_pagefault)
    (hnu : t.next_unused_page = s.next_unused_page)
    (hcur : t.fifo_next_page = s.fifo_next_page) (hcm : t.coremap = s.coremap)
    (hcount : t.count = s.count) : InOrderState F n t where
  resident := fun p => by rw [hin]; exact hs.resident p
  faults := hpf.trans hs.faults
  unused := fun h => hnu.trans (hs.unused h)
  cursor := fun h => hcur.trans (hs.cursor h)
  first := fun h h0 => by rw [hcm]; exact hs.first h h0
  slots := fun h => hcount.trans (hs.slots h)

/-- What `translate` does to the fields of the state left by the fault handling. -/
theorem translate_fields {F : Nat} {replace : Policy} {s t : Machine} {a pa : Nat} {w : Bool}
    (h : translate F replace s a w = some (pa, t)) :
    ∃ m, (if (s.page_table (a / PAGESIZE)).inmemory = false then
            pagefault F replace { s with num_memoryaccesses := s.num_memoryaccesses + 1 }
              (a / PAGESIZE)
          else some { s with num_memoryaccesses := s.num_memoryaccesses + 1 }) = some m ∧
      (∀ p, (t.page_table p).inmemory = (m.page_table p).inmemory) ∧
      (∀ p, (t.page_table p).page = (m.page_table p).page) ∧
      (∀ p, (t.page_table p).ondisk = (m.page_table p).ondisk) ∧
      (∀ p, p ≠ a / PAGESIZE → t.page_table p = m.page_table p) ∧
      t.num_pagefault = m.num_pagefault ∧ t.next_unused_page = m.next_unused_page ∧
      t.fifo_next_page = m.fifo_next_page ∧ t.coremap = m.coremap ∧ t.count = m.count ∧
      t.memory = m.memory ∧ t.swap = m.swap ∧ t.num_diskwrites = m.num_diskwrites ∧
      t.num_diskreads = m.num_diskreads ∧
      (∀ p, (t.page_table p).modified = false → (m.page_table p).modified = false) := by
  obtain ⟨m, hm, rfl, -⟩ := translate_some h
  refine ⟨m, hm, ?_⟩
  cases w
  · simp only [Bool.false_eq_true, if_false]
    refine ⟨fun p => ?_, fun p => ?_, fun p => ?_, fun p hp => ?_, rfl, rfl, rfl, rfl, rfl, rfl,
      rfl, rfl, rfl, fun p => ?_⟩ <;>
    first
      | simp [Function.update_apply, hp]
      | (by_cases hp : p = a / PAGESIZE <;> simp [Function.update_apply, hp])
  · simp only [if_true]
    refine ⟨fun p => ?_, fun p => ?_, fun p => ?_, fun p hp => ?_, rfl, rfl, rfl, rfl, rfl, rfl,
      rfl, rfl, rfl, fun p => ?_⟩ <;>
    first
      | simp [Function.update_apply, hp]
      | (by_cases hp : p = a / PAGESIZE <;> simp [Function.update_apply, hp])

/-- An access to a resident page completes and keeps `InOrderState`. -/
theorem in_order_hit {F n : Nat} {s : Machine} (hs : InOrderState F n s) (x : Access)
    (hres : (s.page_table x.vpage).inmemory = true) :
    ∃ r t, access F (fifo_page_replace F) s x = some (r, t) ∧ InOrderState F n t := by
  obtain ⟨pa, u, hu, -⟩ := translate_hit F (fifo_page_replace F) s x.addr x.mode hres
  obtain ⟨r, mem, hacc⟩ := access_of_translate hu
  refine ⟨r, _, hacc, ?_⟩
  obtain ⟨m, hm, h1, -, -, -, h2, h3, h4, h5, h6, -⟩ := translate_fields hu
  have hres2 : (s.page_table (x.addr / PAGESIZE)).inmemory = true := hres
  rw [hres2] at hm
  simp only [Bool.true_eq_false, if_false, Option.some.injEq] at hm
  subst hm
  exact hs.of_tables h1 h2 h3 h4 h5 h6

/-- The first access to the next page in order faults, completes, and leads to
the next `InOrderState`. -/
theorem in_order_fault {F n : Nat} (hF : 0 < F) {s : Machine} (hs : InOrderState F n s)
    (x : Access) (hx : x.vpage = n) (hn : n ≤ F) :
    ∃ r t, access F (fifo_page_replace F) s x = some (r, t) ∧ InOrderState F (n + 1) t := by
  have hv : x.addr / PAGESIZE = n := hx
  have hnot : (s.page_table (x.addr / PAGESIZE)).inmemory = false := by
    rw [hv]
    cases hb : (s.page_table n).inmemory with
    | false => rfl
    | true => exact absurd ((hs.resident n).1 hb).1 (lt_irrefl n)
  have h0F : (0 : Nat) ≠ F := by omega
  -- the frame handed out by `take_phys_page`
  have htake : ∃ phys s1,
      take_phys_page F (fifo_page_replace F)
        { s with num_memoryaccesses := s.num_memoryaccesses + 1
                 num_pagefault := s.num_pagefault + 1 } = some (phys, s1) ∧
      (∀ p, (s1.page_table p).inmemory = true ↔ (p < n ∧ ¬ (p = 0 ∧ n = F))) ∧
      s1.num_pagefault = n + 1 ∧
      (n + 1 ≤ F → s1.next_unused_page = if n + 1 = F then -1 else ((n + 1 : Nat) : Int)) ∧
      (n + 1 ≤ F → s1.fifo_next_page = 0) ∧
      (n + 1 ≤ F → phys = n ∧ (0 < n → (s1.coremap 0).owner = some 0)) ∧
      (n + 1 ≤ F → s1.count = 0) := by
    by_cases hlt : n < F
    · have hnu : s.next_unused_page = (n : Int) := by
        rw [hs.unused hn, if_neg (by omega)]
      refine ⟨_, _, take_phys_page_unused F _ _ (by simp [hnu]), fun p => ?_, ?_, fun _ => ?_,
        fun _ => hs.cursor hn, fun _ => ⟨by simp [hnu], fun h0 => hs.first hn h0⟩,
        fun _ => hs.slots hn⟩
      · rw [show (_ : Machine).page_table = s.page_table from rfl, hs.resident p]
        constructor
        · rintro ⟨h1, -⟩
          exact ⟨h1, by omega⟩
        · rintro ⟨h1, -⟩
          exact ⟨h1, by omega⟩
      · simp [hs.faults]
      · simp only [hnu]
        push_cast
        split_ifs <;> first | rfl | omega
    · have hnF : n = F := by omega
      subst hnF
      have hnu : s.next_unused_page = -1 := by rw [hs.unused hn, if_pos rfl]
      obtain ⟨s0, hs0⟩ : ∃ s0 : Machine, s0 =
          { s with num_memoryaccesses := s.num_memoryaccesses + 1,
                   num_pagefault := s.num_pagefault + 1 } := ⟨_, rfl⟩
      rw [← hs0]
      have hneg : ¬ 0 ≤ s0.next_unused_page := by
        simp [hs0, hnu]
      have hrep : fifo_page_replace n s0 =
          some (0, { s0 with fifo_next_page := (0 + 1) % n }) := by
        simp [fifo_page_replace, hs0, hs.cursor hn, hF]
      have hown : (({ s0 with fifo_next_page := (0 + 1) % n } : Machine).coremap 0).owner
          = some 0 := by
        rw [hs0]; exact hs.first hn hF
      obtain ⟨t1, ht1⟩ := take_phys_page_evict_some (F := n) hneg hrep hown
        (by simp [hs0, hs.slots hn, SWAP_PAGES])
      refine ⟨0, t1, ht1, ?_⟩
      obtain ⟨-, -, rfl⟩ := take_phys_page_evict hneg hrep hown ht1
      refine ⟨fun p => ?_, by simp [hs0, hs.faults], fun h => by omega, fun h => by omega,
        fun h => by omega, fun h => by omega⟩
      by_cases hp : p = 0
      · subst hp
        simp
      · simp only [Function.update_apply, hp, if_false]
        rw [hs0, hs.resident p]
        simp [hp]
  obtain ⟨phys, s1, hts, hres1, hpf1, hnu1, hcur1, hfirst1, hcount1⟩ := htake
  obtain ⟨m, hm⟩ := @pagefault_of_take F (fifo_page_replace F)
    { s with num_memoryaccesses := s.num_memoryaccesses + 1 } s1 (x.addr / PAGESIZE) phys hts
  have hifm : (if (s.page_table (x.addr / PAGESIZE)).inmemory = false then
            pagefault F (fifo_page_replace F)
              { s with num_memoryaccesses := s.num_memoryaccesses + 1 } (x.addr / PAGESIZE)
          else some { s with num_memoryaccesses := s.num_memoryaccesses + 1 }) = some m := by
    rw [if_pos hnot]; exact hm
  obtain ⟨pa, u, hu⟩ := translate_of_resident x.mode hifm
  obtain ⟨r, mem, hacc⟩ := access_of_translate hu
  refine ⟨r, _, hacc, ?_⟩
  obtain ⟨m2, hm2, h1, -, -, -, h2, h3, h4, h5, h6, -⟩ := translate_fields hu
  rw [hifm] at hm2
  simp only [Option.some.injEq] at hm2
  subst hm2
  obtain ⟨phys2, s2, hts2, hmeq⟩ := pagefault_some hm
  rw [hts] at hts2
  simp only [Option.some.injEq, Prod.mk.injEq] at hts2
  obtain ⟨rfl, rfl⟩ := hts2
  have hm_in : ∀ p, (m.page_table p).inmemory = true ↔ (p < n + 1 ∧ ¬ (p = 0 ∧ n + 1 = F + 1)) := by
    intro p
    rw [hmeq, hv]
    by_cases hp : p = n
    · subst hp
      simp only [Function.update_same, true_iff]
      exact ⟨by omega, fun h => by omega⟩
    · simp only [Function.update_apply, hp, if_false]
      rw [hres1 p]
      constructor
      · rintro ⟨h1, h2⟩
        exact ⟨by omega, fun h => h2 ⟨h.1, by omega⟩⟩
      · rintro ⟨h1, h2⟩
        exact ⟨by omega, fun h => h2 ⟨h.1, by omega⟩⟩
  refine ⟨fun p => by rw [show ((_ : Machine).page_table p).inmemory
      = (u.page_table p).inmemory from rfl, h1 p]; exact hm_in p, ?_, fun h => ?_, fun h => ?_,
    fun h h0 => ?_, fun h => ?_⟩
  · show u.num_pagefault = n + 1
    rw [h2, hmeq]; exact hpf1
  · show u.next_unused_page = _
    rw [h3, hmeq]; exact hnu1 h
  · show u.fifo_next_page = 0
    rw [h4, hmeq]; exact hcur1 h
  · show (u.coremap 0).owner = some 0
    rw [h5, hmeq]
    obtain ⟨hphys, hc0⟩ := hfirst1 h
    subst hphys
    by_cases hn0 : phys = 0
    · subst hn0
      simp [Function.update_apply, hv]
    · simp only [Function.update_apply, Ne.symm hn0, if_false]
      exact hc0 (by omega)
  · show u.count = 0
    rw [h6, hmeq]; exact hcount1 h

/-- A FIFO run over pages visited in order completes, and ends in the
`InOrderState` of the pages visited. -/
theorem run_in_order {F : Nat} (hF : 0 < F) :
    ∀ (accs : List Access) (n : Nat) (s : Machine), InOrderState F n s → in_order F n accs →
      ∃ t, run F (fifo_page_replace F) s accs = some t ∧
        InOrderState F (pages_after n accs) t := by
  intro accs
  induction accs with
  | nil => intro n s hs _; exact ⟨s, rfl, hs⟩
  | cons x rest ih =>
    intro n s hs hord
    rcases hord with ⟨hx, hrest⟩ | ⟨hx, hn, hrest⟩
    · have hres : (s.page_table x.vpage).inmemory = true :=
        (hs.resident x.vpage).2 ⟨by omega, fun h => by omega⟩
      obtain ⟨r, t, hacc, ht⟩ := in_order_hit hs x hres
      obtain ⟨u, hu, hfin⟩ := ih n t ht hrest
      refine ⟨u, by simp only [run, hacc]; exact hu, ?_⟩
      have hne : ¬ x.vpage = n := by omega
      simpa only [pages_after, hne, if_false] using hfin
    · obtain ⟨r, t, hacc, ht⟩ := in_order_fault hF hs x hx hn
      obtain ⟨u, hu, hfin⟩ := ih (n + 1) t ht hrest
      refine ⟨u, by simp only [run, hacc]; exact hu, ?_⟩
      simpa only [pages_after, hx, if_true] using hfin

theorem in_order_append {F : Nat} :
    ∀ (pre post : List Access) (n : Nat), in_order F n (pre ++ post) → in_order F n pre := by
  intro pre
  induction pre with
  | nil => intro _ _ _; trivial
  | cons x rest ih =>
    intro post n h
    rcases h with ⟨hx, hrest⟩ | ⟨hx, hn, hrest⟩
    · exact Or.inl ⟨hx, ih post n hrest⟩
    · exact Or.inr ⟨hx, hn, ih post (n + 1) hrest⟩

/-! ### Contents of the virtual address space -/

theorem memcpy_apply (dst : Nat → Nat) (d : Nat) (src : Nat → Nat) (s : Nat) :
    ∀ (n j : Nat), memcpy dst d src s n j =
      if d ≤ j ∧ j < d + n then src (s + (j - d)) else dst j := by
  intro n
  induction n with
  | zero =>
    intro j
    have h : ¬ (d ≤ j ∧ j < d + 0) := by omega
    simp only [memcpy, h, if_false]
  | succ n ih =>
    intro j
    simp only [memcpy, Function.update_apply, ih]
    by_cases h1 : j = d + n
    · subst h1
      simp
    · by_cases h2 : d ≤ j ∧ j < d + n
      · have h3 : d ≤ j ∧ j < d + (n + 1) := ⟨h2.1, by omega⟩
        simp [h1, h2, h3]
      · have h3 : ¬ (d ≤ j ∧ j < d + (n + 1)) := by omega
        simp [h1, h2, h3]

theorem zero_fill_apply (mem : Nat → Nat) (base : Nat) :
    ∀ (n j : Nat), zero_fill mem base n j = if base ≤ j ∧ j < base + n then 0 else mem j := by
  intro n
  induction n with
  | zero =>
    intro j
    have h : ¬ (base ≤ j ∧ j < base + 0) := by omega
    simp only [zero_fill, h, if_false]
  | succ n ih =>
    intro j
    simp only [zero_fill, Function.update_apply, ih]
    by_cases h1 : j = base + n
    · subst h1
      simp
    · by_cases h2 : base ≤ j ∧ j < base + n
      · have h3 : base ≤ j ∧ j < base + (n + 1) := ⟨h2.1, by omega⟩
        simp [h1, h2, h3]
      · have h3 : ¬ (base ≤ j ∧ j < base + (n + 1)) := by omega
        simp [h1, h2, h3]

theorem slot_of_same {s t : Machine} (h : SameButRefs s t) (p : Nat) : slot t p = slot s p := by
  simp only [slot, h.inmemory, h.page, h.coremap]

theorem vmem_of_same {s t : Machine} (h : SameButRefs s t) (a : Nat) : vmem t a = vmem s a := by
  simp only [vmem, h.inmemory, h.page, h.ondisk, h.memory, h.swap]

theorem Backed.of_same_bits {s t : Machine} (h : SameButRefs s t) (hs : Backed s) : Backed t where
  count_le := by rw [h.count]; exact hs.count_le
  slot_lt := fun p hp => by
    rw [h.ondisk] at hp
    rw [slot_of_same h, h.count]
    exact hs.slot_lt p hp
  slot_inj := fun p q hp hq hpq => by
    rw [h.ondisk] at hp hq
    rw [slot_of_same h, slot_of_same h] at hpq
    exact hs.slot_inj p q hp hq hpq
  clean := fun p hp hm i hi => by
    rw [h.inmemory] at hp
    rw [h.modified] at hm
    rw [h.memory, h.page, h.ondisk, h.swap, slot_of_same h]
    exact hs.clean p hp hm i hi

theorem init_backed : Backed init_machine where
  count_le := Nat.zero_le _
  slot_lt := fun p hp => by simp [init_machine] at hp
  slot_inj := fun p q hp _ _ => by simp [init_machine] at hp
  clean := fun p hp _ _ _ => by simp [init_machine] at hp

/-- Evicting the resident page `o`: the invariant and the contents are kept when
the new slot of `o` is fresh or its own, the other slots are untouched, and the
slot holds what the frame `r` held. -/
theorem evict_backed_core {s1 t : Machine} {r o : Nat} (hb : Backed s1)
    (hin : (s1.page_table o).inmemory = true) (hpage : (s1.page_table o).page = r)
    (hpt_in : (t.page_table o).inmemory = false)
    (hpt_ne : ∀ p, p ≠ o → t.page_table p = s1.page_table p)
    (hcm : t.coremap = s1.coremap) (hmem : t.memory = s1.memory)
    (a1 : t.count ≤ SWAP_PAGES) (a1b : s1.count ≤ t.count)
    (a2 : (t.page_table o).ondisk = true → (t.page_table o).page < t.count)
    (a3 : ∀ p, p ≠ o → (s1.page_table p).ondisk = true → (t.page_table o).ondisk = true →
      slot s1 p ≠ (t.page_table o).page)
    (a4 : ∀ p, p ≠ o → (s1.page_table p).ondisk = true → ∀ i, i < PAGESIZE →
      t.swap (slot s1 p * PAGESIZE + i) = s1.swap (slot s1 p * PAGESIZE + i))
    (a5 : ∀ i, i < PAGESIZE →
      (if (t.page_table o).ondisk then t.swap ((t.page_table o).page * PAGESIZE + i) else 0)
        = s1.memory (r * PAGESIZE + i)) :
    Backed t ∧ ∀ a, vmem t a = vmem s1 a := by
  have hslot_ne : ∀ p, p ≠ o → slot t p = slot s1 p := by
    intro p hp
    simp only [slot, hpt_ne p hp, hcm]
  have hslot_o : slot t o = (t.page_table o).page := by
    simp [slot, hpt_in]
  refine ⟨⟨a1, fun p hp => ?_, fun p q hp hq hpq => ?_, fun p hp hm i hi => ?_⟩, fun a => ?_⟩
  · by_cases hpo : p = o
    · subst hpo
      rw [hslot_o]
      exact a2 hp
    · rw [hpt_ne p hpo] at hp
      rw [hslot_ne p hpo]
      exact lt_of_lt_of_le (hb.slot_lt p hp) a1b
  · by_cases hpo : p = o
    · by_cases hqo : q = o
      · rw [hpo, hqo]
      · subst hpo
        rw [hpt_ne q hqo] at hq
        rw [hslot_o, hslot_ne q hqo] at hpq
        exact absurd hpq.symm (a3 q hqo hq hp)
    · by_cases hqo : q = o
      · subst hqo
        rw [hpt_ne p hpo] at hp
        rw [hslot_o, hslot_ne p hpo] at hpq
        exact absurd hpq (a3 p hpo hp hq)
      · rw [hpt_ne p hpo] at hp
        rw [hpt_ne q hqo] at hq
        rw [hslot_ne p hpo, hslot_ne q hqo] at hpq
        exact hb.slot_inj p q hp hq hpq
  · have hpo : p ≠ o := by
      rintro rfl
      rw [hpt_in] at hp
      exact absurd hp (by simp)
    rw [hpt_ne p hpo] at hp hm
    rw [hmem, hpt_ne p hpo, hslot_ne p hpo, hb.clean p hp hm i hi]
    cases hd : (s1.page_table p).ondisk with
    | false => simp
    | true => simp only [if_true]; exact (a4 p hpo hd i hi).symm
  · have hi : a % PAGESIZE < PAGESIZE := Nat.mod_lt _ (by decide)
    by_cases hpo : a / PAGESIZE = o
    · have h5 := a5 (a % PAGESIZE) hi
      unfold vmem
      rw [hpo, hpt_in, hin, hpage]
      simpa using h5
    · unfold vmem
      rw [hpt_ne _ hpo, hmem]
      cases hres : (s1.page_table (a / PAGESIZE)).inmemory with
      | true => simp
      | false =>
        cases hd : (s1.page_table (a / PAGESIZE)).ondisk with
        | false => simp
        | true =>
          have hsl : slot s1 (a / PAGESIZE) = (s1.page_table (a / PAGESIZE)).page := by
            simp [slot, hres]
          have h4 := a4 _ hpo hd _ hi
          rw [hsl] at h4
          simpa using h4

theorem SWAP_PAGES_lt_PAGE_FIELD : SWAP_PAGES < PAGE_FIELD := by decide

theorem index_ne {p q i j : Nat} (hpq : p ≠ q) (hi : i < PAGESIZE) (hj : j < PAGESIZE) :
    p * PAGESIZE + i ≠ q * PAGESIZE + j := by
  rw [PAGESIZE_eq] at *
  omega

theorem not_in_block {p q i : Nat} (hpq : p ≠ q) (hi : i < PAGESIZE) :
    ¬ (q * PAGESIZE ≤ p * PAGESIZE + i ∧ p * PAGESIZE + i < q * PAGESIZE + PAGESIZE) := by
  rw [PAGESIZE_eq] at *
  omega

/-- `take_phys_page` keeps the backing store invariant and the contents of the
virtual address space. -/
theorem take_phys_page_backed {F : Nat} {replace : Policy} (hpol : PolicyFrame F replace)
    {s t : Machine} {r : Nat} (hres : Resident F s) (hb : Backed s)
    (h : take_phys_page F replace s = some (r, t)) :
    Backed t ∧ ∀ a, vmem t a = vmem s a := by
  rcases take_phys_page_cases h with ⟨h0, rfl, rfl⟩ | ⟨hneg, hrep, hnone⟩ |
    ⟨hneg, s1, o, hrep, hown⟩
  · exact ⟨⟨hb.count_le, hb.slot_lt, hb.slot_inj, hb.clean⟩, fun a => rfl⟩
  · have hsame := (hpol _ _ _ hrep).2
    exact ⟨hb.of_same_bits hsame, vmem_of_same hsame⟩
  · have hsame := (hpol _ _ _ hrep).2
    have hb1 := hb.of_same_bits hsame
    have hr1 := hres.of_same_refs hsame
    obtain ⟨hin, hpage⟩ := hr1.own r o hown
    obtain ⟨-, hfresh, ht⟩ := take_phys_page_evict hneg hrep hown h
    have hslot_o : slot s1 o = (s1.coremap r).page := by simp [slot, hin, hpage]
    have hcl := hb1.clean o hin
    have hc := hb1.count_le
    have hlt := SWAP_PAGES_lt_PAGE_FIELD
    have e_in : (t.page_table o).inmemory = false := by rw [ht]; simp
    have e_disk : (t.page_table o).ondisk
        = ((s1.page_table o).ondisk || (s1.page_table o).modified) := by rw [ht]; simp
    have e_page : (t.page_table o).page
        = (if (s1.page_table o).modified && !(s1.page_table o).ondisk then s1.count
           else (s1.coremap r).page) % PAGE_FIELD := by rw [ht]; simp
    have e_ne : ∀ p, p ≠ o → t.page_table p = s1.page_table p := by
      intro p hp; rw [ht]; simp [Function.update_apply, hp]
    have e_cm : t.coremap = s1.coremap := by rw [ht]
    have e_mem : t.memory = s1.memory := by rw [ht]
    have e_swap : t.swap = if (s1.page_table o).modified then
          memcpy s1.swap
            ((if (s1.page_table o).modified && !(s1.page_table o).ondisk then s1.count
              else (s1.coremap r).page) * PAGESIZE) s1.memory (r * PAGESIZE) PAGESIZE
        else s1.swap := by rw [ht]
    have e_count : t.count =
        if (s1.page_table o).modified && !(s1.page_table o).ondisk then s1.count + 1
        else s1.count := by rw [ht]
    clear ht
    have key : Backed t ∧ ∀ a, vmem t a = vmem s1 a := by
      cases hM : (s1.page_table o).modified <;> cases hD : (s1.page_table o).ondisk <;>
        simp only [hM, hD, Bool.or_false, Bool.or_true, Bool.and_true, Bool.and_false,
          Bool.not_true, Bool.not_false, Bool.false_eq_true, if_false, if_true, Bool.and_self,
          Bool.false_and, Bool.true_and, true_and, and_true, forall_const, false_and,
          and_false, false_implies] at hfresh hcl e_disk e_page e_swap e_count
      · -- clean page without a slot
        refine evict_backed_core hb1 hin hpage e_in e_ne e_cm e_mem (by omega) (by omega)
          (fun h => by rw [e_disk] at h; exact absurd h (by simp))
          (fun p _ _ h => by rw [e_disk] at h; exact absurd h (by simp))
          (fun p _ _ i _ => by rw [e_swap]) (fun i hi => ?_)
        rw [e_disk, ← hpage, hcl i hi]
        simp
      · -- clean page with a slot
        have hs_lt := hb1.slot_lt o hD
        rw [hslot_o] at hs_lt
        have e_page2 : (t.page_table o).page = slot s1 o := by
          rw [e_page, hslot_o, Nat.mod_eq_of_lt (by omega)]
        refine evict_backed_core hb1 hin hpage e_in e_ne e_cm e_mem (by omega) (by omega)
          (fun _ => by rw [e_page2, hslot_o]; omega)
          (fun p hpo hp _ => by
            rw [e_page2]; exact fun h => hpo (hb1.slot_inj p o hp hD h))
          (fun p _ _ i _ => by rw [e_swap]) (fun i hi => ?_)
        rw [e_disk, e_page2, e_swap, ← hpage, hcl i hi]
        simp
      · -- dirty page without a slot: a fresh slot
        have e_page2 : (t.page_table o).page = s1.count := by
          rw [e_page, Nat.mod_eq_of_lt (by omega)]
        refine evict_backed_core hb1 hin hpage e_in e_ne e_cm e_mem (by omega) (by omega)
          (fun _ => by rw [e_page2]; omega)
          (fun p hpo hp _ => by
            have := hb1.slot_lt p hp
            rw [e_page2]; omega)
          (fun p hpo hp i hi => by
            have := hb1.slot_lt p hp
            rw [e_swap, memcpy_apply, if_neg (not_in_block (by omega) hi)])
          (fun i hi => ?_)
        rw [e_disk, e_page2, e_swap, memcpy_apply]
        simp [hi]
      · -- dirty page with a slot: written back to its slot
        have hs_lt := hb1.slot_lt o hD
        rw [hslot_o] at hs_lt
        have e_page2 : (t.page_table o).page = slot s1 o := by
          rw [e_page, hslot_o, Nat.mod_eq_of_lt (by omega)]
        refine evict_backed_core hb1 hin hpage e_in e_ne e_cm e_mem (by omega) (by omega)
          (fun _ => by rw [e_page2, hslot_o]; omega)
          (fun p hpo hp _ => by
            rw [e_page2]; exact fun h => hpo (hb1.slot_inj p o hp hD h))
          (fun p hpo hp i hi => by
            have hne : slot s1 p ≠ (s1.coremap r).page := by
              rw [← hslot_o]
              exact fun h => hpo (hb1.slot_inj p o hp hD h)
            rw [e_swap, memcpy_apply, if_neg (not_in_block hne hi)])
          (fun i hi => ?_)
        rw [e_disk, e_page2, hslot_o, e_swap, memcpy_apply]
        simp [hi]
    exact ⟨key.1, fun a => (key.2 a).trans (vmem_of_same hsame a)⟩

theorem in_block {q i : Nat} (hi : i < PAGESIZE) :
    q * PAGESIZE ≤ q * PAGESIZE + i ∧ q * PAGESIZE + i < q * PAGESIZE + PAGESIZE :=
  ⟨Nat.le_add_right _ _, Nat.add_lt_add_left hi _⟩

/-- `pagefault` keeps the backing store invariant and the contents of the
virtual address space. -/
theorem pagefault_backed {F : Nat} {replace : Policy} (hpol : PolicyFrame F replace)
    (hF27 : F ≤ PAGE_FIELD) {s t : Machine} {v : Nat} (hres : Resident F s) (hb : Backed s)
    (hv : (s.page_table v).inmemory = false) (h : pagefault F replace s v = some t) :
    Backed t ∧ ∀ a, vmem t a = vmem s a := by
  obtain ⟨phys, s1, htake, ht⟩ := pagefault_some h
  have hv1 : (s1.page_table v).inmemory = false := take_phys_page_inmemory hpol htake v hv
  have hfree : ResidentFree F s1 phys :=
    take_phys_page_free hpol (s := { s with num_pagefault := s.num_pagefault + 1 })
      ⟨hres.res, hres.own, hres.cold, hres.unused⟩ htake
  obtain ⟨hb1, hvm1⟩ := take_phys_page_backed hpol
    (s := { s with num_pagefault := s.num_pagefault + 1 })
    ⟨hres.res, hres.own, hres.cold, hres.unused⟩
    ⟨hb.count_le, hb.slot_lt, hb.slot_inj, hb.clean⟩ htake
  have hmod : phys % PAGE_FIELD = phys := Nat.mod_eq_of_lt (lt_of_lt_of_le hfree.lt hF27)
  have e_in : (t.page_table v).inmemory = true := by rw [ht]; simp
  have e_page : (t.page_table v).page = phys := by rw [ht]; simp [hmod]
  have e_disk : (t.page_table v).ondisk = (s1.page_table v).ondisk := by rw [ht]; simp
  have e_ne : ∀ p, p ≠ v → t.page_table p = s1.page_table p := by
    intro p hp; rw [ht]; simp [Function.update_apply, hp]
  have e_cm : (t.coremap phys).page
      = if (s1.page_table v).ondisk then (s1.page_table v).page else 0 := by rw [ht]; simp
  have e_cm_ne : ∀ f, f ≠ phys → t.coremap f = s1.coremap f := by
    intro f hf; rw [ht]; simp [Function.update_apply, hf]
  have e_mem : t.memory = if (s1.page_table v).ondisk then
        memcpy s1.memory (phys * PAGESIZE) s1.swap ((s1.page_table v).page * PAGESIZE) PAGESIZE
      else zero_fill s1.memory (phys * PAGESIZE) PAGESIZE := by rw [ht]
  have e_swap : t.swap = s1.swap := by rw [ht]
  have e_count : t.count = s1.count := by rw [ht]
  clear ht
  have hslot_v1 : slot s1 v = (s1.page_table v).page := by simp [slot, hv1]
  have hslot_v : (s1.page_table v).ondisk = true → slot t v = slot s1 v := by
    intro hd
    simp [slot, e_in, e_page, e_cm, hd, hv1]
  have hslot_ne : ∀ p, p ≠ v → slot t p = slot s1 p := by
    intro p hp
    unfold slot
    rw [e_ne p hp]
    cases hin : (s1.page_table p).inmemory with
    | false => simp
    | true =>
      simp only [if_true]
      rw [e_cm_ne _ (hfree.res p hin).2.1]
  have hslot : ∀ p, (t.page_table p).ondisk = true → slot t p = slot s1 p ∧
      (s1.page_table p).ondisk = true := by
    intro p hp
    by_cases hpv : p = v
    · subst hpv
      rw [e_disk] at hp
      exact ⟨hslot_v hp, hp⟩
    · rw [e_ne p hpv] at hp
      exact ⟨hslot_ne p hpv, hp⟩
  have hmem_ne : ∀ q i, q ≠ phys → i < PAGESIZE →
      t.memory (q * PAGESIZE + i) = s1.memory (q * PAGESIZE + i) := by
    intro q i hq hi
    rw [e_mem]
    split
    · rw [memcpy_apply, if_neg (not_in_block hq hi)]
    · rw [zero_fill_apply, if_neg (not_in_block hq hi)]
  have hmem_phys : ∀ i, i < PAGESIZE → t.memory (phys * PAGESIZE + i) =
      if (s1.page_table v).ondisk then s1.swap ((s1.page_table v).page * PAGESIZE + i) else 0 := by
    intro i hi
    rw [e_mem]
    split
    · rw [memcpy_apply, if_pos (in_block hi), Nat.add_sub_cancel_left]
    · rw [zero_fill_apply, if_pos (in_block hi)]
  refine ⟨⟨by rw [e_count]; exact hb1.count_le, fun p hp => ?_, fun p q hp hq hpq => ?_,
    fun p hp hm i hi => ?_⟩, fun a => ?_⟩
  · rw [(hslot p hp).1, e_count]
    exact hb1.slot_lt p (hslot p hp).2
  · rw [(hslot p hp).1, (hslot q hq).1] at hpq
    exact hb1.slot_inj p q (hslot p hp).2 (hslot q hq).2 hpq
  · by_cases hpv : p = v
    · subst hpv
      rw [e_page, hmem_phys i hi, e_disk, e_swap]
      cases hd : (s1.page_table p).ondisk with
      | false => simp
      | true => simp [hslot_v hd, hslot_v1]
    · rw [e_ne p hpv] at hp hm ⊢
      rw [hmem_ne _ i (hfree.res p hp).2.1 hi, hslot_ne p hpv, e_swap]
      exact hb1.clean p hp hm i hi
  · have hvm : vmem s1 a = vmem s a := hvm1 a
    rw [← hvm]
    have hi : a % PAGESIZE < PAGESIZE := Nat.mod_lt _ (by decide)
    unfold vmem
    by_cases hpv : a / PAGESIZE = v
    · rw [hpv, e_in, e_page, hv1, hmem_phys _ hi]
      simp
    · rw [e_ne _ hpv, e_swap]
      cases hin : (s1.page_table (a / PAGESIZE)).inmemory with
      | false => simp
      | true =>
        simp only [if_true]
        exact hmem_ne _ _ (hfree.res _ hin).2.1 hi

/-- A completed `translate` keeps the backing store invariant and the contents
of the virtual address space. -/
theorem translate_backed {F : Nat} {replace : Policy} (hpol : PolicyFrame F replace)
    (hF27 : F ≤ PAGE_FIELD) {s t : Machine} {a pa : Nat} {w : Bool} (hres : Resident F s)
    (hb : Backed s) (h : translate F replace s a w = some (pa, t)) :
    Backed t ∧ ∀ b, vmem t b = vmem s b := by
  obtain ⟨m, hm, f_in, f_page, f_disk, -, -, -, -, f_cm, f_count, f_mem, f_swap, -, -, f_mod⟩ :=
    translate_fields h
  have hm2 : Backed m ∧ ∀ b, vmem m b = vmem s b := by
    split at hm
    · rename_i hv
      have := pagefault_backed hpol hF27
        (s := { s with num_memoryaccesses := s.num_memoryaccesses + 1 })
        ⟨hres.res, hres.own, hres.cold, hres.unused⟩
        ⟨hb.count_le, hb.slot_lt, hb.slot_inj, hb.clean⟩ hv hm
      exact ⟨this.1, fun b => this.2 b⟩
    · simp only [Option.some.injEq] at hm
      subst hm
      exact ⟨⟨hb.count_le, hb.slot_lt, hb.slot_inj, hb.clean⟩, fun b => rfl⟩
  obtain ⟨hbm, hvm⟩ := hm2
  have hslot : ∀ p, slot t p = slot m p := by
    intro p
    simp only [slot, f_in, f_page, f_cm]
  refine ⟨⟨by rw [f_count]; exact hbm.count_le, fun p hp => ?_, fun p q hp hq hpq => ?_,
    fun p hp hmd i hi => ?_⟩, fun b => ?_⟩
  · rw [f_disk] at hp
    rw [hslot, f_count]
    exact hbm.slot_lt p hp
  · rw [f_disk] at hp hq
    rw [hslot, hslot] at hpq
    exact hbm.slot_inj p q hp hq hpq
  · rw [f_in] at hp
    rw [f_mem, f_page, f_disk, f_swap, hslot]
    exact hbm.clean p hp (f_mod p hmd) i hi
  · rw [← hvm b]
    simp only [vmem, f_in, f_page, f_disk, f_mem, f_swap]

/-- The contents of the virtual address space after one completed access: a
`write_memory` changes the word written and no other, and `read_memory` returns
the word at its address. -/
theorem access_backed {F : Nat} {replace : Policy} (hpol : PolicyFrame F replace)
    (hF27 : F ≤ PAGE_FIELD) {s t : Machine} {x : Access} {r : Nat} (hres : Resident F s)
    (hb : Backed s) (h : access F replace s x = some (r, t)) :
    Backed t ∧
      (∀ b, vmem t b = if x.writes b = true then
          (match x with
            | .write _ d => d
            | _ => 0)
        else vmem s b) ∧
      (∀ a, x = .read a → r = vmem s a) := by
  cases x with
  | read a =>
    simp only [access, read_memory] at h
    split at h
    · exact absurd h (by simp)
    · rename_i pa u hu
      simp only [Option.some.injEq, Prod.mk.injEq] at h
      obtain ⟨rfl, rfl⟩ := h
      obtain ⟨hbu, hvu⟩ := translate_backed hpol hF27 hres hb hu
      obtain ⟨hpa, hin, -⟩ := translate_result hu
      refine ⟨hbu, fun b => by simpa [Access.writes] using hvu b, fun a2 ha2 => ?_⟩
      cases ha2
      rw [← hvu a, hpa]
      simp [vmem, hin]
  | write a d =>
    simp only [access, write_memory] at h
    split at h
    · exact absurd h (by simp)
    · rename_i s1 hs1
      split at hs1
      · exact absurd hs1 (by simp)
      · rename_i pa u hu
        simp only [Option.some.injEq] at hs1
        simp only [Option.some.injEq, Prod.mk.injEq] at h
        obtain ⟨-, rfl⟩ := h
        subst hs1
        obtain ⟨hbu, hvu⟩ := translate_backed hpol hF27 hres hb hu
        have hru := translate_resident hpol hF27 hres hu
        obtain ⟨hpa, hin, hmod⟩ := translate_result hu
        have hmod := hmod rfl
        have hother : ∀ q i, q ≠ a / PAGESIZE → (u.page_table q).inmemory = true →
            i < PAGESIZE → (u.page_table q).page * PAGESIZE + i ≠ pa := by
          intro q i hq hqin hi
          rw [hpa]
          refine index_ne (fun hpg => hq ?_) hi (Nat.mod_lt _ (by decide))
          have h1 := (hru.res q hqin).2
          have h2 := (hru.res _ hin).2
          rw [hpg, h2] at h1
          exact (Option.some.inj h1).symm
        refine ⟨⟨hbu.count_le, hbu.slot_lt, hbu.slot_inj, fun p hp hmd i hi => ?_⟩, fun b => ?_,
          fun a2 ha2 => by cases ha2⟩
        · have hpv : p ≠ a / PAGESIZE := by
            rintro rfl
            rw [hmod] at hmd
            exact absurd hmd (by simp)
          show Function.update u.memory pa d _ = _
          rw [Function.update_noteq (hother p i hpv hp hi)]
          exact hbu.clean p hp hmd i hi
        · by_cases hba : a = b
          · subst hba
            simp only [Access.writes, decide_True, if_true]
            unfold vmem
            rw [if_pos hin, ← hpa]
            exact Function.update_same _ _ _
          · simp only [Access.writes, hba, decide_False, Bool.false_eq_true, if_false]
            rw [← hvu b]
            unfold vmem
            show (if (u.page_table (b / PAGESIZE)).inmemory = true then
                Function.update u.memory pa d _ else _) = _
            cases hqin : (u.page_table (b / PAGESIZE)).inmemory with
            | false => simp
            | true =>
              simp only [if_true]
              apply Function.update_noteq
              by_cases hq : b / PAGESIZE = a / PAGESIZE
              · rw [hpa, hq]
                have hdiv := Nat.div_add_mod b PAGESIZE
                have hdiv2 := Nat.div_add_mod a PAGESIZE
                rw [PAGESIZE_eq] at *
                omega
              · exact hother _ _ hq hqin (Nat.mod_lt _ (by decide))
  | xlate a w =>
    obtain ⟨hbu, hvu⟩ := translate_backed hpol hF27 hres hb h
    exact ⟨hbu, fun b => by simpa [Access.writes] using hvu b, fun a2 ha2 => by cases ha2⟩

/-- Along a completed run the invariants are kept. -/
theorem run_backed {F : Nat} {replace : Policy} (hpol : PolicyFrame F replace)
    (hF27 : F ≤ PAGE_FIELD) :
    ∀ (accs : List Access) (s t : Machine), Resident F s → Backed s →
      run F replace s accs = some t → Resident F t ∧ Backed t := by
  intro accs
  induction accs with
  | nil =>
    intro s t hres hb h
    simp only [run, Option.some.injEq] at h
    subst h
    exact ⟨hres, hb⟩
  | cons x rest ih =>
    intro s t hres hb h
    simp only [run] at h
    split at h
    · exact absurd h (by simp)
    · rename_i r s1 hacc
      exact ih s1 t (access_resident hpol hF27 hres hacc)
        (access_backed hpol hF27 hres hb hacc).1 h

/-- Along a completed run, a word that no access of the run writes keeps its
value. -/
theorem run_vmem {F : Nat} {replace : Policy} (hpol : PolicyFrame F replace)
    (hF27 : F ≤ PAGE_FIELD) (A : Nat) :
    ∀ (accs : List Access) (s t : Machine), Resident F s → Backed s →
      run F replace s accs = some t → (∀ x ∈ accs, x.writes A = false) →
      vmem t A = vmem s A := by
  intro accs
  induction accs with
  | nil =>
    intro s t _ _ h _
    simp only [run, Option.some.injEq] at h
    subst h
    rfl
  | cons x rest ih =>
    intro s t hres hb h hnw
    simp only [run] at h
    split at h
    · exact absurd h (by simp)
    · rename_i r s1 hacc
      obtain ⟨hb1, hv1, -⟩ := access_backed hpol hF27 hres hb hacc
      have hres1 := access_resident hpol hF27 hres hacc
      rw [ih s1 t hres1 hb1 h (fun y hy => hnw y (List.mem_cons_of_mem _ hy)), hv1 A,
        hnw x (List.mem_cons_self _ _)]
      simp

/-! ### Termination of the second-chance scan -/

/-- The frame returned by the scan is a frame index. -/
theorem second_chance_scan_lt (F : Nat) :
    ∀ (fuel : Nat) (s t : Machine) (page v : Nat), page < F →
      second_chance_scan F fuel s page = some (v, t) → v < F := by
  intro fuel
  induction fuel with
  | zero => intro s t page v _ h; simp [second_chance_scan] at h
  | succ n ih =>
    intro s t page v hpage h
    unfold second_chance_scan at h
    split at h
    · exact absurd h (by simp)
    · split at h
      · simp only [Option.some.injEq, Prod.mk.injEq] at h
        omega
      · exact ih _ _ _ _ (Nat.mod_lt _ (by omega)) h

/-- Every iteration that does not stop clears the reference bit of the owner of
one more frame, so the loop stops within one iteration more than there are
frames with a referenced owner. -/
theorem second_chance_scan_terminates (F : Nat) :
    ∀ (fuel : Nat) (s : Machine) (page : Nat), page < F →
      (∀ f, f < F → (s.coremap f).owner ≠ none) →
      ((Finset.range F).filter (fun f =>
        ∃ o, (s.coremap f).owner = some o ∧ (s.page_table o).referenced = true)).card < fuel →
      ∃ v t, second_chance_scan F fuel s page = some (v, t) := by
  classical
  intro fuel
  induction fuel with
  | zero => intro s page _ _ h; exact absurd h (Nat.not_lt_zero _)
  | succ n ih =>
    intro s page hpage hown hcard
    unfold second_chance_scan
    cases ho : (s.coremap page).owner with
    | none => exact absurd ho (hown page hpage)
    | some o =>
      cases href : (s.page_table o).referenced with
      | false => exact ⟨page, s, by simp [href]⟩
      | true =>
        simp only [href, Bool.true_eq_false, if_false]
        apply ih (set_pte s o (fun e => { e with referenced := false })) ((page + 1) % F)
          (Nat.mod_lt _ (by omega)) hown
        refine lt_of_lt_of_le (Finset.card_lt_card ?_) (Nat.le_of_lt_succ hcard)
        refine ⟨fun f hf => ?_, fun hsub => ?_⟩
        · simp only [Finset.mem_filter, Finset.mem_range, set_pte_coremap,
            set_pte_page_table] at hf ⊢
          obtain ⟨hfF, o2, ho2, hr2⟩ := hf
          refine ⟨hfF, o2, ho2, ?_⟩
          by_cases h2 : o2 = o
          · subst h2
            simp at hr2
          · simpa [Function.update_apply, h2] using hr2
        · have hmem : page ∈ (Finset.range F).filter (fun f =>
              ∃ o, (s.coremap f).owner = some o ∧ (s.page_table o).referenced = true) := by
            simp only [Finset.mem_filter, Finset.mem_range]
            exact ⟨hpage, o, ho, href⟩
          have := hsub hmem
          simp only [Finset.mem_filter, Finset.mem_range, set_pte_coremap,
            set_pte_page_table] at this
          obtain ⟨-, o2, ho2, hr2⟩ := this
          rw [ho] at ho2
          simp only [Option.some.injEq] at ho2
          subst ho2
          simp at hr2

/-- With every frame owned and the cursor a frame index, `second_chance_replace`
returns: the fuel `F + 1` of the model is never used up, and the assertion
holds. -/
theorem second_chance_replace_returns (F : Nat) (s : Machine) (hcur : s.sc_next_page < F)
    (hown : ∀ f, f < F → (s.coremap f).owner ≠ none) :
    ∃ v t, second_chance_replace F s = some (v, t) ∧ v < F := by
  classical
  have hcard : ((Finset.range F).filter (fun f =>
      ∃ o, (s.coremap f).owner = some o ∧ (s.page_table o).referenced = true)).card < F + 1 :=
    Nat.lt_succ_of_le (le_trans (Finset.card_filter_le _ _) (by simp))
  obtain ⟨v, t, hscan⟩ := second_chance_scan_terminates F (F + 1) s s.sc_next_page hcur hown hcard
  have hv := second_chance_scan_lt F _ _ _ _ _ hcur hscan
  refine ⟨v, { t with sc_next_page := (v + 1) % F }, ?_, hv⟩
  unfold second_chance_replace
  rw [hscan]
  simp only [hv, if_true]

/-- C8 (address translation result): a completed `translate` on an in-range
virtual address returns `f * PAGESIZE + a mod PAGESIZE`, where `f` is the `page`
field of the target entry after the call, and the page is resident in `f` then;
the mask `a & (PAGESIZE - 1)` is `a mod PAGESIZE`, and the physical address has
the in-page offset of the virtual one. -/
theorem translate_phys_addr (F : Nat) (replace : Policy) (s t : Machine) (a pa : Nat) (w : Bool)
    (_hin : a / PAGESIZE < NPAGES) (h : translate F replace s a w = some (pa, t)) :
    pa = (t.page_table (a / PAGESIZE)).page * PAGESIZE + a % PAGESIZE ∧
      (t.page_table (a / PAGESIZE)).inmemory = true ∧
      a &&& (PAGESIZE - 1) = a % PAGESIZE ∧
      pa % PAGESIZE = a % PAGESIZE := by
  obtain ⟨m, hm, ht, hpa⟩ := translate_some h
  have hres : (m.page_table (a / PAGESIZE)).inmemory = true := by
    split at hm
    · exact (pagefault_entry hm).1
    · rename_i hmem
      simp only [Option.some.injEq] at hm
      subst hm
      simpa using hmem
  rw [offset_mask] at hpa
  refine ⟨hpa, ?_, offset_mask a, ?_⟩
  · subst ht
    cases w <;> simp [hres]
  · rw [hpa, Nat.mul_comm, Nat.mul_add_mod, Nat.mod_mod]

theorem translate_phys_addr_witness :
    5 / PAGESIZE < NPAGES ∧
      (translate 8 (fifo_page_replace 8) init_machine 5 true).isSome = true ∧
      ((translate 8 (fifo_page_replace 8) init_machine 5 true).getD (0, init_machine)).1
        % PAGESIZE = 5 % PAGESIZE :=
  ⟨by decide, by decide,
    (translate_phys_addr 8 (fifo_page_replace 8) init_machine
      ((translate 8 (fifo_page_replace 8) init_machine 5 true).getD (0, init_machine)).2 5
      ((translate 8 (fifo_page_replace 8) init_machine 5 true).getD (0, init_machine)).1 true
      (by decide) rfl).2.2.2⟩

/-- C9 (reference and dirty bits): after a completed `translate` the target
page has `referenced = 1`; a write access leaves `modified = 1`; a read access
keeps `modified` on a hit and leaves it `0` after a fault. -/
theorem translate_bits (F : Nat) (replace : Policy) (s t : Machine) (a pa : Nat) (w : Bool)
    (h : translate F replace s a w = some (pa, t)) :
    (t.page_table (a / PAGESIZE)).referenced = true ∧
      (w = true → (t.page_table (a / PAGESIZE)).modified = true) ∧
      (w = false → (s.page_table (a / PAGESIZE)).inmemory = true →
        (t.page_table (a / PAGESIZE)).modified = (s.page_table (a / PAGESIZE)).modified) ∧
      (w = false → (s.page_table (a / PAGESIZE)).inmemory = false →
        (t.page_table (a / PAGESIZE)).modified = false) := by
  obtain ⟨m, hm, ht, -⟩ := translate_some h
  subst ht
  refine ⟨by cases w <;> simp, fun hw => by simp [hw], fun hw hres => ?_, fun hw hres => ?_⟩
  · rw [hres] at hm
    simp only [Bool.true_eq_false, if_false, Option.some.injEq] at hm
    subst hm
    simp [hw]
  · rw [hres] at hm
    simp only [if_true] at hm
    simp [hw, (pagefault_entry hm).2.1]

theorem translate_bits_witness :
    (translate 8 (fifo_page_replace 8) init_machine 5 true).isSome = true ∧
      ((((translate 8 (fifo_page_replace 8) init_machine 5 true).getD
        (0, init_machine)).2.page_table (5 / PAGESIZE)).referenced = true) :=
  ⟨by decide,
    (translate_bits 8 (fifo_page_replace 8) init_machine
      ((translate 8 (fifo_page_replace 8) init_machine 5 true).getD (0, init_machine)).2 5
      ((translate 8 (fifo_page_replace 8) init_machine 5 true).getD (0, init_machine)).1 true
      rfl).1⟩

/-- C10 (access counting): a completed `translate` increases
`num_memoryaccesses` by exactly 1, whether or not it faults, and the replacement
policy is only ever entered with the incremented counter: a check of
`num_memoryaccesses == old + 1` at the entry of the policy never fails. -/
theorem translate_counts (F : Nat) (replace : Policy) (hpol : PolicyFrame F replace)
    (s t : Machine) (a pa : Nat) (w : Bool) (h : translate F replace s a w = some (pa, t)) :
    t.num_memoryaccesses = s.num_memoryaccesses + 1 ∧
      translate F (guard_accesses (s.num_memoryaccesses + 1) replace) s a w
        = translate F replace s a w := by
  constructor
  · obtain ⟨m, hm, rfl, -⟩ := translate_some h
    have hmc : m.num_memoryaccesses = s.num_memoryaccesses + 1 := by
      split at hm
      · exact (pagefault_counters hpol hm).1
      · simp only [Option.some.injEq] at hm
        subst hm
        rfl
    cases w <;> simpa using hmc
  · have hg := pagefault_guard F replace
      { s with num_memoryaccesses := s.num_memoryaccesses + 1 } (a / PAGESIZE)
    unfold translate
    dsimp only at hg ⊢
    rw [hg]

set_option maxRecDepth 8000 in
theorem translate_counts_witness :
    (run 2 (optimal_page_replace 2) init_machine [.xlate 0 true, .xlate 4 false]).bind
      (fun s => (translate 2 (optimal_page_replace 2) s 8 false).map
        (fun r => decide (r.2.num_memoryaccesses = s.num_memoryaccesses + 1))) = some true := by
  have hsome : ((run 2 (optimal_page_replace 2) init_machine
      [.xlate 0 true, .xlate 4 false]).bind
      (fun s => (translate 2 (optimal_page_replace 2) s 8 false).map
        (fun r => decide (r.2.num_memoryaccesses = s.num_memoryaccesses + 1)))).isSome
      = true := by decide
  obtain ⟨b, hc⟩ := Option.isSome_iff_exists.mp hsome
  obtain ⟨s, -, hc2⟩ := Option.bind_eq_some.mp hc
  obtain ⟨⟨pa, t⟩, ht, hb⟩ := Option.map_eq_some'.mp hc2
  have hcount := (translate_counts 2 (optimal_page_replace 2) (optimal_policy_frame (by decide))
    s t 8 pa false ht).1
  rw [hc, ← hb]
  simp [hcount]

/-- C4 (fault monotonicity): (a) in a run from the initial state, a completed
`translate` on a page that no earlier access has touched increases
`num_pagefault` by exactly 1; (b) after a completed `translate` on page `p`, an
immediately following `translate` on any address of `p` completes and leaves
`num_pagefault` unchanged. -/
theorem fault_monotonicity (F : Nat) (replace : Policy) (hpol : PolicyFrame F replace)
    (pre : List Access) (s t : Machine) (a pa : Nat) (w : Bool)
    (_hpre : ∀ x ∈ pre, x.vpage < NPAGES) (_hin : a / PAGESIZE < NPAGES)
    (hrun : run F replace init_machine pre = some s)
    (h : translate F replace s a w = some (pa, t)) :
    ((∀ x ∈ pre, x.vpage ≠ a / PAGESIZE) → t.num_pagefault = s.num_pagefault + 1) ∧
      (∀ (b : Nat) (w2 : Bool), b / PAGESIZE = a / PAGESIZE →
        ∃ pb u, translate F replace t b w2 = some (pb, u) ∧
          u.num_pagefault = t.num_pagefault) := by
  constructor
  · intro hfirst
    have hnot := run_untouched hpol (a / PAGESIZE) pre init_machine s hrun hfirst rfl
    obtain ⟨m, hm, rfl, -⟩ := translate_some h
    rw [hnot] at hm
    simp only [if_true] at hm
    have := (pagefault_counters hpol hm).2
    cases w <;> simpa using this
  · intro b w2 hb
    have hres := (translate_result h).2.1
    exact translate_hit F replace t b w2 (by rw [hb]; exact hres)

theorem fault_monotonicity_witness :
    (translate 2 (fifo_page_replace 2) init_machine 5 true).isSome = true ∧
      (((translate 2 (fifo_page_replace 2) init_machine 5 true).getD
          (0, init_machine)).2.num_pagefault = init_machine.num_pagefault + 1) :=
  ⟨by decide,
    (fault_monotonicity 2 (fifo_page_replace 2) (fifo_policy_frame 2) [] init_machine
      ((translate 2 (fifo_page_replace 2) init_machine 5 true).getD (0, init_machine)).2 5
      ((translate 2 (fifo_page_replace 2) init_machine 5 true).getD (0, init_machine)).1 true
      (by simp) (by decide) rfl rfl).1 (by simp)⟩

/-- C6 (clock correctness): when every one of the `F` frames has an owner, the
owners are pairwise distinct and some frame has an owner with `referenced = 0`,
`second_chance_replace` returns a frame whose owner had `referenced = 0` at
entry.  The cursor of the function is one of the frame indices. -/
theorem second_chance_unreferenced (F : Nat) (s : Machine) (hcur : s.sc_next_page < F)
    (hown : ∀ f, f < F → (s.coremap f).owner ≠ none)
    (hdist : ∀ f g, f < F → g < F → (s.coremap f).owner = (s.coremap g).owner → f = g)
    (hex : ∃ f o, f < F ∧ (s.coremap f).owner = some o ∧ (s.page_table o).referenced = false) :
    ∃ v t o, second_chance_replace F s = some (v, t) ∧ v < F ∧
      (s.coremap v).owner = some o ∧ (s.page_table o).referenced = false := by
  classical
  have hF : 0 < F := by omega
  obtain ⟨f, o, hf, hfo, hfr⟩ := hex
  let P : Nat → Prop := fun d =>
    ∀ o, (s.coremap ((s.sc_next_page + d) % F)).owner = some o →
      (s.page_table o).referenced = false
  have hP0 : P ((f + F - s.sc_next_page) % F) := by
    intro o2 ho2
    have hidx : (s.sc_next_page + (f + F - s.sc_next_page) % F) % F = f := by
      rw [Nat.add_mod_mod, show s.sc_next_page + (f + F - s.sc_next_page) = f + F by omega,
        Nat.add_mod_right, Nat.mod_eq_of_lt hf]
    rw [hidx, hfo] at ho2
    simp only [Option.some.injEq] at ho2
    subst ho2
    exact hfr
  have hP : ∃ d, P d := ⟨_, hP0⟩
  have hdle : Nat.find hP ≤ (f + F - s.sc_next_page) % F := Nat.find_min' hP hP0
  have hdF : Nat.find hP < F := lt_of_le_of_lt hdle (Nat.mod_lt _ hF)
  obtain ⟨t, ht⟩ := second_chance_scan_find F (Nat.find hP) (F + 1) s s.sc_next_page
    (by omega) hdF hcur hown hdist (Nat.find_spec hP)
    (by
      intro j hj o2 ho2
      have hnot := Nat.find_min hP hj
      by_contra hne
      apply hnot
      intro o3 ho3
      rw [ho2] at ho3
      simp only [Option.some.injEq] at ho3
      subst ho3
      simpa using hne)
  have hv : (s.sc_next_page + Nat.find hP) % F < F := Nat.mod_lt _ hF
  cases hvo : (s.coremap ((s.sc_next_page + Nat.find hP) % F)).owner with
  | none => exact absurd hvo (hown _ hv)
  | some o2 =>
    refine ⟨(s.sc_next_page + Nat.find hP) % F,
      { t with sc_next_page := ((s.sc_next_page + Nat.find hP) % F + 1) % F }, o2, ?_, hv, hvo,
      Nat.find_spec hP o2 hvo⟩
    unfold second_chance_replace
    rw [ht]
    simp only [hv, if_true]

theorem second_chance_unreferenced_witness :
    ∃ v t o, second_chance_replace 2 clock_example = some (v, t) ∧ v < 2 ∧
      (clock_example.coremap v).owner = some o ∧
      (clock_example.page_table o).referenced = false :=
  second_chance_unreferenced 2 clock_example (by decide)
    (fun f _ => by simp [clock_example])
    (fun f g _ _ h => by simpa [clock_example] using h)
    ⟨1, 1, by decide, rfl, rfl⟩

/-- C1 (write/read round trip): in a run from the initial state under a
replacement policy for `F` frames (`0 < F ≤ 2^27`; `RAM_PAGES = 8` in the source),
let `write_memory(A, V)` complete, then any sequence of accesses on in-range
addresses none of which writes `A`, then `read_memory(A)`; no assertion having
failed, the read returns `V`, whatever evictions and reloads of the page of `A`
happened in between. -/
theorem write_read_round_trip (F : Nat) (replace : Policy) (hF : 0 < F) (hF27 : F ≤ PAGE_FIELD)
    (hpol : PolicyFrame F replace) (pre ops : List Access) (A V r : Nat)
    (s0 s1 s2 s3 : Machine)
    (_hpre : ∀ x ∈ pre, x.vpage < NPAGES) (_hA : A / PAGESIZE < NPAGES)
    (_hops : ∀ x ∈ ops, x.vpage < NPAGES) (hnw : ∀ x ∈ ops, x.writes A = false)
    (h0 : run F replace init_machine pre = some s0)
    (h1 : write_memory F replace s0 A V = some s1)
    (h2 : run F replace s1 ops = some s2)
    (h3 : read_memory F replace s2 A = some (r, s3)) : r = V := by
  obtain ⟨hres0, hb0⟩ := run_backed hpol hF27 pre init_machine s0 (init_resident hF)
    init_backed h0
  have hw : access F replace s0 (.write A V) = some (0, s1) := by
    simp [access, h1]
  obtain ⟨hb1, hv1, -⟩ := access_backed hpol hF27 hres0 hb0 hw
  have hres1 := access_resident hpol hF27 hres0 hw
  obtain ⟨hres2, hb2⟩ := run_backed hpol hF27 ops s1 s2 hres1 hb1 h2
  have hv2 := run_vmem hpol hF27 A ops s1 s2 hres1 hb1 h2 hnw
  have hr : access F replace s2 (.read A) = some (r, s3) := h3
  obtain ⟨-, -, hrd⟩ := access_backed hpol hF27 hres2 hb2 hr
  rw [hrd A rfl, hv2, hv1 A]
  simp [Access.writes]

theorem write_read_round_trip_witness :
    ((write_memory 2 (fifo_page_replace 2) init_machine 1 5).bind (fun s1 =>
      (run 2 (fifo_page_replace 2) s1 [.write 4 6, .read 9, .write 2 7]).bind (fun s2 =>
        read_memory 2 (fifo_page_replace 2) s2 1))).map Prod.fst = some 5 := by
  have hsome : ((write_memory 2 (fifo_page_replace 2) init_machine 1 5).bind (fun s1 =>
      (run 2 (fifo_page_replace 2) s1 [.write 4 6, .read 9, .write 2 7]).bind (fun s2 =>
        read_memory 2 (fifo_page_replace 2) s2 1))).isSome = true := by decide
  obtain ⟨⟨r, s3⟩, hc⟩ := Option.isSome_iff_exists.mp hsome
  obtain ⟨s1, h1, hc2⟩ := Option.bind_eq_some.mp hc
  obtain ⟨s2, h2, h3⟩ := Option.bind_eq_some.mp hc2
  have hr : r = 5 :=
    write_read_round_trip 2 (fifo_page_replace 2) (by decide) (by decide) (fifo_policy_frame 2)
      [] [.write 4 6, .read 9, .write 2 7] 1 5 r init_machine s1 s2 s3
      (by simp) (by decide) (by decide) (by decide) rfl h1 h2 h3
  rw [hc, hr]
  rfl

/-- C2 (residency invariant): in every state reached from the initial state by
completed accesses (bare `translate` calls included) on in-range addresses,
under a policy that returns frame indices below the frame count `F`
(`0 < F ≤ 2^27`; `RAM_PAGES = 8` in the source), a page `p` has `inmemory = 1`
exactly when some coremap entry has owner `p`; that entry is
`coremap[page_table[p].page]`, so no page owns two coremap entries. -/
theorem residency_invariant (F : Nat) (replace : Policy) (hF : 0 < F) (hF27 : F ≤ PAGE_FIELD)
    (hpol : PolicyFrame F replace) (accs : List Access) (s : Machine)
    (_hin : ∀ x ∈ accs, x.vpage < NPAGES)
    (hrun : run F replace init_machine accs = some s) (p : Nat) :
    ((s.page_table p).inmemory = true ↔ ∃ f, f < F ∧ (s.coremap f).owner = some p) ∧
      (∀ f, f < F → (s.coremap f).owner = some p → f = (s.page_table p).page) ∧
      (∀ f g, f < F → g < F → (s.coremap f).owner = some p → (s.coremap g).owner = some p →
        f = g) := by
  have hs := run_resident hpol hF27 accs init_machine s (init_resident hF) hrun
  refine ⟨⟨fun hp => ⟨_, (hs.res p hp).1, (hs.res p hp).2⟩, fun ⟨f, _, hf⟩ => (hs.own f p hf).1⟩,
    fun f _ hf => (hs.own f p hf).2.symm, fun f g _ _ hf hg => ?_⟩
  exact (hs.own f p hf).2.symm.trans (hs.own g p hg).2

theorem residency_invariant_witness :
    (((run RAM_PAGES (fifo_page_replace RAM_PAGES) init_machine
        [.write 0 5, .xlate 4 false, .read 8]).getD init_machine).page_table 1).inmemory = true ↔
      ∃ f, f < RAM_PAGES ∧
        (((run RAM_PAGES (fifo_page_replace RAM_PAGES) init_machine
          [.write 0 5, .xlate 4 false, .read 8]).getD init_machine).coremap f).owner = some 1 :=
  (residency_invariant RAM_PAGES (fifo_page_replace RAM_PAGES) (by decide) (by decide)
    (fifo_policy_frame RAM_PAGES) [.write 0 5, .xlate 4 false, .read 8]
    ((run RAM_PAGES (fifo_page_replace RAM_PAGES) init_machine
      [.write 0 5, .xlate 4 false, .read 8]).getD init_machine)
    (by decide) rfl 1).1

/-- C3 (frame bound): in every state reached from the initial state by completed
accesses on in-range addresses, at most `F` page table entries have
`inmemory = 1` (`F` the frame count, `RAM_PAGES` in the source). -/
theorem frame_bound (F : Nat) (replace : Policy) (hF : 0 < F) (hF27 : F ≤ PAGE_FIELD)
    (hpol : PolicyFrame F replace) (accs : List Access) (s : Machine)
    (_hin : ∀ x ∈ accs, x.vpage < NPAGES)
    (hrun : run F replace init_machine accs = some s) : resident_count s ≤ F := by
  have hs := run_resident hpol hF27 accs init_machine s (init_resident hF) hrun
  unfold resident_count
  have hcard := Finset.card_le_card_of_injOn (s := (Finset.range NPAGES).filter
      (fun p => (s.page_table p).inmemory = true)) (t := Finset.range F)
    (fun p => (s.page_table p).page)
    (fun p hp => by
      simp only [Finset.mem_filter, Finset.mem_range] at hp
      simpa using (hs.res p hp.2).1)
    (fun p hp q hq hpq => by
      simp only [Finset.mem_coe, Finset.mem_filter, Finset.mem_range] at hp hq
      have h1 := (hs.res p hp.2).2
      have h2 := (hs.res q hq.2).2
      dsimp only at hpq
      rw [hpq, h2] at h1
      exact (Option.some.inj h1).symm)
  simpa using hcard

theorem frame_bound_witness :
    resident_count ((run 2 (fifo_page_replace 2) init_machine
      [.write 0 5, .write 4 6, .write 8 7]).getD init_machine) ≤ 2 :=
  frame_bound 2 (fifo_page_replace 2) (by decide) (by decide) (fifo_policy_frame 2)
    [.write 0 5, .write 4 6, .write 8 7]
    ((run 2 (fifo_page_replace 2) init_machine
      [.write 0 5, .write 4 6, .write 8 7]).getD init_machine)
    (by decide) rfl

/-- C7, the scenario as the spec states it: with two frames and FIFO, after the
writes to 0, 4 and 8 the final read of address 0 does not find
`num_diskwrites = 1` when its fault loads the frame from disk. -/
theorem example_scenario_as_stated_fails :
    ¬ ((run 2 (fifo_page_replace 2) init_machine (example_writes 1 2 3)).map
          (fun s => s.num_pagefault) = some 3 ∧
        (run 2 (fifo_page_replace 2) init_machine (example_writes 1 2 3 ++ [.read 0])).map
          (fun s => s.num_pagefault) = some 4 ∧
        ((run 2 (fifo_page_replace 2) init_machine (example_writes 1 2 3)).bind
          (at_frame_load 2 (fifo_page_replace 2))).map (fun s => s.num_diskwrites) = some 1 ∧
        (run 2 (fifo_page_replace 2) init_machine (example_writes 1 2 3 ++ [.read 0])).map
          (fun s => s.num_diskreads) = some 1) := by
  decide

/-- C7 (example scenario, amended): with two frames and FIFO, the writes to 0, 4
and 8 fault once each (3 faults) and perform one disk write and no disk read;
the final read of address 0 faults once more (4 faults), and its fault first
evicts the dirty page 1, so two disk writes have been performed when the fault
performs its disk read; the run ends with one disk read and two disk writes. -/
theorem example_scenario (d0 d1 d2 : Nat) :
    (run 2 (fifo_page_replace 2) init_machine [.write 0 d0]).map
        (fun s => s.num_pagefault) = some 1 ∧
      (run 2 (fifo_page_replace 2) init_machine [.write 0 d0, .write 4 d1]).map
        (fun s => s.num_pagefault) = some 2 ∧
      (run 2 (fifo_page_replace 2) init_machine (example_writes d0 d1 d2)).map
        (fun s => (s.num_pagefault, s.num_diskwrites, s.num_diskreads)) = some (3, 1, 0) ∧
      ((run 2 (fifo_page_replace 2) init_machine (example_writes d0 d1 d2)).bind
        (at_frame_load 2 (fifo_page_replace 2))).map
        (fun s => (s.num_pagefault, s.num_diskwrites, s.num_diskreads)) = some (4, 2, 0) ∧
      (run 2 (fifo_page_replace 2) init_machine (example_writes d0 d1 d2 ++ [.read 0])).map
        (fun s => (s.num_pagefault, s.num_diskwrites, s.num_diskreads)) = some (4, 2, 1) :=
  ⟨rfl, rfl, rfl, rfl, rfl⟩

/-- C5 (FIFO determinism): under FIFO with `F` frames, let a sequence of
accesses from the initial state visit the pages `0, 1, ..., F` in that order,
with any number of reads, writes and bare translations at any offsets in each
page and no return to an earlier page.  Every prefix `pre` of the sequence runs
to completion; after it each page visited so far has faulted exactly once and
the resident pages are exactly the pages visited so far, page 0 excepted once
page `F` has been visited.  So a single page ever leaves memory, page 0, at the
first access to page `F`; after the whole sequence there have been `F + 1`
faults for `F` frames, the pages `1, ..., F` are resident and page 0 is not. -/
theorem fifo_determinism (F : Nat) (hF : 0 < F) (_hFN : F < NPAGES) (pre post : List Access)
    (hord : in_order F 0 (pre ++ post)) (hall : pages_after 0 (pre ++ post) = F + 1) :
    (∃ s, run F (fifo_page_replace F) init_machine pre = some s ∧
        s.num_pagefault = pages_after 0 pre ∧
        ∀ p, (s.page_table p).inmemory = true ↔
          (p < pages_after 0 pre ∧ ¬ (p = 0 ∧ pages_after 0 pre = F + 1))) ∧
      (∃ t, run F (fifo_page_replace F) init_machine (pre ++ post) = some t ∧
        t.num_pagefault = F + 1 ∧
        ∀ p, (t.page_table p).inmemory = true ↔ (1 ≤ p ∧ p ≤ F)) := by
  constructor
  · obtain ⟨s, hrun, hs⟩ := run_in_order hF pre 0 init_machine (init_in_order_state hF)
      (in_order_append pre post 0 hord)
    exact ⟨s, hrun, hs.faults, hs.resident⟩
  · obtain ⟨t, hrun, ht⟩ := run_in_order hF (pre ++ post) 0 init_machine
      (init_in_order_state hF) hord
    rw [hall] at ht
    refine ⟨t, hrun, ht.faults, fun p => ?_⟩
    rw [ht.resident p]
    constructor
    · rintro ⟨h1, h2⟩
      exact ⟨Nat.pos_of_ne_zero (fun h => h2 ⟨h, rfl⟩), by omega⟩
    · rintro ⟨h1, h2⟩
      exact ⟨by omega, fun h => by omega⟩

theorem fifo_determinism_witness :
    (∃ s, run 2 (fifo_page_replace 2) init_machine [.write 0 1, .read 1, .write 4 2] = some s ∧
        s.num_pagefault = pages_after 0 [.write 0 1, .read 1, .write 4 2] ∧
        ∀ p, (s.page_table p).inmemory = true ↔
          (p < pages_after 0 [.write 0 1, .read 1, .write 4 2] ∧
            ¬ (p = 0 ∧ pages_after 0 [.write 0 1, .read 1, .write 4 2] = 2 + 1))) ∧
      (∃ t, run 2 (fifo_page_replace 2) init_machine
          ([.write 0 1, .read 1, .write 4 2] ++ [.read 8, .write 9 3]) = some t ∧
        t.num_pagefault = 2 + 1 ∧
        ∀ p, (t.page_table p).inmemory = true ↔ (1 ≤ p ∧ p ≤ 2)) :=
  fifo_determinism 2 (by decide) (by decide) [.write 0 1, .read 1, .write 4 2]
    [.read 8, .write 9 3]
    (Or.inr ⟨rfl, by decide, Or.inl ⟨rfl, Or.inr ⟨rfl, by decide, Or.inr ⟨rfl, by decide,
      Or.inl ⟨rfl, trivial⟩⟩⟩⟩⟩)
    rfl

/-! ## Fault handler, frame allocator and policies -/

theorem vmem_init (a : Nat) : vmem init_machine a = 0 := by
  simp [vmem, init_machine]

/-- C13 (first-touch zero content): in a run from the initial state under a
replacement policy for `F` frames (`0 < F ≤ 2^27`; `RAM_PAGES = 8` in the source),
after any sequence of completed accesses on in-range addresses none of which
writes `A`, a completed `read_memory(A)` returns 0, whatever evictions and
reloads of the page of `A` happened and whatever other words of that page were
written. -/
theorem first_touch_zero (F : Nat) (replace : Policy) (hF : 0 < F) (hF27 : F ≤ PAGE_FIELD)
    (hpol : PolicyFrame F replace) (pre : List Access) (A r : Nat) (s t : Machine)
    (_hpre : ∀ x ∈ pre, x.vpage < NPAGES) (_hA : A / PAGESIZE < NPAGES)
    (hnw : ∀ x ∈ pre, x.writes A = false)
    (hrun : run F replace init_machine pre = some s)
    (hread : read_memory F replace s A = some (r, t)) : r = 0 := by
  obtain ⟨hres, hb⟩ := run_backed hpol hF27 pre init_machine s (init_resident hF)
    init_backed hrun
  have hv := run_vmem hpol hF27 A pre init_machine s (init_resident hF) init_backed hrun hnw
  have hr : access F replace s (.read A) = some (r, t) := hread
  obtain ⟨-, -, hrd⟩ := access_backed hpol hF27 hres hb hr
  rw [hrd A rfl, hv, vmem_init]

theorem first_touch_zero_witness :
    ((run 2 (fifo_page_replace 2) init_machine
        [.write 1 5, .write 4 6, .read 9, .write 2 7, .read 5]).bind (fun s =>
      read_memory 2 (fifo_page_replace 2) s 0)).map Prod.fst = some 0 := by
  have hsome : ((run 2 (fifo_page_replace 2) init_machine
        [.write 1 5, .write 4 6, .read 9, .write 2 7, .read 5]).bind (fun s =>
      read_memory 2 (fifo_page_replace 2) s 0)).isSome = true := by decide
  obtain ⟨⟨r, t⟩, hc⟩ := Option.isSome_iff_exists.mp hsome
  obtain ⟨s, hs, hrd⟩ := Option.bind_eq_some.mp hc
  have hr : r = 0 :=
    first_touch_zero 2 (fifo_page_replace 2) (by decide) (by decide) (fifo_policy_frame 2)
      [.write 1 5, .write 4 6, .read 9, .write 2 7, .read 5] 0 r s t
      (by decide) (by decide) (by decide) hs hrd
  rw [hc, hr]
  rfl

/-- Consecutive calls of `new_swap_page` while slots are left. -/
theorem calls_new_swap_page :
    ∀ (k : Nat) (s : Machine), s.count + k ≤ SWAP_PAGES →
      calls new_swap_page k s
        = some (List.range' s.count k, { s with count := s.count + k }) := by
  intro k
  induction k with
  | zero => intro s _; rfl
  | succ k ih =>
    intro s hk
    have hlt : s.count < SWAP_PAGES := by omega
    have hcall : new_swap_page s = some (s.count, { s with count := s.count + 1 }) := by
      simp [new_swap_page, hlt]
    have hrest := ih { s with count := s.count + 1 } (by show s.count + 1 + k ≤ SWAP_PAGES; omega)
    simp only [calls, hcall, hrest, List.range'_succ]
    simp [Nat.add_assoc, Nat.add_comm 1 k]

/-- C18 (swap slot allocator): `new_swap_page` returns the number of slots
handed out so far and counts one more, and aborts exactly when `SWAP_PAGES`
slots have been handed out.  So from the initial state the calls number
`0, ..., k - 1` return `0, ..., k - 1` when `k ≤ SWAP_PAGES`, a sequence of more
than `SWAP_PAGES` calls aborts, no call returns an index `≥ SWAP_PAGES`, and a
later call returns a larger index than an earlier one. -/
theorem new_swap_page_allocator (s : Machine) (k : Nat) :
    (s.count < SWAP_PAGES →
        new_swap_page s = some (s.count, { s with count := s.count + 1 })) ∧
      (new_swap_page s = none ↔ SWAP_PAGES ≤ s.count) ∧
      (∀ r t, new_swap_page s = some (r, t) → r = s.count ∧ r < SWAP_PAGES) ∧
      (k ≤ SWAP_PAGES →
        calls new_swap_page k init_machine
          = some (List.range k, { init_machine with count := k })) ∧
      (SWAP_PAGES < k → calls new_swap_page k init_machine = none) ∧
      (∀ r t u r2 t2, new_swap_page s = some (r, t) → t.count ≤ u.count →
        new_swap_page u = some (r2, t2) → r < r2) := by
  have hstate : ∀ (u : Machine) r t, new_swap_page u = some (r, t) →
      r = u.count ∧ r < SWAP_PAGES ∧ t.count = u.count + 1 := by
    intro u r t h
    unfold new_swap_page at h
    split at h
    · rename_i hlt
      simp only [Option.some.injEq, Prod.mk.injEq] at h
      obtain ⟨rfl, rfl⟩ := h
      exact ⟨rfl, hlt, rfl⟩
    · exact absurd h (by simp)
  have hnone : ∀ (n : Nat) (u : Machine), SWAP_PAGES < u.count + n → 0 < n →
      calls new_swap_page n u = none := by
    intro n
    induction n with
    | zero => intro u _ h0; exact absurd h0 (lt_irrefl 0)
    | succ n ih =>
      intro u hu _
      by_cases hlt : u.count < SWAP_PAGES
      · have hcall : new_swap_page u = some (u.count, { u with count := u.count + 1 }) := by
          simp [new_swap_page, hlt]
        have hrest := ih { u with count := u.count + 1 }
          (by show SWAP_PAGES < u.count + 1 + n; omega) (by omega)
        simp only [calls, hcall, hrest]
      · have hcall : new_swap_page u = none := by simp [new_swap_page, hlt]
        simp only [calls, hcall]
  refine ⟨fun hlt => by simp [new_swap_page, hlt], ?_, fun r t h => ⟨(hstate s r t h).1,
    (hstate s r t h).2.1⟩, fun hk => ?_, fun hk => ?_, fun r t u r2 t2 h1 hle h2 => ?_⟩
  · by_cases hlt : s.count < SWAP_PAGES
    · simp only [new_swap_page, hlt, if_true]
      constructor
      · intro h; exact absurd h (by simp)
      · intro h; omega
    · simp only [new_swap_page, hlt, if_false, true_iff]
      omega
  · have := calls_new_swap_page k init_machine (by simpa [init_machine] using hk)
    rw [this, List.range_eq_range']
    simp [init_machine]
  · exact hnone k init_machine (by simpa [init_machine] using hk) (by omega)
  · obtain ⟨h1a, -, h1c⟩ := hstate s r t h1
    obtain ⟨h2a, -, -⟩ := hstate u r2 t2 h2
    omega

theorem fifo_page_replace_eq {F : Nat} {s : Machine} (hc : s.fifo_next_page < F) :
    fifo_page_replace F s
      = some (s.fifo_next_page, { s with fifo_next_page := (s.fifo_next_page + 1) % F }) := by
  simp [fifo_page_replace, hc]

/-- Consecutive calls of `fifo_page_replace` from a cursor `c`. -/
theorem calls_fifo {F : Nat} :
    ∀ (k : Nat) (s : Machine), s.fifo_next_page < F →
      calls (fifo_page_replace F) k s
        = some ((List.range k).map (fun i => (s.fifo_next_page + i) % F),
            { s with fifo_next_page := (s.fifo_next_page + k) % F }) := by
  intro k
  induction k with
  | zero =>
    intro s hc
    simp [calls, Nat.mod_eq_of_lt hc]
  | succ k ih =>
    intro s hc
    have hF : 0 < F := by omega
    have hrest := ih { s with fifo_next_page := (s.fifo_next_page + 1) % F } (Nat.mod_lt _ hF)
    simp only [calls, fifo_page_replace_eq hc, hrest, List.range_succ_eq_map, List.map_cons,
      List.map_map, Nat.add_zero, Nat.mod_eq_of_lt hc]
    have hfun : ((fun i => ((s.fifo_next_page + 1) % F + i) % F))
        = ((fun i => (s.fifo_next_page + i) % F) ∘ Nat.succ) := by
      funext i
      simp only [Function.comp, Nat.mod_add_mod]
      congr 1
      omega
    have hcur : ((s.fifo_next_page + 1) % F + k) % F = (s.fifo_next_page + (k + 1)) % F := by
      rw [Nat.mod_add_mod]
      congr 1
      omega
    simp only [hfun, hcur]

theorem add_mod_inj {F c i j : Nat} (hi : i < F) (hj : j < F)
    (h : (c + i) % F = (c + j) % F) : i = j := by
  have h1 : i ≡ j [MOD F] := Nat.ModEq.add_left_cancel' c h
  exact Nat.ModEq.eq_of_lt_of_lt h1 hi hj

/-- C19 (FIFO policy): with a cursor below the frame count `F`,
`fifo_page_replace` returns the cursor and changes nothing but the cursor, which
moves on by one modulo `F`, whatever the page table and coremap hold.  So from the
initial state the calls number `0, ..., k - 1` return `0 mod F, ..., (k - 1) mod F`,
and `F` consecutive calls from a cursor `c` return `c, c + 1, ...` modulo `F`,
every frame index exactly once, and leave the cursor at `c` again. -/
theorem fifo_round_robin (F : Nat) (hF : 0 < F) (s : Machine) (k : Nat)
    (hc : s.fifo_next_page < F) :
    fifo_page_replace F s
        = some (s.fifo_next_page, { s with fifo_next_page := (s.fifo_next_page + 1) % F }) ∧
      calls (fifo_page_replace F) k init_machine
        = some ((List.range k).map (fun i => i % F),
            { init_machine with fifo_next_page := k % F }) ∧
      calls (fifo_page_replace F) F s
        = some ((List.range F).map (fun i => (s.fifo_next_page + i) % F), s) ∧
      ((List.range F).map (fun i => (s.fifo_next_page + i) % F)).Nodup ∧
      (∀ f, f ∈ (List.range F).map (fun i => (s.fifo_next_page + i) % F) ↔ f < F) := by
  refine ⟨fifo_page_replace_eq hc, ?_, ?_, ?_, fun f => ?_⟩
  · have h0 : init_machine.fifo_next_page < F := hF
    have := calls_fifo k init_machine h0
    simpa [init_machine] using this
  · have := calls_fifo F s hc
    rw [this]
    simp [Nat.mod_eq_of_lt hc]
  · refine List.Nodup.map_on ?_ (List.nodup_range F)
    intro i hi j hj hij
    exact add_mod_inj (List.mem_range.mp hi) (List.mem_range.mp hj) hij
  · simp only [List.mem_map, List.mem_range]
    constructor
    · rintro ⟨i, -, rfl⟩
      exact Nat.mod_lt _ hF
    · intro hf
      refine ⟨(f + F - s.fifo_next_page) % F, Nat.mod_lt _ hF, ?_⟩
      rw [Nat.add_mod_mod, show s.fifo_next_page + (f + F - s.fifo_next_page) = f + F by omega,
        Nat.add_mod_right, Nat.mod_eq_of_lt hf]

theorem fifo_round_robin_witness :
    calls (fifo_page_replace RAM_PAGES) 11 init_machine
      = some ((List.range 11).map (fun i => i % RAM_PAGES),
          { init_machine with fifo_next_page := 11 % RAM_PAGES }) :=
  (fifo_round_robin RAM_PAGES (by decide) init_machine 11 (by decide)).2.1

/-- A call of `take_phys_page` during the cold start. -/
theorem take_phys_page_cold (F : Nat) (replace : Policy) {s : Machine} {k : Nat}
    (hs : s.next_unused_page = (k : Int)) :
    take_phys_page F replace s
      = some (k, { s with next_unused_page := if k + 1 = F then -1 else ((k + 1 : Nat) : Int) }) := by
  have h0 : 0 ≤ s.next_unused_page := by omega
  rw [take_phys_page_unused F replace s h0, hs]
  have hk1 : ((k : Int) + 1 = (F : Int)) ↔ k + 1 = F := by omega
  simp only [Int.toNat_ofNat, hk1]
  push_cast
  rfl

/-- Consecutive calls of `take_phys_page` during the cold start. -/
theorem calls_take_phys_page {F : Nat} (replace : Policy) :
    ∀ (n : Nat) (s : Machine) (k : Nat), s.next_unused_page = (k : Int) → 0 < n → k + n ≤ F →
      calls (take_phys_page F replace) n s
        = some (List.range' k n,
            { s with next_unused_page := if k + n = F then -1 else ((k + n : Nat) : Int) }) := by
  intro n
  induction n with
  | zero => intro s k _ h0; exact absurd h0 (lt_irrefl 0)
  | succ n ih =>
    intro s k hs _ hkn
    have hcall := take_phys_page_cold F replace hs
    by_cases hn : n = 0
    · subst hn
      simp only [calls, hcall, List.range'_succ, List.range'_zero]
    · have hne : ¬ k + 1 = F := by omega
      have hrest := ih { s with next_unused_page := ((k + 1 : Nat) : Int) } (k + 1) rfl
        (by omega) (by omega)
      simp only [hne, if_false] at hcall
      simp only [calls, hcall, hrest, List.range'_succ]
      have hadd : k + 1 + n = k + (n + 1) := by omega
      simp only [hadd]

/-- C14 (cold start): while the counter of `take_phys_page` is a frame index `k`,
a call returns `k` and changes nothing but the counter, which becomes `k + 1`, or
`-1` after the last frame; the result does not depend on the replacement policy,
which is not called.  So from the initial state the first `F` calls return
`0, 1, ..., F - 1` in that order and leave the page table, coremap, memory, swap
and counters as they were.  Once the counter is `-1`, a call that returns has
returned the index chosen by the replacement policy, aborts if the policy does,
and leaves the counter at `-1`. -/
theorem cold_start (F : Nat) (hF : 0 < F) (replace : Policy) (s : Machine) (k : Nat) :
    (k < F → s.next_unused_page = (k : Int) →
        take_phys_page F replace s
          = some (k, { s with next_unused_page :=
              if k + 1 = F then -1 else ((k + 1 : Nat) : Int) })) ∧
      calls (take_phys_page F replace) F init_machine
        = some (List.range F, { init_machine with next_unused_page := -1 }) ∧
      (s.next_unused_page = -1 → ∀ r t, take_phys_page F replace s = some (r, t) →
        ∃ s1, replace s = some (r, s1)) ∧
      (s.next_unused_page = -1 → replace s = none → take_phys_page F replace s = none) ∧
      (PolicyFrame F replace → s.next_unused_page = -1 →
        ∀ r t, take_phys_page F replace s = some (r, t) → t.next_unused_page = -1) := by
  refine ⟨fun _ hs => take_phys_page_cold F replace hs, ?_, fun hs r t h => ?_, fun hs hr => ?_,
    fun hpol hs r t h => ?_⟩
  · have := calls_take_phys_page (F := F) replace F init_machine 0 rfl hF (by omega)
    rw [this, List.range_eq_range']
    simp
  · have hneg : ¬ 0 ≤ s.next_unused_page := by omega
    rcases take_phys_page_cases h with ⟨h0, -, -⟩ | ⟨-, hrep, -⟩ | ⟨-, s1, o, hrep, -⟩
    · exact absurd h0 hneg
    · exact ⟨t, hrep⟩
    · exact ⟨s1, hrep⟩
  · have hneg : ¬ 0 ≤ s.next_unused_page := by omega
    simp [take_phys_page, hneg, hr]
  · have hneg : ¬ 0 ≤ s.next_unused_page := by omega
    rcases take_phys_page_cases h with ⟨h0, -, -⟩ | ⟨-, hrep, -⟩ | ⟨hneg2, s1, o, hrep, hown⟩
    · exact absurd h0 hneg
    · rw [(hpol _ _ _ hrep).2.next_unused_page, hs]
    · obtain ⟨-, -, rfl⟩ := take_phys_page_evict hneg2 hrep hown h
      show s1.next_unused_page = -1
      rw [(hpol _ _ _ hrep).2.next_unused_page, hs]

theorem cold_start_witness :
    calls (take_phys_page RAM_PAGES (fun _ => none)) RAM_PAGES init_machine
      = some (List.range RAM_PAGES, { init_machine with next_unused_page := -1 }) :=
  (cold_start RAM_PAGES (by decide) (fun _ => none) init_machine 0).2.1

/-- The frame returned by `take_phys_page` is one of the `F` frames when the
cold-start counter is below `F`. -/
theorem take_phys_page_lt {F : Nat} {replace : Policy} (hpol : PolicyFrame F replace)
    {s t : Machine} {r : Nat} (hnu : s.next_unused_page < (F : Int))
    (h : take_phys_page F replace s = some (r, t)) : r < F := by
  rcases take_phys_page_cases h with ⟨h0, rfl, -⟩ | ⟨-, hrep, -⟩ | ⟨-, s1, o, hrep, -⟩
  · omega
  · exact (hpol _ _ _ hrep).1
  · exact (hpol _ _ _ hrep).1

/-- `take_phys_page` leaves the entry of a non-resident page as it is, up to
its reference bit. -/
theorem take_phys_page_other {F : Nat} {replace : Policy} (hpol : PolicyFrame F replace)
    {s t : Machine} {r : Nat} (hres : Resident F s)
    (h : take_phys_page F replace s = some (r, t)) (v : Nat)
    (hv : (s.page_table v).inmemory = false) :
    (t.page_table v).ondisk = (s.page_table v).ondisk ∧
      (t.page_table v).page = (s.page_table v).page ∧
      (t.page_table v).modified = (s.page_table v).modified := by
  rcases take_phys_page_cases h with ⟨-, -, rfl⟩ | ⟨-, hrep, -⟩ | ⟨hneg, s1, o, hrep, hown⟩
  · exact ⟨rfl, rfl, rfl⟩
  · have hsame := (hpol _ _ _ hrep).2
    exact ⟨hsame.ondisk v, hsame.page v, hsame.modified v⟩
  · have hsame := (hpol _ _ _ hrep).2
    obtain ⟨-, -, rfl⟩ := take_phys_page_evict hneg hrep hown h
    have ho := ((hres.of_same_refs hsame).own r o hown).1
    have hvo : v ≠ o := by
      rintro rfl
      rw [hsame.inmemory, hv] at ho
      exact absurd ho (by simp)
    simp only [Function.update_apply, hvo, if_false]
    exact ⟨hsame.ondisk v, hsame.page v, hsame.modified v⟩

/-- C11 (fault handler metadata): in a state whose cold-start counter is below
the frame count `F ≤ 2^27` (as in every reachable state), a completed
`pagefault(v)` on a non-resident in-range page `v` has increased `num_pagefault`
by exactly 1 and, with `f < F` the frame returned by `take_phys_page`, ends with
`coremap[f].owner = v`, `page_table[v].inmemory = 1`, `page_table[v].page = f`,
`page_table[v].modified = 0` and `page_table[v].referenced = 0`. -/
theorem pagefault_metadata (F : Nat) (replace : Policy) (hF27 : F ≤ PAGE_FIELD)
    (hpol : PolicyFrame F replace) (s t : Machine) (v : Nat) (_hv : v < NPAGES)
    (_hnot : (s.page_table v).inmemory = false) (hnu : s.next_unused_page < (F : Int))
    (h : pagefault F replace s v = some t) :
    ∃ f s1, take_phys_page F replace { s with num_pagefault := s.num_pagefault + 1 }
          = some (f, s1) ∧
      f < F ∧ t.num_pagefault = s.num_pagefault + 1 ∧
      (t.coremap f).owner = some v ∧ (t.page_table v).inmemory = true ∧
      (t.page_table v).page = f ∧ (t.page_table v).modified = false ∧
      (t.page_table v).referenced = false := by
  obtain ⟨f, s1, htake, rfl⟩ := pagefault_some h
  have hf : f < F :=
    take_phys_page_lt hpol (s := { s with num_pagefault := s.num_pagefault + 1 }) hnu htake
  have hmod : f % PAGE_FIELD = f := Nat.mod_eq_of_lt (lt_of_lt_of_le hf hF27)
  have hpf : s1.num_pagefault = s.num_pagefault + 1 := (take_phys_page_counters hpol htake).2.1
  refine ⟨f, s1, htake, hf, hpf, ?_, ?_, ?_, ?_, ?_⟩ <;> simp [hmod]

theorem pagefault_metadata_witness :
    ∃ f s1, take_phys_page RAM_PAGES (fifo_page_replace RAM_PAGES)
          { init_machine with num_pagefault := init_machine.num_pagefault + 1 }
          = some (f, s1) ∧
      f < RAM_PAGES ∧
      ((pagefault RAM_PAGES (fifo_page_replace RAM_PAGES) init_machine 3).getD
        init_machine).num_pagefault = init_machine.num_pagefault + 1 ∧
      (((pagefault RAM_PAGES (fifo_page_replace RAM_PAGES) init_machine 3).getD
        init_machine).coremap f).owner = some 3 ∧
      (((pagefault RAM_PAGES (fifo_page_replace RAM_PAGES) init_machine 3).getD
        init_machine).page_table 3).inmemory = true ∧
      (((pagefault RAM_PAGES (fifo_page_replace RAM_PAGES) init_machine 3).getD
        init_machine).page_table 3).page = f ∧
      (((pagefault RAM_PAGES (fifo_page_replace RAM_PAGES) init_machine 3).getD
        init_machine).page_table 3).modified = false ∧
      (((pagefault RAM_PAGES (fifo_page_replace RAM_PAGES) init_machine 3).getD
        init_machine).page_table 3).referenced = false :=
  pagefault_metadata RAM_PAGES (fifo_page_replace RAM_PAGES) (by decide)
    (fifo_policy_frame RAM_PAGES) init_machine
    ((pagefault RAM_PAGES (fifo_page_replace RAM_PAGES) init_machine 3).getD init_machine) 3
    (by decide) rfl (by decide) rfl

/-- C12 (fault handler frame content): let a completed `pagefault(v)` have been
assigned the frame `f` by `take_phys_page`.  If `page_table[v].ondisk` is set,
with swap slot `page_table[v].page`, then afterwards the `PAGESIZE` words of
frame `f` are the words of that swap slot, `coremap[f].page` is the slot and
`num_diskreads` has increased by exactly 1; otherwise the `PAGESIZE` words of
frame `f` are 0 and `num_diskreads` is unchanged.  The flag and the slot are
those that `pagefault` reads after `take_phys_page`; for a non-resident page in
a state with the residency invariant they are the ones at entry, and with the
backing store invariant the words loaded are the words the slot held at entry. -/
theorem pagefault_content (F : Nat) (replace : Policy) (hpol : PolicyFrame F replace)
    (s t : Machine) (v : Nat) (_hv : v < NPAGES) (h : pagefault F replace s v = some t) :
    ∃ f s1, take_phys_page F replace { s with num_pagefault := s.num_pagefault + 1 }
          = some (f, s1) ∧
      ((s1.page_table v).ondisk = true →
        (∀ i, i < PAGESIZE → t.memory (f * PAGESIZE + i)
          = t.swap ((s1.page_table v).page * PAGESIZE + i)) ∧
        (t.coremap f).page = (s1.page_table v).page ∧
        t.num_diskreads = s.num_diskreads + 1) ∧
      ((s1.page_table v).ondisk = false →
        (∀ i, i < PAGESIZE → t.memory (f * PAGESIZE + i) = 0) ∧
        t.num_diskreads = s.num_diskreads) ∧
      (Resident F s → (s.page_table v).inmemory = false →
        (s1.page_table v).ondisk = (s.page_table v).ondisk ∧
        (s1.page_table v).page = (s.page_table v).page) ∧
      (Resident F s → Backed s → F ≤ PAGE_FIELD → (s.page_table v).inmemory = false →
        (s.page_table v).ondisk = true →
        ∀ i, i < PAGESIZE → t.memory (f * PAGESIZE + i)
          = s.swap ((s.page_table v).page * PAGESIZE + i)) := by
  obtain ⟨f, s1, htake, ht⟩ := pagefault_some h
  have hdr : s1.num_diskreads = s.num_diskreads := (take_phys_page_counters hpol htake).2.2
  refine ⟨f, s1, htake, fun hd => ?_, fun hd => ?_, fun hres hnot => ?_,
    fun hres hb hF27 hnot hd i hi => ?_⟩
  · subst ht
    refine ⟨fun i hi => ?_, by simp [hd], by simp [hd, hdr]⟩
    simp only [hd, if_true]
    rw [memcpy_apply, if_pos (in_block hi), Nat.add_sub_cancel_left]
  · subst ht
    refine ⟨fun i hi => ?_, by simp [hd, hdr]⟩
    simp only [hd, Bool.false_eq_true, if_false]
    rw [zero_fill_apply, if_pos (in_block hi)]
  · have := take_phys_page_other hpol
      (s := { s with num_pagefault := s.num_pagefault + 1 })
      ⟨hres.res, hres.own, hres.cold, hres.unused⟩ htake v hnot
    exact ⟨this.1, this.2.1⟩
  · have hvm := (pagefault_backed hpol hF27 hres hb hnot h).2 (v * PAGESIZE + i)
    have hdiv : (v * PAGESIZE + i) / PAGESIZE = v := by
      rw [PAGESIZE_eq] at *
      omega
    have hrem : (v * PAGESIZE + i) % PAGESIZE = i := by
      rw [PAGESIZE_eq] at *
      omega
    have hnu : ({ s with num_pagefault := s.num_pagefault + 1 } : Machine).next_unused_page
        < (F : Int) := by
      show s.next_unused_page < (F : Int)
      rcases hres.cold with hc | hc
      · omega
      · exact hc.2
    have hf : f < F :=
      take_phys_page_lt hpol (s := { s with num_pagefault := s.num_pagefault + 1 }) hnu htake
    have hmod : f % PAGE_FIELD = f := Nat.mod_eq_of_lt (lt_of_lt_of_le hf hF27)
    have htin : (t.page_table v).inmemory = true := by rw [ht]; simp
    have htpage : (t.page_table v).page = f := by rw [ht]; simp [hmod]
    unfold vmem at hvm
    rw [hdiv, hrem, htin, htpage, hnot, hd] at hvm
    simpa using hvm

theorem pagefault_content_witness :
    ∃ s t f, run 2 (fifo_page_replace 2) init_machine [.write 0 5, .write 4 6, .write 8 7]
        = some s ∧
      pagefault 2 (fifo_page_replace 2) s 0 = some t ∧
      (s.page_table 0).inmemory = false ∧ (s.page_table 0).ondisk = true ∧
      (∀ i, i < PAGESIZE → t.memory (f * PAGESIZE + i)
        = t.swap ((s.page_table 0).page * PAGESIZE + i)) ∧
      (t.coremap f).page = (s.page_table 0).page ∧
      t.num_diskreads = s.num_diskreads + 1 := by
  have hsome : ((run 2 (fifo_page_replace 2) init_machine
      [.write 0 5, .write 4 6, .write 8 7]).bind (fun s =>
        pagefault 2 (fifo_page_replace 2) s 0)).isSome = true := by decide
  have hflags : (run 2 (fifo_page_replace 2) init_machine
      [.write 0 5, .write 4 6, .write 8 7]).map
        (fun s => ((s.page_table 0).inmemory, (s.page_table 0).ondisk))
      = some (false, true) := by decide
  obtain ⟨t, hc⟩ := Option.isSome_iff_exists.mp hsome
  obtain ⟨s, hs, ht⟩ := Option.bind_eq_some.mp hc
  rw [hs] at hflags
  simp only [Option.map_some', Option.some.injEq, Prod.mk.injEq] at hflags
  have hres := run_resident (fifo_policy_frame 2) (by decide) _ init_machine s
    (init_resident (by decide)) hs
  obtain ⟨f, s1, -, hdisk, -, hentry, -⟩ :=
    pagefault_content 2 (fifo_page_replace 2) (fifo_policy_frame 2) s t 0 (by decide) ht
  obtain ⟨he1, he2⟩ := hentry hres hflags.1
  obtain ⟨h1, h2, h3⟩ := hdisk (by rw [he1]; exact hflags.2)
  rw [he2] at h1 h2
  exact ⟨s, t, f, hs, ht, hflags.1, hflags.2, h1, h2, h3⟩

/-- The state left by `take_phys_page` when the policy picks the frame `f` owned
by the dirty page `o`. -/
theorem take_phys_page_dirty {F : Nat} {replace : Policy} (hpol : PolicyFrame F replace)
    {s s1 t : Machine} {f o r : Nat} (hneg : s.next_unused_page < 0)
    (hrep : replace s = some (f, s1)) (hown : (s.coremap f).owner = some o)
    (hmod : (s.page_table o).modified = true)
    (h : take_phys_page F replace s = some (r, t)) :
    r = f ∧ t.num_diskwrites = s.num_diskwrites + 1 ∧ t.memory = s.memory ∧
      t.count = (if (s.page_table o).ondisk then s.count else s.count + 1) ∧
      ((s.page_table o).ondisk = false → s.count < SWAP_PAGES) ∧
      t.swap = memcpy s.swap
        ((if (s.page_table o).ondisk then (s.coremap f).page else s.count) * PAGESIZE)
        s.memory (f * PAGESIZE) PAGESIZE ∧
      (t.page_table o).inmemory = false ∧ (t.page_table o).ondisk = true ∧
      (t.page_table o).modified = true ∧
      (t.page_table o).page
        = (if (s.page_table o).ondisk then (s.coremap f).page else s.count) % PAGE_FIELD := by
  have hsame := (hpol _ _ _ hrep).2
  have hneg2 : ¬ 0 ≤ s.next_unused_page := by omega
  have hown1 : (s1.coremap f).owner = some o := by rw [hsame.coremap]; exact hown
  have hmod1 : (s1.page_table o).modified = true := by rw [hsame.modified]; exact hmod
  obtain ⟨hr, hfresh, rfl⟩ := take_phys_page_evict hneg2 hrep hown1 h
  have hd1 : (s1.page_table o).ondisk = (s.page_table o).ondisk := hsame.ondisk o
  have hfresh2 : (s.page_table o).ondisk = false → s.count < SWAP_PAGES := fun hd =>
    hsame.count ▸ hfresh ⟨hmod1, hd1.trans hd⟩
  cases hd : (s.page_table o).ondisk <;>
    simp [hmod1, hd1, hd, hr, hsame.num_diskwrites, hsame.memory, hsame.count, hsame.swap,
      hsame.coremap, hfresh2]

/-- C15 (dirty eviction write-back): when `take_phys_page`, past the cold start,
takes the frame `f` chosen by the policy and the owner `o` of `f` has
`modified = 1`, it performs exactly one disk write, to the slot `sl`: the slot
just handed out by `new_swap_page` (the old value of its counter) if `o.ondisk`
was 0, and `coremap[f].page` if `o.ondisk` was 1 (a value of the 27-bit field
`page`).  Afterwards the `PAGESIZE` words of swap slot `sl` are the words of
frame `f`, `o.inmemory = 0`, `o.ondisk = 1` and `o.page = sl`. -/
theorem dirty_eviction (F : Nat) (replace : Policy) (hpol : PolicyFrame F replace)
    (s s1 t : Machine) (f o r : Nat) (hneg : s.next_unused_page < 0)
    (hrep : replace s = some (f, s1)) (hown : (s.coremap f).owner = some o)
    (hmod : (s.page_table o).modified = true)
    (hfield : (s.page_table o).ondisk = true → (s.coremap f).page < PAGE_FIELD)
    (h : take_phys_page F replace s = some (r, t)) :
    r = f ∧ t.num_diskwrites = s.num_diskwrites + 1 ∧
      ((s.page_table o).ondisk = false →
        (∀ u : Machine, u.count = s.count →
          new_swap_page u = some (s.count, { u with count := s.count + 1 })) ∧
        t.count = s.count + 1) ∧
      ((s.page_table o).ondisk = true → t.count = s.count) ∧
      (∀ i, i < PAGESIZE →
        t.swap ((if (s.page_table o).ondisk then (s.coremap f).page else s.count) * PAGESIZE + i)
          = t.memory (f * PAGESIZE + i)) ∧
      (t.page_table o).inmemory = false ∧ (t.page_table o).ondisk = true ∧
      (t.page_table o).page
        = (if (s.page_table o).ondisk then (s.coremap f).page else s.count) := by
  obtain ⟨hr, hdw, hmem, hcount, hfresh, hswap, hin, hdisk, -, hpage⟩ :=
    take_phys_page_dirty hpol hneg hrep hown hmod h
  have hsame := (hpol _ _ _ hrep).2
  refine ⟨hr, hdw, fun hd => ?_, fun hd => by rw [hcount, hd]; rfl, fun i hi => ?_, hin, hdisk, ?_⟩
  · refine ⟨fun u hu => ?_, by rw [hcount, hd]; rfl⟩
    unfold new_swap_page
    rw [hu, if_pos (hfresh hd)]
  · rw [hswap, hmem, memcpy_apply, if_pos (in_block hi), Nat.add_sub_cancel_left]
  · rw [hpage]
    apply Nat.mod_eq_of_lt
    cases hd : (s.page_table o).ondisk with
    | true => simpa using hfield hd
    | false =>
      have := hfresh hd
      have := SWAP_PAGES_lt_PAGE_FIELD
      simp only [Bool.false_eq_true, if_false]
      omega

theorem dirty_eviction_witness :
    ∃ s t, run 2 (fifo_page_replace 2) init_machine [.write 0 5, .write 4 6] = some s ∧
      take_phys_page 2 (fifo_page_replace 2) s = some (0, t) ∧
      (s.page_table 0).modified = true ∧ (s.page_table 0).ondisk = false ∧
      t.num_diskwrites = s.num_diskwrites + 1 ∧ t.count = s.count + 1 ∧
      (∀ i, i < PAGESIZE → t.swap (s.count * PAGESIZE + i) = t.memory (0 * PAGESIZE + i)) ∧
      (t.page_table 0).inmemory = false ∧ (t.page_table 0).ondisk = true ∧
      (t.page_table 0).page = s.count := by
  have hsome : ((run 2 (fifo_page_replace 2) init_machine [.write 0 5, .write 4 6]).bind
      (fun s => take_phys_page 2 (fifo_page_replace 2) s)).isSome = true := by decide
  have hentry : (run 2 (fifo_page_replace 2) init_machine [.write 0 5, .write 4 6]).map
      (fun s => (s.next_unused_page, s.fifo_next_page, (s.coremap 0).owner,
        (s.page_table 0).modified, (s.page_table 0).ondisk))
      = some (-1, 0, some 0, true, false) := by decide
  obtain ⟨⟨r, t⟩, hc⟩ := Option.isSome_iff_exists.mp hsome
  obtain ⟨s, hs, ht⟩ := Option.bind_eq_some.mp hc
  rw [hs] at hentry
  simp only [Option.map_some', Option.some.injEq, Prod.mk.injEq] at hentry
  obtain ⟨hnu, hcur, hown, hmod, hdisk⟩ := hentry
  have hrep := fifo_page_replace_eq (F := 2) (s := s) (by omega)
  rw [hcur] at hrep
  obtain ⟨hr, hdw, hfresh, -, hwords, hin, hond, hpage⟩ :=
    dirty_eviction 2 (fifo_page_replace 2) (fifo_policy_frame 2) s _ t 0 0 r (by omega) hrep hown
      hmod (fun hd => by rw [hdisk] at hd; exact absurd hd (by simp)) ht
  subst hr
  simp only [hdisk, Bool.false_eq_true, if_false] at hwords hpage
  exact ⟨s, t, hs, ht, hmod, hdisk, hdw, (hfresh hdisk).2, hwords, hin, hond, hpage⟩

/-- C16, as the claim states it: with two frames and FIFO, after the writes to
the addresses 0 and 4 both frames are dirty; the next `take_phys_page` evicts
page 0 from frame 0 and returns with the `modified` flag of page 0 still 1, not
with `inmemory = 0`, `modified = 0`, `ondisk = 1`. -/
theorem eviction_clears_modified_fails :
    (run 2 (fifo_page_replace 2) init_machine [.write 0 5, .write 4 6]).map
        (fun s => ((s.coremap 0).owner, (s.page_table 0).modified)) = some (some 0, true) ∧
      flags_after_take 2 (fifo_page_replace 2) [.write 0 5, .write 4 6] 0
        = some (0, false, true, true) ∧
      ¬ (flags_after_take 2 (fifo_page_replace 2) [.write 0 5, .write 4 6] 0
        = some (0, false, false, true)) := by
  decide

/-- C16 (eviction flags, amended): after `take_phys_page` has evicted a victim
whose owner `o` was dirty (`modified = 1`), the owner has `inmemory = 0` and
`ondisk = 1` when `take_phys_page` returns; its `modified` flag is still 1, and
is cleared by the `pagefault` that next makes the page resident. -/
theorem eviction_flags (F : Nat) (replace : Policy) (hpol : PolicyFrame F replace)
    (s s1 t : Machine) (f o r : Nat) (hneg : s.next_unused_page < 0)
    (hrep : replace s = some (f, s1)) (hown : (s.coremap f).owner = some o)
    (hmod : (s.page_table o).modified = true)
    (h : take_phys_page F replace s = some (r, t)) :
    (t.page_table o).inmemory = false ∧ (t.page_table o).ondisk = true ∧
      (t.page_table o).modified = true ∧
      (∀ u w : Machine, pagefault F replace u o = some w → (w.page_table o).modified = false) := by
  obtain ⟨-, -, -, -, -, -, hin, hdisk, hm, -⟩ :=
    take_phys_page_dirty hpol hneg hrep hown hmod h
  exact ⟨hin, hdisk, hm, fun u w hw => (pagefault_entry hw).2.1⟩

theorem eviction_flags_witness :
    ∃ s t, run 2 (fifo_page_replace 2) init_machine [.write 0 5, .write 4 6] = some s ∧
      take_phys_page 2 (fifo_page_replace 2) s = some (0, t) ∧
      (s.page_table 0).modified = true ∧
      (t.page_table 0).inmemory = false ∧ (t.page_table 0).ondisk = true ∧
      (t.page_table 0).modified = true := by
  have hsome : ((run 2 (fifo_page_replace 2) init_machine [.write 0 5, .write 4 6]).bind
      (fun s => take_phys_page 2 (fifo_page_replace 2) s)).isSome = true := by decide
  have hentry : (run 2 (fifo_page_replace 2) init_machine [.write 0 5, .write 4 6]).map
      (fun s => (s.next_unused_page, s.fifo_next_page, (s.coremap 0).owner,
        (s.page_table 0).modified))
      = some (-1, 0, some 0, true) := by decide
  obtain ⟨⟨r, t⟩, hc⟩ := Option.isSome_iff_exists.mp hsome
  obtain ⟨s, hs, ht⟩ := Option.bind_eq_some.mp hc
  rw [hs] at hentry
  simp only [Option.map_some', Option.some.injEq, Prod.mk.injEq] at hentry
  obtain ⟨hnu, hcur, hown, hmod⟩ := hentry
  have hrep := fifo_page_replace_eq (F := 2) (s := s) (by omega)
  rw [hcur] at hrep
  have hr : r = 0 := by
    rcases take_phys_page_cases ht with ⟨h0, -, -⟩ | ⟨-, hrep2, -⟩ | ⟨-, s2, o2, hrep2, -⟩
    · omega
    · rw [hrep] at hrep2
      simp only [Option.some.injEq, Prod.mk.injEq] at hrep2
      exact hrep2.1.symm
    · rw [hrep] at hrep2
      simp only [Option.some.injEq, Prod.mk.injEq] at hrep2
      exact hrep2.1.symm
  subst hr
  obtain ⟨hin, hond, hm, -⟩ :=
    eviction_flags 2 (fifo_page_replace 2) (fifo_policy_frame 2) s _ t 0 0 0 (by omega) hrep hown
      hmod ht
  exact ⟨s, t, hs, ht, hmod, hin, hond, hm⟩

theorem scanned_iff (F : Nat) (s : Machine) (c d p : Nat) :
    scanned F s c d p = true ↔ ∃ j, j < d ∧ (s.coremap ((c + j) % F)).owner = some p := by
  simp [scanned, List.any_eq_true]

/-- One more frame passed over at the front of the scan. -/
theorem clear_scanned_step {F : Nat} (s : Machine) (page d o : Nat)
    (ho : (s.coremap page).owner = some o) (hpage : page < F) :
    clear_scanned F (set_pte s o (fun e => { e with referenced := false })) ((page + 1) % F) d
      = clear_scanned F s page (d + 1) := by
  have hstep : ∀ j, ((page + 1) % F + j) % F = (page + (j + 1)) % F := by
    intro j
    rw [Nat.mod_add_mod]
    congr 1
    omega
  have hpt : ∀ p,
      (if scanned F (set_pte s o (fun e => { e with referenced := false })) ((page + 1) % F) d p
        then { (set_pte s o (fun e => { e with referenced := false })).page_table p
                with referenced := false }
        else (set_pte s o (fun e => { e with referenced := false })).page_table p)
      = (if scanned F s page (d + 1) p then { s.page_table p with referenced := false }
         else s.page_table p) := by
    intro p
    by_cases hpo : p = o
    · subst hpo
      have h1 : scanned F s page (d + 1) p = true :=
        (scanned_iff F s page (d + 1) p).2
          ⟨0, Nat.succ_pos d, by rw [Nat.add_zero, Nat.mod_eq_of_lt hpage]; exact ho⟩
      rw [h1]
      simp only [if_true, set_pte_page_table, Function.update_same]
      split <;> rfl
    · have h2 : scanned F (set_pte s o (fun e => { e with referenced := false }))
          ((page + 1) % F) d p = scanned F s page (d + 1) p := by
        rw [Bool.eq_iff_iff, scanned_iff, scanned_iff]
        simp only [set_pte_coremap, hstep]
        constructor
        · rintro ⟨j, hj, hjo⟩
          exact ⟨j + 1, by omega, hjo⟩
        · rintro ⟨j, hj, hjo⟩
          cases j with
          | zero =>
            rw [Nat.add_zero, Nat.mod_eq_of_lt hpage, ho] at hjo
            exact absurd (Option.some.inj hjo).symm hpo
          | succ j => exact ⟨j, by omega, hjo⟩
      rw [h2]
      simp only [set_pte_page_table, Function.update_apply, hpo, if_false]
  unfold clear_scanned
  simp only [set_pte_coremap, set_pte_memory, set_pte_swap, set_pte_count,
    set_pte_next_unused_page, set_pte_fifo_next_page, set_pte_sc_next_page,
    set_pte_num_memoryaccesses, set_pte_num_pagefault, set_pte_num_diskwrites,
    set_pte_num_diskreads]
  congr 1
  funext p
  exact hpt p

/-- The scan of `second_chance_replace` started at frame `page` passes over `d`
frames with a referenced owner, clears their reference bits, and stops at the
next frame: the first one with an unreferenced owner, or, after a full round of
`F` frames, the frame it started at. -/
theorem second_chance_scan_spec (F : Nat) :
    ∀ (d fuel : Nat) (s : Machine) (page : Nat), d < fuel → d ≤ F → page < F →
      (∀ f, f < F → (s.coremap f).owner ≠ none) →
      (∀ f g, f < F → g < F → (s.coremap f).owner = (s.coremap g).owner → f = g) →
      (d < F → ∀ o, (s.coremap ((page + d) % F)).owner = some o →
        (s.page_table o).referenced = false) →
      (∀ j, j < d → ∀ o, (s.coremap ((page + j) % F)).owner = some o →
        (s.page_table o).referenced = true) →
      second_chance_scan F fuel s page = some ((page + d) % F, clear_scanned F s page d) := by
  intro d
  induction d with
  | zero =>
    intro fuel s page hfuel _ hpage hown _ htarget _
    obtain ⟨n, rfl⟩ : ∃ n, fuel = n + 1 := ⟨fuel - 1, by omega⟩
    have h0 : clear_scanned F s page 0 = s := by
      simp [clear_scanned, scanned]
    have htarget := htarget (by omega)
    simp only [Nat.add_zero, Nat.mod_eq_of_lt hpage] at htarget ⊢
    rw [h0]
    unfold second_chance_scan
    cases ho : (s.coremap page).owner with
    | none => exact absurd ho (hown page hpage)
    | some o => simp [htarget o ho]
  | succ d ih =>
    intro fuel s page hfuel hd hpage hown hdist htarget hbefore
    obtain ⟨n, rfl⟩ : ∃ n, fuel = n + 1 := ⟨fuel - 1, by omega⟩
    have hF : 0 < F := by omega
    have hstep : ∀ j, ((page + 1) % F + j) % F = (page + (j + 1)) % F := by
      intro j
      rw [Nat.mod_add_mod]
      congr 1
      omega
    unfold second_chance_scan
    cases ho : (s.coremap page).owner with
    | none => exact absurd ho (hown page hpage)
    | some o =>
      have href : (s.page_table o).referenced = true :=
        hbefore 0 (Nat.succ_pos d) o (by rw [Nat.add_zero, Nat.mod_eq_of_lt hpage]; exact ho)
      simp only [href, Bool.true_eq_false, if_false]
      have hrec := ih n (set_pte s o (fun e => { e with referenced := false }))
        ((page + 1) % F) (by omega) (by omega) (Nat.mod_lt _ hF) hown hdist
        (by
          intro _ o2 ho2
          rw [hstep] at ho2
          by_cases h2 : o2 = o
          · subst h2; simp
          · simp only [set_pte_page_table, Function.update_apply, h2, if_false]
            by_cases hdF : d + 1 < F
            · exact htarget hdF o2 ho2
            · exfalso
              have hdeq : d + 1 = F := by omega
              have hcoremap : (s.coremap ((page + (d + 1)) % F)).owner = some o2 := ho2
              rw [hdeq, Nat.add_mod_right, Nat.mod_eq_of_lt hpage, ho] at hcoremap
              exact h2 (Option.some.inj hcoremap).symm)
        (by
          intro j hj o2 ho2
          rw [hstep] at ho2
          have hne : o2 ≠ o := by
            rintro rfl
            have hfr := hdist _ _ (Nat.mod_lt _ hF) hpage (ho2.trans ho.symm)
            exact add_succ_mod_ne hpage (by omega) hfr
          simp only [set_pte_page_table, Function.update_apply, hne, if_false]
          exact hbefore (j + 1) (by omega) o2 ho2)
      rw [hrec, hstep, clear_scanned_step s page d o ho hpage]

/-- C20 (second-chance scan): when every one of the `F` frames has an owner,
the owners are pairwise distinct and the cursor `c` is a frame index,
`second_chance_replace` returns `v = (c + d) mod F`, where the `d ≤ F` frames
`c, c + 1, ...` before `v` in cyclic order have a referenced owner at entry and,
if `d < F`, the owner of `v` is not referenced at entry; if `d = F`, every owner
is referenced at entry and `v = c`.  The state returned is the state at entry
with the reference bit cleared for the owners of those `d` frames, no other bit
of the page table changed, and the cursor set to `(v + 1) mod F`. -/
theorem second_chance_scan_order (F : Nat) (s : Machine) (hcur : s.sc_next_page < F)
    (hown : ∀ f, f < F → (s.coremap f).owner ≠ none)
    (hdist : ∀ f g, f < F → g < F → (s.coremap f).owner = (s.coremap g).owner → f = g) :
    ∃ d, d ≤ F ∧
      (∀ j, j < d → ∀ o, (s.coremap ((s.sc_next_page + j) % F)).owner = some o →
        (s.page_table o).referenced = true) ∧
      (d < F → ∀ o, (s.coremap ((s.sc_next_page + d) % F)).owner = some o →
        (s.page_table o).referenced = false) ∧
      (d = F → (s.sc_next_page + d) % F = s.sc_next_page) ∧
      second_chance_replace F s
        = some ((s.sc_next_page + d) % F,
            { clear_scanned F s s.sc_next_page d with
              sc_next_page := ((s.sc_next_page + d) % F + 1) % F }) ∧
      (∀ p, (clear_scanned F s s.sc_next_page d).page_table p
        = if scanned F s s.sc_next_page d p then { s.page_table p with referenced := false }
          else s.page_table p) ∧
      (∀ p, scanned F s s.sc_next_page d p = true ↔
        ∃ j, j < d ∧ (s.coremap ((s.sc_next_page + j) % F)).owner = some p) := by
  classical
  have hF : 0 < F := by omega
  have hfinish : ∀ d, d ≤ F →
      (∀ j, j < d → ∀ o, (s.coremap ((s.sc_next_page + j) % F)).owner = some o →
        (s.page_table o).referenced = true) →
      (d < F → ∀ o, (s.coremap ((s.sc_next_page + d) % F)).owner = some o →
        (s.page_table o).referenced = false) →
      second_chance_replace F s
        = some ((s.sc_next_page + d) % F,
            { clear_scanned F s s.sc_next_page d with
              sc_next_page := ((s.sc_next_page + d) % F + 1) % F }) := by
    intro d hd hbefore htarget
    have hscan := second_chance_scan_spec F d (F + 1) s s.sc_next_page (by omega) hd hcur hown
      hdist htarget hbefore
    unfold second_chance_replace
    rw [hscan]
    have hv : (s.sc_next_page + d) % F < F := Nat.mod_lt _ hF
    simp only [hv, if_true]
  have hnotP : ∀ j, ¬ (∀ o, (s.coremap ((s.sc_next_page + j) % F)).owner = some o →
      (s.page_table o).referenced = false) →
      ∀ o, (s.coremap ((s.sc_next_page + j) % F)).owner = some o →
        (s.page_table o).referenced = true := by
    intro j hn o ho
    by_contra hne
    apply hn
    intro o2 ho2
    rw [ho] at ho2
    simp only [Option.some.injEq] at ho2
    subst ho2
    simpa using hne
  by_cases hex : ∃ d, d < F ∧ ∀ o, (s.coremap ((s.sc_next_page + d) % F)).owner = some o →
      (s.page_table o).referenced = false
  · have hd := Nat.find_spec hex
    have hbefore : ∀ j, j < Nat.find hex → ∀ o,
        (s.coremap ((s.sc_next_page + j) % F)).owner = some o →
        (s.page_table o).referenced = true := by
      intro j hj
      apply hnotP
      intro hP
      exact Nat.find_min hex hj ⟨lt_trans hj hd.1, hP⟩
    exact ⟨Nat.find hex, le_of_lt hd.1, hbefore, fun _ => hd.2, fun h => absurd h (ne_of_lt hd.1),
      hfinish _ (le_of_lt hd.1) hbefore (fun _ => hd.2), fun p => rfl, fun p => scanned_iff _ _ _ _ _⟩
  · have hbefore : ∀ j, j < F → ∀ o,
        (s.coremap ((s.sc_next_page + j) % F)).owner = some o →
        (s.page_table o).referenced = true := by
      intro j hj
      apply hnotP
      intro hP
      exact hex ⟨j, hj, hP⟩
    exact ⟨F, le_refl F, hbefore, fun h => absurd h (lt_irrefl F),
      fun _ => by rw [Nat.add_mod_right, Nat.mod_eq_of_lt hcur],
      hfinish F (le_refl F) hbefore (fun h => absurd h (lt_irrefl F)), fun p => rfl,
      fun p => scanned_iff _ _ _ _ _⟩

theorem second_chance_scan_order_witness :
    ∃ d, d ≤ 2 ∧
      (∀ j, j < d → ∀ o, (clock_example.coremap ((clock_example.sc_next_page + j) % 2)).owner
          = some o → (clock_example.page_table o).referenced = true) ∧
      (d < 2 → ∀ o, (clock_example.coremap ((clock_example.sc_next_page + d) % 2)).owner
          = some o → (clock_example.page_table o).referenced = false) ∧
      (d = 2 → (clock_example.sc_next_page + d) % 2 = clock_example.sc_next_page) ∧
      second_chance_replace 2 clock_example
        = some ((clock_example.sc_next_page + d) % 2,
            { clear_scanned 2 clock_example clock_example.sc_next_page d with
              sc_next_page := ((clock_example.sc_next_page + d) % 2 + 1) % 2 }) ∧
      (∀ p, (clear_scanned 2 clock_example clock_example.sc_next_page d).page_table p
        = if scanned 2 clock_example clock_example.sc_next_page d p then
            { clock_example.page_table p with referenced := false }
          else clock_example.page_table p) ∧
      (∀ p, scanned 2 clock_example clock_example.sc_next_page d p = true ↔
        ∃ j, j < d ∧
          (clock_example.coremap ((clock_example.sc_next_page + j) % 2)).owner = some p) :=
  second_chance_scan_order 2 clock_example (by decide)
    (fun f _ => by simp [clock_example])
    (fun f g _ _ h => by simpa [clock_example] using h)

/-! ## Swap slots -/

/-- `take_phys_page` keeps the slots of the pages on disk and hands out a fresh
slot only to a dirty victim without a slot. -/
theorem take_phys_page_slots {F : Nat} {replace : Policy} (hpol : PolicyFrame F replace)
    {s t : Machine} {r : Nat} (hres : Resident F s) (hb : Backed s)
    (h : take_phys_page F replace s = some (r, t)) : SlotStep s t := by
  rcases take_phys_page_cases h with ⟨h0, rfl, rfl⟩ | ⟨hneg, hrep, hnone⟩ |
    ⟨hneg, s1, o, hrep, hown⟩
  · exact ⟨fun p hp => ⟨hp, rfl⟩, Or.inl rfl⟩
  · have hsame := (hpol _ _ _ hrep).2
    exact ⟨fun p hp => ⟨by rw [hsame.ondisk]; exact hp, slot_of_same hsame p⟩,
      Or.inl hsame.count⟩
  · have hsame := (hpol _ _ _ hrep).2
    have hb1 := hb.of_same_bits hsame
    have hr1 := hres.of_same_refs hsame
    obtain ⟨hin, hpage⟩ := hr1.own r o hown
    obtain ⟨-, hfresh, ht⟩ := take_phys_page_evict hneg hrep hown h
    have hslot_o : slot s1 o = (s1.coremap r).page := by simp [slot, hin, hpage]
    have hc := hb1.count_le
    have hlt := SWAP_PAGES_lt_PAGE_FIELD
    have e_in : (t.page_table o).inmemory = false := by rw [ht]; simp
    have e_disk : (t.page_table o).ondisk
        = ((s1.page_table o).ondisk || (s1.page_table o).modified) := by rw [ht]; simp
    have e_page : (t.page_table o).page
        = (if (s1.page_table o).modified && !(s1.page_table o).ondisk then s1.count
           else (s1.coremap r).page) % PAGE_FIELD := by rw [ht]; simp
    have e_ne : ∀ p, p ≠ o → t.page_table p = s1.page_table p := by
      intro p hp; rw [ht]; simp [Function.update_apply, hp]
    have e_cm : t.coremap = s1.coremap := by rw [ht]
    have e_count : t.count =
        if (s1.page_table o).modified && !(s1.page_table o).ondisk then s1.count + 1
        else s1.count := by rw [ht]
    clear ht
    have e_slot : slot t o = (t.page_table o).page := by simp [slot, e_in]
    refine ⟨fun p hp => ?_, ?_⟩
    · have hp1 : (s1.page_table p).ondisk = true := by rw [hsame.ondisk]; exact hp
      rw [← slot_of_same hsame p]
      by_cases hpo : p = o
      · subst hpo
        have hs_lt := hb1.slot_lt p hp1
        refine ⟨by rw [e_disk, hp1]; rfl, ?_⟩
        rw [e_slot, e_page, hp1, hslot_o]
        rw [hslot_o] at hs_lt
        simp only [Bool.not_true, Bool.and_false, Bool.false_eq_true, if_false]
        exact Nat.mod_eq_of_lt (by omega)
      · refine ⟨by rw [e_ne p hpo]; exact hp1, ?_⟩
        unfold slot
        rw [e_ne p hpo, e_cm]
    · cases hM : (s1.page_table o).modified <;> cases hD : (s1.page_table o).ondisk <;>
        simp only [hM, hD, Bool.or_false, Bool.or_true, Bool.and_true, Bool.and_false,
          Bool.not_true, Bool.not_false, Bool.false_eq_true, if_false, if_true, Bool.and_self,
          Bool.false_and, Bool.true_and, true_and, and_true, forall_const, false_and,
          and_false, false_implies] at hfresh e_disk e_page e_count
      · exact Or.inl (e_count.trans hsame.count)
      · exact Or.inl (e_count.trans hsame.count)
      · right
        refine ⟨by rw [e_count, hsame.count], o, ?_, ?_, ?_, e_in, e_disk, ?_⟩
        · rw [← hsame.inmemory]; exact hin
        · rw [← hsame.modified]; exact hM
        · rw [← hsame.ondisk]; exact hD
        · rw [e_slot, e_page, ← hsame.count]
          exact Nat.mod_eq_of_lt (by omega)
      · exact Or.inl (e_count.trans hsame.count)

/-- `pagefault` keeps the slots of the pages on disk and hands out a fresh slot
only to a dirty victim without a slot. -/
theorem pagefault_slots {F : Nat} {replace : Policy} (hpol : PolicyFrame F replace)
    (hF27 : F ≤ PAGE_FIELD) {s t : Machine} {v : Nat} (hres : Resident F s) (hb : Backed s)
    (hv : (s.page_table v).inmemory = false) (h : pagefault F replace s v = some t) :
    SlotStep s t := by
  obtain ⟨phys, s1, htake, ht⟩ := pagefault_some h
  have hv1 : (s1.page_table v).inmemory = false := take_phys_page_inmemory hpol htake v hv
  have hfree : ResidentFree F s1 phys :=
    take_phys_page_free hpol (s := { s with num_pagefault := s.num_pagefault + 1 })
      ⟨hres.res, hres.own, hres.cold, hres.unused⟩ htake
  have hstep : SlotStep s s1 := by
    have := take_phys_page_slots hpol
      (s := { s with num_pagefault := s.num_pagefault + 1 })
      ⟨hres.res, hres.own, hres.cold, hres.unused⟩
      ⟨hb.count_le, hb.slot_lt, hb.slot_inj, hb.clean⟩ htake
    exact ⟨this.kept, this.alloc⟩
  have hmod : phys % PAGE_FIELD = phys := Nat.mod_eq_of_lt (lt_of_lt_of_le hfree.lt hF27)
  have e_in : (t.page_table v).inmemory = true := by rw [ht]; simp
  have e_page : (t.page_table v).page = phys := by rw [ht]; simp [hmod]
  have e_disk : (t.page_table v).ondisk = (s1.page_table v).ondisk := by rw [ht]; simp
  have e_ne : ∀ p, p ≠ v → t.page_table p = s1.page_table p := by
    intro p hp; rw [ht]; simp [Function.update_apply, hp]
  have e_cm : (t.coremap phys).page
      = if (s1.page_table v).ondisk then (s1.page_table v).page else 0 := by rw [ht]; simp
  have e_cm_ne : ∀ f, f ≠ phys → t.coremap f = s1.coremap f := by
    intro f hf; rw [ht]; simp [Function.update_apply, hf]
  have e_count : t.count = s1.count := by rw [ht]
  clear ht
  have hslot_v : (s1.page_table v).ondisk = true → slot t v = slot s1 v := by
    intro hd
    simp [slot, e_in, e_page, e_cm, hd, hv1]
  have hslot_ne : ∀ p, p ≠ v → slot t p = slot s1 p := by
    intro p hp
    unfold slot
    rw [e_ne p hp]
    cases hin : (s1.page_table p).inmemory with
    | false => simp
    | true =>
      simp only [if_true]
      rw [e_cm_ne _ (hfree.res p hin).2.1]
  refine ⟨fun p hp => ?_, ?_⟩
  · obtain ⟨hd1, hs1⟩ := hstep.kept p hp
    rw [← hs1]
    by_cases hpv : p = v
    · subst hpv
      exact ⟨by rw [e_disk]; exact hd1, hslot_v hd1⟩
    · exact ⟨by rw [e_ne p hpv]; exact hd1, hslot_ne p hpv⟩
  · rcases hstep.alloc with hc | ⟨hc, o, ho1, ho2, ho3, ho4, ho5, ho6⟩
    · exact Or.inl (e_count.trans hc)
    · have hov : o ≠ v := by
        rintro rfl
        rw [hv] at ho1
        exact absurd ho1 (by simp)
      refine Or.inr ⟨e_count.trans hc, o, ho1, ho2, ho3, ?_, ?_, ?_⟩
      · rw [e_ne o hov]; exact ho4
      · rw [e_ne o hov]; exact ho5
      · rw [hslot_ne o hov]; exact ho6

/-- A completed `translate` keeps the slots of the pages on disk and hands out a
fresh slot only to a dirty victim without a slot. -/
theorem translate_slots {F : Nat} {replace : Policy} (hpol : PolicyFrame F replace)
    (hF27 : F ≤ PAGE_FIELD) {s t : Machine} {a pa : Nat} {w : Bool} (hres : Resident F s)
    (hb : Backed s) (h : translate F replace s a w = some (pa, t)) : SlotStep s t := by
  obtain ⟨m, hm, f_in, f_page, f_disk, -, -, -, -, f_cm, f_count, -⟩ := translate_fields h
  have hm2 : SlotStep s m := by
    split at hm
    · rename_i hv
      have := pagefault_slots hpol hF27
        (s := { s with num_memoryaccesses := s.num_memoryaccesses + 1 })
        ⟨hres.res, hres.own, hres.cold, hres.unused⟩
        ⟨hb.count_le, hb.slot_lt, hb.slot_inj, hb.clean⟩ hv hm
      exact ⟨this.kept, this.alloc⟩
    · simp only [Option.some.injEq] at hm
      subst hm
      exact ⟨fun p hp => ⟨hp, rfl⟩, Or.inl rfl⟩
  have hslot : ∀ p, slot t p = slot m p := by
    intro p
    unfold slot
    rw [f_in, f_page, f_cm]
  refine ⟨fun p hp => ?_, ?_⟩
  · rw [f_disk, hslot]
    exact hm2.kept p hp
  · rcases hm2.alloc with hc | ⟨hc, o, ho1, ho2, ho3, ho4, ho5, ho6⟩
    · exact Or.inl (f_count.trans hc)
    · exact Or.inr ⟨f_count.trans hc, o, ho1, ho2, ho3, by rw [f_in]; exact ho4,
        by rw [f_disk]; exact ho5, by rw [hslot]; exact ho6⟩

/-- A completed access keeps the slots of the pages on disk and hands out a
fresh slot only to a dirty victim without a slot. -/
theorem access_slots {F : Nat} {replace : Policy} (hpol : PolicyFrame F replace)
    (hF27 : F ≤ PAGE_FIELD) {s t : Machine} {x : Access} {r : Nat} (hres : Resident F s)
    (hb : Backed s) (h : access F replace s x = some (r, t)) : SlotStep s t := by
  cases x with
  | read a =>
    simp only [access, read_memory] at h
    split at h
    · exact absurd h (by simp)
    · rename_i pa u hu
      simp only [Option.some.injEq, Prod.mk.injEq] at h
      obtain ⟨-, rfl⟩ := h
      exact translate_slots hpol hF27 hres hb hu
  | write a d =>
    simp only [access, write_memory] at h
    split at h
    · exact absurd h (by simp)
    · rename_i s1 hs1
      split at hs1
      · exact absurd hs1 (by simp)
      · rename_i pa u hu
        simp only [Option.some.injEq] at hs1
        simp only [Option.some.injEq, Prod.mk.injEq] at h
        obtain ⟨-, rfl⟩ := h
        subst hs1
        have := translate_slots hpol hF27 hres hb hu
        exact ⟨this.kept, this.alloc⟩
  | xlate a w => exact translate_slots hpol hF27 hres hb h

/-- Along a completed run, a page on disk stays on disk with the same slot, and
every slot handed out during the run belongs to a page that had no slot when
the run started. -/
theorem run_slots {F : Nat} {replace : Policy} (hpol : PolicyFrame F replace)
    (hF27 : F ≤ PAGE_FIELD) :
    ∀ (accs : List Access) (s t : Machine), Resident F s → Backed s →
      run F replace s accs = some t →
      (∀ p, (s.page_table p).ondisk = true →
        (t.page_table p).ondisk = true ∧ slot t p = slot s p) ∧
      s.count ≤ t.count ∧
      (∀ k, s.count ≤ k → k < t.count →
        ∃ p, (s.page_table p).ondisk = false ∧ (t.page_table p).ondisk = true ∧
          slot t p = k) := by
  intro accs
  induction accs with
  | nil =>
    intro s t _ _ h
    simp only [run, Option.some.injEq] at h
    subst h
    exact ⟨fun p hp => ⟨hp, rfl⟩, le_refl _, fun k h1 h2 => absurd h2 (by omega)⟩
  | cons x rest ih =>
    intro s t hres hb h
    simp only [run] at h
    split at h
    · exact absurd h (by simp)
    · rename_i r s1 hacc
      have hstep := access_slots hpol hF27 hres hb hacc
      obtain ⟨ih1, ih2, ih3⟩ := ih s1 t (access_resident hpol hF27 hres hacc)
        (access_backed hpol hF27 hres hb hacc).1 h
      have hkept : ∀ p, (s.page_table p).ondisk = true →
          (t.page_table p).ondisk = true ∧ slot t p = slot s p := by
        intro p hp
        obtain ⟨h1, h2⟩ := hstep.kept p hp
        obtain ⟨h3, h4⟩ := ih1 p h1
        exact ⟨h3, h4.trans h2⟩
      have hle : s.count ≤ s1.count := by
        rcases hstep.alloc with hc | ⟨hc, -⟩ <;> omega
      refine ⟨hkept, by omega, fun k hk1 hk2 => ?_⟩
      by_cases hk : s1.count ≤ k
      · obtain ⟨p, hp1, hp2, hp3⟩ := ih3 k hk hk2
        refine ⟨p, ?_, hp2, hp3⟩
        cases hd : (s.page_table p).ondisk with
        | false => rfl
        | true =>
          rw [(hstep.kept p hd).1] at hp1
          exact absurd hp1 (by simp)
      · rcases hstep.alloc with hc | ⟨hc, o, -, -, ho3, -, ho5, ho6⟩
        · omega
        · obtain ⟨h3, h4⟩ := ih1 o ho5
          exact ⟨o, ho3, h3, by rw [h4, ho6]; omega⟩

/-- The eviction of a page that is on disk: no slot is handed out, and the
write-back of a dirty page goes to the slot of the page. -/
theorem take_phys_page_on_disk {F : Nat} {replace : Policy} (hpol : PolicyFrame F replace)
    {s s1 t : Machine} {f o r : Nat} (hres : Resident F s) (hb : Backed s)
    (hneg : s.next_unused_page < 0) (hrep : replace s = some (f, s1))
    (hown : (s.coremap f).owner = some o) (hd : (s.page_table o).ondisk = true)
    (h : take_phys_page F replace s = some (r, t)) :
    r = f ∧ slot s o = (s.coremap f).page ∧ t.count = s.count ∧
      (t.page_table o).inmemory = false ∧ (t.page_table o).ondisk = true ∧
      (t.page_table o).page = slot s o ∧
      t.swap = (if (s.page_table o).modified then
          memcpy s.swap (slot s o * PAGESIZE) s.memory (f * PAGESIZE) PAGESIZE
        else s.swap) ∧
      t.num_diskwrites = (if (s.page_table o).modified then s.num_diskwrites + 1
        else s.num_diskwrites) := by
  have hsame := (hpol _ _ _ hrep).2
  have hneg2 : ¬ 0 ≤ s.next_unused_page := by omega
  have hown1 : (s1.coremap f).owner = some o := by rw [hsame.coremap]; exact hown
  obtain ⟨hin, hpage⟩ := hres.own f o hown
  have hslot : slot s o = (s.coremap f).page := by simp [slot, hin, hpage]
  have hlt := hb.slot_lt o hd
  have hc := hb.count_le
  have h27 := SWAP_PAGES_lt_PAGE_FIELD
  have hmodlt : (s.coremap f).page % PAGE_FIELD = (s.coremap f).page :=
    Nat.mod_eq_of_lt (by rw [hslot] at hlt; omega)
  obtain ⟨hr, -, rfl⟩ := take_phys_page_evict hneg2 hrep hown1 h
  have hd1 : (s1.page_table o).ondisk = true := by rw [hsame.ondisk]; exact hd
  have hm1 : (s1.page_table o).modified = (s.page_table o).modified := hsame.modified o
  refine ⟨hr, hslot, ?_, ?_, ?_, ?_, ?_, ?_⟩ <;>
    cases hm : (s.page_table o).modified <;>
    simp [hd1, hm1, hm, hsame.count, hsame.coremap, hsame.swap, hsame.memory,
      hsame.num_diskwrites, hslot, hmodlt]

/-- The fault of a page that is on disk loads the words of the slot of the page
and leaves the page with that slot. -/
theorem pagefault_on_disk {F : Nat} {replace : Policy} (hpol : PolicyFrame F replace)
    (hF27 : F ≤ PAGE_FIELD) {s t : Machine} {v : Nat} (hres : Resident F s) (hb : Backed s)
    (hv : (s.page_table v).inmemory = false) (hd : (s.page_table v).ondisk = true)
    (h : pagefault F replace s v = some t) :
    (t.page_table v).inmemory = true ∧ (t.page_table v).ondisk = true ∧
      slot t v = slot s v ∧
      (∀ i, i < PAGESIZE → t.memory ((t.page_table v).page * PAGESIZE + i)
        = s.swap (slot s v * PAGESIZE + i)) ∧
      t.num_diskreads = s.num_diskreads + 1 := by
  obtain ⟨hk1, hk2⟩ := (pagefault_slots hpol hF27 hres hb hv h).kept v hd
  have hslot : slot s v = (s.page_table v).page := by simp [slot, hv]
  obtain ⟨f, s1, htake, ht⟩ := pagefault_some h
  have hdr : s1.num_diskreads = s.num_diskreads := (take_phys_page_counters hpol htake).2.2
  have hd1 : (s1.page_table v).ondisk = true := by
    rw [(take_phys_page_other hpol (s := { s with num_pagefault := s.num_pagefault + 1 })
      ⟨hres.res, hres.own, hres.cold, hres.unused⟩ htake v hv).1]
    exact hd
  have htin : (t.page_table v).inmemory = true := by rw [ht]; simp
  refine ⟨htin, hk1, hk2, fun i hi => ?_, by rw [ht]; simp [hd1, hdr]⟩
  have hvm := (pagefault_backed hpol hF27 hres hb hv h).2 (v * PAGESIZE + i)
  have hdiv : (v * PAGESIZE + i) / PAGESIZE = v := by
    rw [PAGESIZE_eq] at *
    omega
  have hrem : (v * PAGESIZE + i) % PAGESIZE = i := by
    rw [PAGESIZE_eq] at *
    omega
  unfold vmem at hvm
  rw [hdiv, hrem, htin, hv, hd] at hvm
  rw [hslot]
  simpa using hvm

/-- C17 (swap slot reuse): let `s` be a state reached from the initial state by
completed accesses and `t` a state reached from `s` by further completed
accesses, with `0 < F ≤ 2^27` frames and a policy that touches only reference
bits and cursors.  A page `p` with `ondisk = 1` and slot `sl` in `s` still has
`ondisk = 1` and the slot `sl` in `t`; an eviction of `p` by `take_phys_page`
in `t` (with whatever values of the two access counters) hands out no slot,
leaves `p` with the slot `sl`, writes the frame to the slot `sl` and to no other
slot when `p` is dirty, and leaves the swap area alone when `p` is clean; a
`pagefault` of `p` in `t` loads the words of the slot `sl`, with one disk read,
and leaves `p` with the slot `sl`.  The slot counter does not decrease, and
every slot handed out between `s` and `t` is the slot of a page that had
`ondisk = 0` in `s`.  One access from `t` hands out at most one slot, the old
value of the counter, and only to a page that was resident, dirty and with
`ondisk = 0` and that the access has evicted. -/
theorem swap_slot_reuse (F : Nat) (replace : Policy) (hF : 0 < F) (hF27 : F ≤ PAGE_FIELD)
    (hpol : PolicyFrame F replace) (pre accs : List Access) (s t : Machine)
    (h0 : run F replace init_machine pre = some s) (h1 : run F replace s accs = some t) :
    (∀ p, (s.page_table p).ondisk = true →
      (t.page_table p).ondisk = true ∧ slot t p = slot s p ∧
      (∀ (a b f r : Nat) (t1 u : Machine), t.next_unused_page < 0 →
        replace { t with num_memoryaccesses := a, num_pagefault := b } = some (f, t1) →
        (t.coremap f).owner = some p →
        take_phys_page F replace { t with num_memoryaccesses := a, num_pagefault := b }
          = some (r, u) →
        r = f ∧ u.count = t.count ∧
        (u.page_table p).inmemory = false ∧ (u.page_table p).ondisk = true ∧
        slot u p = slot s p ∧
        ((t.page_table p).modified = true →
          (∀ i, i < PAGESIZE →
            u.swap (slot s p * PAGESIZE + i) = t.memory (f * PAGESIZE + i)) ∧
          (∀ k, k ≠ slot s p → ∀ i, i < PAGESIZE →
            u.swap (k * PAGESIZE + i) = t.swap (k * PAGESIZE + i))) ∧
        ((t.page_table p).modified = false → u.swap = t.swap)) ∧
      (∀ (a : Nat) (u : Machine), (t.page_table p).inmemory = false →
        pagefault F replace { t with num_memoryaccesses := a } p = some u →
        (u.page_table p).inmemory = true ∧ (u.page_table p).ondisk = true ∧
        slot u p = slot s p ∧
        (∀ i, i < PAGESIZE →
          u.memory ((u.page_table p).page * PAGESIZE + i) = t.swap (slot s p * PAGESIZE + i)) ∧
        u.num_diskreads = t.num_diskreads + 1)) ∧
    s.count ≤ t.count ∧
    (∀ k, s.count ≤ k → k < t.count →
      ∃ q, (s.page_table q).ondisk = false ∧ (t.page_table q).ondisk = true ∧ slot t q = k) ∧
    (∀ (x : Access) (r : Nat) (u : Machine), access F replace t x = some (r, u) →
      u.count = t.count ∨
      (u.count = t.count + 1 ∧ ∃ o, (t.page_table o).inmemory = true ∧
        (t.page_table o).modified = true ∧ (t.page_table o).ondisk = false ∧
        (u.page_table o).inmemory = false ∧ (u.page_table o).ondisk = true ∧
        slot u o = t.count)) := by
  obtain ⟨hrs, hbs⟩ := run_backed hpol hF27 pre init_machine s (init_resident hF) init_backed h0
  obtain ⟨hrt, hbt⟩ := run_backed hpol hF27 accs s t hrs hbs h1
  obtain ⟨hkept, hle, hfresh⟩ := run_slots hpol hF27 accs s t hrs hbs h1
  refine ⟨fun p hp => ?_, hle, hfresh, fun x r u hx => (access_slots hpol hF27 hrt hbt hx).alloc⟩
  obtain ⟨hpt, hslot⟩ := hkept p hp
  refine ⟨hpt, hslot, fun a b f r t1 u hneg hrep hown htake => ?_, fun a u hnot hpf => ?_⟩
  · obtain ⟨hr, -, hcount, hin, hdisk, hpage, hswap, -⟩ := take_phys_page_on_disk hpol
      (s := { t with num_memoryaccesses := a, num_pagefault := b })
      ⟨hrt.res, hrt.own, hrt.cold, hrt.unused⟩
      ⟨hbt.count_le, hbt.slot_lt, hbt.slot_inj, hbt.clean⟩ hneg hrep hown hpt htake
    have hst : slot ({ t with num_memoryaccesses := a, num_pagefault := b } : Machine) p
        = slot s p := hslot
    rw [hst] at hpage hswap
    refine ⟨hr, hcount, hin, hdisk, by simp [slot, hin, hpage], fun hm => ?_, fun hm => ?_⟩
    · rw [hswap]
      simp only [hm, if_true]
      refine ⟨fun i hi => ?_, fun k hk i hi => ?_⟩
      · rw [memcpy_apply, if_pos (in_block hi), Nat.add_sub_cancel_left]
      · rw [memcpy_apply, if_neg (not_in_block hk hi)]
    · rw [hswap]
      simp [hm]
  · obtain ⟨hin, hdisk, hsl, hmem, hdr⟩ := pagefault_on_disk hpol hF27
      (s := { t with num_memoryaccesses := a })
      ⟨hrt.res, hrt.own, hrt.cold, hrt.unused⟩
      ⟨hbt.count_le, hbt.slot_lt, hbt.slot_inj, hbt.clean⟩ hnot hpt hpf
    have hst : slot ({ t with num_memoryaccesses := a } : Machine) p = slot s p := hslot
    rw [hst] at hsl hmem
    exact ⟨hin, hdisk, hsl, hmem, hdr⟩

theorem swap_slot_reuse_witness :
    ∃ s t, run 2 (fifo_page_replace 2) init_machine [.write 0 5, .write 4 6, .write 8 7]
        = some s ∧
      run 2 (fifo_page_replace 2) s [.write 1 9, .read 4, .read 8] = some t ∧
      (s.page_table 0).ondisk = true ∧ s.count = 1 ∧ t.count = 3 ∧
      (t.page_table 0).ondisk = true ∧ slot t 0 = slot s 0 ∧
      (∀ k, s.count ≤ k → k < t.count →
        ∃ q, (s.page_table q).ondisk = false ∧ (t.page_table q).ondisk = true ∧
          slot t q = k) := by
  have hsome : ((run 2 (fifo_page_replace 2) init_machine
      [.write 0 5, .write 4 6, .write 8 7]).bind (fun s =>
        run 2 (fifo_page_replace 2) s [.write 1 9, .read 4, .read 8])).isSome = true := by
    decide
  have hflags : (run 2 (fifo_page_replace 2) init_machine
      [.write 0 5, .write 4 6, .write 8 7]).map
        (fun s => ((s.page_table 0).ondisk, s.count)) = some (true, 1) := by decide
  have hcount : ((run 2 (fifo_page_replace 2) init_machine
      [.write 0 5, .write 4 6, .write 8 7]).bind (fun s =>
        run 2 (fifo_page_replace 2) s [.write 1 9, .read 4, .read 8])).map
        (fun t => t.count) = some 3 := by decide
  obtain ⟨t, hc⟩ := Option.isSome_iff_exists.mp hsome
  obtain ⟨s, hs, ht⟩ := Option.bind_eq_some.mp hc
  rw [hs] at hflags
  rw [hc] at hcount
  simp only [Option.map_some', Option.some.injEq, Prod.mk.injEq] at hflags hcount
  obtain ⟨hkept, -, hfresh, -⟩ := swap_slot_reuse 2 (fifo_page_replace 2) (by decide)
    (by decide) (fifo_policy_frame 2) _ _ s t hs ht
  obtain ⟨h1, h2, -⟩ := hkept 0 hflags.1
  exact ⟨s, t, hs, ht, hflags.1, hflags.2, hcount, h1, h2, hfresh⟩

/-! ## The optimal policy -/

/-- With the residency invariant, the scan of `optimal_page_replace` looks up
the frame index `i` in the trace, whatever page owns the frame. -/
theorem optimal_scan_frames {F : Nat} {s : Machine} (hs : Resident F s) (start : Nat) :
    ∀ (n i : Nat) (acc : Nat × Nat), (∀ f, i ≤ f → f < i + n → (s.coremap f).owner ≠ none) →
      optimal_scan s start n i acc
        = some ((List.range n).foldl (fun a j =>
            if optimal_distance start (i + j) > a.1 then (optimal_distance start (i + j), i + j)
            else a) acc) := by
  intro n
  induction n with
  | zero => intro i acc _; rfl
  | succ n ih =>
    intro i acc hown
    obtain ⟨md, mi⟩ := acc
    unfold optimal_scan
    cases ho : (s.coremap i).owner with
    | none => exact absurd ho (hown i (le_refl _) (by omega))
    | some o =>
      have hpage : (s.page_table o).page = i := (hs.own i o ho).2
      simp only [hpage]
      rw [ih (i + 1) _ (fun f h1 h2 => hown f (by omega) (by omega))]
      rw [List.range_succ_eq_map, List.foldl_cons, List.foldl_map]
      simp only [Nat.add_zero, Nat.succ_eq_add_one]
      have hfun : (fun (a : Nat × Nat) (j : Nat) =>
          if optimal_distance start (i + 1 + j) > a.1 then
            (optimal_distance start (i + 1 + j), i + 1 + j) else a)
          = (fun (a : Nat × Nat) (j : Nat) =>
          if optimal_distance start (i + (j + 1)) > a.1 then
            (optimal_distance start (i + (j + 1)), i + (j + 1)) else a) := by
        funext a j
        rw [show i + 1 + j = i + (j + 1) by omega]
      rw [hfun]

/-- With the residency invariant and all frames owned, the frame returned by
`optimal_page_replace` depends on the access counter only, not on the pages
that are resident. -/
theorem optimal_page_replace_frames {F : Nat} {s t : Machine} (hs : Resident F s)
    (ht : Resident F t) (hso : ∀ f, f < F → (s.coremap f).owner ≠ none)
    (hto : ∀ f, f < F → (t.coremap f).owner ≠ none)
    (hacc : t.num_memoryaccesses = s.num_memoryaccesses) :
    (optimal_page_replace F t).map Prod.fst = (optimal_page_replace F s).map Prod.fst := by
  unfold optimal_page_replace
  simp only [hacc]
  rw [optimal_scan_frames hs _ F 0 (0, 0) (fun f _ h => hso f (by omega)),
    optimal_scan_frames ht _ F 0 (0, 0) (fun f _ h => hto f (by omega))]
  rfl

set_option maxRecDepth 8000 in
/-- C21 (optimal policy), evaluated where the code departs from it: after reads
of the pages 7, 0, 1, ..., 6 the eight frames are owned by these pages in this
order, and the fault of the ninth access (trace position 8, of 225) calls the
policy.  Page 7 in frame 0 does not occur in the trace again, page 6 in frame 7
occurs next at distance 16; `optimal_page_replace` returns frame 7, while the
frame whose resident virtual page has its next occurrence farthest away is
frame 0.  The code looks up `owner->page`, the frame index, in the trace. -/
theorem optimal_compares_frame_indices :
    (at_replace RAM_PAGES (optimal_page_replace RAM_PAGES)
      [.read 28, .read 0, .read 4, .read 8, .read 12, .read 16, .read 20, .read 24,
        .read 80]).bind (fun s =>
        (optimal_page_replace RAM_PAGES s).map (fun r =>
          (r.1, s.num_memoryaccesses, (List.range RAM_PAGES).map (fun f => (s.coremap f).owner),
           [(farthest_frame s 8 RAM_PAGES).map Prod.fst, next_occurrence 8 7,
            next_occurrence 8 6])))
      = some (7, 9, [some 7, some 0, some 1, some 2, some 3, some 4, some 5, some 6],
          [some 0, none, some 16]) := by
  decide

/-! ## Instruction words -/

theorem WORD_eq : WORD = 4294967296 := rfl

/-- The instruction word as the sum of its four fields. -/
theorem make_instr_eq {opcode dest s1 : Nat} (s2 : Nat) (ho : opcode < 64) (hd : dest < 32)
    (hs : s1 < 32) :
    make_instr opcode dest s1 s2 = 2 ^ 26 * opcode + 2 ^ 21 * dest + 2 ^ 16 * s1 + s2 % 2 ^ 16 := by
  have h4 : s2 &&& 0xffff = s2 % 2 ^ 16 := Nat.and_pow_two_sub_one_eq_mod s2 16
  have h1 : (opcode <<< 26) % WORD = 2 ^ 26 * opcode := by
    rw [Nat.shiftLeft_eq, WORD_eq]
    omega
  have h2 : (dest <<< 21) % WORD = 2 ^ 21 * dest := by
    rw [Nat.shiftLeft_eq, WORD_eq]
    omega
  have h3 : (s1 <<< 16) % WORD = 2 ^ 16 * s1 := by
    rw [Nat.shiftLeft_eq, WORD_eq]
    omega
  have hlt : s2 % 2 ^ 16 < 2 ^ 16 := Nat.mod_lt _ (by decide)
  unfold make_instr
  rw [h1, h2, h3, h4]
  have e1 : 2 ^ 26 * opcode ||| 2 ^ 21 * dest = 2 ^ 26 * opcode + 2 ^ 21 * dest :=
    (Nat.mul_add_lt_is_or (by omega) opcode).symm
  have e2 : (2 ^ 26 * opcode + 2 ^ 21 * dest) ||| 2 ^ 16 * s1
      = 2 ^ 26 * opcode + 2 ^ 21 * dest + 2 ^ 16 * s1 := by
    have h := Nat.mul_add_lt_is_or (i := 21) (b := 2 ^ 16 * s1) (by omega) (32 * opcode + dest)
    have h21 : 2 ^ 21 * (32 * opcode + dest) = 2 ^ 26 * opcode + 2 ^ 21 * dest := by omega
    rw [h21] at h
    exact h.symm
  have e3 : (2 ^ 26 * opcode + 2 ^ 21 * dest + 2 ^ 16 * s1) ||| s2 % 2 ^ 16
      = 2 ^ 26 * opcode + 2 ^ 21 * dest + 2 ^ 16 * s1 + s2 % 2 ^ 16 := by
    have h := Nat.mul_add_lt_is_or (i := 16) (b := s2 % 2 ^ 16) hlt
      (1024 * opcode + 32 * dest + s1)
    have h16 : 2 ^ 16 * (1024 * opcode + 32 * dest + s1)
        = 2 ^ 26 * opcode + 2 ^ 21 * dest + 2 ^ 16 * s1 := by omega
    rw [h16] at h
    exact h.symm
  rw [e1, e2, e3]

theorem extract_dest_eq (w : Nat) : extract_dest w = w / 2 ^ 21 % 32 := by
  unfold extract_dest
  rw [Nat.shiftRight_eq_div_pow]
  exact Nat.and_pow_two_sub_one_eq_mod _ 5

theorem extract_source1_eq (w : Nat) : extract_source1 w = w / 2 ^ 16 % 32 := by
  unfold extract_source1
  rw [Nat.shiftRight_eq_div_pow]
  exact Nat.and_pow_two_sub_one_eq_mod _ 5

theorem extract_opcode_eq (w : Nat) : extract_opcode w = w / 2 ^ 26 := by
  unfold extract_opcode
  rw [Nat.shiftRight_eq_div_pow]

theorem extract_constant_eq (w : Nat) : extract_constant w = to_short w := by
  unfold extract_constant
  have h : w &&& 0xffff = w % 2 ^ 16 := Nat.and_pow_two_sub_one_eq_mod w 16
  rw [h]
  unfold to_short
  rw [Nat.mod_mod]

/-- The 16-bit two's complement reading of the encoding of a 16-bit integer. -/
theorem to_short_to_unsigned (imm : Int) (h1 : -32768 ≤ imm) (h2 : imm ≤ 32767) :
    to_short (to_unsigned imm) = imm := by
  unfold to_short to_unsigned
  rw [WORD_eq]
  have hnn : 0 ≤ imm % ((4294967296 : Nat) : Int) := Int.emod_nonneg _ (by decide)
  have hcast : (((imm % ((4294967296 : Nat) : Int)).toNat : Nat) : Int)
      = imm % ((4294967296 : Nat) : Int) := Int.toNat_of_nonneg hnn
  have hm : ((((imm % ((4294967296 : Nat) : Int)).toNat % 2 ^ 16 : Nat)) : Int)
      = imm % 65536 := by
    rw [Int.natCast_mod, hcast]
    norm_num
  split
  · rename_i hlt
    have : ((((imm % ((4294967296 : Nat) : Int)).toNat % 2 ^ 16 : Nat)) : Int) < 32768 := by
      exact_mod_cast hlt
    rw [hm] at this ⊢
    omega
  · rename_i hlt
    have : ¬ ((((imm % ((4294967296 : Nat) : Int)).toNat % 2 ^ 16 : Nat)) : Int) < 32768 := by
      intro h
      exact hlt (by exact_mod_cast h)
    rw [hm] at this ⊢
    omega

/-- C22 (instruction word round trip): for `opcode < 64`, `dest < 32`, `s1 < 32`
and a 32-bit `s2`, the word `w = make_instr(opcode, dest, s1, s2)` is a 32-bit
value with `extract_opcode(w) = opcode`, `extract_dest(w) = dest`,
`extract_source1(w) = s1`, and `extract_constant(w)` is the low 16 bits of `s2`
read as a two's complement 16-bit integer; so it is `imm` when `s2` is the
32-bit encoding of an integer `-32768 ≤ imm ≤ 32767`. -/
theorem instr_round_trip (opcode dest s1 s2 : Nat) (ho : opcode < 64) (hd : dest < 32)
    (hs : s1 < 32) (_h2 : s2 < WORD) :
    make_instr opcode dest s1 s2 < WORD ∧
    extract_opcode (make_instr opcode dest s1 s2) = opcode ∧
    extract_dest (make_instr opcode dest s1 s2) = dest ∧
    extract_source1 (make_instr opcode dest s1 s2) = s1 ∧
    extract_constant (make_instr opcode dest s1 s2)
      = (if s2 % 2 ^ 16 < 2 ^ 15 then ((s2 % 2 ^ 16 : Nat) : Int)
         else ((s2 % 2 ^ 16 : Nat) : Int) - 2 ^ 16) ∧
    (∀ imm : Int, -32768 ≤ imm → imm ≤ 32767 → s2 = to_unsigned imm →
      extract_constant (make_instr opcode dest s1 s2) = imm) := by
  have hw := make_instr_eq s2 ho hd hs
  have hlt : s2 % 2 ^ 16 < 2 ^ 16 := Nat.mod_lt _ (by decide)
  have hc : extract_constant (make_instr opcode dest s1 s2) = to_short s2 := by
    rw [extract_constant_eq, hw]
    unfold to_short
    have : (2 ^ 26 * opcode + 2 ^ 21 * dest + 2 ^ 16 * s1 + s2 % 2 ^ 16) % 2 ^ 16
        = s2 % 2 ^ 16 := by omega
    rw [this]
  refine ⟨?_, ?_, ?_, ?_, ?_, ?_⟩
  · rw [hw, WORD_eq]; omega
  · rw [extract_opcode_eq, hw]; omega
  · rw [extract_dest_eq, hw]; omega
  · rw [extract_source1_eq, hw]; omega
  · rw [hc]; rfl
  · intro imm h1 h2 himm
    rw [hc, himm]
    exact to_short_to_unsigned imm h1 h2

theorem instr_round_trip_witness :
    make_instr 1 2 3 4294967291 < WORD ∧
    extract_opcode (make_instr 1 2 3 4294967291) = 1 ∧
    extract_dest (make_instr 1 2 3 4294967291) = 2 ∧
    extract_source1 (make_instr 1 2 3 4294967291) = 3 ∧
    extract_constant (make_instr 1 2 3 4294967291) = -5 := by
  obtain ⟨h0, h1, h2, h3, -, h5⟩ :=
    instr_round_trip 1 2 3 4294967291 (by decide) (by decide) (by decide) (by decide)
  exact ⟨h0, h1, h2, h3, h5 (-5) (by decide) (by decide) (by decide)⟩

/-! ## The executor -/

theorem to_unsigned_lt (i : Int) : to_unsigned i < WORD := by
  unfold to_unsigned
  rw [WORD_eq]
  omega

/-- The `unsigned` value of an `int` depends on the `int` modulo `2^32` only. -/
theorem to_unsigned_congr {i j : Int} (h : i % (WORD : Int) = j % (WORD : Int)) :
    to_unsigned i = to_unsigned j := by
  unfold to_unsigned
  rw [h]

theorem to_unsigned_natCast (n : Nat) : to_unsigned (n : Int) = n % WORD := by
  unfold to_unsigned
  rw [WORD_eq]
  omega

theorem to_int_emod (x : Nat) : to_int x % (WORD : Int) = (x : Int) % (WORD : Int) := by
  unfold to_int
  rw [WORD_eq]
  split <;> omega

theorem to_unsigned_to_int (x : Nat) : to_unsigned (to_int x) = x % WORD := by
  rw [← to_unsigned_natCast]
  exact to_unsigned_congr (to_int_emod x)

theorem to_int_of_lt {x : Nat} (h : x < 2 ^ 31) : to_int x = (x : Int) := by
  unfold to_int
  rw [WORD_eq]
  have : x % 4294967296 = x := Nat.mod_eq_of_lt (by omega)
  rw [this, if_pos h]

/-- The wrap-around of `int` arithmetic is invisible after the conversion to
`unsigned`. -/
theorem to_unsigned_int_wrap (i : Int) : to_unsigned (int_wrap i) = to_unsigned i := by
  unfold int_wrap
  rw [to_unsigned_to_int, Nat.mod_eq_of_lt (to_unsigned_lt i)]

theorem to_int_inj {a b : Nat} (ha : a < WORD) (hb : b < WORD) : to_int a = to_int b ↔ a = b := by
  unfold to_int
  rw [WORD_eq] at *
  constructor
  · intro h
    split at h <;> split at h <;> omega
  · rintro rfl
    rfl

theorem to_unsigned_add (a b : Nat) : to_unsigned (to_int a + to_int b) = (a + b) % WORD := by
  rw [← to_unsigned_natCast]
  apply to_unsigned_congr
  rw [Int.add_emod, to_int_emod, to_int_emod, ← Int.add_emod, Int.natCast_add]

theorem to_unsigned_mul (a b : Nat) : to_unsigned (to_int a * to_int b) = (a * b) % WORD := by
  rw [← to_unsigned_natCast]
  apply to_unsigned_congr
  rw [Int.mul_emod, to_int_emod, to_int_emod, ← Int.mul_emod, Int.natCast_mul]

theorem to_unsigned_sub (a b : Nat) :
    to_unsigned (to_int a - to_int b) = to_unsigned ((a : Int) - (b : Int)) := by
  apply to_unsigned_congr
  rw [Int.sub_emod, to_int_emod, to_int_emod, ← Int.sub_emod]

theorem to_unsigned_add_const (a : Nat) (c : Int) :
    to_unsigned (to_int a + c) = to_unsigned ((a : Int) + c) := by
  apply to_unsigned_congr
  rw [Int.add_emod, to_int_emod, ← Int.add_emod]

theorem to_unsigned_sub_const (a : Nat) (c : Int) :
    to_unsigned (to_int a - c) = to_unsigned ((a : Int) - c) := by
  apply to_unsigned_congr
  rw [Int.sub_emod, to_int_emod, ← Int.sub_emod]

theorem to_unsigned_int_of_bool (b : Bool) :
    to_unsigned (int_of_bool b) = if b then 1 else 0 := by
  cases b <;> rfl

/-! The `switch`, case by case. -/

theorem exec_switch_ADD {σ : Type} (rd : Reader σ) (wr : Writer σ) (cpu : cpu_t) (l : locals_t)
    (source1 source2 constant : Int) (s : σ) :
    exec_switch rd wr ADD cpu l source1 source2 constant s
      = .done { l with dest := int_wrap (source1 + source2) } s := by
  simp [exec_switch, ADD, ADDI, SUB, SUBI, SGE, SGT, SEQ, BT, BF, BA, ST, LD, CALL, JMP, MUL, SEQI, HALT]

theorem exec_switch_ADDI {σ : Type} (rd : Reader σ) (wr : Writer σ) (cpu : cpu_t) (l : locals_t)
    (source1 source2 constant : Int) (s : σ) :
    exec_switch rd wr ADDI cpu l source1 source2 constant s
      = .done { l with dest := int_wrap (source1 + constant) } s := by
  simp [exec_switch, ADD, ADDI, SUB, SUBI, SGE, SGT, SEQ, BT, BF, BA, ST, LD, CALL, JMP, MUL, SEQI, HALT]

theorem exec_switch_SUB {σ : Type} (rd : Reader σ) (wr : Writer σ) (cpu : cpu_t) (l : locals_t)
    (source1 source2 constant : Int) (s : σ) :
    exec_switch rd wr SUB cpu l source1 source2 constant s
      = .done { l with dest := int_wrap (source1 - source2) } s := by
  simp [exec_switch, ADD, ADDI, SUB, SUBI, SGE, SGT, SEQ, BT, BF, BA, ST, LD, CALL, JMP, MUL, SEQI, HALT]

theorem exec_switch_SUBI {σ : Type} (rd : Reader σ) (wr : Writer σ) (cpu : cpu_t) (l : locals_t)
    (source1 source2 constant : Int) (s : σ) :
    exec_switch rd wr SUBI cpu l source1 source2 constant s
      = .done { l with dest := int_wrap (source1 - constant) } s := by
  simp [exec_switch, ADD, ADDI, SUB, SUBI, SGE, SGT, SEQ, BT, BF, BA, ST, LD, CALL, JMP, MUL, SEQI, HALT]

theorem exec_switch_MUL {σ : Type} (rd : Reader σ) (wr : Writer σ) (cpu : cpu_t) (l : locals_t)
    (source1 source2 constant : Int) (s : σ) :
    exec_switch rd wr MUL cpu l source1 source2 constant s
      = .done { l with dest := int_wrap (source1 * source2) } s := by
  simp [exec_switch, ADD, ADDI, SUB, SUBI, SGE, SGT, SEQ, BT, BF, BA, ST, LD, CALL, JMP, MUL, SEQI, HALT]

theorem exec_switch_SGE {σ : Type} (rd : Reader σ) (wr : Writer σ) (cpu : cpu_t) (l : locals_t)
    (source1 source2 constant : Int) (s : σ) :
    exec_switch rd wr SGE cpu l source1 source2 constant s
      = .done { l with dest := int_of_bool (decide (source1 ≥ source2)) } s := by
  simp [exec_switch, ADD, ADDI, SUB, SUBI, SGE, SGT, SEQ, BT, BF, BA, ST, LD, CALL, JMP, MUL, SEQI, HALT]

theorem exec_switch_SGT {σ : Type} (rd : Reader σ) (wr : Writer σ) (cpu : cpu_t) (l : locals_t)
    (source1 source2 constant : Int) (s : σ) :
    exec_switch rd wr SGT cpu l source1 source2 constant s
      = .done { l with dest := int_of_bool (decide (source1 > source2)) } s := by
  simp [exec_switch, ADD, ADDI, SUB, SUBI, SGE, SGT, SEQ, BT, BF, BA, ST, LD, CALL, JMP, MUL, SEQI, HALT]

theorem exec_switch_SEQ {σ : Type} (rd : Reader σ) (wr : Writer σ) (cpu : cpu_t) (l : locals_t)
    (source1 source2 constant : Int) (s : σ) :
    exec_switch rd wr SEQ cpu l source1 source2 constant s
      = .done { l with dest := int_of_bool (decide (source1 = source2)) } s := by
  simp [exec_switch, ADD, ADDI, SUB, SUBI, SGE, SGT, SEQ, BT, BF, BA, ST, LD, CALL, JMP, MUL, SEQI, HALT]

theorem exec_switch_SEQI {σ : Type} (rd : Reader σ) (wr : Writer σ) (cpu : cpu_t) (l : locals_t)
    (source1 source2 constant : Int) (s : σ) :
    exec_switch rd wr SEQI cpu l source1 source2 constant s
      = .done { l with dest := int_of_bool (decide (source1 = constant)) } s := by
  simp [exec_switch, ADD, ADDI, SUB, SUBI, SGE, SGT, SEQ, BT, BF, BA, ST, LD, CALL, JMP, MUL, SEQI, HALT]

theorem exec_switch_BT {σ : Type} (rd : Reader σ) (wr : Writer σ) (cpu : cpu_t) (l : locals_t)
    (source1 source2 constant : Int) (s : σ) :
    exec_switch rd wr BT cpu l source1 source2 constant s
      = .done ⟨if source1 ≠ 0 then to_unsigned constant else l.pc, l.dest, l.dest_reg,
          decide (source1 = 0) && l.increment_pc, false, l.proceed⟩ s := by
  by_cases h : source1 = 0 <;> simp [exec_switch, ADD, ADDI, SUB, SUBI, SGE, SGT, SEQ, BT, BF, BA, ST, LD, CALL, JMP, MUL, SEQI, HALT, h]

theorem exec_switch_BF {σ : Type} (rd : Reader σ) (wr : Writer σ) (cpu : cpu_t) (l : locals_t)
    (source1 source2 constant : Int) (s : σ) :
    exec_switch rd wr BF cpu l source1 source2 constant s
      = .done ⟨if source1 = 0 then to_unsigned constant else l.pc, l.dest, l.dest_reg,
          decide (source1 ≠ 0) && l.increment_pc, false, l.proceed⟩ s := by
  by_cases h : source1 = 0 <;> simp [exec_switch, ADD, ADDI, SUB, SUBI, SGE, SGT, SEQ, BT, BF, BA, ST, LD, CALL, JMP, MUL, SEQI, HALT, h]

theorem exec_switch_BA {σ : Type} (rd : Reader σ) (wr : Writer σ) (cpu : cpu_t) (l : locals_t)
    (source1 source2 constant : Int) (s : σ) :
    exec_switch rd wr BA cpu l source1 source2 constant s
      = .done { l with writeback := false, increment_pc := false, pc := to_unsigned constant } s := by
  simp [exec_switch, ADD, ADDI, SUB, SUBI, SGE, SGT, SEQ, BT, BF, BA, ST, LD, CALL, JMP, MUL, SEQI, HALT]

theorem exec_switch_LD {σ : Type} (rd : Reader σ) (wr : Writer σ) (cpu : cpu_t) (l : locals_t)
    (source1 source2 constant : Int) (s : σ) :
    exec_switch rd wr LD cpu l source1 source2 constant s
      = (match rd s (to_unsigned (int_wrap (source1 + constant))) with
        | none => .abort
        | some (data, s1) => .done { l with dest := to_int data } s1) := by
  simp [exec_switch, ADD, ADDI, SUB, SUBI, SGE, SGT, SEQ, BT, BF, BA, ST, LD, CALL, JMP, MUL, SEQI, HALT]

theorem exec_switch_ST {σ : Type} (rd : Reader σ) (wr : Writer σ) (cpu : cpu_t) (l : locals_t)
    (source1 source2 constant : Int) (s : σ) :
    exec_switch rd wr ST cpu l source1 source2 constant s
      = (match wr s (to_unsigned (int_wrap (source1 + constant)))
            (cpu.reg l.dest_reg) with
        | none => .abort
        | some s1 => .done { l with writeback := false } s1) := by
  simp [exec_switch, ADD, ADDI, SUB, SUBI, SGE, SGT, SEQ, BT, BF, BA, ST, LD, CALL, JMP, MUL, SEQI, HALT]

theorem exec_switch_CALL {σ : Type} (rd : Reader σ) (wr : Writer σ) (cpu : cpu_t) (l : locals_t)
    (source1 source2 constant : Int) (s : σ) :
    exec_switch rd wr CALL cpu l source1 source2 constant s
      = .done ⟨to_unsigned constant, to_int ((l.pc + 1) % WORD), 31, false, l.writeback,
          l.proceed⟩ s := by
  simp [exec_switch, ADD, ADDI, SUB, SUBI, SGE, SGT, SEQ, BT, BF, BA, ST, LD, CALL, JMP, MUL, SEQI, HALT]

theorem exec_switch_JMP {σ : Type} (rd : Reader σ) (wr : Writer σ) (cpu : cpu_t) (l : locals_t)
    (source1 source2 constant : Int) (s : σ) :
    exec_switch rd wr JMP cpu l source1 source2 constant s
      = .done { l with increment_pc := false, writeback := false, pc := to_unsigned source1 } s := by
  simp [exec_switch, ADD, ADDI, SUB, SUBI, SGE, SGT, SEQ, BT, BF, BA, ST, LD, CALL, JMP, MUL, SEQI, HALT]

theorem exec_switch_HALT {σ : Type} (rd : Reader σ) (wr : Writer σ) (cpu : cpu_t) (l : locals_t)
    (source1 source2 constant : Int) (s : σ) :
    exec_switch rd wr HALT cpu l source1 source2 constant s
      = .done { l with increment_pc := false, writeback := false, proceed := false } s := by
  simp [exec_switch, ADD, ADDI, SUB, SUBI, SGE, SGT, SEQ, BT, BF, BA, ST, LD, CALL, JMP, MUL, SEQI, HALT]

theorem exec_switch_default {σ : Type} (rd : Reader σ) (wr : Writer σ) (opcode : Nat) (cpu : cpu_t)
    (l : locals_t) (source1 source2 constant : Int) (s : σ) (h : 16 < opcode) :
    exec_switch rd wr opcode cpu l source1 source2 constant s = .illegal l.pc opcode := by
  have h0 : opcode ≠ 0 := by omega
  have h1 : opcode ≠ 1 := by omega
  have h2 : opcode ≠ 2 := by omega
  have h3 : opcode ≠ 3 := by omega
  have h4 : opcode ≠ 4 := by omega
  have h5 : opcode ≠ 5 := by omega
  have h6 : opcode ≠ 6 := by omega
  have h7 : opcode ≠ 7 := by omega
  have h8 : opcode ≠ 8 := by omega
  have h9 : opcode ≠ 9 := by omega
  have h10 : opcode ≠ 10 := by omega
  have h11 : opcode ≠ 11 := by omega
  have h12 : opcode ≠ 12 := by omega
  have h13 : opcode ≠ 13 := by omega
  have h14 : opcode ≠ 14 := by omega
  have h15 : opcode ≠ 15 := by omega
  have h16 : opcode ≠ 16 := by omega
  simp [exec_switch, ADD, ADDI, SUB, SUBI, SGE, SGT, SEQ, BT, BF, BA, ST, LD, CALL, JMP, MUL, SEQI, HALT, h0, h1, h2, h3, h4, h5, h6, h7, h8, h9, h10, h11, h12,
    h13, h14, h15, h16]

/-- The opcodes of the instruction set, and the values that are none of them. -/
theorem opcode_cases (opcode : Nat) :
    opcode = ADD ∨ opcode = ADDI ∨ opcode = SUB ∨ opcode = SUBI ∨ opcode = MUL ∨ opcode = SGE ∨
    opcode = SGT ∨ opcode = SEQ ∨ opcode = SEQI ∨ opcode = BT ∨ opcode = BF ∨ opcode = BA ∨
    opcode = LD ∨ opcode = ST ∨ opcode = CALL ∨ opcode = JMP ∨ opcode = HALT ∨ 16 < opcode := by
  simp only [ADD, ADDI, SUB, SUBI, SGE, SGT, SEQ, BT, BF, BA, ST, LD, CALL, JMP, MUL, SEQI, HALT]
  omega

/-- The loop body after a `switch` that has run to its end. -/
theorem execute_of_done {σ : Type} {rd : Reader σ} {wr : Writer σ} {instr : Nat} {cpu : cpu_t} {s s1 : σ}
    {l : locals_t}
    (h : exec_switch rd wr (extract_opcode instr) cpu
        ⟨cpu.pc, 0, extract_dest instr, true, true, true⟩
        (to_int (cpu.reg (extract_source1 instr)))
        (to_int (cpu.reg (to_unsigned (extract_constant instr) &&& (NREG - 1))))
        (extract_constant instr) s = .done l s1) :
    execute rd wr instr cpu s
      = .next l.proceed
          ⟨if l.increment_pc then (l.pc + 1) % WORD else l.pc,
           if l.writeback && l.dest_reg != 0 then
             Function.update cpu.reg l.dest_reg (to_unsigned l.dest)
           else cpu.reg⟩ s1 := by
  unfold execute
  simp only [h]

/-- An instruction that only computes a value `v` for the destination register
`d ≠ 0`. -/
theorem execute_value {σ : Type} {rd : Reader σ} {wr : Writer σ} {instr : Nat} {cpu : cpu_t} {s : σ}
    {v : Int} (hd0 : extract_dest instr ≠ 0)
    (h : exec_switch rd wr (extract_opcode instr) cpu
        ⟨cpu.pc, 0, extract_dest instr, true, true, true⟩
        (to_int (cpu.reg (extract_source1 instr)))
        (to_int (cpu.reg (to_unsigned (extract_constant instr) &&& (NREG - 1))))
        (extract_constant instr) s
      = .done ⟨cpu.pc, v, extract_dest instr, true, true, true⟩ s) :
    execute rd wr instr cpu s
      = .next true ⟨(cpu.pc + 1) % WORD,
          Function.update cpu.reg (extract_dest instr) (to_unsigned v)⟩ s := by
  rw [execute_of_done h]
  simp [hd0]

theorem extract_constant_range (instr : Nat) :
    -32768 ≤ extract_constant instr ∧ extract_constant instr ≤ 32767 := by
  rw [extract_constant_eq]
  unfold to_short
  split <;> omega

theorem to_int_eq_iff {a : Nat} {c : Int} (ha : a < WORD) (h1 : -2147483648 ≤ c)
    (h2 : c ≤ 2147483647) : to_int a = c ↔ a = to_unsigned c := by
  unfold to_int to_unsigned
  rw [WORD_eq] at *
  constructor
  · intro h
    split at h <;> omega
  · intro h
    split <;> omega

/-- C26 (ALU semantics), for the loop body over any memory system `rd`, `wr` (so
for both variants): let `a = reg[source1]`, `b = reg[constant & 31]` be
32-bit register values, `c` the sign-extended constant and `d ≠ 0` the
destination register.  One step on an ALU instruction completes, leaves the
memory system alone, increments `pc` and changes only `reg[d]`, to
`(a + b) mod 2^32` for ADD, `(a + c) mod 2^32` for ADDI, `(a - b) mod 2^32` for
SUB, `(a - c) mod 2^32` for SUBI, `(a * b) mod 2^32` for MUL, and to 1 or 0 for
the comparisons: 1 iff `a ≥ b` (SGE), iff `a > b` (SGT), as signed 32-bit
integers, iff `a = b` (SEQ), iff `a = c` (SEQI; `a` as a signed integer, which
is to say that `a` is the 32-bit encoding of `c`).  The arithmetic of `int`
wraps around. -/
theorem alu_semantics {σ : Type} (rd : Reader σ) (wr : Writer σ) (instr : Nat) (cpu : cpu_t) (s : σ)
    (a b d : Nat) (c : Int) (ha : a = cpu.reg (extract_source1 instr))
    (hb : b = cpu.reg (to_unsigned (extract_constant instr) &&& (NREG - 1)))
    (hc : c = extract_constant instr) (hd : d = extract_dest instr) (hd0 : d ≠ 0)
    (ha32 : a < WORD) (hb32 : b < WORD) :
    (extract_opcode instr = ADD → execute rd wr instr cpu s
      = .next true ⟨(cpu.pc + 1) % WORD, Function.update cpu.reg d ((a + b) % WORD)⟩ s) ∧
    (extract_opcode instr = ADDI → execute rd wr instr cpu s
      = .next true ⟨(cpu.pc + 1) % WORD,
          Function.update cpu.reg d (((a : Int) + c) % (2 ^ 32 : Int)).toNat⟩ s) ∧
    (extract_opcode instr = SUB → execute rd wr instr cpu s
      = .next true ⟨(cpu.pc + 1) % WORD,
          Function.update cpu.reg d (((a : Int) - (b : Int)) % (2 ^ 32 : Int)).toNat⟩ s) ∧
    (extract_opcode instr = SUBI → execute rd wr instr cpu s
      = .next true ⟨(cpu.pc + 1) % WORD,
          Function.update cpu.reg d (((a : Int) - c) % (2 ^ 32 : Int)).toNat⟩ s) ∧
    (extract_opcode instr = MUL → execute rd wr instr cpu s
      = .next true ⟨(cpu.pc + 1) % WORD, Function.update cpu.reg d ((a * b) % WORD)⟩ s) ∧
    (extract_opcode instr = SGE → execute rd wr instr cpu s
      = .next true ⟨(cpu.pc + 1) % WORD,
          Function.update cpu.reg d (if to_int a ≥ to_int b then 1 else 0)⟩ s) ∧
    (extract_opcode instr = SGT → execute rd wr instr cpu s
      = .next true ⟨(cpu.pc + 1) % WORD,
          Function.update cpu.reg d (if to_int a > to_int b then 1 else 0)⟩ s) ∧
    (extract_opcode instr = SEQ → execute rd wr instr cpu s
      = .next true ⟨(cpu.pc + 1) % WORD, Function.update cpu.reg d (if a = b then 1 else 0)⟩ s) ∧
    (extract_opcode instr = SEQI → execute rd wr instr cpu s
      = .next true ⟨(cpu.pc + 1) % WORD,
          Function.update cpu.reg d (if to_int a = c then 1 else 0)⟩ s) ∧
    (to_int a = c ↔ a = to_unsigned c) := by
  subst ha hb hc hd
  have hrange := extract_constant_range instr
  refine ⟨fun hop => ?_, fun hop => ?_, fun hop => ?_, fun hop => ?_, fun hop => ?_,
    fun hop => ?_, fun hop => ?_, fun hop => ?_, fun hop => ?_,
    to_int_eq_iff ha32 (by omega) (by omega)⟩
  · rw [execute_value hd0 (by rw [hop]; exact exec_switch_ADD _ _ _ _ _ _ _ _),
      to_unsigned_int_wrap, to_unsigned_add]
  · rw [execute_value hd0 (by rw [hop]; exact exec_switch_ADDI _ _ _ _ _ _ _ _),
      to_unsigned_int_wrap, to_unsigned_add_const]
    rfl
  · rw [execute_value hd0 (by rw [hop]; exact exec_switch_SUB _ _ _ _ _ _ _ _),
      to_unsigned_int_wrap, to_unsigned_sub]
    rfl
  · rw [execute_value hd0 (by rw [hop]; exact exec_switch_SUBI _ _ _ _ _ _ _ _),
      to_unsigned_int_wrap, to_unsigned_sub_const]
    rfl
  · rw [execute_value hd0 (by rw [hop]; exact exec_switch_MUL _ _ _ _ _ _ _ _),
      to_unsigned_int_wrap, to_unsigned_mul]
  · rw [execute_value hd0 (by rw [hop]; exact exec_switch_SGE _ _ _ _ _ _ _ _),
      to_unsigned_int_of_bool]
    simp
  · rw [execute_value hd0 (by rw [hop]; exact exec_switch_SGT _ _ _ _ _ _ _ _),
      to_unsigned_int_of_bool]
    simp
  · rw [execute_value hd0 (by rw [hop]; exact exec_switch_SEQ _ _ _ _ _ _ _ _),
      to_unsigned_int_of_bool]
    simp [to_int_inj ha32 hb32]
  · rw [execute_value hd0 (by rw [hop]; exact exec_switch_SEQI _ _ _ _ _ _ _ _),
      to_unsigned_int_of_bool]
    simp

/-- The flags, the destination register and `pc` at the end of the `switch`, for
every opcode. -/
theorem exec_switch_done {σ : Type} {rd : Reader σ} {wr : Writer σ} {opcode : Nat} {cpu : cpu_t}
    {l l1 : locals_t} {a b c : Int} {s s1 : σ}
    (h : exec_switch rd wr opcode cpu l a b c s = .done l1 s1) :
    opcode ≤ 16 ∧
    l1.proceed = (if opcode = HALT then false else l.proceed) ∧
    l1.dest_reg = (if opcode = CALL then 31 else l.dest_reg) ∧
    l1.writeback = (if opcode = BT ∨ opcode = BF ∨ opcode = BA ∨ opcode = ST ∨ opcode = JMP ∨
        opcode = HALT then false else l.writeback) ∧
    l1.increment_pc = (if opcode = BA ∨ opcode = CALL ∨ opcode = JMP ∨ opcode = HALT ∨
        (opcode = BT ∧ a ≠ 0) ∨ (opcode = BF ∧ a = 0) then false else l.increment_pc) ∧
    l1.pc = (if opcode = BA ∨ opcode = CALL ∨ (opcode = BT ∧ a ≠ 0) ∨ (opcode = BF ∧ a = 0)
        then to_unsigned c else if opcode = JMP then to_unsigned a else l.pc) ∧
    (opcode ≠ LD → opcode ≠ ST → s1 = s) := by
  rcases opcode_cases opcode with rfl | rfl | rfl | rfl | rfl | rfl | rfl | rfl | rfl | rfl |
    rfl | rfl | rfl | rfl | rfl | rfl | rfl | hop
  case inr.inr.inr.inr.inr.inr.inr.inr.inr.inr.inr.inr.inr.inr.inr.inr.inr =>
    rw [exec_switch_default _ _ _ _ _ _ _ _ _ hop] at h
    cases h
  all_goals
    simp only [exec_switch_ADD, exec_switch_ADDI, exec_switch_SUB, exec_switch_SUBI, exec_switch_SGE, exec_switch_SGT, exec_switch_SEQ, exec_switch_BT, exec_switch_BF, exec_switch_BA, exec_switch_ST, exec_switch_LD, exec_switch_CALL, exec_switch_JMP, exec_switch_MUL, exec_switch_SEQI, exec_switch_HALT] at h
  all_goals
    first
      | (simp only [switch_t.done.injEq] at h
         obtain ⟨rfl, rfl⟩ := h
         by_cases ha : a = 0 <;> simp [ADD, ADDI, SUB, SUBI, SGE, SGT, SEQ, BT, BF, BA, ST, LD, CALL, JMP, MUL, SEQI, HALT, ha])
      | (split at h
         · cases h
         · simp only [switch_t.done.injEq] at h
           obtain ⟨rfl, rfl⟩ := h
           simp [ADD, ADDI, SUB, SUBI, SGE, SGT, SEQ, BT, BF, BA, ST, LD, CALL, JMP, MUL, SEQI, HALT])

/-- A completed loop body comes from a `switch` that has run to its end. -/
theorem execute_next {σ : Type} {rd : Reader σ} {wr : Writer σ} {instr : Nat} {cpu cpu1 : cpu_t}
    {s s1 : σ} {p : Bool} (h : execute rd wr instr cpu s = .next p cpu1 s1) :
    ∃ l, exec_switch rd wr (extract_opcode instr) cpu
        ⟨cpu.pc, 0, extract_dest instr, true, true, true⟩
        (to_int (cpu.reg (extract_source1 instr)))
        (to_int (cpu.reg (to_unsigned (extract_constant instr) &&& (NREG - 1))))
        (extract_constant instr) s = .done l s1 ∧
      p = l.proceed ∧
      cpu1.pc = (if l.increment_pc then (l.pc + 1) % WORD else l.pc) ∧
      cpu1.reg = (if l.writeback && l.dest_reg != 0 then
          Function.update cpu.reg l.dest_reg (to_unsigned l.dest)
        else cpu.reg) := by
  cases hsw : exec_switch rd wr (extract_opcode instr) cpu
      ⟨cpu.pc, 0, extract_dest instr, true, true, true⟩
      (to_int (cpu.reg (extract_source1 instr)))
      (to_int (cpu.reg (to_unsigned (extract_constant instr) &&& (NREG - 1))))
      (extract_constant instr) s with
  | illegal pc op =>
    unfold execute at h
    simp only [hsw] at h
    cases h
  | abort =>
    unfold execute at h
    simp only [hsw] at h
    cases h
  | done l s2 =>
    rw [execute_of_done hsw] at h
    simp only [step_t.next.injEq] at h
    obtain ⟨h1, h2, h3⟩ := h
    subst h3
    refine ⟨l, rfl, h1.symm, ?_, ?_⟩
    · rw [← h2]
    · rw [← h2]

/-- The registers after a completed loop body. -/
theorem execute_registers {σ : Type} {rd : Reader σ} {wr : Writer σ} {instr : Nat} {cpu cpu1 : cpu_t}
    {s s1 : σ} {p : Bool} (h : execute rd wr instr cpu s = .next p cpu1 s1) :
    cpu1.reg 0 = cpu.reg 0 ∧
    ((extract_opcode instr = BT ∨ extract_opcode instr = BF ∨ extract_opcode instr = BA ∨
      extract_opcode instr = ST ∨ extract_opcode instr = JMP ∨ extract_opcode instr = HALT) →
      cpu1.reg = cpu.reg) ∧
    (∀ r, r ≠ (if extract_opcode instr = CALL then 31 else extract_dest instr) →
      cpu1.reg r = cpu.reg r) := by
  obtain ⟨l, hsw, -, -, hreg⟩ := execute_next h
  obtain ⟨-, -, hdr, hwb, -, -, -⟩ := exec_switch_done hsw
  simp only at hdr hwb
  refine ⟨?_, fun hop => ?_, fun r hr => ?_⟩
  · rw [hreg]
    by_cases hz : l.dest_reg = 0
    · simp [hz]
    · split
      · exact Function.update_noteq (Ne.symm hz) _ _
      · rfl
  · rw [hreg, hwb, if_pos hop]
    simp
  · rw [hreg]
    split
    · rw [← hdr] at hr
      exact Function.update_noteq hr _ _
    · rfl

/-- A loop iteration leaves register 0 alone. -/
theorem step_reg_zero {σ : Type} {rd : Reader σ} {wr : Writer σ} {cpu cpu1 : cpu_t} {s s1 : σ}
    {p : Bool} (h : step rd wr cpu s = .next p cpu1 s1) : cpu1.reg 0 = cpu.reg 0 := by
  unfold step at h
  split at h
  · cases h
  · exact (execute_registers h).1

/-- C23 (register write-back frame), for the loop of `run` over any memory system
`rd`, `wr` (so for both variants): when the loop is entered with `reg[0] = 0`,
then `reg[0] = 0` after every number of iterations; and one executed
instruction leaves register 0 as it is, changes no register for the
opcodes BT, BF, BA, ST, JMP and HALT, and for every opcode changes at most the
decoded destination register (register 31 for CALL). -/
theorem register_frame {σ : Type} (rd : Reader σ) (wr : Writer σ) (n : Nat) (cpu cpu1 : cpu_t)
    (s s1 : σ) (p : Bool) (h0 : cpu.reg 0 = 0)
    (h : run_loop rd wr n cpu s = .next p cpu1 s1) :
    cpu1.reg 0 = 0 ∧
    ∀ (instr : Nat) (c c1 : cpu_t) (m m1 : σ) (q : Bool),
      execute rd wr instr c m = .next q c1 m1 →
      c1.reg 0 = c.reg 0 ∧
      ((extract_opcode instr = BT ∨ extract_opcode instr = BF ∨ extract_opcode instr = BA ∨
        extract_opcode instr = ST ∨ extract_opcode instr = JMP ∨ extract_opcode instr = HALT) →
        c1.reg = c.reg) ∧
      (∀ r, r ≠ (if extract_opcode instr = CALL then 31 else extract_dest instr) →
        c1.reg r = c.reg r) := by
  refine ⟨?_, fun instr c c1 m m1 q hex => execute_registers hex⟩
  induction n generalizing cpu s with
  | zero =>
    simp only [run_loop, step_t.next.injEq] at h
    obtain ⟨-, rfl, -⟩ := h
    exact h0
  | succ n ih =>
    unfold run_loop at h
    split at h
    · rename_i cpu2 s2 hstep
      exact ih cpu2 s2 ((step_reg_zero hstep).trans h0) h
    · rename_i r hr
      cases hs : step rd wr cpu s with
      | illegal pc op => rw [hs] at h; cases h
      | abort => rw [hs] at h; cases h
      | next q cpu2 s2 =>
        rw [hs] at h
        simp only [step_t.next.injEq] at h
        obtain ⟨-, rfl, -⟩ := h
        exact (step_reg_zero hs).trans h0

theorem step_t.completed_iff {σ : Type} {r : step_t σ} (h : r.completed = true) :
    ∃ p cpu s, r = .next p cpu s := by
  cases r with
  | illegal pc op => cases h
  | abort => cases h
  | next p cpu s => exact ⟨p, cpu, s, rfl⟩

theorem register_frame_witness :
    ∃ s p cpu1 s1,
      run RAM_PAGES (fifo_page_replace RAM_PAGES) init_machine
        [.write 0 (make_instr ADDI 1 0 5), .write 1 (make_instr CALL 0 0 3),
         .write 3 (make_instr HALT 0 0 0)] = some s ∧
      run_loop (read_memory RAM_PAGES (fifo_page_replace RAM_PAGES))
        (write_memory RAM_PAGES (fifo_page_replace RAM_PAGES)) 5 cpu_zero s = .next p cpu1 s1 ∧
      cpu1.reg 0 = 0 := by
  have hsome : ((run RAM_PAGES (fifo_page_replace RAM_PAGES) init_machine
      [.write 0 (make_instr ADDI 1 0 5), .write 1 (make_instr CALL 0 0 3),
       .write 3 (make_instr HALT 0 0 0)]).map (fun s =>
        (run_loop (read_memory RAM_PAGES (fifo_page_replace RAM_PAGES))
        (write_memory RAM_PAGES (fifo_page_replace RAM_PAGES)) 5 cpu_zero s).completed))
      = some true := by decide
  obtain ⟨s, hs, hc⟩ := Option.map_eq_some'.mp hsome
  obtain ⟨p, cpu1, s1, h⟩ := step_t.completed_iff hc
  exact ⟨s, p, cpu1, s1, hs, h,
    (register_frame (read_memory RAM_PAGES (fifo_page_replace RAM_PAGES))
      (write_memory RAM_PAGES (fifo_page_replace RAM_PAGES)) 5 cpu_zero cpu1 s s1 p rfl h).1⟩

theorem to_int_eq_zero {x : Nat} (h : x < WORD) : to_int x = 0 ↔ x = 0 := by
  unfold to_int
  rw [WORD_eq] at *
  constructor
  · intro h0
    split at h0 <;> omega
  · rintro rfl
    rfl

/-- C24 (program counter update), for the loop body over any memory system `rd`,
`wr` (so for both variants): after one executed instruction at `pc = p`,
with `c` the sign-extended constant and `sv = reg[source1]` (32-bit values), the
new `pc` is `c mod 2^32` for BA, for CALL, for BT when `sv ≠ 0` and for BF when
`sv = 0`; it is `sv` for JMP, `p` for HALT, and `(p + 1) mod 2^32` in every
other case. -/
theorem pc_update {σ : Type} (rd : Reader σ) (wr : Writer σ) (instr : Nat) (cpu cpu1 : cpu_t)
    (s s1 : σ) (q : Bool) (p sv : Nat) (c : Int) (hp : p = cpu.pc)
    (hc : c = extract_constant instr) (hsv : sv = cpu.reg (extract_source1 instr))
    (hsv32 : sv < WORD) (h : execute rd wr instr cpu s = .next q cpu1 s1) :
    ((extract_opcode instr = BA ∨ extract_opcode instr = CALL ∨
      (extract_opcode instr = BT ∧ sv ≠ 0) ∨ (extract_opcode instr = BF ∧ sv = 0)) →
      cpu1.pc = (c % (2 ^ 32 : Int)).toNat) ∧
    (extract_opcode instr = JMP → cpu1.pc = sv) ∧
    (extract_opcode instr = HALT → cpu1.pc = p) ∧
    (¬ (extract_opcode instr = BA ∨ extract_opcode instr = CALL ∨
        (extract_opcode instr = BT ∧ sv ≠ 0) ∨ (extract_opcode instr = BF ∧ sv = 0)) →
      extract_opcode instr ≠ JMP → extract_opcode instr ≠ HALT →
      cpu1.pc = (p + 1) % WORD) := by
  subst hp hc hsv
  obtain ⟨l, hsw, -, hpc, -⟩ := execute_next h
  obtain ⟨-, -, -, -, hinc, hlpc, -⟩ := exec_switch_done hsw
  simp only [ne_eq, to_int_eq_zero hsv32] at hinc hlpc ⊢
  have hjmp : to_unsigned (to_int (cpu.reg (extract_source1 instr)))
      = cpu.reg (extract_source1 instr) := by
    rw [to_unsigned_to_int, Nat.mod_eq_of_lt hsv32]
  refine ⟨fun hop => ?_, fun hop => ?_, fun hop => ?_, fun h1 h2 h3 => ?_⟩
  · have hinc2 : l.increment_pc = false := by
      rw [hinc]
      rcases hop with h1 | h1 | h1 | h1 <;> simp [h1]
    rw [hpc, hinc2, hlpc, if_pos hop]
    rfl
  · have hne : ¬ (extract_opcode instr = BA ∨ extract_opcode instr = CALL ∨
        (extract_opcode instr = BT ∧ ¬ cpu.reg (extract_source1 instr) = 0) ∨
        (extract_opcode instr = BF ∧ cpu.reg (extract_source1 instr) = 0)) := by
      rw [hop]
      simp [JMP, BA, CALL, BT, BF]
    have hinc2 : l.increment_pc = false := by
      rw [hinc]
      simp [hop]
    rw [hpc, hinc2, hlpc, if_neg hne, if_pos hop, hjmp]
    rfl
  · have hne : ¬ (extract_opcode instr = BA ∨ extract_opcode instr = CALL ∨
        (extract_opcode instr = BT ∧ ¬ cpu.reg (extract_source1 instr) = 0) ∨
        (extract_opcode instr = BF ∧ cpu.reg (extract_source1 instr) = 0)) := by
      rw [hop]
      simp [HALT, BA, CALL, BT, BF]
    have hinc2 : l.increment_pc = false := by
      rw [hinc]
      simp [hop]
    have hnj : extract_opcode instr ≠ JMP := by
      rw [hop]
      simp [HALT, JMP]
    rw [hpc, hinc2, hlpc, if_neg hne, if_neg hnj]
    rfl
  · have hinc2 : l.increment_pc = true := by
      rw [hinc]
      rw [if_neg]
      intro hor
      rcases hor with h4 | h4 | h4 | h4 | h4 | h4
      · exact h1 (Or.inl h4)
      · exact h1 (Or.inr (Or.inl h4))
      · exact h2 h4
      · exact h3 h4
      · exact h1 (Or.inr (Or.inr (Or.inl h4)))
      · exact h1 (Or.inr (Or.inr (Or.inr h4)))
    rw [hpc, hinc2, hlpc, if_neg h1, if_neg h2]
    rfl

theorem pc_update_witness :
    ∃ q cpu1 s1,
      execute (read_memory RAM_PAGES (fifo_page_replace RAM_PAGES))
        (write_memory RAM_PAGES (fifo_page_replace RAM_PAGES)) (make_instr BT 0 1 7) ⟨4, fun r => r⟩
        init_machine = .next q cpu1 s1 ∧
      cpu1.pc = 7 := by
  obtain ⟨q, cpu1, s1, h⟩ := step_t.completed_iff
    (r := execute (read_memory RAM_PAGES (fifo_page_replace RAM_PAGES))
        (write_memory RAM_PAGES (fifo_page_replace RAM_PAGES)) (make_instr BT 0 1 7) ⟨4, fun r => r⟩
      init_machine) (by decide)
  exact ⟨q, cpu1, s1, h,
    (pc_update (read_memory RAM_PAGES (fifo_page_replace RAM_PAGES))
      (write_memory RAM_PAGES (fifo_page_replace RAM_PAGES)) (make_instr BT 0 1 7) ⟨4, fun r => r⟩
      cpu1 init_machine s1 q 4 1 7 rfl (by decide) (by decide) (by decide) h).1
      (Or.inr (Or.inr (Or.inl ⟨by decide, by decide⟩)))⟩

/-- C25 (CALL linkage), for the loop body over any memory system `rd`, `wr` (so
for both variants): executing CALL at `pc = p` completes, leaves the memory
system alone, sets register 31 to `(p + 1) mod 2^32` and `pc` to the
sign-extended constant (modulo `2^32`), whatever the destination field of the
instruction is, and changes no other register. -/
theorem call_linkage {σ : Type} (rd : Reader σ) (wr : Writer σ) (instr : Nat) (cpu : cpu_t) (s : σ)
    (hop : extract_opcode instr = CALL) :
    ∃ cpu1, execute rd wr instr cpu s = .next true cpu1 s ∧
      cpu1.reg 31 = (cpu.pc + 1) % WORD ∧
      cpu1.pc = (extract_constant instr % (2 ^ 32 : Int)).toNat ∧
      ∀ r, r ≠ 31 → cpu1.reg r = cpu.reg r := by
  have h := @execute_of_done σ rd wr instr cpu s _ _
    (by rw [hop]; exact exec_switch_CALL _ _ _ _ _ _ _ _)
  refine ⟨_, h, ?_, rfl, fun r hr => ?_⟩
  · simp only [Bool.true_and, bne_iff_ne, ne_eq, OfNat.ofNat_ne_zero, not_false_eq_true,
      if_true, Function.update_same]
    rw [to_unsigned_to_int, Nat.mod_mod]
  · simp only [Bool.true_and, bne_iff_ne, ne_eq, OfNat.ofNat_ne_zero, not_false_eq_true,
      if_true]
    exact Function.update_noteq hr _ _

theorem call_linkage_witness :
    ∃ cpu1, execute (read_memory RAM_PAGES (fifo_page_replace RAM_PAGES))
        (write_memory RAM_PAGES (fifo_page_replace RAM_PAGES)) (make_instr CALL 0 0 3)
        ⟨6, fun r => r⟩ init_machine = .next true cpu1 init_machine ∧
      cpu1.reg 31 = (6 + 1) % WORD ∧
      cpu1.pc = (extract_constant (make_instr CALL 0 0 3) % (2 ^ 32 : Int)).toNat ∧
      ∀ r, r ≠ 31 → cpu1.reg r = r :=
  call_linkage (read_memory RAM_PAGES (fifo_page_replace RAM_PAGES))
      (write_memory RAM_PAGES (fifo_page_replace RAM_PAGES)) (make_instr CALL 0 0 3) ⟨6, fun r => r⟩
    init_machine (by decide)

/-- The `switch` ends in `error` only in its `default` case. -/
theorem exec_switch_illegal {σ : Type} {rd : Reader σ} {wr : Writer σ} {opcode : Nat} {cpu : cpu_t}
    {l : locals_t} {a b c : Int} {s : σ} {pc op : Nat}
    (h : exec_switch rd wr opcode cpu l a b c s = .illegal pc op) : 16 < opcode := by
  rcases opcode_cases opcode with rfl | rfl | rfl | rfl | rfl | rfl | rfl | rfl | rfl | rfl |
    rfl | rfl | rfl | rfl | rfl | rfl | rfl | hop
  case inr.inr.inr.inr.inr.inr.inr.inr.inr.inr.inr.inr.inr.inr.inr.inr.inr => exact hop
  all_goals
    simp only [exec_switch_ADD, exec_switch_ADDI, exec_switch_SUB, exec_switch_SUBI, exec_switch_SGE, exec_switch_SGT, exec_switch_SEQ, exec_switch_BT, exec_switch_BF, exec_switch_BA, exec_switch_ST, exec_switch_LD, exec_switch_CALL, exec_switch_JMP, exec_switch_MUL, exec_switch_SEQI, exec_switch_HALT] at h
  all_goals
    first
      | cases h
      | (split at h <;> cases h)

theorem execute_illegal {σ : Type} {rd : Reader σ} {wr : Writer σ} {instr : Nat} {cpu : cpu_t} {s : σ}
    {pc op : Nat} (h : execute rd wr instr cpu s = .illegal pc op) :
    16 < extract_opcode instr := by
  cases hsw : exec_switch rd wr (extract_opcode instr) cpu
      ⟨cpu.pc, 0, extract_dest instr, true, true, true⟩
      (to_int (cpu.reg (extract_source1 instr)))
      (to_int (cpu.reg (to_unsigned (extract_constant instr) &&& (NREG - 1))))
      (extract_constant instr) s with
  | illegal pc1 op1 => exact exec_switch_illegal hsw
  | abort =>
    unfold execute at h
    simp only [hsw] at h
    cases h
  | done l s2 =>
    rw [execute_of_done hsw] at h
    cases h

/-- C28 (halt and illegal instruction), for the loop body over any memory system
`rd`, `wr` (so for both variants): the loop body on a fetched word ends in
the illegal-instruction error exactly when the opcode field `instr >> 26` is
greater than 16, and the error names `pc` and the opcode; on HALT it completes
with `proceed = false`, leaving `pc`, the registers and the memory system as
they are; for every opcode below 16 a completed body has `proceed = true`, and
the body completes, except that an LD or ST completes exactly when its
`read_memory` or `write_memory` returns. -/
theorem halt_and_illegal {σ : Type} (rd : Reader σ) (wr : Writer σ) (instr : Nat) (cpu : cpu_t)
    (s : σ) :
    ((∃ pc op, execute rd wr instr cpu s = .illegal pc op) ↔ 16 < extract_opcode instr) ∧
    (16 < extract_opcode instr →
      execute rd wr instr cpu s = .illegal cpu.pc (extract_opcode instr)) ∧
    (extract_opcode instr = HALT → execute rd wr instr cpu s = .next false cpu s) ∧
    (extract_opcode instr < 16 →
      (∀ q cpu1 s1, execute rd wr instr cpu s = .next q cpu1 s1 → q = true) ∧
      (extract_opcode instr ≠ LD → extract_opcode instr ≠ ST →
        (execute rd wr instr cpu s).completed = true) ∧
      (extract_opcode instr = LD →
        (execute rd wr instr cpu s).completed
          = (rd s (to_unsigned
              (int_wrap (to_int (cpu.reg (extract_source1 instr)) + extract_constant instr)))).isSome) ∧
      (extract_opcode instr = ST →
        (execute rd wr instr cpu s).completed
          = (wr s (to_unsigned
              (int_wrap (to_int (cpu.reg (extract_source1 instr)) + extract_constant instr)))
              (cpu.reg (extract_dest instr))).isSome)) := by
  have hill : 16 < extract_opcode instr →
      execute rd wr instr cpu s = .illegal cpu.pc (extract_opcode instr) := by
    intro h
    unfold execute
    simp only [exec_switch_default _ _ _ _ _ _ _ _ _ h]
  refine ⟨⟨fun ⟨pc, op, h⟩ => ?_, fun h => ⟨_, _, hill h⟩⟩, hill, fun hop => ?_, fun hlt => ?_⟩
  · exact execute_illegal h
  · rw [execute_of_done (by rw [hop]; exact exec_switch_HALT _ _ _ _ _ _ _ _)]
    simp
  · refine ⟨fun q cpu1 s1 h => ?_, fun h1 h2 => ?_, fun hop => ?_, fun hop => ?_⟩
    · obtain ⟨l, hsw, hq, -⟩ := execute_next h
      obtain ⟨-, hpr, -⟩ := exec_switch_done hsw
      rw [hq, hpr, if_neg]
      intro h16
      rw [h16] at hlt
      exact absurd hlt (by decide)
    · have hcases := opcode_cases (extract_opcode instr)
      unfold execute
      rcases hcases with hop | hop | hop | hop | hop | hop | hop | hop | hop | hop | hop | hop |
        hop | hop | hop | hop | hop | hop
      case inr.inr.inr.inr.inr.inr.inr.inr.inr.inr.inr.inr.inr.inr.inr.inr.inr => omega
      case inr.inr.inr.inr.inr.inr.inr.inr.inr.inr.inr.inr.inl => exact absurd hop h1
      case inr.inr.inr.inr.inr.inr.inr.inr.inr.inr.inr.inr.inr.inl => exact absurd hop h2
      all_goals
        simp only [hop, exec_switch_ADD, exec_switch_ADDI, exec_switch_SUB, exec_switch_SUBI,
          exec_switch_MUL, exec_switch_SGE, exec_switch_SGT, exec_switch_SEQ, exec_switch_SEQI,
          exec_switch_BT, exec_switch_BF, exec_switch_BA,
          exec_switch_CALL, exec_switch_JMP, exec_switch_HALT, step_t.completed]
    · unfold execute
      simp only [hop, exec_switch_LD]
      cases rd s (to_unsigned
        (int_wrap (to_int (cpu.reg (extract_source1 instr)) + extract_constant instr))) <;> rfl
    · unfold execute
      simp only [hop, exec_switch_ST]
      cases wr s (to_unsigned
        (int_wrap (to_int (cpu.reg (extract_source1 instr)) + extract_constant instr)))
        (cpu.reg (extract_dest instr)) <;> rfl

theorem alu_semantics_witness :
    execute (read_memory RAM_PAGES (fifo_page_replace RAM_PAGES))
        (write_memory RAM_PAGES (fifo_page_replace RAM_PAGES)) (make_instr ADD 1 2 3) ⟨0, fun r => r + 5⟩
        init_machine
      = .next true ⟨(0 + 1) % WORD, Function.update (fun r => r + 5) 1 ((7 + 8) % WORD)⟩
          init_machine :=
  (alu_semantics (read_memory RAM_PAGES (fifo_page_replace RAM_PAGES))
      (write_memory RAM_PAGES (fifo_page_replace RAM_PAGES)) (make_instr ADD 1 2 3)
    ⟨0, fun r => r + 5⟩ init_machine 7 8 1 3 (by decide) (by decide) (by decide) (by decide)
    (by decide) (by decide) (by decide)).1 (by decide)

/-- The address of LD and ST: `(a + c) mod 2^32`. -/
theorem address_eq (a : Nat) (c : Int) :
    to_unsigned (int_wrap (to_int a + c)) = (((a : Int) + c) % (2 ^ 32 : Int)).toNat := by
  rw [to_unsigned_int_wrap, to_unsigned_add_const]
  rfl

/-- The loop body on ST. -/
theorem execute_ST {σ : Type} (rd : Reader σ) (wr : Writer σ) {instr : Nat} (cpu : cpu_t) (s : σ)
    (hop : extract_opcode instr = ST) :
    execute rd wr instr cpu s
      = match wr s
          ((((cpu.reg (extract_source1 instr) : Nat) : Int) + extract_constant instr)
            % (2 ^ 32 : Int)).toNat (cpu.reg (extract_dest instr)) with
        | none => .abort
        | some s1 => .next true ⟨(cpu.pc + 1) % WORD, cpu.reg⟩ s1 := by
  unfold execute
  simp only [hop, exec_switch_ST, address_eq]
  cases wr s
    ((((cpu.reg (extract_source1 instr) : Nat) : Int) + extract_constant instr)
      % (2 ^ 32 : Int)).toNat (cpu.reg (extract_dest instr)) <;> simp

/-- The loop body on LD. -/
theorem execute_LD {σ : Type} (rd : Reader σ) (wr : Writer σ) {instr : Nat} (cpu : cpu_t) (s : σ)
    (hop : extract_opcode instr = LD) :
    execute rd wr instr cpu s
      = match rd s
          ((((cpu.reg (extract_source1 instr) : Nat) : Int) + extract_constant instr)
            % (2 ^ 32 : Int)).toNat with
        | none => .abort
        | some (data, s1) =>
          .next true ⟨(cpu.pc + 1) % WORD,
            if extract_dest instr ≠ 0 then
              Function.update cpu.reg (extract_dest instr) (data % WORD)
            else cpu.reg⟩ s1 := by
  unfold execute
  simp only [hop, exec_switch_LD, address_eq]
  cases rd s
    ((((cpu.reg (extract_source1 instr) : Nat) : Int) + extract_constant instr)
      % (2 ^ 32 : Int)).toNat with
  | none => simp
  | some r =>
    obtain ⟨data, s1⟩ := r
    by_cases hd : extract_dest instr = 0 <;> simp [hd, to_unsigned_to_int]

/-- The effect of a completed loop body on the memory system is that of the
accesses of its instruction. -/
theorem execute_run {F : Nat} {replace : Policy} {instr : Nat} {cpu cpu1 : cpu_t}
    {s s1 : Machine} {q : Bool}
    (h : execute (read_memory F replace) (write_memory F replace) instr cpu s
      = .next q cpu1 s1) :
    run F replace s (instr_accesses instr cpu) = some s1 := by
  unfold instr_accesses
  by_cases hld : extract_opcode instr = LD
  · rw [if_pos hld]
    have e := execute_LD (read_memory F replace) (write_memory F replace) cpu s hld
    rw [h, ← address_eq] at e
    cases hrd : read_memory F replace s (to_unsigned
        (int_wrap (to_int (cpu.reg (extract_source1 instr)) + extract_constant instr))) with
    | none =>
      rw [hrd] at e
      cases e
    | some r =>
      obtain ⟨data, s2⟩ := r
      rw [hrd] at e
      simp only [step_t.next.injEq] at e
      simp only [run, access, hrd]
      rw [e.2.2]
  · rw [if_neg hld]
    by_cases hst : extract_opcode instr = ST
    · rw [if_pos hst]
      have e := execute_ST (read_memory F replace) (write_memory F replace) cpu s hst
      rw [h, ← address_eq] at e
      cases hwr : write_memory F replace s (to_unsigned
          (int_wrap (to_int (cpu.reg (extract_source1 instr)) + extract_constant instr)))
          (cpu.reg (extract_dest instr)) with
      | none =>
        rw [hwr] at e
        cases e
      | some s2 =>
        rw [hwr] at e
        simp only [step_t.next.injEq] at e
        simp only [run, access, hwr]
        rw [e.2.2]
    · rw [if_neg hst]
      obtain ⟨l, hsw, -⟩ := execute_next h
      rw [(exec_switch_done hsw).2.2.2.2.2.2 hld hst]
      rfl

theorem step_t.machine_iff {σ : Type} {r : step_t σ} {s : σ} (h : r.machine = some s) :
    ∃ p cpu, r = .next p cpu s := by
  cases r with
  | illegal pc op => cases h
  | abort => cases h
  | next p cpu s1 =>
    simp only [step_t.machine, Option.some.injEq] at h
    exact ⟨p, cpu, by rw [h]⟩

/-- The effect of a completed loop iteration on the memory system is that of the
fetch followed by the accesses of the instruction fetched. -/
theorem step_run {F : Nat} {replace : Policy} {cpu cpu1 : cpu_t} {s s1 : Machine} {q : Bool}
    (h : step (read_memory F replace) (write_memory F replace) cpu s = .next q cpu1 s1) :
    ∃ instr s2, read_memory F replace s cpu.pc = some (instr, s2) ∧
      execute (read_memory F replace) (write_memory F replace) instr cpu s2
        = .next q cpu1 s1 ∧
      run F replace s (.read cpu.pc :: instr_accesses instr cpu) = some s1 := by
  unfold step at h
  split at h
  · cases h
  · rename_i instr s2 hrd
    refine ⟨instr, s2, hrd, h, ?_⟩
    simp only [run, access, hrd]
    exact execute_run h

/-- C27 (load/store): with `a = reg[source1]` and `c` the sign-extended constant,
ST performs `write_memory` at the address `(a + c) mod 2^32` with the value of
the register named by the destination field and changes no register; LD
performs `read_memory` at `(a + c) mod 2^32` and writes the word read to the
destination register `d` when `d ≠ 0`.  In a run from the initial state
(`0 < F ≤ 2^27` frames, a policy that touches reference bits and cursors only):
when an ST of the 32-bit register `x` to the address `A` is followed by accesses
none of which writes `A` (the fetches and the accesses of the instructions in
between) and then by an LD from `A` into `d ≠ 0`, the LD leaves
`reg[d] = reg[x]`, the value that the ST stored. -/
theorem load_store (F : Nat) (replace : Policy) (hF : 0 < F) (hF27 : F ≤ PAGE_FIELD)
    (hpol : PolicyFrame F replace) (pre mid : List Access) (i1 i2 : Nat)
    (c1 c1n c2 c2n : cpu_t) (s0 s1 s2 s3 : Machine) (q1 q2 : Bool) (A x d : Nat)
    (h0 : run F replace init_machine pre = some s0)
    (hst : extract_opcode i1 = ST) (hx : x = extract_dest i1)
    (hA1 : A = ((((c1.reg (extract_source1 i1) : Nat) : Int) + extract_constant i1)
      % (2 ^ 32 : Int)).toNat)
    (hx32 : c1.reg x < WORD)
    (h1 : execute (read_memory F replace) (write_memory F replace) i1 c1 s0 = .next q1 c1n s1)
    (hmid : run F replace s1 mid = some s2) (hnw : ∀ y ∈ mid, y.writes A = false)
    (hld : extract_opcode i2 = LD) (hd : d = extract_dest i2) (hd0 : d ≠ 0)
    (hA2 : A = ((((c2.reg (extract_source1 i2) : Nat) : Int) + extract_constant i2)
      % (2 ^ 32 : Int)).toNat)
    (h2 : execute (read_memory F replace) (write_memory F replace) i2 c2 s2 = .next q2 c2n s3) :
    c2n.reg d = c1.reg x ∧ c1n.reg = c1.reg ∧
    write_memory F replace s0 A (c1.reg x) = some s1 ∧
    (∃ data, read_memory F replace s2 A = some (data, s3) ∧ c2n.reg d = data % WORD) ∧
    (∀ (instr : Nat) (cpu : cpu_t) (s : Machine), extract_opcode instr = ST →
      (∀ m, write_memory F replace s
          ((((cpu.reg (extract_source1 instr) : Nat) : Int) + extract_constant instr)
            % (2 ^ 32 : Int)).toNat (cpu.reg (extract_dest instr)) = some m →
        execute (read_memory F replace) (write_memory F replace) instr cpu s
          = .next true ⟨(cpu.pc + 1) % WORD, cpu.reg⟩ m) ∧
      (write_memory F replace s
          ((((cpu.reg (extract_source1 instr) : Nat) : Int) + extract_constant instr)
            % (2 ^ 32 : Int)).toNat (cpu.reg (extract_dest instr)) = none →
        execute (read_memory F replace) (write_memory F replace) instr cpu s = .abort)) ∧
    (∀ (instr : Nat) (cpu : cpu_t) (s : Machine), extract_opcode instr = LD →
      (∀ data m, read_memory F replace s
          ((((cpu.reg (extract_source1 instr) : Nat) : Int) + extract_constant instr)
            % (2 ^ 32 : Int)).toNat = some (data, m) →
        execute (read_memory F replace) (write_memory F replace) instr cpu s
          = .next true ⟨(cpu.pc + 1) % WORD,
              if extract_dest instr ≠ 0 then
                Function.update cpu.reg (extract_dest instr) (data % WORD)
              else cpu.reg⟩ m) ∧
      (read_memory F replace s
          ((((cpu.reg (extract_source1 instr) : Nat) : Int) + extract_constant instr)
            % (2 ^ 32 : Int)).toNat = none →
        execute (read_memory F replace) (write_memory F replace) instr cpu s = .abort)) ∧
    (∀ (cpu cpu1 : cpu_t) (s m : Machine) (q : Bool),
      step (read_memory F replace) (write_memory F replace) cpu s = .next q cpu1 m →
      ∃ instr m1, read_memory F replace s cpu.pc = some (instr, m1) ∧
        run F replace s (.read cpu.pc :: instr_accesses instr cpu) = some m) := by
  subst hx hd
  have e1 := execute_ST (read_memory F replace) (write_memory F replace) c1 s0 hst
  rw [← hA1, h1] at e1
  have e2 := execute_LD (read_memory F replace) (write_memory F replace) c2 s2 hld
  rw [← hA2, h2] at e2
  have hw : write_memory F replace s0 A (c1.reg (extract_dest i1)) = some s1 ∧
      c1n.reg = c1.reg := by
    split at e1
    · cases e1
    · rename_i m hm
      simp only [step_t.next.injEq] at e1
      obtain ⟨-, hc, hs⟩ := e1
      rw [hm, hs, hc]
      exact ⟨rfl, rfl⟩
  have hr : ∃ data, read_memory F replace s2 A = some (data, s3) ∧
      c2n.reg (extract_dest i2) = data % WORD := by
    split at e2
    · cases e2
    · rename_i data m hm
      simp only [step_t.next.injEq] at e2
      obtain ⟨-, hc, hs⟩ := e2
      refine ⟨data, by rw [hm, hs], ?_⟩
      rw [hc, if_pos hd0]
      exact Function.update_same _ _ _
  obtain ⟨data, hrd, hreg⟩ := hr
  obtain ⟨hres0, hb0⟩ := run_backed hpol hF27 pre init_machine s0 (init_resident hF)
    init_backed h0
  have hacc : access F replace s0 (.write A (c1.reg (extract_dest i1))) = some (0, s1) := by
    simp [access, hw.1]
  obtain ⟨hb1, hv1, -⟩ := access_backed hpol hF27 hres0 hb0 hacc
  have hres1 := access_resident hpol hF27 hres0 hacc
  obtain ⟨hres2, hb2⟩ := run_backed hpol hF27 mid s1 s2 hres1 hb1 hmid
  have hv2 := run_vmem hpol hF27 A mid s1 s2 hres1 hb1 hmid hnw
  have hracc : access F replace s2 (.read A) = some (data, s3) := hrd
  obtain ⟨-, -, hrdv⟩ := access_backed hpol hF27 hres2 hb2 hracc
  have hdata : data = c1.reg (extract_dest i1) := by
    rw [hrdv A rfl, hv2, hv1 A]
    simp [Access.writes]
  refine ⟨?_, hw.2, hw.1, ⟨data, hrd, hreg⟩,
    fun instr cpu s hop => ⟨fun m hm => ?_, fun hm => ?_⟩,
    fun instr cpu s hop => ⟨fun v m hm => ?_, fun hm => ?_⟩, fun cpu cpu1 s m q hstep => ?_⟩
  · rw [hreg, hdata, Nat.mod_eq_of_lt hx32]
  · rw [execute_ST _ _ cpu s hop, hm]
  · rw [execute_ST _ _ cpu s hop, hm]
  · rw [execute_LD _ _ cpu s hop, hm]
  · rw [execute_LD _ _ cpu s hop, hm]
  · obtain ⟨instr, m1, hf, -, hrun⟩ := step_run hstep
    exact ⟨instr, m1, hf, hrun⟩

theorem load_store_witness :
    ∃ s0 s1 s2 s3 q1 q2 c1n c2n,
      run RAM_PAGES (fifo_page_replace RAM_PAGES) init_machine [.write 0 7] = some s0 ∧
      execute (read_memory RAM_PAGES (fifo_page_replace RAM_PAGES))
        (write_memory RAM_PAGES (fifo_page_replace RAM_PAGES)) (make_instr ST 1 2 8)
        ⟨0, fun r => r + 40⟩ s0 = .next q1 c1n s1 ∧
      run RAM_PAGES (fifo_page_replace RAM_PAGES) s1 [.read 0, .write 4 7] = some s2 ∧
      execute (read_memory RAM_PAGES (fifo_page_replace RAM_PAGES))
        (write_memory RAM_PAGES (fifo_page_replace RAM_PAGES)) (make_instr LD 3 0 50)
        ⟨1, fun _ => 0⟩ s2 = .next q2 c2n s3 ∧
      c2n.reg 3 = 41 := by
  have hsome : (((run RAM_PAGES (fifo_page_replace RAM_PAGES) init_machine [.write 0 7]).bind
      (fun s0 => (execute (read_memory RAM_PAGES (fifo_page_replace RAM_PAGES))
        (write_memory RAM_PAGES (fifo_page_replace RAM_PAGES)) (make_instr ST 1 2 8)
        ⟨0, fun r => r + 40⟩ s0).machine)).bind
      (fun s1 => run RAM_PAGES (fifo_page_replace RAM_PAGES) s1 [.read 0, .write 4 7])).map
      (fun s2 => (execute (read_memory RAM_PAGES (fifo_page_replace RAM_PAGES))
        (write_memory RAM_PAGES (fifo_page_replace RAM_PAGES)) (make_instr LD 3 0 50)
        ⟨1, fun _ => 0⟩ s2).completed) = some true := by decide
  obtain ⟨s2, hs2, hc⟩ := Option.map_eq_some'.mp hsome
  obtain ⟨s1, hs1, hmid⟩ := Option.bind_eq_some.mp hs2
  obtain ⟨s0, hs0, hm⟩ := Option.bind_eq_some.mp hs1
  obtain ⟨q1, c1n, h1⟩ := step_t.machine_iff hm
  obtain ⟨q2, c2n, s3, h2⟩ := step_t.completed_iff hc
  exact ⟨s0, s1, s2, s3, q1, q2, c1n, c2n, hs0, h1, hmid, h2,
    (load_store RAM_PAGES (fifo_page_replace RAM_PAGES) (by decide) (by decide)
      (fifo_policy_frame RAM_PAGES) [.write 0 7] [.read 0, .write 4 7]
      (make_instr ST 1 2 8) (make_instr LD 3 0 50) ⟨0, fun r => r + 40⟩ c1n ⟨1, fun _ => 0⟩ c2n
      s0 s1 s2 s3 q1 q2 50 1 3 hs0 (by decide) (by decide) (by decide) (by decide) h1 hmid
      (by decide) (by decide) (by decide) (by decide) (by decide) h2).1⟩

/-! ## Hits and bounds -/

/-- C39 (frame of a hit): a `translate` on an address whose page is resident
completes, adds 1 to `num_memoryaccesses`, sets the `referenced` bit (and, for a
write, the `modified` bit) of the entry of that page and leaves the rest of the
entry as it is; the other entries of the page table, the coremap, the contents
of RAM and swap, the policy cursors, the cold-start counter, the swap-slot
counter and the fault, disk-read and disk-write counters are unchanged. -/
theorem hit_frame (F : Nat) (replace : Policy) (s : Machine) (a : Nat) (w : Bool)
    (hres : (s.page_table (a / PAGESIZE)).inmemory = true) :
    ∃ pa t, translate F replace s a w = some (pa, t) ∧
      t.num_memoryaccesses = s.num_memoryaccesses + 1 ∧
      t.page_table (a / PAGESIZE)
        = { s.page_table (a / PAGESIZE) with
            referenced := true, modified := w || (s.page_table (a / PAGESIZE)).modified } ∧
      (∀ p, p ≠ a / PAGESIZE → t.page_table p = s.page_table p) ∧
      t.coremap = s.coremap ∧ t.memory = s.memory ∧ t.swap = s.swap ∧
      t.fifo_next_page = s.fifo_next_page ∧ t.sc_next_page = s.sc_next_page ∧
      t.next_unused_page = s.next_unused_page ∧ t.count = s.count ∧
      t.num_pagefault = s.num_pagefault ∧ t.num_diskreads = s.num_diskreads ∧
      t.num_diskwrites = s.num_diskwrites := by
  unfold translate
  dsimp only
  rw [hres]
  simp only [Bool.true_eq_false, if_false]
  refine ⟨_, _, rfl, ?_⟩
  cases w
  · refine ⟨rfl, ?_, fun p hp => ?_, rfl, rfl, rfl, rfl, rfl, rfl, rfl, rfl, rfl, rfl⟩
    · simp [set_pte, hres]
    · simp [set_pte, Function.update_apply, hp]
  · refine ⟨rfl, ?_, fun p hp => ?_, rfl, rfl, rfl, rfl, rfl, rfl, rfl, rfl, rfl, rfl⟩
    · simp [set_pte, hres]
    · simp [set_pte, Function.update_apply, hp]

theorem hit_frame_witness :
    ∃ s pa t, run RAM_PAGES (fifo_page_replace RAM_PAGES) init_machine [.read 0] = some s ∧
      translate RAM_PAGES (fifo_page_replace RAM_PAGES) s 1 true = some (pa, t) ∧
      t.num_memoryaccesses = s.num_memoryaccesses + 1 ∧
      (∀ p, p ≠ 1 / PAGESIZE → t.page_table p = s.page_table p) ∧
      t.coremap = s.coremap ∧ t.memory = s.memory ∧ t.num_pagefault = s.num_pagefault := by
  have hflag : (run RAM_PAGES (fifo_page_replace RAM_PAGES) init_machine [.read 0]).map
      (fun s => (s.page_table (1 / PAGESIZE)).inmemory) = some true := by decide
  obtain ⟨s, hs, hin⟩ := Option.map_eq_some'.mp hflag
  obtain ⟨pa, t, ht, h1, -, h3, h4, h5, -, -, -, -, -, h6, -⟩ :=
    hit_frame RAM_PAGES (fifo_page_replace RAM_PAGES) s 1 true hin
  exact ⟨s, pa, t, hs, ht, h1, h3, h4, h5, h6⟩

/-- With the residency invariant, the physical address of a completed
`translate` is below `F * PAGESIZE`. -/
theorem translate_in_bounds {F : Nat} {replace : Policy} (hpol : PolicyFrame F replace)
    (hF27 : F ≤ PAGE_FIELD) {s t : Machine} {a pa : Nat} {w : Bool} (hres : Resident F s)
    (h : translate F replace s a w = some (pa, t)) : pa < F * PAGESIZE := by
  have hrt := translate_resident hpol hF27 hres h
  obtain ⟨hpa, hin, -⟩ := translate_result h
  have hlt := (hrt.res _ hin).1
  have hoff : a % PAGESIZE < PAGESIZE := Nat.mod_lt _ (by decide)
  rw [hpa]
  calc (t.page_table (a / PAGESIZE)).page * PAGESIZE + a % PAGESIZE
      < (t.page_table (a / PAGESIZE)).page * PAGESIZE + PAGESIZE := by omega
    _ = ((t.page_table (a / PAGESIZE)).page + 1) * PAGESIZE := by ring
    _ ≤ F * PAGESIZE := Nat.mul_le_mul_right _ hlt

/-- C37 (physical address in bounds): in a state reached from the initial state
(`0 < F ≤ 2^27` frames, a policy that returns a frame index and touches only
reference bits and cursors), the physical address produced by a completed
`translate` on an in-range address is below `F * PAGESIZE`, the size of the RAM
array (`RAM_SIZE` for the `RAM_PAGES` frames of the source); so the index at
which a completed `read_memory` reads and a completed `write_memory` writes is
below that size. -/
theorem phys_addr_in_bounds (F : Nat) (replace : Policy) (hF : 0 < F) (hF27 : F ≤ PAGE_FIELD)
    (hpol : PolicyFrame F replace) (pre : List Access) (s t : Machine) (a pa : Nat) (w : Bool)
    (h0 : run F replace init_machine pre = some s) (_hin : a / PAGESIZE < NPAGES)
    (h : translate F replace s a w = some (pa, t)) :
    pa < F * PAGESIZE ∧ RAM_PAGES * PAGESIZE = RAM_SIZE ∧
    (∀ r u, read_memory F replace s a = some (r, u) →
      ∃ i, translate F replace s a false = some (i, u) ∧ i < F * PAGESIZE ∧ r = u.memory i) ∧
    (∀ d u, write_memory F replace s a d = some u →
      ∃ i v, translate F replace s a true = some (i, v) ∧ i < F * PAGESIZE ∧
        u = { v with memory := Function.update v.memory i d }) := by
  have hres := run_resident hpol hF27 pre init_machine s (init_resident hF) h0
  refine ⟨translate_in_bounds hpol hF27 hres h, rfl, fun r u hr => ?_, fun d u hu => ?_⟩
  · simp only [read_memory] at hr
    split at hr
    · exact absurd hr (by simp)
    · rename_i i v hv
      simp only [Option.some.injEq, Prod.mk.injEq] at hr
      obtain ⟨rfl, rfl⟩ := hr
      exact ⟨i, hv, translate_in_bounds hpol hF27 hres hv, rfl⟩
  · simp only [write_memory] at hu
    split at hu
    · exact absurd hu (by simp)
    · rename_i i v hv
      simp only [Option.some.injEq] at hu
      exact ⟨i, v, hv, translate_in_bounds hpol hF27 hres hv, hu.symm⟩

theorem phys_addr_in_bounds_witness :
    ∃ s pa t,
      run RAM_PAGES (fifo_page_replace RAM_PAGES) init_machine [.write 0 5, .read 40] = some s ∧
      translate RAM_PAGES (fifo_page_replace RAM_PAGES) s 81 false = some (pa, t) ∧
      pa < RAM_SIZE := by
  have hsome : ((run RAM_PAGES (fifo_page_replace RAM_PAGES) init_machine
      [.write 0 5, .read 40]).bind (fun s =>
        translate RAM_PAGES (fifo_page_replace RAM_PAGES) s 81 false)).isSome = true := by
    decide
  obtain ⟨⟨pa, t⟩, hc⟩ := Option.isSome_iff_exists.mp hsome
  obtain ⟨s, hs, ht⟩ := Option.bind_eq_some.mp hc
  exact ⟨s, pa, t, hs, ht,
    (phys_addr_in_bounds RAM_PAGES (fifo_page_replace RAM_PAGES) (by decide) (by decide)
      (fifo_policy_frame RAM_PAGES) _ s t 81 pa false hs (by decide) ht).1⟩

/-! ## Clean eviction -/

/-- `take_phys_page` does not assign to the coremap. -/
theorem take_phys_page_coremap {F : Nat} {replace : Policy} (hpol : PolicyFrame F replace)
    {s t : Machine} {r : Nat} (h : take_phys_page F replace s = some (r, t)) :
    t.coremap = s.coremap := by
  rcases take_phys_page_cases h with ⟨_, _, rfl⟩ | ⟨_, hrep, _⟩ | ⟨hneg, s1, o, hrep, hown⟩
  · rfl
  · exact (hpol _ _ _ hrep).2.coremap
  · obtain ⟨-, -, rfl⟩ := take_phys_page_evict hneg hrep hown h
    exact (hpol _ _ _ hrep).2.coremap

/-- The slot recorded in a coremap entry is a slot index or 0, after `pagefault`
as before. -/
theorem pagefault_coremap_page {F : Nat} {replace : Policy} (hpol : PolicyFrame F replace)
    {s t : Machine} {v : Nat} (hres : Resident F s) (hb : Backed s)
    (hv : (s.page_table v).inmemory = false)
    (hcm : ∀ f, (s.coremap f).page < SWAP_PAGES) (h : pagefault F replace s v = some t) :
    ∀ f, (t.coremap f).page < SWAP_PAGES := by
  obtain ⟨phys, s1, htake, rfl⟩ := pagefault_some h
  have hv1 : (s1.page_table v).inmemory = false := take_phys_page_inmemory hpol htake v hv
  have hb1 := (take_phys_page_backed hpol
    (s := { s with num_pagefault := s.num_pagefault + 1 })
    ⟨hres.res, hres.own, hres.cold, hres.unused⟩
    ⟨hb.count_le, hb.slot_lt, hb.slot_inj, hb.clean⟩ htake).1
  have hcm1 := take_phys_page_coremap hpol htake
  intro f
  by_cases hf : f = phys
  · subst hf
    simp only [Function.update_same]
    split
    · rename_i hd
      have := hb1.slot_lt v hd
      have hc := hb1.count_le
      simp only [slot, hv1, Bool.false_eq_true, if_false] at this
      omega
    · decide
  · simp only [Function.update_apply, hf, if_false]
    rw [hcm1]
    exact hcm f

/-- In every state of a run from the initial state, the slot recorded in a
coremap entry is below `SWAP_PAGES`. -/
theorem run_coremap_page {F : Nat} {replace : Policy} (hpol : PolicyFrame F replace)
    (hF27 : F ≤ PAGE_FIELD) :
    ∀ (accs : List Access) (s t : Machine), Resident F s → Backed s →
      (∀ f, (s.coremap f).page < SWAP_PAGES) → run F replace s accs = some t →
      ∀ f, (t.coremap f).page < SWAP_PAGES := by
  intro accs
  induction accs with
  | nil =>
    intro s t _ _ hcm h
    simp only [run, Option.some.injEq] at h
    subst h
    exact hcm
  | cons x rest ih =>
    intro s t hres hb hcm h
    simp only [run] at h
    split at h
    · exact absurd h (by simp)
    · rename_i r s1 hacc
      refine ih s1 t (access_resident hpol hF27 hres hacc)
        (access_backed hpol hF27 hres hb hacc).1 ?_ h
      have htr : ∀ (a pa : Nat) (w : Bool) (u : Machine),
          translate F replace s a w = some (pa, u) → ∀ f, (u.coremap f).page < SWAP_PAGES := by
        intro a pa w u hu
        obtain ⟨m, hm, -, -, -, -, -, -, -, f_cm, -⟩ := translate_fields hu
        rw [f_cm]
        split at hm
        · rename_i hv
          exact pagefault_coremap_page hpol
            (s := { s with num_memoryaccesses := s.num_memoryaccesses + 1 })
            ⟨hres.res, hres.own, hres.cold, hres.unused⟩
            ⟨hb.count_le, hb.slot_lt, hb.slot_inj, hb.clean⟩ hv hcm hm
        · simp only [Option.some.injEq] at hm
          subst hm
          exact hcm
      cases x with
      | read a =>
        simp only [access, read_memory] at hacc
        split at hacc
        · exact absurd hacc (by simp)
        · rename_i pa u hu
          simp only [Option.some.injEq, Prod.mk.injEq] at hacc
          rw [← hacc.2]
          exact htr a pa false u hu
      | write a d =>
        simp only [access, write_memory] at hacc
        split at hacc
        · exact absurd hacc (by simp)
        · rename_i s2 hs2
          split at hs2
          · exact absurd hs2 (by simp)
          · rename_i pa u hu
            simp only [Option.some.injEq] at hs2
            simp only [Option.some.injEq, Prod.mk.injEq] at hacc
            rw [← hacc.2, ← hs2]
            exact htr a pa true u hu
      | xlate a w => exact htr a r w s1 hacc

/-- C32 (clean eviction): in a state reached from the initial state (`0 < F ≤
2^27`, a policy that touches reference bits and cursors only; the two access
counters as `translate` and `pagefault` have left them), when `take_phys_page`
takes the frame `f` chosen by the policy and the owner `o` of `f` has
`modified = 0`, it returns `f`, `num_diskwrites` and the swap-slot counter are
unchanged, memory, swap and coremap are unchanged, and the state differs from
the one left by the policy only in the entry of `o`: `inmemory` is 0 and `page`
is `coremap[f].page`; the `ondisk` flag of `o` is unchanged. -/
theorem clean_eviction (F : Nat) (replace : Policy) (hF : 0 < F) (hF27 : F ≤ PAGE_FIELD)
    (hpol : PolicyFrame F replace) (pre : List Access) (s s1 t : Machine) (a b f o r : Nat)
    (h0 : run F replace init_machine pre = some s) (hneg : s.next_unused_page < 0)
    (hrep : replace { s with num_memoryaccesses := a, num_pagefault := b } = some (f, s1))
    (hown : (s.coremap f).owner = some o) (hmod : (s.page_table o).modified = false)
    (h : take_phys_page F replace { s with num_memoryaccesses := a, num_pagefault := b }
      = some (r, t)) :
    r = f ∧ t.num_diskwrites = s.num_diskwrites ∧ t.count = s.count ∧
    t.memory = s.memory ∧ t.swap = s.swap ∧ t.coremap = s.coremap ∧
    (t.page_table o).inmemory = false ∧ (t.page_table o).page = (s.coremap f).page ∧
    (t.page_table o).ondisk = (s.page_table o).ondisk ∧
    (t.page_table o).modified = false ∧
    t = { s1 with page_table := (Function.update s1.page_table o
            { s1.page_table o with inmemory := false, page := (s.coremap f).page }) } ∧
    SameButRefs { s with num_memoryaccesses := a, num_pagefault := b } s1 := by
  obtain ⟨hres, hb⟩ := run_backed hpol hF27 pre init_machine s (init_resident hF) init_backed h0
  have hcm := run_coremap_page hpol hF27 pre init_machine s (init_resident hF) init_backed
    (fun _ => by simp [init_machine, SWAP_PAGES]) h0 f
  have hsame := (hpol _ _ _ hrep).2
  have hneg2 : ¬ 0 ≤ ({ s with num_memoryaccesses := a, num_pagefault := b } :
      Machine).next_unused_page := by
    show ¬ 0 ≤ s.next_unused_page
    omega
  have hown1 : (s1.coremap f).owner = some o := by rw [hsame.coremap]; exact hown
  have hmod1 : (s1.page_table o).modified = false := by rw [hsame.modified]; exact hmod
  have hcm1 : (s1.coremap f).page = (s.coremap f).page := by rw [hsame.coremap]
  have hlt := SWAP_PAGES_lt_PAGE_FIELD
  have hmodlt : (s.coremap f).page % PAGE_FIELD = (s.coremap f).page :=
    Nat.mod_eq_of_lt (by omega)
  obtain ⟨hr, -, ht⟩ := take_phys_page_evict hneg2 hrep hown1 h
  have ht2 : t = { s1 with page_table := (Function.update s1.page_table o
      { s1.page_table o with inmemory := false, page := (s.coremap f).page }) } := by
    rw [ht]
    simp [hmod1, hcm1, hmodlt]
  refine ⟨hr, ?_, ?_, ?_, ?_, ?_, ?_, ?_, ?_, ?_, ht2, hsame⟩
  · rw [ht2]; exact hsame.num_diskwrites
  · rw [ht2]; exact hsame.count
  · rw [ht2]; exact hsame.memory
  · rw [ht2]; exact hsame.swap
  · rw [ht2]; exact hsame.coremap
  · rw [ht2]; simp
  · rw [ht2]; simp
  · rw [ht2]; simpa using hsame.ondisk o
  · rw [ht2]; simpa using hmod1

theorem clean_eviction_witness :
    ∃ s s1 t, run 2 (fifo_page_replace 2) init_machine [.read 0, .read 4] = some s ∧
      fifo_page_replace 2 { s with num_memoryaccesses := 3, num_pagefault := 3 } = some (0, s1) ∧
      take_phys_page 2 (fifo_page_replace 2)
        { s with num_memoryaccesses := 3, num_pagefault := 3 } = some (0, t) ∧
      t.num_diskwrites = s.num_diskwrites ∧ t.swap = s.swap ∧
      (t.page_table 0).inmemory = false := by
  have hsome : ((run 2 (fifo_page_replace 2) init_machine [.read 0, .read 4]).bind (fun s =>
      (fifo_page_replace 2 { s with num_memoryaccesses := 3, num_pagefault := 3 }).bind
        (fun _ => take_phys_page 2 (fifo_page_replace 2)
          { s with num_memoryaccesses := 3, num_pagefault := 3 }))).isSome = true := by decide
  have hflags : (run 2 (fifo_page_replace 2) init_machine [.read 0, .read 4]).map (fun s =>
      (decide (s.next_unused_page < 0), (s.coremap 0).owner, (s.page_table 0).modified,
        (fifo_page_replace 2 { s with num_memoryaccesses := 3, num_pagefault := 3 }).map
          Prod.fst)) = some (true, some 0, false, some 0) := by decide
  obtain ⟨⟨r, t⟩, hc⟩ := Option.isSome_iff_exists.mp hsome
  obtain ⟨s, hs, hc1⟩ := Option.bind_eq_some.mp hc
  obtain ⟨⟨f, s1⟩, hrep, htake⟩ := Option.bind_eq_some.mp hc1
  rw [hs] at hflags
  simp only [Option.map_some', Option.some.injEq, Prod.mk.injEq, decide_eq_true_eq,
    hrep] at hflags
  obtain ⟨hneg, hown, hmod, hf⟩ := hflags
  subst hf
  obtain ⟨hr, h1, -, -, h4, -, h6, -⟩ :=
    clean_eviction 2 (fifo_page_replace 2) (by decide) (by decide) (fifo_policy_frame 2)
      _ s s1 t 3 3 0 0 r hs hneg hrep hown hmod htake
  subst hr
  exact ⟨s, s1, t, hs, hrep, htake, h1, h4, h6⟩

/-! ## Invariants along a run -/

/-- A property kept by every completed `translate` and by a store to `memory`
holds along a run. -/
theorem run_invariant {F : Nat} {replace : Policy} (P : Machine → Prop)
    (htr : ∀ (s t : Machine) (a pa : Nat) (w : Bool), P s →
      translate F replace s a w = some (pa, t) → P t)
    (hmem : ∀ (s : Machine) (pa d : Nat), P s →
      P { s with memory := Function.update s.memory pa d }) :
    ∀ (accs : List Access) (s t : Machine), P s → run F replace s accs = some t → P t := by
  intro accs
  induction accs with
  | nil =>
    intro s t hs h
    simp only [run, Option.some.injEq] at h
    subst h
    exact hs
  | cons x rest ih =>
    intro s t hs h
    simp only [run] at h
    split at h
    · exact absurd h (by simp)
    · rename_i r s1 hacc
      refine ih s1 t ?_ h
      cases x with
      | read a =>
        simp only [access, read_memory] at hacc
        split at hacc
        · exact absurd hacc (by simp)
        · rename_i pa u hu
          simp only [Option.some.injEq, Prod.mk.injEq] at hacc
          rw [← hacc.2]
          exact htr s u a pa false hs hu
      | write a d =>
        simp only [access, write_memory] at hacc
        split at hacc
        · exact absurd hacc (by simp)
        · rename_i s2 hs2
          split at hs2
          · exact absurd hs2 (by simp)
          · rename_i pa u hu
            simp only [Option.some.injEq] at hs2
            simp only [Option.some.injEq, Prod.mk.injEq] at hacc
            rw [← hacc.2, ← hs2]
            exact hmem u pa d (htr s u a pa true hs hu)
      | xlate a w => exact htr s s1 a r w hs hacc

/-- The cold start in `take_phys_page`: either the next unused frame is handed
out, without a disk write and without a change of the page table, or the cold
start is over and stays so. -/
theorem take_phys_page_cold_start {F : Nat} {replace : Policy} (hpol : PolicyFrame F replace)
    {s t : Machine} {r : Nat} (h : take_phys_page F replace s = some (r, t)) :
    (0 ≤ s.next_unused_page ∧ (r : Int) = s.next_unused_page ∧
      t.next_unused_page
        = (if s.next_unused_page + 1 = (F : Int) then -1 else s.next_unused_page + 1) ∧
      t.num_diskwrites = s.num_diskwrites ∧ t.page_table = s.page_table) ∨
    (s.next_unused_page < 0 ∧ t.next_unused_page = s.next_unused_page) := by
  rcases take_phys_page_cases h with ⟨h0, hr, rfl⟩ | ⟨hneg, hrep, _⟩ | ⟨hneg, s1, o, hrep, hown⟩
  · left
    refine ⟨h0, ?_, rfl, rfl, rfl⟩
    rw [hr]
    exact Int.toNat_of_nonneg h0
  · right
    exact ⟨by omega, (hpol _ _ _ hrep).2.next_unused_page⟩
  · right
    obtain ⟨-, -, rfl⟩ := take_phys_page_evict hneg hrep hown h
    exact ⟨by omega, (hpol _ _ _ hrep).2.next_unused_page⟩

theorem pagefault_handed {F : Nat} {replace : Policy} (hpol : PolicyFrame F replace)
    {s t : Machine} {v : Nat} (hh : Handed F s) (h : pagefault F replace s v = some t) :
    Handed F t := by
  obtain ⟨phys, s1, htake, rfl⟩ := pagefault_some h
  have hcm := take_phys_page_coremap hpol htake
  have hu := take_phys_page_cold_start hpol htake
  intro f hf hcond
  by_cases hfp : f = phys
  · subst hfp
    simp
  · simp only [Function.update_apply, hfp, if_false]
    rw [hcm]
    refine hh f hf ?_
    have hcond2 : s1.next_unused_page < 0 ∨ (f : Int) < s1.next_unused_page := hcond
    rcases hu with ⟨h0, hr, hnu, -, -⟩ | ⟨hneg, hnu⟩
    · have h0s : 0 ≤ s.next_unused_page := h0
      have hrs : (phys : Int) = s.next_unused_page := hr
      have hnus : s1.next_unused_page
          = (if s.next_unused_page + 1 = (F : Int) then -1 else s.next_unused_page + 1) := hnu
      right
      rw [hnus] at hcond2
      split at hcond2 <;> omega
    · have hnegs : s.next_unused_page < 0 := hneg
      exact Or.inl hnegs

theorem translate_handed {F : Nat} {replace : Policy} (hpol : PolicyFrame F replace)
    {s t : Machine} {a pa : Nat} {w : Bool} (hh : Handed F s)
    (h : translate F replace s a w = some (pa, t)) : Handed F t := by
  obtain ⟨m, hm, -, -, -, -, -, f_nu, -, f_cm, -⟩ := translate_fields h
  have hmh : Handed F m := by
    split at hm
    · exact pagefault_handed hpol
        (s := { s with num_memoryaccesses := s.num_memoryaccesses + 1 }) hh hm
    · simp only [Option.some.injEq] at hm
      subst hm
      exact hh
  intro f hf hcond
  rw [f_cm]
  rw [f_nu] at hcond
  exact hmh f hf hcond

theorem run_handed {F : Nat} {replace : Policy} (hpol : PolicyFrame F replace)
    (accs : List Access) (s t : Machine) (hh : Handed F s)
    (h : run F replace s accs = some t) : Handed F t :=
  run_invariant (Handed F) (fun _ _ _ _ _ hs ht => translate_handed hpol hs ht)
    (fun _ _ _ hs => hs) accs s t hh h

theorem init_handed (F : Nat) : Handed F init_machine := by
  intro f _ hcond
  have : init_machine.next_unused_page = 0 := rfl
  rw [this] at hcond
  omega

theorem second_chance_replace_cursor {F : Nat} (hF : 0 < F) {s t : Machine} {v : Nat}
    (h : second_chance_replace F s = some (v, t)) : t.sc_next_page < F := by
  unfold second_chance_replace at h
  split at h
  · exact absurd h (by simp)
  · dsimp only at h
    split at h
    · simp only [Option.some.injEq, Prod.mk.injEq] at h
      rw [← h.2]
      exact Nat.mod_lt _ hF
    · exact absurd h (by simp)

theorem translate_sc_cursor {F : Nat} (hF : 0 < F) {s t : Machine} {a pa : Nat} {w : Bool}
    (hs : s.sc_next_page < F)
    (h : translate F (second_chance_replace F) s a w = some (pa, t)) :
    t.sc_next_page < F := by
  obtain ⟨m, hm, ht, -⟩ := translate_some h
  have hmc : m.sc_next_page < F := by
    split at hm
    · obtain ⟨phys, s1, htake, rfl⟩ := pagefault_some hm
      show s1.sc_next_page < F
      rcases take_phys_page_cases htake with ⟨_, _, rfl⟩ | ⟨_, hrep, _⟩ | ⟨hneg, s2, o, hrep, hown⟩
      · exact hs
      · exact second_chance_replace_cursor hF hrep
      · obtain ⟨-, -, rfl⟩ := take_phys_page_evict hneg hrep hown htake
        show s2.sc_next_page < F
        exact second_chance_replace_cursor hF hrep
    · simp only [Option.some.injEq] at hm
      subst hm
      exact hs
  rw [ht]
  cases w <;> exact hmc

/-- C36 (no ownerless frame reaches a policy): `take_phys_page` calls the policy
exactly when the cold start is over (`next_unused_page < 0`).  In a state
reached from the initial state in which the cold start is over (`0 < F ≤ 2^27`,
any counter values as left by `translate` and `pagefault`), every one of the
`F` coremap entries has an owner; with `second_chance_replace` as the policy of
the run, the call of `second_chance_replace` returns a frame, and with
`optimal_page_replace` as the policy of the run, the call of
`optimal_page_replace` returns a frame: none of the two meets a missing
owner. -/
theorem policy_sees_owners (F : Nat) (replace : Policy) (hF : 0 < F) (hF27 : F ≤ PAGE_FIELD)
    (hpol : PolicyFrame F replace) (pre : List Access) (s : Machine) (a b : Nat)
    (h0 : run F replace init_machine pre = some s) (hneg : s.next_unused_page < 0) :
    (∀ f, f < F →
      (({ s with num_memoryaccesses := a, num_pagefault := b } : Machine).coremap f).owner
        ≠ none) ∧
    (replace = second_chance_replace F →
      ∃ v t, second_chance_replace F { s with num_memoryaccesses := a, num_pagefault := b }
        = some (v, t) ∧ v < F) ∧
    (replace = optimal_page_replace F →
      ∃ v t, optimal_page_replace F { s with num_memoryaccesses := a, num_pagefault := b }
        = some (v, t) ∧ v < F) := by
  have hh := run_handed hpol pre init_machine s (init_handed F) h0
  have hres := run_resident hpol hF27 pre init_machine s (init_resident hF) h0
  have hown : ∀ f, f < F → (s.coremap f).owner ≠ none := fun f hf => hh f hf (Or.inl hneg)
  refine ⟨hown, ?_, ?_⟩
  · intro hrep
    subst hrep
    have hcur : s.sc_next_page < F :=
      run_invariant (fun m => m.sc_next_page < F)
        (fun _ _ _ _ _ hs ht => translate_sc_cursor hF hs ht) (fun _ _ _ hs => hs)
        pre init_machine s hF h0
    exact second_chance_replace_returns F
      { s with num_memoryaccesses := a, num_pagefault := b } hcur hown
  · intro _
    have hres2 : Resident F { s with num_memoryaccesses := a, num_pagefault := b } :=
      ⟨hres.res, hres.own, hres.cold, hres.unused⟩
    have hscan := optimal_scan_frames hres2
      ((a + (2 ^ 64 - 1)) % 2 ^ 64 % 2 ^ 32) F 0 (0, 0) (fun f _ h => hown f (by omega))
    have hex : ∃ v t, optimal_page_replace F
        { s with num_memoryaccesses := a, num_pagefault := b } = some (v, t) := by
      unfold optimal_page_replace
      dsimp only
      rw [hscan]
      exact ⟨_, _, rfl⟩
    obtain ⟨v, t, hvt⟩ := hex
    exact ⟨v, t, hvt, (optimal_policy_frame hF _ _ _ hvt).1⟩

theorem policy_sees_owners_witness :
    ∃ s, run RAM_PAGES (second_chance_replace RAM_PAGES) init_machine
        [.read 0, .read 4, .read 8, .read 12, .read 16, .read 20, .read 24, .read 28] = some s ∧
      s.next_unused_page < 0 ∧ (∀ f, f < RAM_PAGES → (s.coremap f).owner ≠ none) ∧
      ∃ v t, second_chance_replace RAM_PAGES
        { s with num_memoryaccesses := 9, num_pagefault := 9 } = some (v, t) ∧ v < RAM_PAGES := by
  have hsome : (run RAM_PAGES (second_chance_replace RAM_PAGES) init_machine
      [.read 0, .read 4, .read 8, .read 12, .read 16, .read 20, .read 24, .read 28]).map
      (fun s => decide (s.next_unused_page < 0)) = some true := by decide
  obtain ⟨s, hs, hneg⟩ := Option.map_eq_some'.mp hsome
  have hneg2 : s.next_unused_page < 0 := of_decide_eq_true hneg
  obtain ⟨h1, h2, -⟩ := policy_sees_owners RAM_PAGES (second_chance_replace RAM_PAGES)
    (by decide) (by decide) (second_chance_policy_frame RAM_PAGES) _ s 9 9 hs hneg2
  exact ⟨s, hs, hneg2, h1, h2 rfl⟩

/-! ## Statistics -/

/-- In `take_phys_page` the counter `num_diskwrites` grows by at most one, and
no `ondisk` bit changes without a disk write. -/
theorem take_phys_page_writes {F : Nat} {replace : Policy} (hpol : PolicyFrame F replace)
    {s t : Machine} {r : Nat} (h : take_phys_page F replace s = some (r, t)) :
    s.num_diskwrites ≤ t.num_diskwrites ∧ t.num_diskwrites ≤ s.num_diskwrites + 1 ∧
    (t.num_diskwrites = s.num_diskwrites →
      ∀ p, (t.page_table p).ondisk = (s.page_table p).ondisk) := by
  rcases take_phys_page_cases h with ⟨_, _, rfl⟩ | ⟨_, hrep, _⟩ | ⟨hneg, s1, o, hrep, hown⟩
  · exact ⟨le_refl _, Nat.le_succ _, fun _ _ => rfl⟩
  · have hs := (hpol _ _ _ hrep).2
    rw [hs.num_diskwrites]
    exact ⟨le_refl _, Nat.le_succ _, fun _ => hs.ondisk⟩
  · obtain ⟨-, -, rfl⟩ := take_phys_page_evict hneg hrep hown h
    have hs := (hpol _ _ _ hrep).2
    have hdw := hs.num_diskwrites
    cases hm : (s1.page_table o).modified
    · simp only [hm, Bool.false_eq_true, if_false, Bool.or_false, Bool.false_and]
      refine ⟨by omega, by omega, fun _ p => ?_⟩
      by_cases hpo : p = o
      · subst hpo
        simp [hs.ondisk]
      · simp [Function.update_apply, hpo, hs.ondisk]
    · simp only [hm, if_true]
      refine ⟨by omega, by omega, fun hc => ?_⟩
      omega

theorem pagefault_stats {F : Nat} {replace : Policy} (hpol : PolicyFrame F replace)
    {s t : Machine} {v : Nat} (h1 : s.num_diskreads ≤ s.num_pagefault)
    (h2 : s.num_pagefault + 1 ≤ s.num_memoryaccesses)
    (h3 : s.num_diskwrites ≤ s.num_pagefault)
    (hc : 0 ≤ s.next_unused_page → (s.num_pagefault : Int) = s.next_unused_page)
    (hw : s.next_unused_page < 0 → F ≤ s.num_pagefault)
    (hf : s.num_pagefault ≤ F → s.num_diskreads = 0 ∧ s.num_diskwrites = 0)
    (hcl : s.num_diskwrites = 0 → ∀ p, (s.page_table p).ondisk = false)
    (h : pagefault F replace s v = some t) : Stats F t := by
  obtain ⟨phys, s1, htake, rfl⟩ := pagefault_some h
  obtain ⟨c1, c2, c3⟩ := take_phys_page_counters hpol htake
  obtain ⟨w1, w2, w3⟩ := take_phys_page_writes hpol htake
  have hu := take_phys_page_cold_start hpol htake
  have c1s : s1.num_memoryaccesses = s.num_memoryaccesses := c1
  have c2s : s1.num_pagefault = s.num_pagefault + 1 := c2
  have c3s : s1.num_diskreads = s.num_diskreads := c3
  have w1s : s.num_diskwrites ≤ s1.num_diskwrites := w1
  have w2s : s1.num_diskwrites ≤ s.num_diskwrites + 1 := w2
  have w3s : s1.num_diskwrites = s.num_diskwrites →
      ∀ p, (s1.page_table p).ondisk = (s.page_table p).ondisk := w3
  have hus : (0 ≤ s.next_unused_page ∧
      s1.next_unused_page
        = (if s.next_unused_page + 1 = (F : Int) then -1 else s.next_unused_page + 1) ∧
      s1.num_diskwrites = s.num_diskwrites ∧ s1.page_table = s.page_table) ∨
      (s.next_unused_page < 0 ∧ s1.next_unused_page = s.next_unused_page) := by
    rcases hu with ⟨a1, -, a3, a4, a5⟩ | ⟨b1, b2⟩
    · exact Or.inl ⟨a1, a3, a4, a5⟩
    · exact Or.inr ⟨b1, b2⟩
  have hdr : (if (s1.page_table v).ondisk = true then s1.num_diskreads + 1
      else s1.num_diskreads) ≤ s1.num_diskreads + 1 := by
    split <;> omega
  refine ⟨?_, ?_, ?_, ?_, ?_, ?_, ?_⟩
  · show (if (s1.page_table v).ondisk = true then s1.num_diskreads + 1
      else s1.num_diskreads) ≤ s1.num_pagefault
    omega
  · show s1.num_pagefault ≤ s1.num_memoryaccesses
    omega
  · show s1.num_diskwrites ≤ s1.num_pagefault
    omega
  · show 0 ≤ s1.next_unused_page → (s1.num_pagefault : Int) = s1.next_unused_page
    intro h0
    rcases hus with ⟨a1, a3, -, -⟩ | ⟨b1, b2⟩
    · have := hc a1
      rw [a3] at h0 ⊢
      split at h0
      · omega
      · rw [if_neg (by assumption)]
        omega
    · omega
  · show s1.next_unused_page < 0 → F ≤ s1.num_pagefault
    intro hneg
    rcases hus with ⟨a1, a3, -, -⟩ | ⟨b1, b2⟩
    · have := hc a1
      rw [a3] at hneg
      split at hneg
      · omega
      · omega
    · have := hw b1
      omega
  · show s1.num_pagefault ≤ F →
      (if (s1.page_table v).ondisk = true then s1.num_diskreads + 1 else s1.num_diskreads) = 0 ∧
        s1.num_diskwrites = 0
    intro hle
    rcases hus with ⟨a1, -, a4, a5⟩ | ⟨b1, b2⟩
    · obtain ⟨hr0, hw0⟩ := hf (by omega)
      have hod : (s1.page_table v).ondisk = false := by rw [a5]; exact hcl hw0 v
      rw [hod]
      simp only [Bool.false_eq_true, if_false]
      omega
    · have := hw b1
      omega
  · show s1.num_diskwrites = 0 → ∀ p, ((Function.update s1.page_table v
        { s1.page_table v with
          page := phys % PAGE_FIELD, inmemory := true, modified := false,
          referenced := false }) p).ondisk = false
    intro hz p
    have hsz : s.num_diskwrites = 0 := by omega
    have hod : ∀ q, (s1.page_table q).ondisk = false := fun q => by
      rw [w3s (by omega) q]
      exact hcl hsz q
    by_cases hpv : p = v
    · subst hpv
      simp [hod]
    · simp [Function.update_apply, hpv, hod]

theorem translate_counters {F : Nat} {replace : Policy} (hpol : PolicyFrame F replace)
    {s t : Machine} {a pa : Nat} {w : Bool} (h : translate F replace s a w = some (pa, t)) :
    t.num_memoryaccesses = s.num_memoryaccesses + 1 ∧ s.num_pagefault ≤ t.num_pagefault ∧
      s.num_diskwrites ≤ t.num_diskwrites ∧ s.num_diskreads ≤ t.num_diskreads := by
  obtain ⟨m, hm, -, -, -, -, f_np, -, -, -, -, -, -, f_dw, f_dr, -⟩ := translate_fields h
  obtain ⟨m2, hm2, ht, -⟩ := translate_some h
  rw [hm] at hm2
  simp only [Option.some.injEq] at hm2
  subst hm2
  have hnm : t.num_memoryaccesses = m.num_memoryaccesses := by
    rw [ht]
    cases w <;> rfl
  rw [hnm, f_np, f_dw, f_dr]
  split at hm
  · obtain ⟨phys, s1, htake, rfl⟩ := pagefault_some hm
    obtain ⟨c1, c2, c3⟩ := take_phys_page_counters hpol htake
    obtain ⟨w1, -, -⟩ := take_phys_page_writes hpol htake
    have c1s : s1.num_memoryaccesses = s.num_memoryaccesses + 1 := c1
    have c2s : s1.num_pagefault = s.num_pagefault + 1 := c2
    have c3s : s1.num_diskreads = s.num_diskreads := c3
    have w1s : s.num_diskwrites ≤ s1.num_diskwrites := w1
    refine ⟨c1s, by show s.num_pagefault ≤ s1.num_pagefault; omega, w1s, ?_⟩
    show s.num_diskreads ≤ (if (s1.page_table (a / PAGESIZE)).ondisk = true then
      s1.num_diskreads + 1 else s1.num_diskreads)
    split <;> omega
  · simp only [Option.some.injEq] at hm
    subst hm
    exact ⟨rfl, le_refl _, le_refl _, le_refl _⟩

theorem translate_stats {F : Nat} {replace : Policy} (hpol : PolicyFrame F replace)
    {s t : Machine} {a pa : Nat} {w : Bool} (hs : Stats F s)
    (h : translate F replace s a w = some (pa, t)) : Stats F t := by
  obtain ⟨m, hm, -, -, f_od, -, f_np, f_nu, -, -, -, -, -, f_dw, f_dr, -⟩ := translate_fields h
  obtain ⟨m2, hm2, ht, -⟩ := translate_some h
  rw [hm] at hm2
  simp only [Option.some.injEq] at hm2
  subst hm2
  have hnm : t.num_memoryaccesses = m.num_memoryaccesses := by
    rw [ht]
    cases w <;> rfl
  have hms : Stats F m := by
    split at hm
    · exact pagefault_stats hpol
        (s := { s with num_memoryaccesses := s.num_memoryaccesses + 1 })
        hs.reads_le (Nat.succ_le_succ hs.faults_le) hs.writes_le hs.cold hs.warm hs.first
        hs.clean hm
    · simp only [Option.some.injEq] at hm
      subst hm
      exact ⟨hs.reads_le, Nat.le_succ_of_le hs.faults_le, hs.writes_le, hs.cold, hs.warm,
        hs.first, hs.clean⟩
  refine ⟨?_, ?_, ?_, ?_, ?_, ?_, ?_⟩
  · rw [f_dr, f_np]; exact hms.reads_le
  · rw [f_np, hnm]; exact hms.faults_le
  · rw [f_dw, f_np]; exact hms.writes_le
  · rw [f_np, f_nu]; exact hms.cold
  · rw [f_np, f_nu]; exact hms.warm
  · rw [f_np, f_dr, f_dw]; exact hms.first
  · rw [f_dw]
    intro hz p
    rw [f_od]
    exact hms.clean hz p

theorem init_stats (F : Nat) : Stats F init_machine :=
  ⟨le_refl _, le_refl _, le_refl _, fun _ => rfl, fun h => absurd h (by decide),
    fun _ => ⟨rfl, rfl⟩, fun _ _ => rfl⟩

/-- C35 (statistics relations): in every state `s` reached from the initial
state, `num_diskreads ≤ num_pagefault ≤ num_memoryaccesses` and
`num_diskwrites ≤ num_pagefault`; both disk counters are 0 while
`num_pagefault ≤ F`, the number of frames; and in every state `t` reached from
`s` none of the four counters is smaller than in `s`. -/
theorem statistics_relations (F : Nat) (replace : Policy) (hpol : PolicyFrame F replace)
    (pre post : List Access) (s t : Machine)
    (h0 : run F replace init_machine pre = some s) (h1 : run F replace s post = some t) :
    s.num_diskreads ≤ s.num_pagefault ∧ s.num_pagefault ≤ s.num_memoryaccesses ∧
    s.num_diskwrites ≤ s.num_pagefault ∧
    (s.num_pagefault ≤ F → s.num_diskreads = 0 ∧ s.num_diskwrites = 0) ∧
    s.num_memoryaccesses ≤ t.num_memoryaccesses ∧ s.num_pagefault ≤ t.num_pagefault ∧
    s.num_diskwrites ≤ t.num_diskwrites ∧ s.num_diskreads ≤ t.num_diskreads := by
  have hs : Stats F s :=
    run_invariant (Stats F) (fun _ _ _ _ _ hm ht => translate_stats hpol hm ht)
      (fun _ _ _ hm => ⟨hm.reads_le, hm.faults_le, hm.writes_le, hm.cold, hm.warm, hm.first,
        hm.clean⟩) pre init_machine s (init_stats F) h0
  have hmono := run_invariant
    (fun m => s.num_memoryaccesses ≤ m.num_memoryaccesses ∧ s.num_pagefault ≤ m.num_pagefault ∧
      s.num_diskwrites ≤ m.num_diskwrites ∧ s.num_diskreads ≤ m.num_diskreads)
    (fun m u _ _ _ hm hu => by
      obtain ⟨e1, e2, e3, e4⟩ := translate_counters hpol hu
      obtain ⟨m1, m2, m3, m4⟩ := hm
      exact ⟨by omega, by omega, by omega, by omega⟩)
    (fun _ _ _ hm => hm) post s t ⟨le_refl _, le_refl _, le_refl _, le_refl _⟩ h1
  exact ⟨hs.reads_le, hs.faults_le, hs.writes_le, hs.first, hmono⟩

theorem statistics_relations_witness :
    ∃ s t, run RAM_PAGES (fifo_page_replace RAM_PAGES) init_machine [.write 0 1, .read 4]
        = some s ∧
      run RAM_PAGES (fifo_page_replace RAM_PAGES) s [.read 40] = some t ∧
      s.num_pagefault ≤ s.num_memoryaccesses ∧ s.num_pagefault ≤ t.num_pagefault := by
  have hsome : ((run RAM_PAGES (fifo_page_replace RAM_PAGES) init_machine
      [.write 0 1, .read 4]).bind (fun s =>
        run RAM_PAGES (fifo_page_replace RAM_PAGES) s [.read 40])).isSome = true := by decide
  obtain ⟨t, hc⟩ := Option.isSome_iff_exists.mp hsome
  obtain ⟨s, hs, ht⟩ := Option.bind_eq_some.mp hc
  obtain ⟨-, h2, -, -, -, h6, -⟩ := statistics_relations RAM_PAGES
    (fifo_page_replace RAM_PAGES) (fifo_policy_frame RAM_PAGES) _ _ s t hs ht
  exact ⟨s, t, hs, ht, h2, h6⟩

/-! ## Swap slot exclusivity -/

/-- A property kept by every completed `translate` of an access that satisfies
`Q`, and by a store to `memory`, holds along a run of such accesses. -/
theorem run_invariant_on {F : Nat} {replace : Policy} (Q : Access → Prop)
    (P : Machine → Prop)
    (htr : ∀ (s t : Machine) (x : Access) (pa : Nat) (w : Bool), Q x → P s →
      translate F replace s x.addr w = some (pa, t) → P t)
    (hmem : ∀ (s : Machine) (pa d : Nat), P s →
      P { s with memory := Function.update s.memory pa d }) :
    ∀ (accs : List Access) (s t : Machine), (∀ x ∈ accs, Q x) → P s →
      run F replace s accs = some t → P t := by
  intro accs
  induction accs with
  | nil =>
    intro s t _ hs h
    simp only [run, Option.some.injEq] at h
    subst h
    exact hs
  | cons x rest ih =>
    intro s t hq hs h
    simp only [run] at h
    split at h
    · exact absurd h (by simp)
    · rename_i r s1 hacc
      have hqx : Q x := hq x (List.mem_cons_self _ _)
      refine ih s1 t (fun y hy => hq y (List.mem_cons_of_mem _ hy)) ?_ h
      cases x with
      | read a =>
        simp only [access, read_memory] at hacc
        split at hacc
        · exact absurd hacc (by simp)
        · rename_i pa u hu
          simp only [Option.some.injEq, Prod.mk.injEq] at hacc
          rw [← hacc.2]
          exact htr s u (.read a) pa false hqx hs hu
      | write a d =>
        simp only [access, write_memory] at hacc
        split at hacc
        · exact absurd hacc (by simp)
        · rename_i s2 hs2
          split at hs2
          · exact absurd hs2 (by simp)
          · rename_i pa u hu
            simp only [Option.some.injEq] at hs2
            simp only [Option.some.injEq, Prod.mk.injEq] at hacc
            rw [← hacc.2, ← hs2]
            exact hmem u pa d (htr s u (.write a d) pa true hqx hs hu)
      | xlate a w => exact htr s s1 (.xlate a w) r w hqx hs hacc

/-- A completed `translate` leaves the `ondisk` bit of a non-resident page as it
is. -/
theorem translate_other_ondisk {F : Nat} {replace : Policy} (hpol : PolicyFrame F replace)
    {s t : Machine} {a pa : Nat} {w : Bool} (hres : Resident F s)
    (h : translate F replace s a w = some (pa, t)) (p : Nat)
    (hp : (s.page_table p).inmemory = false) :
    (t.page_table p).ondisk = (s.page_table p).ondisk := by
  obtain ⟨m, hm, -, -, f_od, -⟩ := translate_fields h
  rw [f_od]
  split at hm
  · obtain ⟨phys, s1, htake, rfl⟩ := pagefault_some hm
    have ho := (take_phys_page_other hpol
      (s := { s with num_memoryaccesses := s.num_memoryaccesses + 1,
                     num_pagefault := s.num_pagefault + 1 })
      ⟨hres.res, hres.own, hres.cold, hres.unused⟩ htake p hp).1
    have ho2 : (s1.page_table p).ondisk = (s.page_table p).ondisk := ho
    by_cases hpv : p = a / PAGESIZE
    · subst hpv
      simpa using ho2
    · simpa [Function.update_apply, hpv] using ho2
  · simp only [Option.some.injEq] at hm
    subst hm
    rfl

/-- A page that no access of a run from the initial state touches is neither
resident nor on disk. -/
theorem run_never_touched {F : Nat} {replace : Policy} (hF : 0 < F) (hF27 : F ≤ PAGE_FIELD)
    (hpol : PolicyFrame F replace) (accs : List Access) (s : Machine) (p : Nat)
    (h0 : run F replace init_machine accs = some s) (hp : ∀ x ∈ accs, x.vpage ≠ p) :
    (s.page_table p).inmemory = false ∧ (s.page_table p).ondisk = false := by
  have := run_invariant_on (fun x => x.vpage ≠ p)
    (fun m => Resident F m ∧ (m.page_table p).inmemory = false ∧
      (m.page_table p).ondisk = false)
    (fun m u x pa w hq hm hu =>
      ⟨translate_resident hpol hF27 hm.1 hu,
        translate_other_inmemory hpol hu p hq hm.2.1,
        (translate_other_ondisk hpol hm.1 hu p hm.2.1).trans hm.2.2⟩)
    (fun m _ _ hm => ⟨⟨hm.1.res, hm.1.own, hm.1.cold, hm.1.unused⟩, hm.2.1, hm.2.2⟩)
    accs init_machine s hp ⟨init_resident hF, rfl, rfl⟩ h0
  exact this.2

/-- C34 (swap slot exclusivity): in every state reached from the initial state
by accesses to the pages below `NPAGES` (`0 < F ≤ 2^27`, a policy that touches
reference bits and cursors only), two distinct pages with `ondisk = 1` have
different swap slots, every such slot is below `count`, the number of slots
handed out by `new_swap_page` (its static, 0 in the initial state and
incremented by each call that returns), and the number of pages with
`ondisk = 1` is `count`. -/
theorem swap_slot_exclusivity (F : Nat) (replace : Policy) (hF : 0 < F) (hF27 : F ≤ PAGE_FIELD)
    (hpol : PolicyFrame F replace) (pre : List Access) (s : Machine)
    (h0 : run F replace init_machine pre = some s) (hin : ∀ x ∈ pre, x.vpage < NPAGES) :
    (∀ p q, p ≠ q → (s.page_table p).ondisk = true → (s.page_table q).ondisk = true →
      slot s p ≠ slot s q) ∧
    (∀ p, (s.page_table p).ondisk = true → slot s p < s.count) ∧
    init_machine.count = 0 ∧ s.count ≤ SWAP_PAGES ∧
    ((Finset.range NPAGES).filter (fun p => (s.page_table p).ondisk = true)).card = s.count := by
  obtain ⟨hres, hb⟩ := run_backed hpol hF27 pre init_machine s (init_resident hF) init_backed h0
  obtain ⟨-, -, hsurj⟩ :=
    run_slots hpol hF27 pre init_machine s (init_resident hF) init_backed h0
  have hrange : ∀ p, (s.page_table p).ondisk = true → p < NPAGES := by
    intro p hp
    by_contra hge
    have := (run_never_touched hF hF27 hpol pre s p h0 (fun x hx hxp => by
      have := hin x hx
      omega)).2
    rw [this] at hp
    exact absurd hp (by simp)
  refine ⟨fun p q hpq hp hq he => hpq (hb.slot_inj p q hp hq he), hb.slot_lt, rfl,
    hb.count_le, ?_⟩
  rw [← Finset.card_range s.count]
  refine Finset.card_bij (fun p _ => slot s p) ?_ ?_ ?_
  · intro p hp
    rw [Finset.mem_filter] at hp
    exact Finset.mem_range.mpr (hb.slot_lt p hp.2)
  · intro p hp q hq he
    rw [Finset.mem_filter] at hp hq
    exact hb.slot_inj p q hp.2 hq.2 he
  · intro k hk
    obtain ⟨p, -, hp, hslot⟩ := hsurj k (Nat.zero_le _) (Finset.mem_range.mp hk)
    exact ⟨p, Finset.mem_filter.mpr ⟨Finset.mem_range.mpr (hrange p hp), hp⟩, hslot⟩

theorem swap_slot_exclusivity_witness :
    ∃ s, run 2 (fifo_page_replace 2) init_machine [.write 0 1, .write 4 2, .read 8] = some s ∧
      (∀ p, (s.page_table p).ondisk = true → slot s p < s.count) ∧
      ((Finset.range NPAGES).filter (fun p => (s.page_table p).ondisk = true)).card
        = s.count := by
  have hsome : (run 2 (fifo_page_replace 2) init_machine
      [.write 0 1, .write 4 2, .read 8]).isSome = true := by decide
  obtain ⟨s, hs⟩ := Option.isSome_iff_exists.mp hsome
  obtain ⟨-, h2, -, -, h5⟩ := swap_slot_exclusivity 2 (fifo_page_replace 2) (by decide)
    (by decide) (fifo_policy_frame 2) _ s hs (by decide)
  exact ⟨s, hs, h2, h5⟩

/-! ## Clean pages and their swap slots -/

theorem writes_other_page {y : Access} {v i : Nat} (hi : i < PAGESIZE)
    (hy : y.vpage ≠ v) : y.writes (v * PAGESIZE + i) = false := by
  cases y with
  | read a => rfl
  | xlate a w => rfl
  | write a d =>
    simp only [Access.writes, decide_eq_false_iff_not]
    intro ha
    apply hy
    simp only [Access.vpage, Access.addr, ha]
    rw [PAGESIZE_eq] at hi ⊢
    omega

/-- C33 (clean pages are in sync with swap): in every state `s` reached from the
initial state (`0 < F ≤ 2^27`, a policy that touches reference bits and cursors
only, no abort), a page with `ondisk = 1` and `modified = 0` that is resident in
frame `f` has in `f` the content of the swap slot `coremap[f].page`; and when an
access from `s` evicts the resident page `v` and the accesses after it, up to
the state `t`, do not touch `v`, then `v` is not resident in `t` and, if
`ondisk = 1` in `t`, the swap slot `page_table[v].page` holds in `t` the words
that the frame of `v` held in `s`, at this last eviction. -/
theorem clean_pages_in_sync (F : Nat) (replace : Policy) (hF : 0 < F) (hF27 : F ≤ PAGE_FIELD)
    (hpol : PolicyFrame F replace) (pre : List Access) (s : Machine)
    (h0 : run F replace init_machine pre = some s) :
    (∀ p f, (s.page_table p).inmemory = true → (s.page_table p).page = f →
      (s.page_table p).ondisk = true → (s.page_table p).modified = false →
      ∀ i, i < PAGESIZE →
        s.memory (f * PAGESIZE + i) = s.swap ((s.coremap f).page * PAGESIZE + i)) ∧
    (∀ (x : Access) (rest : List Access) (s1 t : Machine) (v r : Nat),
      access F replace s x = some (r, s1) → (s.page_table v).inmemory = true →
      (s1.page_table v).inmemory = false → run F replace s1 rest = some t →
      (∀ y ∈ rest, y.vpage ≠ v) →
      (t.page_table v).inmemory = false ∧
      ((t.page_table v).ondisk = true → ∀ i, i < PAGESIZE →
        t.swap ((t.page_table v).page * PAGESIZE + i)
          = s.memory ((s.page_table v).page * PAGESIZE + i))) := by
  obtain ⟨hres, hb⟩ := run_backed hpol hF27 pre init_machine s (init_resident hF) init_backed h0
  constructor
  · intro p f hin hf hd hm i hi
    have := hb.clean p hin hm i hi
    rw [hd, if_pos rfl] at this
    simp only [slot, hin, if_true] at this
    rw [hf] at this
    exact this
  · intro x rest s1 t v r hacc hv hv1 hrest hne
    have hxv : x.vpage ≠ v := by
      obtain ⟨w, pa, u, hu, hpt, -, -⟩ := access_translate hacc
      have hin := (translate_result hu).2.1
      intro hx
      have hx2 : x.addr / PAGESIZE = v := hx
      rw [hx2, ← hpt, hv1] at hin
      exact absurd hin (by simp)
    have hvt := run_untouched hpol v rest s1 t hrest hne hv1
    refine ⟨hvt, fun hd i hi => ?_⟩
    have hrun : run F replace s (x :: rest) = some t := by
      simp only [run, hacc]
      exact hrest
    have hvm := run_vmem hpol hF27 (v * PAGESIZE + i) (x :: rest) s t hres hb hrun
      (fun y hy => by
        rcases List.mem_cons.mp hy with rfl | hy
        · exact writes_other_page hi hxv
        · exact writes_other_page hi (hne y hy))
    have hdiv : (v * PAGESIZE + i) / PAGESIZE = v := by
      rw [PAGESIZE_eq] at hi ⊢
      omega
    have hmod : (v * PAGESIZE + i) % PAGESIZE = i := by
      rw [PAGESIZE_eq] at hi ⊢
      omega
    simp only [vmem, hdiv, hmod, hvt, hv, hd, Bool.false_eq_true, if_false, if_true] at hvm
    exact hvm

theorem clean_pages_in_sync_witness :
    ∃ s s1 t r, run 2 (fifo_page_replace 2) init_machine [.write 0 7, .read 4] = some s ∧
      access 2 (fifo_page_replace 2) s (.read 8) = some (r, s1) ∧
      run 2 (fifo_page_replace 2) s1 [.read 12] = some t ∧
      (s.page_table 0).inmemory = true ∧ (t.page_table 0).inmemory = false ∧
      t.swap ((t.page_table 0).page * PAGESIZE + 0)
        = s.memory ((s.page_table 0).page * PAGESIZE + 0) := by
  have hflags : (run 2 (fifo_page_replace 2) init_machine [.write 0 7, .read 4]).bind (fun s =>
      (access 2 (fifo_page_replace 2) s (.read 8)).bind (fun r =>
        (run 2 (fifo_page_replace 2) r.2 [.read 12]).map (fun t =>
          ((s.page_table 0).inmemory, (r.2.page_table 0).inmemory, (t.page_table 0).ondisk))))
      = some (true, false, true) := by decide
  obtain ⟨s, hs, h1⟩ := Option.bind_eq_some.mp hflags
  obtain ⟨⟨r, s1⟩, hacc, h2⟩ := Option.bind_eq_some.mp h1
  obtain ⟨t, ht, h3⟩ := Option.map_eq_some'.mp h2
  simp only [Prod.mk.injEq] at h3
  obtain ⟨hv, hv1, hd⟩ := h3
  obtain ⟨hvt, hsw⟩ := (clean_pages_in_sync 2 (fifo_page_replace 2) (by decide) (by decide)
    (fifo_policy_frame 2) _ s hs).2 (.read 8) [.read 12] s1 t 0 r hacc hv hv1 ht (by decide)
  exact ⟨s, s1, t, r, hs, hacc, ht, hv, hvt, hsw hd 0 (by decide)⟩

/-! ## Completion of `take_phys_page` -/

/-- After the cold start, a victim frame without owner is returned as it is. -/
theorem take_phys_page_no_owner {F : Nat} {replace : Policy} {s s1 : Machine} {phys : Nat}
    (hneg : ¬ 0 ≤ s.next_unused_page) (hrep : replace s = some (phys, s1))
    (hown : (s1.coremap phys).owner = none) :
    take_phys_page F replace s = some (phys, s1) := by
  simp [take_phys_page, hneg, hrep, hown]

/-- An eviction completes unless it needs a swap slot and none is left. -/
theorem take_phys_page_evict_returns {F : Nat} {replace : Policy} {s s1 : Machine}
    {phys o : Nat} (hneg : ¬ 0 ≤ s.next_unused_page) (hrep : replace s = some (phys, s1))
    (hown : (s1.coremap phys).owner = some o)
    (hc : (s1.page_table o).modified = true → (s1.page_table o).ondisk = false →
      s1.count < SWAP_PAGES) :
    ∃ t, take_phys_page F replace s = some (phys, t) := by
  cases hm : (s1.page_table o).modified <;> cases hd : (s1.page_table o).ondisk
  · simp [take_phys_page, hneg, hrep, hown, set_pte, write_page, new_swap_page, hm, hd]
  · simp [take_phys_page, hneg, hrep, hown, set_pte, write_page, new_swap_page, hm, hd]
  · have := hc hm hd
    simp [take_phys_page, hneg, hrep, hown, set_pte, write_page, new_swap_page, hm, hd, this]
  · simp [take_phys_page, hneg, hrep, hown, set_pte, write_page, new_swap_page, hm, hd]

/-- The eviction of a dirty page without slot aborts when no swap slot is
left. -/
theorem take_phys_page_evict_aborts {F : Nat} {replace : Policy} {s s1 : Machine}
    {phys o : Nat} (hneg : ¬ 0 ≤ s.next_unused_page) (hrep : replace s = some (phys, s1))
    (hown : (s1.coremap phys).owner = some o) (hm : (s1.page_table o).modified = true)
    (hd : (s1.page_table o).ondisk = false) (hc : ¬ s1.count < SWAP_PAGES) :
    take_phys_page F replace s = none := by
  simp [take_phys_page, hneg, hrep, hown, set_pte, write_page, new_swap_page, hm, hd, hc]

end Michael

/-! # Theorems on the variant `c/machine.c` -/

namespace CVariant

open Michael (PAGESIZE PAGE_FIELD SWAP_PAGES RAM_PAGES NPAGES memcpy coremap_entry_t Access
  memcpy_apply not_in_block in_block index_ne SWAP_PAGES_lt_PAGE_FIELD PAGESIZE_eq)


/-! ## Unfolding of the operations -/

/-- The two ways in which `take_phys_page` returns: a frame without owner, or a
frame whose owner `o` is evicted; `s1` is the state left by the policy. -/
theorem c_take_phys_page_cases {replace : Policy} {s t : Machine} {r : Nat}
    (h : take_phys_page replace s = some (r, t)) :
    ∃ s1, replace s = some (r, s1) ∧
      (((s1.coremap r).owner = none ∧ t = s1) ∨
       ∃ o, (s1.coremap r).owner = some o ∧
        (((s1.page_table o).modified = true ∧ (s1.page_table o).ondisk = false) →
          s1.count < SWAP_PAGES) ∧
        t = { s1 with
          page_table := Function.update s1.page_table o
            { s1.page_table o with
              inmemory := false
              modified := false
              ondisk := (s1.page_table o).ondisk || (s1.page_table o).modified
              page := (if (s1.page_table o).modified && !(s1.page_table o).ondisk then s1.count
                       else (s1.coremap r).page) % PAGE_FIELD }
          coremap := if (s1.page_table o).modified && !(s1.page_table o).ondisk then
              Function.update s1.coremap r { s1.coremap r with page := s1.count }
            else s1.coremap
          swap := if (s1.page_table o).modified then
              memcpy s1.swap
                ((if (s1.page_table o).modified && !(s1.page_table o).ondisk then s1.count
                  else (s1.coremap r).page) * PAGESIZE) s1.memory (r * PAGESIZE) PAGESIZE
            else s1.swap
          count := if (s1.page_table o).modified && !(s1.page_table o).ondisk then s1.count + 1
            else s1.count
          num_diskwrites := if (s1.page_table o).modified then s1.num_diskwrites + 1
            else s1.num_diskwrites }) := by
  unfold take_phys_page at h
  split at h
  · exact absurd h (by simp)
  · rename_i page s1 hrep
    split at h
    · rename_i hown
      simp only [Option.some.injEq, Prod.mk.injEq] at h
      obtain ⟨rfl, rfl⟩ := h
      exact ⟨s1, hrep, Or.inl ⟨hown, rfl⟩⟩
    · rename_i o hown
      cases hm : (s1.page_table o).modified <;> cases hd : (s1.page_table o).ondisk
      · simp [set_pte, hm, hd] at h
        obtain ⟨rfl, rfl⟩ := h
        refine ⟨s1, hrep, Or.inr ⟨o, hown, by simp [hm, hd], ?_⟩⟩
        simp [hm, hd]
      · simp [set_pte, hm, hd] at h
        obtain ⟨rfl, rfl⟩ := h
        refine ⟨s1, hrep, Or.inr ⟨o, hown, by simp [hm, hd], ?_⟩⟩
        simp [hm, hd]
      · by_cases hc : s1.count < SWAP_PAGES
        · simp [set_pte, set_cme, write_page, new_swap_page, hm, hd, hc] at h
          obtain ⟨rfl, rfl⟩ := h
          refine ⟨s1, hrep, Or.inr ⟨o, hown, fun _ => hc, ?_⟩⟩
          simp [hm, hd]
        · simp [set_pte, set_cme, write_page, new_swap_page, hm, hd, hc] at h
      · simp [set_pte, write_page, hm, hd] at h
        obtain ⟨rfl, rfl⟩ := h
        refine ⟨s1, hrep, Or.inr ⟨o, hown, by simp [hm, hd], ?_⟩⟩
        simp [hm, hd]

/-- The state after a completed `pagefault`, from the state `s1` left by
`take_phys_page`. -/
theorem c_pagefault_some {replace : Policy} {s t : Machine} {v : Nat}
    (h : pagefault replace s v = some t) :
    ∃ r s1,
      take_phys_page replace { s with num_pagefault := s.num_pagefault + 1 } = some (r, s1) ∧
      t = { s1 with
        page_table := Function.update s1.page_table v
          { s1.page_table v with page := r % PAGE_FIELD, inmemory := true }
        coremap := Function.update s1.coremap r
          ⟨some v, if (s1.page_table v).ondisk then (s1.page_table v).page
                   else (s1.coremap r).page⟩
        memory := if (s1.page_table v).ondisk then
            memcpy s1.memory (r * PAGESIZE) s1.swap ((s1.page_table v).page * PAGESIZE) PAGESIZE
          else s1.memory } := by
  unfold pagefault at h
  dsimp only at h
  split at h
  · exact absurd h (by simp)
  · rename_i r s1 htake
    refine ⟨r, s1, htake, ?_⟩
    simp only [Option.some.injEq] at h
    subst h
    cases hd : (s1.page_table v).ondisk <;> simp [set_pte, set_cme, read_page, hd]

/-- Unfolding of `translate`: the state `m` is the one in which the page is
resident, before the reference and dirty bits are set. -/
theorem c_translate_some {replace : Policy} {s t : Machine} {a pa : Nat} {w : Bool}
    (h : translate replace s a w = some (pa, t)) :
    ∃ m, (if (s.page_table (a / PAGESIZE)).inmemory = false then
            pagefault replace s (a / PAGESIZE)
          else some s) = some m ∧
      t = (if w then set_pte (set_pte m (a / PAGESIZE) (fun e => { e with referenced := true }))
                  (a / PAGESIZE) (fun e => { e with modified := true })
           else set_pte m (a / PAGESIZE) (fun e => { e with referenced := true })) ∧
      pa = (t.page_table (a / PAGESIZE)).page * PAGESIZE + (a &&& (PAGESIZE - 1)) := by
  unfold translate at h
  dsimp only at h
  split at h
  · exact absurd h (by simp)
  · rename_i m hm
    simp only [Option.some.injEq, Prod.mk.injEq] at h
    exact ⟨m, hm, h.2.symm, by rw [← h.2]; exact h.1.symm⟩

/-! ## Replacement policies -/

theorem c_same_rfl (s : Machine) : SameButRefs s s :=
  ⟨rfl, rfl, rfl, rfl, rfl, rfl, fun _ => rfl, fun _ => rfl, fun _ => rfl, fun _ => rfl⟩

theorem c_same_trans {s t u : Machine} (h1 : SameButRefs s t) (h2 : SameButRefs t u) :
    SameButRefs s u where
  num_pagefault := h2.num_pagefault.trans h1.num_pagefault
  num_diskwrites := h2.num_diskwrites.trans h1.num_diskwrites
  coremap := h2.coremap.trans h1.coremap
  memory := h2.memory.trans h1.memory
  swap := h2.swap.trans h1.swap
  count := h2.count.trans h1.count
  page := fun p => (h2.page p).trans (h1.page p)
  inmemory := fun p => (h2.inmemory p).trans (h1.inmemory p)
  ondisk := fun p => (h2.ondisk p).trans (h1.ondisk p)
  modified := fun p => (h2.modified p).trans (h1.modified p)

theorem c_same_set_referenced (s : Machine) (v : Nat) (b : Bool) (c : Nat) :
    SameButRefs s { set_pte s v (fun e => { e with referenced := b }) with sc_page := c } := by
  refine ⟨rfl, rfl, rfl, rfl, rfl, rfl, fun p => ?_, fun p => ?_, fun p => ?_, fun p => ?_⟩ <;>
    by_cases hp : p = v <;> simp [set_pte, Function.update_apply, hp]

theorem c_fifo_policy_frame (F : Nat) : PolicyFrame F (fifo_page_replace F) := by
  intro s i t h
  unfold fifo_page_replace at h
  dsimp only at h
  split at h
  · rename_i hlt
    simp only [Option.some.injEq, Prod.mk.injEq] at h
    obtain ⟨rfl, rfl⟩ := h
    exact ⟨hlt, ⟨rfl, rfl, rfl, rfl, rfl, rfl, fun _ => rfl, fun _ => rfl, fun _ => rfl,
      fun _ => rfl⟩⟩
  · exact absurd h (by simp)

theorem c_second_chance_scan_same (F : Nat) :
    ∀ (fuel : Nat) (s t : Machine), second_chance_scan F fuel s = some t → SameButRefs s t := by
  intro fuel
  induction fuel with
  | zero => intro s t h; simp [second_chance_scan] at h
  | succ n ih =>
    intro s t h
    unfold second_chance_scan at h
    split at h
    · simp only [Option.some.injEq] at h
      rw [← h]
      exact c_same_rfl s
    · split at h
      · exact c_same_trans (c_same_set_referenced s _ false _) (ih _ _ h)
      · simp only [Option.some.injEq] at h
        rw [← h]
        exact c_same_rfl s

theorem c_second_chance_policy_frame (F : Nat) : PolicyFrame F (second_chance_replace F) := by
  intro s i t h
  unfold second_chance_replace at h
  split at h
  · exact absurd h (by simp)
  · rename_i s1 hscan
    split at h
    · rename_i hlt
      simp only [Option.some.injEq, Prod.mk.injEq] at h
      obtain ⟨rfl, rfl⟩ := h
      exact ⟨hlt, c_second_chance_scan_same F _ _ _ hscan⟩
    · exact absurd h (by simp)

/-! ## The invariant -/

theorem c_slot_of_same {s t : Machine} (h : SameButRefs s t) (p : Nat) : slot t p = slot s p := by
  simp only [slot, h.inmemory, h.page, h.coremap]

theorem c_vmem_of_same {s t : Machine} (h : SameButRefs s t) (a : Nat) : vmem t a = vmem s a := by
  simp only [vmem, h.inmemory, h.page, h.ondisk, h.memory, h.swap]

theorem c_kept_of_same {s t : Machine} (h : SameButRefs s t) (p : Nat) : Kept t p ↔ Kept s p := by
  simp only [Kept, h.inmemory, h.ondisk, h.modified]

theorem c_inv_of_same {F : Nat} {s t : Machine} (h : SameButRefs s t) (hs : Inv F s) :
    Inv F t where
  res := fun p hp => by
    rw [h.inmemory] at hp
    rw [h.page, h.coremap]
    exact hs.res p hp
  own := fun f p hf => by
    rw [h.coremap] at hf
    rw [h.inmemory, h.page]
    exact hs.own f p hf
  evicted := fun p hp => by
    rw [h.inmemory] at hp
    rw [h.modified]
    exact hs.evicted p hp
  count_le := by rw [h.count]; exact hs.count_le
  slot_lt := fun p hp => by
    rw [h.ondisk] at hp
    rw [c_slot_of_same h, h.count]
    exact hs.slot_lt p hp
  slot_inj := fun p q hp hq hpq => by
    rw [h.ondisk] at hp hq
    rw [c_slot_of_same h, c_slot_of_same h] at hpq
    exact hs.slot_inj p q hp hq hpq
  clean := fun p hp hm hd i hi => by
    rw [h.inmemory] at hp
    rw [h.modified] at hm
    rw [h.ondisk] at hd
    rw [h.memory, h.page, h.swap, c_slot_of_same h]
    exact hs.clean p hp hm hd i hi

theorem c_init_inv (F : Nat) : Inv F init_machine where
  res := fun p hp => by simp [init_machine] at hp
  own := fun f p hf => by simp [init_machine] at hf
  evicted := fun p _ => rfl
  count_le := Nat.zero_le _
  slot_lt := fun p hp => by simp [init_machine] at hp
  slot_inj := fun p q hp _ _ => by simp [init_machine] at hp
  clean := fun p hp _ _ _ _ => by simp [init_machine] at hp

/-- Evicting the resident page `o` from the frame `r`: the invariant holds up to
the frame `r`, and the contents of the kept pages are unchanged, when the new
slot of `o` is fresh or its own, the other slots are untouched, and the slot
holds what the frame held. -/
theorem c_evict_core {F : Nat} {s1 t : Machine} {r o : Nat} (h1 : Inv F s1) (hr : r < F)
    (hown : (s1.coremap r).owner = some o)
    (e_in : (t.page_table o).inmemory = false) (e_mod : (t.page_table o).modified = false)
    (e_ne : ∀ p, p ≠ o → t.page_table p = s1.page_table p)
    (e_owner : ∀ f, (t.coremap f).owner = (s1.coremap f).owner)
    (e_cm_ne : ∀ f, f ≠ r → t.coremap f = s1.coremap f)
    (e_mem : t.memory = s1.memory)
    (a1 : t.count ≤ SWAP_PAGES) (a1b : s1.count ≤ t.count)
    (a2 : (t.page_table o).ondisk = true → (t.page_table o).page < t.count)
    (a3 : ∀ p, p ≠ o → (s1.page_table p).ondisk = true → (t.page_table o).ondisk = true →
      slot s1 p ≠ (t.page_table o).page)
    (a4 : ∀ p, p ≠ o → (s1.page_table p).ondisk = true → ∀ i, i < PAGESIZE →
      t.swap (slot s1 p * PAGESIZE + i) = s1.swap (slot s1 p * PAGESIZE + i))
    (a5 : Kept s1 o → (t.page_table o).ondisk = true ∧ ∀ i, i < PAGESIZE →
      t.swap ((t.page_table o).page * PAGESIZE + i) = s1.memory (r * PAGESIZE + i)) :
    InvFree F t r ∧ (∀ p, (t.page_table p).inmemory = true → (s1.page_table p).inmemory = true) ∧
      (∀ p, Kept s1 p → Kept t p) ∧ (∀ a, Kept s1 (a / PAGESIZE) → vmem t a = vmem s1 a) := by
  obtain ⟨hin, hpage⟩ := h1.own r o hown
  have hframe : ∀ p, p ≠ o → (s1.page_table p).inmemory = true → (s1.page_table p).page ≠ r := by
    intro p hp hpin heq
    have := (h1.res p hpin).2
    rw [heq, hown] at this
    exact hp (Option.some.inj this).symm
  have hslot_ne : ∀ p, p ≠ o → slot t p = slot s1 p := by
    intro p hp
    unfold slot
    rw [e_ne p hp]
    cases hpin : (s1.page_table p).inmemory with
    | false => rfl
    | true =>
      simp only [if_true]
      rw [e_cm_ne _ (hframe p hp hpin)]
  have hslot_o : slot t o = (t.page_table o).page := by
    simp [slot, e_in]
  have hne_in : ∀ p, (t.page_table p).inmemory = true → p ≠ o := by
    rintro p hp rfl
    rw [e_in] at hp
    exact absurd hp (by simp)
  refine ⟨⟨hr, fun p hp => ?_, fun f p hf hfp => ?_, fun p hp => ?_, a1, fun p hp => ?_,
    fun p q hp hq hpq => ?_, fun p hp hm hd i hi => ?_⟩, fun p hp => ?_, fun p hp => ?_,
    fun a ha => ?_⟩
  · have hpo := hne_in p hp
    rw [e_ne p hpo] at hp ⊢
    refine ⟨(h1.res p hp).1, hframe p hpo hp, ?_⟩
    rw [e_owner]
    exact (h1.res p hp).2
  · rw [e_owner] at hfp
    obtain ⟨h2, h3⟩ := h1.own f p hfp
    have hpo : p ≠ o := by
      rintro rfl
      exact hf (h3.symm.trans hpage)
    rw [e_ne p hpo]
    exact ⟨h2, h3⟩
  · by_cases hpo : p = o
    · rw [hpo]; exact e_mod
    · rw [e_ne p hpo] at hp ⊢
      exact h1.evicted p hp
  · by_cases hpo : p = o
    · subst hpo
      rw [hslot_o]
      exact a2 hp
    · rw [e_ne p hpo] at hp
      rw [hslot_ne p hpo]
      exact lt_of_lt_of_le (h1.slot_lt p hp) a1b
  · by_cases hpo : p = o
    · by_cases hqo : q = o
      · rw [hpo, hqo]
      · subst hpo
        rw [e_ne q hqo] at hq
        rw [hslot_o, hslot_ne q hqo] at hpq
        exact absurd hpq.symm (a3 q hqo hq hp)
    · by_cases hqo : q = o
      · subst hqo
        rw [e_ne p hpo] at hp
        rw [hslot_o, hslot_ne p hpo] at hpq
        exact absurd hpq (a3 p hpo hp hq)
      · rw [e_ne p hpo] at hp
        rw [e_ne q hqo] at hq
        rw [hslot_ne p hpo, hslot_ne q hqo] at hpq
        exact h1.slot_inj p q hp hq hpq
  · have hpo := hne_in p hp
    rw [e_ne p hpo] at hp hm hd
    rw [e_mem, e_ne p hpo, hslot_ne p hpo, a4 p hpo hd i hi]
    exact h1.clean p hp hm hd i hi
  · have hpo := hne_in p hp
    rw [e_ne p hpo] at hp
    exact hp
  · by_cases hpo : p = o
    · subst hpo
      exact Or.inl (a5 hp).1
    · unfold Kept
      rw [e_ne p hpo]
      exact hp
  · have hi : a % PAGESIZE < PAGESIZE := Nat.mod_lt _ (by decide)
    by_cases hpo : a / PAGESIZE = o
    · rw [hpo] at ha
      obtain ⟨h5, h6⟩ := a5 ha
      unfold vmem
      rw [hpo, e_in, hin, hpage, h5]
      simpa using h6 _ hi
    · unfold vmem
      rw [e_ne _ hpo, e_mem]
      cases hres : (s1.page_table (a / PAGESIZE)).inmemory with
      | true => simp
      | false =>
        cases hd : (s1.page_table (a / PAGESIZE)).ondisk with
        | false => simp
        | true =>
          have hsl : slot s1 (a / PAGESIZE) = (s1.page_table (a / PAGESIZE)).page := by
            simp [slot, hres]
          have h4 := a4 _ hpo hd _ hi
          rw [hsl] at h4
          simpa using h4

/-- `take_phys_page` keeps the invariant up to the frame it returns, makes no
page resident, and keeps the kept pages and their contents. -/
theorem c_take_phys_page_inv {F : Nat} {replace : Policy} (hpol : PolicyFrame F replace)
    {s t : Machine} {r : Nat} (hs : Inv F s) (h : take_phys_page replace s = some (r, t)) :
    InvFree F t r ∧ (∀ p, (t.page_table p).inmemory = true → (s.page_table p).inmemory = true) ∧
      (∀ p, Kept s p → Kept t p) ∧ (∀ a, Kept s (a / PAGESIZE) → vmem t a = vmem s a) := by
  obtain ⟨s1, hrep, hcase⟩ := c_take_phys_page_cases h
  obtain ⟨hr, hsame⟩ := hpol _ _ _ hrep
  have h1 := c_inv_of_same hsame hs
  suffices key : InvFree F t r ∧
      (∀ p, (t.page_table p).inmemory = true → (s1.page_table p).inmemory = true) ∧
      (∀ p, Kept s1 p → Kept t p) ∧ (∀ a, Kept s1 (a / PAGESIZE) → vmem t a = vmem s1 a) by
    obtain ⟨k1, k2, k3, k4⟩ := key
    refine ⟨k1, fun p hp => ?_, fun p hp => k3 p ((c_kept_of_same hsame p).mpr hp),
      fun a ha => ?_⟩
    · rw [← hsame.inmemory]
      exact k2 p hp
    · rw [k4 a ((c_kept_of_same hsame _).mpr ha)]
      exact c_vmem_of_same hsame a
  rcases hcase with ⟨hnone, rfl⟩ | ⟨o, hown, hfresh, ht⟩
  · refine ⟨⟨hr, fun p hp => ?_, fun f p _ hf => h1.own f p hf, h1.evicted, h1.count_le,
      h1.slot_lt, h1.slot_inj, h1.clean⟩, fun p hp => hp, fun p hp => hp, fun a _ => rfl⟩
    obtain ⟨h2, h3⟩ := h1.res p hp
    refine ⟨h2, ?_, h3⟩
    intro heq
    rw [heq, hnone] at h3
    exact absurd h3 (by simp)
  · obtain ⟨hin, hpage⟩ := h1.own r o hown
    have hslot_o : slot s1 o = (s1.coremap r).page := by simp [slot, hin, hpage]
    have hc := h1.count_le
    have hlt := SWAP_PAGES_lt_PAGE_FIELD
    have e_in : (t.page_table o).inmemory = false := by rw [ht]; simp
    have e_mod : (t.page_table o).modified = false := by rw [ht]; simp
    have e_disk : (t.page_table o).ondisk
        = ((s1.page_table o).ondisk || (s1.page_table o).modified) := by rw [ht]; simp
    have e_page : (t.page_table o).page
        = (if (s1.page_table o).modified && !(s1.page_table o).ondisk then s1.count
           else (s1.coremap r).page) % PAGE_FIELD := by rw [ht]; simp
    have e_ne : ∀ p, p ≠ o → t.page_table p = s1.page_table p := by
      intro p hp; rw [ht]; simp [Function.update_apply, hp]
    have e_owner : ∀ f, (t.coremap f).owner = (s1.coremap f).owner := by
      intro f
      rw [ht]
      dsimp only
      split
      · by_cases hf : f = r
        · rw [hf]; simp
        · simp [Function.update_apply, hf]
      · rfl
    have e_cm_ne : ∀ f, f ≠ r → t.coremap f = s1.coremap f := by
      intro f hf
      rw [ht]
      dsimp only
      split
      · simp [Function.update_apply, hf]
      · rfl
    have e_mem : t.memory = s1.memory := by rw [ht]
    have e_swap : t.swap = if (s1.page_table o).modified then
          memcpy s1.swap
            ((if (s1.page_table o).modified && !(s1.page_table o).ondisk then s1.count
              else (s1.coremap r).page) * PAGESIZE) s1.memory (r * PAGESIZE) PAGESIZE
        else s1.swap := by rw [ht]
    have e_count : t.count =
        if (s1.page_table o).modified && !(s1.page_table o).ondisk then s1.count + 1
        else s1.count := by rw [ht]
    clear ht
    have hcl := h1.clean o hin
    cases hM : (s1.page_table o).modified <;> cases hD : (s1.page_table o).ondisk <;>
      simp only [hM, hD, Bool.or_false, Bool.or_true, Bool.and_true, Bool.and_false,
        Bool.not_true, Bool.not_false, Bool.false_eq_true, if_false, if_true, Bool.and_self,
        Bool.false_and, Bool.true_and, true_and, and_true, forall_const, false_and,
        and_false, false_implies] at hfresh hcl e_disk e_page e_swap e_count
    · -- clean page without a slot
      refine c_evict_core h1 hr hown e_in e_mod e_ne e_owner e_cm_ne e_mem (by omega) (by omega)
        (fun h => by rw [e_disk] at h; exact absurd h (by simp))
        (fun p _ _ h => by rw [e_disk] at h; exact absurd h (by simp))
        (fun p _ _ i _ => by rw [e_swap]) (fun hk => ?_)
      rcases hk with hk | ⟨-, hk⟩
      · rw [hD] at hk; exact absurd hk (by simp)
      · rw [hM] at hk; exact absurd hk (by simp)
    · -- clean page with a slot
      have hs_lt := h1.slot_lt o hD
      rw [hslot_o] at hs_lt
      have e_page2 : (t.page_table o).page = slot s1 o := by
        rw [e_page, hslot_o, Nat.mod_eq_of_lt (by omega)]
      refine c_evict_core h1 hr hown e_in e_mod e_ne e_owner e_cm_ne e_mem (by omega) (by omega)
        (fun _ => by rw [e_page2, hslot_o]; omega)
        (fun p hpo hp _ => by
          rw [e_page2]; exact fun h => hpo (h1.slot_inj p o hp hD h))
        (fun p _ _ i _ => by rw [e_swap]) (fun _ => ⟨e_disk, fun i hi => ?_⟩)
      rw [e_page2, e_swap, ← hpage]
      exact (hcl i hi).symm
    · -- dirty page without a slot: a fresh slot
      have e_page2 : (t.page_table o).page = s1.count := by
        rw [e_page, Nat.mod_eq_of_lt (by omega)]
      refine c_evict_core h1 hr hown e_in e_mod e_ne e_owner e_cm_ne e_mem (by omega) (by omega)
        (fun _ => by rw [e_page2]; omega)
        (fun p hpo hp _ => by
          have := h1.slot_lt p hp
          rw [e_page2]; omega)
        (fun p hpo hp i hi => by
          have := h1.slot_lt p hp
          rw [e_swap, memcpy_apply, if_neg (not_in_block (by omega) hi)])
        (fun _ => ⟨e_disk, fun i hi => ?_⟩)
      rw [e_page2, e_swap, memcpy_apply, if_pos (in_block hi), Nat.add_sub_cancel_left]
    · -- dirty page with a slot: written back to its slot
      have hs_lt := h1.slot_lt o hD
      rw [hslot_o] at hs_lt
      have e_page2 : (t.page_table o).page = slot s1 o := by
        rw [e_page, hslot_o, Nat.mod_eq_of_lt (by omega)]
      refine c_evict_core h1 hr hown e_in e_mod e_ne e_owner e_cm_ne e_mem (by omega) (by omega)
        (fun _ => by rw [e_page2, hslot_o]; omega)
        (fun p hpo hp _ => by
          rw [e_page2]; exact fun h => hpo (h1.slot_inj p o hp hD h))
        (fun p hpo hp i hi => by
          have hne : slot s1 p ≠ (s1.coremap r).page := by
            rw [← hslot_o]
            exact fun h => hpo (h1.slot_inj p o hp hD h)
          rw [e_swap, memcpy_apply, if_neg (not_in_block hne hi)])
        (fun _ => ⟨e_disk, fun i hi => ?_⟩)
      rw [e_page2, hslot_o, e_swap, memcpy_apply, if_pos (in_block hi), Nat.add_sub_cancel_left]

/-- `pagefault` keeps the invariant, makes the page resident, and keeps the kept
pages and their contents. -/
theorem c_pagefault_inv {F : Nat} {replace : Policy} (hpol : PolicyFrame F replace)
    (hF27 : F ≤ PAGE_FIELD) {s t : Machine} {v : Nat} (hs : Inv F s)
    (hv : (s.page_table v).inmemory = false) (h : pagefault replace s v = some t) :
    Inv F t ∧ (t.page_table v).inmemory = true ∧ (∀ p, Kept s p → Kept t p) ∧
      (∀ a, Kept s (a / PAGESIZE) → vmem t a = vmem s a) := by
  obtain ⟨r, s1, htake, ht⟩ := c_pagefault_some h
  obtain ⟨hfree, hnin, hk1, hvm1⟩ := c_take_phys_page_inv hpol
    (s := { s with num_pagefault := s.num_pagefault + 1 })
    ⟨hs.res, hs.own, hs.evicted, hs.count_le, hs.slot_lt, hs.slot_inj, hs.clean⟩ htake
  have hv1 : (s1.page_table v).inmemory = false := by
    cases hc : (s1.page_table v).inmemory with
    | false => rfl
    | true =>
      have := hnin v hc
      rw [hv] at this
      exact absurd this (by simp)
  have hmodv : (s1.page_table v).modified = false := hfree.evicted v hv1
  have hmod : r % PAGE_FIELD = r := Nat.mod_eq_of_lt (lt_of_lt_of_le hfree.lt hF27)
  have e_in : (t.page_table v).inmemory = true := by rw [ht]; simp
  have e_page : (t.page_table v).page = r := by rw [ht]; simp [hmod]
  have e_disk : (t.page_table v).ondisk = (s1.page_table v).ondisk := by rw [ht]; simp
  have e_ne : ∀ p, p ≠ v → t.page_table p = s1.page_table p := by
    intro p hp; rw [ht]; simp [Function.update_apply, hp]
  have e_owner : (t.coremap r).owner = some v := by rw [ht]; simp
  have e_cm : (t.coremap r).page
      = if (s1.page_table v).ondisk then (s1.page_table v).page else (s1.coremap r).page := by
    rw [ht]; simp
  have e_cm_ne : ∀ f, f ≠ r → t.coremap f = s1.coremap f := by
    intro f hf; rw [ht]; simp [Function.update_apply, hf]
  have e_mem : t.memory = if (s1.page_table v).ondisk then
        memcpy s1.memory (r * PAGESIZE) s1.swap ((s1.page_table v).page * PAGESIZE) PAGESIZE
      else s1.memory := by rw [ht]
  have e_swap : t.swap = s1.swap := by rw [ht]
  have e_count : t.count = s1.count := by rw [ht]
  clear ht
  have hslot_v1 : slot s1 v = (s1.page_table v).page := by simp [slot, hv1]
  have hslot_v : (s1.page_table v).ondisk = true → slot t v = slot s1 v := by
    intro hd
    simp [slot, e_in, e_page, e_cm, hd, hv1]
  have hslot_ne : ∀ p, p ≠ v → slot t p = slot s1 p := by
    intro p hp
    unfold slot
    rw [e_ne p hp]
    cases hin : (s1.page_table p).inmemory with
    | false => simp
    | true =>
      simp only [if_true]
      rw [e_cm_ne _ (hfree.res p hin).2.1]
  have hslot : ∀ p, (t.page_table p).ondisk = true → slot t p = slot s1 p ∧
      (s1.page_table p).ondisk = true := by
    intro p hp
    by_cases hpv : p = v
    · subst hpv
      rw [e_disk] at hp
      exact ⟨hslot_v hp, hp⟩
    · rw [e_ne p hpv] at hp
      exact ⟨hslot_ne p hpv, hp⟩
  have hmem_ne : ∀ q i, q ≠ r → i < PAGESIZE →
      t.memory (q * PAGESIZE + i) = s1.memory (q * PAGESIZE + i) := by
    intro q i hq hi
    rw [e_mem]
    split
    · rw [memcpy_apply, if_neg (not_in_block hq hi)]
    · rfl
  have hmem_r : (s1.page_table v).ondisk = true → ∀ i, i < PAGESIZE →
      t.memory (r * PAGESIZE + i) = s1.swap ((s1.page_table v).page * PAGESIZE + i) := by
    intro hd i hi
    rw [e_mem, if_pos hd, memcpy_apply, if_pos (in_block hi), Nat.add_sub_cancel_left]
  refine ⟨⟨fun p hp => ?_, fun f p hf => ?_, fun p hp => ?_, by rw [e_count]; exact hfree.count_le,
    fun p hp => ?_, fun p q hp hq hpq => ?_, fun p hp hm hd i hi => ?_⟩, e_in, fun p hp => ?_,
    fun a ha => ?_⟩
  · by_cases hpv : p = v
    · subst hpv
      rw [e_page]
      exact ⟨hfree.lt, e_owner⟩
    · rw [e_ne p hpv] at hp ⊢
      obtain ⟨h1, h2, h3⟩ := hfree.res p hp
      rw [e_cm_ne _ h2]
      exact ⟨h1, h3⟩
  · by_cases hfr : f = r
    · subst hfr
      rw [e_owner] at hf
      have := Option.some.inj hf
      subst this
      exact ⟨e_in, e_page⟩
    · rw [e_cm_ne f hfr] at hf
      obtain ⟨h1, h2⟩ := hfree.own f p hfr hf
      have hpv : p ≠ v := by
        rintro rfl
        rw [hv1] at h1
        exact absurd h1 (by simp)
      rw [e_ne p hpv]
      exact ⟨h1, h2⟩
  · have hpv : p ≠ v := by
      rintro rfl
      rw [e_in] at hp
      exact absurd hp (by simp)
    rw [e_ne p hpv] at hp ⊢
    exact hfree.evicted p hp
  · rw [(hslot p hp).1, e_count]
    exact hfree.slot_lt p (hslot p hp).2
  · rw [(hslot p hp).1, (hslot q hq).1] at hpq
    exact hfree.slot_inj p q (hslot p hp).2 (hslot q hq).2 hpq
  · by_cases hpv : p = v
    · subst hpv
      rw [e_disk] at hd
      rw [e_page, hmem_r hd i hi, e_swap, hslot_v hd, hslot_v1]
    · rw [e_ne p hpv] at hp hm hd ⊢
      rw [hmem_ne _ i (hfree.res p hp).2.1 hi, hslot_ne p hpv, e_swap]
      exact hfree.clean p hp hm hd i hi
  · have hp1 : Kept s1 p := hk1 p hp
    by_cases hpv : p = v
    · subst hpv
      rcases hp1 with hd | ⟨hi, -⟩
      · exact Or.inl (e_disk.trans hd)
      · rw [hv1] at hi
        exact absurd hi (by simp)
    · unfold Kept
      rw [e_ne p hpv]
      exact hp1
  · have hvm : vmem s1 a = vmem s a := hvm1 a ha
    have hk : Kept s1 (a / PAGESIZE) := hk1 _ ha
    rw [← hvm]
    have hi : a % PAGESIZE < PAGESIZE := Nat.mod_lt _ (by decide)
    unfold vmem
    by_cases hpv : a / PAGESIZE = v
    · rw [hpv] at hk ⊢
      have hd : (s1.page_table v).ondisk = true := by
        rcases hk with hd | ⟨hin, -⟩
        · exact hd
        · rw [hv1] at hin
          exact absurd hin (by simp)
      rw [e_in, e_page, hv1, hd, hmem_r hd _ hi]
      simp
    · rw [e_ne _ hpv, e_swap]
      cases hin : (s1.page_table (a / PAGESIZE)).inmemory with
      | false => simp
      | true =>
        simp only [if_true]
        exact hmem_ne _ _ (hfree.res _ hin).2.1 hi

/-- What `translate` does to the fields of the state `m` left by the fault
handling. -/
theorem c_translate_fields {replace : Policy} {s t : Machine} {a pa : Nat} {w : Bool}
    (h : translate replace s a w = some (pa, t)) :
    ∃ m, (if (s.page_table (a / PAGESIZE)).inmemory = false then
            pagefault replace s (a / PAGESIZE)
          else some s) = some m ∧
      (∀ p, (t.page_table p).inmemory = (m.page_table p).inmemory) ∧
      (∀ p, (t.page_table p).page = (m.page_table p).page) ∧
      (∀ p, (t.page_table p).ondisk = (m.page_table p).ondisk) ∧
      (∀ p, (t.page_table p).modified = false → (m.page_table p).modified = false) ∧
      (∀ p, (m.page_table p).modified = true → (t.page_table p).modified = true) ∧
      (∀ p, p ≠ a / PAGESIZE → (t.page_table p).modified = (m.page_table p).modified) ∧
      (w = true → (t.page_table (a / PAGESIZE)).modified = true) ∧
      t.coremap = m.coremap ∧ t.count = m.count ∧ t.memory = m.memory ∧ t.swap = m.swap ∧
      pa = (t.page_table (a / PAGESIZE)).page * PAGESIZE + a % PAGESIZE := by
  obtain ⟨m, hm, rfl, hpa⟩ := c_translate_some h
  rw [Michael.offset_mask] at hpa
  refine ⟨m, hm, ?_⟩
  cases w
  · simp only [Bool.false_eq_true, if_false] at hpa ⊢
    refine ⟨fun p => ?_, fun p => ?_, fun p => ?_, fun p => ?_, fun p => ?_, fun p hp => ?_,
      fun hw => absurd hw (by simp), rfl, rfl, rfl, rfl, hpa⟩ <;>
    first
      | simp [set_pte, Function.update_apply, hp]
      | (by_cases hp : p = a / PAGESIZE <;> simp [set_pte, Function.update_apply, hp])
  · simp only [if_true] at hpa ⊢
    refine ⟨fun p => ?_, fun p => ?_, fun p => ?_, fun p => ?_, fun p => ?_, fun p hp => ?_,
      fun _ => ?_, rfl, rfl, rfl, rfl, hpa⟩ <;>
    first
      | simp [set_pte, Function.update_apply, hp]
      | (by_cases hp : p = a / PAGESIZE <;> simp [set_pte, Function.update_apply, hp])
      | simp [set_pte]

/-- A completed `translate` keeps the invariant, leaves the page resident, and
keeps the kept pages and their contents. -/
theorem c_translate_inv {F : Nat} {replace : Policy} (hpol : PolicyFrame F replace)
    (hF27 : F ≤ PAGE_FIELD) {s t : Machine} {a pa : Nat} {w : Bool} (hs : Inv F s)
    (h : translate replace s a w = some (pa, t)) :
    Inv F t ∧ (t.page_table (a / PAGESIZE)).inmemory = true ∧
      pa = (t.page_table (a / PAGESIZE)).page * PAGESIZE + a % PAGESIZE ∧
      (w = true → (t.page_table (a / PAGESIZE)).modified = true) ∧
      (∀ p, Kept s p → Kept t p) ∧ (∀ b, Kept s (b / PAGESIZE) → vmem t b = vmem s b) := by
  obtain ⟨m, hm, f_in, f_page, f_disk, f_mod, f_mod2, f_mod3, f_w, f_cm, f_count, f_mem, f_swap,
    hpa⟩ := c_translate_fields h
  have hm2 : Inv F m ∧ (m.page_table (a / PAGESIZE)).inmemory = true ∧
      (∀ p, Kept s p → Kept m p) ∧ (∀ b, Kept s (b / PAGESIZE) → vmem m b = vmem s b) := by
    split at hm
    · rename_i hv
      exact c_pagefault_inv hpol hF27 hs hv hm
    · rename_i hv
      simp only [Option.some.injEq] at hm
      subst hm
      refine ⟨hs, ?_, fun p hp => hp, fun b _ => rfl⟩
      cases hc : (s.page_table (a / PAGESIZE)).inmemory with
      | true => rfl
      | false => exact absurd hc hv
  obtain ⟨hbm, hmin, hkm, hvm⟩ := hm2
  have hslot : ∀ p, slot t p = slot m p := by
    intro p
    simp only [slot, f_in, f_page, f_cm]
  refine ⟨⟨fun p hp => ?_, fun f p hf => ?_, fun p hp => ?_, by rw [f_count]; exact hbm.count_le,
    fun p hp => ?_, fun p q hp hq hpq => ?_, fun p hp hmd hd i hi => ?_⟩,
    (f_in _).trans hmin, hpa, f_w, fun p hp => ?_, fun b hb => ?_⟩
  · rw [f_in] at hp
    rw [f_page, f_cm]
    exact hbm.res p hp
  · rw [f_cm] at hf
    rw [f_in, f_page]
    exact hbm.own f p hf
  · rw [f_in] at hp
    have hpa2 : p ≠ a / PAGESIZE := by
      rintro rfl
      rw [hmin] at hp
      exact absurd hp (by simp)
    rw [f_mod3 p hpa2]
    exact hbm.evicted p hp
  · rw [f_disk] at hp
    rw [hslot, f_count]
    exact hbm.slot_lt p hp
  · rw [f_disk] at hp hq
    rw [hslot, hslot] at hpq
    exact hbm.slot_inj p q hp hq hpq
  · rw [f_in] at hp
    rw [f_disk] at hd
    rw [f_mem, f_page, f_swap, hslot]
    exact hbm.clean p hp (f_mod p hmd) hd i hi
  · rcases hkm p hp with hd | ⟨hi, hmd⟩
    · exact Or.inl ((f_disk p).trans hd)
    · exact Or.inr ⟨(f_in p).trans hi, f_mod2 p hmd⟩
  · rw [← hvm b hb]
    simp only [vmem, f_in, f_page, f_disk, f_mem, f_swap]

/-- The contents of the kept pages after one completed access: a `write_memory`
changes the word written and no other and makes its page a kept page, and
`read_memory` returns the word at its address. -/
theorem c_access_inv {F : Nat} {replace : Policy} (hpol : PolicyFrame F replace)
    (hF27 : F ≤ PAGE_FIELD) {s t : Machine} {x : Access} {r : Nat} (hs : Inv F s)
    (h : access replace s x = some (r, t)) :
    Inv F t ∧ (∀ p, Kept s p → Kept t p) ∧
      (∀ b, Kept s (b / PAGESIZE) → x.writes b = false → vmem t b = vmem s b) ∧
      (∀ a d, x = .write a d → Kept t (a / PAGESIZE) ∧ vmem t a = d) ∧
      (∀ a, x = .read a → Kept s (a / PAGESIZE) → r = vmem s a) := by
  cases x with
  | read a =>
    simp only [access, read_memory] at h
    split at h
    · exact absurd h (by simp)
    · rename_i pa u hu
      simp only [Option.some.injEq, Prod.mk.injEq] at h
      obtain ⟨rfl, rfl⟩ := h
      obtain ⟨hiu, hin, hpa, -, hku, hvu⟩ := c_translate_inv hpol hF27 hs hu
      refine ⟨hiu, hku, fun b hb _ => hvu b hb, fun a2 d h2 => (by cases h2),
        fun a2 ha2 hk => ?_⟩
      cases ha2
      rw [← hvu a hk, hpa]
      simp [vmem, hin]
  | write a d =>
    simp only [access, write_memory] at h
    split at h
    · exact absurd h (by simp)
    · rename_i s1 hs1
      split at hs1
      · exact absurd hs1 (by simp)
      · rename_i pa u hu
        simp only [Option.some.injEq] at hs1
        simp only [Option.some.injEq, Prod.mk.injEq] at h
        obtain ⟨-, rfl⟩ := h
        subst hs1
        obtain ⟨hiu, hin, hpa, hmod, hku, hvu⟩ := c_translate_inv hpol hF27 hs hu
        have hmod := hmod rfl
        have hother : ∀ q i, q ≠ a / PAGESIZE → (u.page_table q).inmemory = true →
            i < PAGESIZE → (u.page_table q).page * PAGESIZE + i ≠ pa := by
          intro q i hq hqin hi
          rw [hpa]
          refine index_ne (fun hpg => hq ?_) hi (Nat.mod_lt _ (by decide))
          have h1 := (hiu.res q hqin).2
          have h2 := (hiu.res _ hin).2
          rw [hpg, h2] at h1
          exact (Option.some.inj h1).symm
        have hvm : ∀ b, b ≠ a → vmem { u with memory := Function.update u.memory pa d } b
            = vmem u b := by
          intro b hba
          unfold vmem
          show (if (u.page_table (b / PAGESIZE)).inmemory = true then
              Function.update u.memory pa d _ else _) = _
          cases hqin : (u.page_table (b / PAGESIZE)).inmemory with
          | false => simp
          | true =>
            simp only [if_true]
            apply Function.update_noteq
            by_cases hq : b / PAGESIZE = a / PAGESIZE
            · rw [hpa, hq]
              have hdiv := Nat.div_add_mod b PAGESIZE
              have hdiv2 := Nat.div_add_mod a PAGESIZE
              rw [PAGESIZE_eq] at *
              omega
            · exact hother _ _ hq hqin (Nat.mod_lt _ (by decide))
        refine ⟨⟨hiu.res, hiu.own, hiu.evicted, hiu.count_le, hiu.slot_lt, hiu.slot_inj,
          fun p hp hmd hd i hi => ?_⟩, hku, fun b hb hw => ?_, fun a2 d2 h2 => ?_,
          fun a2 ha2 => by cases ha2⟩
        · have hpv : p ≠ a / PAGESIZE := by
            rintro rfl
            rw [hmod] at hmd
            exact absurd hmd (by simp)
          show Function.update u.memory pa d _ = _
          rw [Function.update_noteq (hother p i hpv hp hi)]
          exact hiu.clean p hp hmd hd i hi
        · have hba : b ≠ a := by
            rintro rfl
            simp [Access.writes] at hw
          rw [hvm b hba]
          exact hvu b hb
        · cases h2
          refine ⟨Or.inr ⟨hin, hmod⟩, ?_⟩
          unfold vmem
          show (if (u.page_table (a / PAGESIZE)).inmemory = true then
              Function.update u.memory pa d _ else _) = _
          rw [if_pos hin, ← hpa]
          exact Function.update_same _ _ _
  | xlate a w =>
    obtain ⟨hiu, -, -, -, hku, hvu⟩ := c_translate_inv hpol hF27 hs h
    exact ⟨hiu, hku, fun b hb _ => hvu b hb, fun a2 d h2 => (by cases h2),
      fun a2 ha2 => by cases ha2⟩

/-- Along a completed run the invariant is kept, a kept page stays a kept page,
and a word of a kept page that no access of the run writes keeps its value. -/
theorem c_run_inv {F : Nat} {replace : Policy} (hpol : PolicyFrame F replace)
    (hF27 : F ≤ PAGE_FIELD) :
    ∀ (accs : List Access) (s t : Machine), Inv F s → run replace s accs = some t →
      Inv F t ∧ (∀ p, Kept s p → Kept t p) ∧
        (∀ A, Kept s (A / PAGESIZE) → (∀ x ∈ accs, x.writes A = false) →
          vmem t A = vmem s A) := by
  intro accs
  induction accs with
  | nil =>
    intro s t hs h
    simp only [run, Option.some.injEq] at h
    subst h
    exact ⟨hs, fun p hp => hp, fun A _ _ => rfl⟩
  | cons x rest ih =>
    intro s t hs h
    simp only [run] at h
    split at h
    · exact absurd h (by simp)
    · rename_i r s1 hacc
      obtain ⟨hi1, hk1, hv1, -, -⟩ := c_access_inv hpol hF27 hs hacc
      obtain ⟨hi2, hk2, hv2⟩ := ih s1 t hi1 h
      refine ⟨hi2, fun p hp => hk2 p (hk1 p hp), fun A hA hnw => ?_⟩
      rw [hv2 A (hk1 _ hA) (fun y hy => hnw y (List.mem_cons_of_mem _ hy)),
        hv1 A hA (hnw x (List.mem_cons_self _ _))]

/-! ## Round trip and first touch -/

/-- `take_phys_page` leaves the memory as it is, and the entry of a non-resident
page up to its reference bit. -/
theorem c_take_phys_page_other {F : Nat} {replace : Policy} (hpol : PolicyFrame F replace)
    {s t : Machine} {r : Nat} (h : take_phys_page replace s = some (r, t)) :
    t.memory = s.memory ∧
      (Inv F s → ∀ v, (s.page_table v).inmemory = false →
        (t.page_table v).ondisk = (s.page_table v).ondisk ∧
        (t.page_table v).page = (s.page_table v).page) := by
  obtain ⟨s1, hrep, hcase⟩ := c_take_phys_page_cases h
  obtain ⟨-, hsame⟩ := hpol _ _ _ hrep
  rcases hcase with ⟨-, rfl⟩ | ⟨o, hown, -, rfl⟩
  · exact ⟨hsame.memory, fun _ v _ => ⟨hsame.ondisk v, hsame.page v⟩⟩
  · refine ⟨hsame.memory, fun hs v hv => ?_⟩
    have ho := ((c_inv_of_same hsame hs).own r o hown).1
    have hvo : v ≠ o := by
      rintro rfl
      rw [hsame.inmemory, hv] at ho
      exact absurd ho (by simp)
    simp only [Function.update_apply, hvo, if_false]
    exact ⟨hsame.ondisk v, hsame.page v⟩

/-- C29 (uninitialized first touch, c variant): `pagefault` on a page whose
`ondisk` flag is 0 leaves the whole memory as it is, the words of the assigned
frame included (the flag is the one read after `take_phys_page`, which for a
non-resident page in a state with the invariant is the flag at entry).  Under
FIFO with `RAM_PAGES` frames, from the initial state: after `write_memory(0, 5)`
and reads of the pages 1 to 7, `read_memory(32)` faults page 8 into frame 1,
which page 0 has just left, and returns 5, although no address of page 8 has
been written. -/
theorem c_first_touch_uninitialized :
    (∀ (F : Nat) (replace : Policy) (s t : Machine) (v : Nat), PolicyFrame F replace →
      pagefault replace s v = some t →
      ∃ f s1, take_phys_page replace { s with num_pagefault := s.num_pagefault + 1 }
          = some (f, s1) ∧
        s1.memory = s.memory ∧
        ((s1.page_table v).ondisk = false → t.memory = s.memory) ∧
        (Inv F s → (s.page_table v).inmemory = false →
          (s1.page_table v).ondisk = (s.page_table v).ondisk)) ∧
    (∀ x ∈ [Access.write 0 5, .read 4, .read 8, .read 12, .read 16, .read 20, .read 24,
        .read 28], x.vpage < NPAGES ∧ x.writes 32 = false) ∧
    32 / PAGESIZE < NPAGES ∧
    (∃ s r u, run (fifo_page_replace RAM_PAGES) init_machine
        [.write 0 5, .read 4, .read 8, .read 12, .read 16, .read 20, .read 24, .read 28]
        = some s ∧
      read_memory (fifo_page_replace RAM_PAGES) s 32 = some (r, u) ∧ r = 5 ∧ r ≠ 0 ∧
      (u.page_table 8).page = 1 ∧ (u.page_table 0).inmemory = false) := by
  refine ⟨fun F replace s t v hpol h => ?_, by decide, by decide, ?_⟩
  · obtain ⟨f, s1, htake, ht⟩ := c_pagefault_some h
    obtain ⟨hmem, hother⟩ := c_take_phys_page_other (F := F) hpol htake
    refine ⟨f, s1, htake, hmem, fun hd => ?_, fun hs hv => ?_⟩
    · rw [ht]
      simp only [hd, Bool.false_eq_true, if_false]
      exact hmem
    · exact (hother ⟨hs.res, hs.own, hs.evicted, hs.count_le, hs.slot_lt, hs.slot_inj, hs.clean⟩
        v hv).1
  · have hval : ((run (fifo_page_replace RAM_PAGES) init_machine
        [.write 0 5, .read 4, .read 8, .read 12, .read 16, .read 20, .read 24, .read 28]).bind
        (fun s => read_memory (fifo_page_replace RAM_PAGES) s 32)).map
        (fun r => (r.1, (r.2.page_table 8).page, (r.2.page_table 0).inmemory))
        = some (5, 1, false) := by decide
    obtain ⟨⟨r, u⟩, hru, hr⟩ := Option.map_eq_some'.mp hval
    obtain ⟨s, hs, hrd⟩ := Option.bind_eq_some.mp hru
    simp only [Prod.mk.injEq] at hr
    obtain ⟨h1, h2, h3⟩ := hr
    exact ⟨s, r, u, hs, hrd, h1, by rw [h1]; decide, h2, h3⟩

/-- C30 (write/read round trip, c variant): in a run from the initial state
under `fifo_page_replace` or `second_chance_replace` (`F ≤ 2^27` frames;
`RAM_PAGES = 8` in the source), let `write_memory(A, V)` complete, then any
sequence of accesses on in-range addresses none of which writes `A`, then
`read_memory(A)`; no assertion having failed, the read returns `V`. -/
theorem c_round_trip (F : Nat) (replace : Policy) (hF27 : F ≤ PAGE_FIELD)
    (hrep : replace = fifo_page_replace F ∨ replace = second_chance_replace F)
    (pre ops : List Access) (A V r : Nat) (s0 s1 s2 s3 : Machine)
    (_hpre : ∀ x ∈ pre, x.vpage < NPAGES) (_hA : A / PAGESIZE < NPAGES)
    (_hops : ∀ x ∈ ops, x.vpage < NPAGES) (hnw : ∀ x ∈ ops, x.writes A = false)
    (h0 : run replace init_machine pre = some s0)
    (h1 : write_memory replace s0 A V = some s1)
    (h2 : run replace s1 ops = some s2)
    (h3 : read_memory replace s2 A = some (r, s3)) : r = V := by
  have hpol : PolicyFrame F replace := by
    rcases hrep with rfl | rfl
    · exact c_fifo_policy_frame F
    · exact c_second_chance_policy_frame F
  obtain ⟨hi0, -, -⟩ := c_run_inv hpol hF27 pre init_machine s0 (c_init_inv F) h0
  have hw : access replace s0 (.write A V) = some (0, s1) := by
    simp [access, h1]
  obtain ⟨hi1, -, -, hwr, -⟩ := c_access_inv hpol hF27 hi0 hw
  obtain ⟨hk1, hv1⟩ := hwr A V rfl
  obtain ⟨hi2, hk2, hv2⟩ := c_run_inv hpol hF27 ops s1 s2 hi1 h2
  have hr : access replace s2 (.read A) = some (r, s3) := h3
  obtain ⟨-, -, -, -, hrd⟩ := c_access_inv hpol hF27 hi2 hr
  rw [hrd A rfl (hk2 _ hk1), hv2 A hk1 hnw, hv1]

theorem c_round_trip_witness :
    ∃ s1 s2 r s3,
      write_memory (second_chance_replace RAM_PAGES) init_machine 0 5 = some s1 ∧
      run (second_chance_replace RAM_PAGES) s1
        [.read 4, .read 8, .read 12, .read 16, .read 20, .read 24, .read 28, .read 32]
        = some s2 ∧
      (s2.page_table 0).inmemory = false ∧
      read_memory (second_chance_replace RAM_PAGES) s2 0 = some (r, s3) ∧ r = 5 := by
  have hsome : (((write_memory (second_chance_replace RAM_PAGES) init_machine 0 5).bind
      (fun s1 => run (second_chance_replace RAM_PAGES) s1
        [.read 4, .read 8, .read 12, .read 16, .read 20, .read 24, .read 28, .read 32])).bind
      (fun s2 => read_memory (second_chance_replace RAM_PAGES) s2 0)).isSome = true := by
    decide
  have hflag : ((write_memory (second_chance_replace RAM_PAGES) init_machine 0 5).bind
      (fun s1 => run (second_chance_replace RAM_PAGES) s1
        [.read 4, .read 8, .read 12, .read 16, .read 20, .read 24, .read 28, .read 32])).map
      (fun s2 => (s2.page_table 0).inmemory) = some false := by decide
  obtain ⟨⟨r, s3⟩, hc⟩ := Option.isSome_iff_exists.mp hsome
  obtain ⟨s2, hs2, hrd⟩ := Option.bind_eq_some.mp hc
  obtain ⟨s1, hs1, hrun⟩ := Option.bind_eq_some.mp hs2
  rw [hs2] at hflag
  simp only [Option.map_some', Option.some.injEq] at hflag
  exact ⟨s1, s2, r, s3, hs1, hrun, hflag, hrd,
    c_round_trip RAM_PAGES (second_chance_replace RAM_PAGES) (by decide)
      (Or.inr rfl) [] _ 0 5 r init_machine s1 s2 s3 (by decide) (by decide) (by decide)
      (by decide) rfl hs1 hrun hrd⟩

/-! ## The cursor of second chance -/

/-- C31, as stated, fails: at the first page fault of a run (the initial state
with `num_pagefault = 1`) `second_chance_replace` returns the victim frame 0 and
its cursor is 0, not `(0 + 1) mod RAM_PAGES`; after the access that caused this
fault, the next call starts its scan at frame 0: it clears the reference bit of
page 0, the new owner of frame 0, and returns frame 1 with the cursor at 1. -/
theorem c_cursor_past_victim_fails :
    (second_chance_replace RAM_PAGES { init_machine with num_pagefault := 1 }).map
        (fun r => (r.1, r.2.sc_page)) = some (0, 0) ∧
      (0 + 1) % RAM_PAGES ≠ 0 ∧
      ((run (second_chance_replace RAM_PAGES) init_machine [.read 0]).bind (fun s =>
        (second_chance_replace RAM_PAGES { s with num_pagefault := 2 }).map (fun r =>
          (s.sc_page, (s.coremap 0).owner, (s.page_table 0).referenced,
            r.1, r.2.sc_page, (r.2.page_table 0).referenced)))) =
        some (0, some 0, true, 1, 1, false) := by
  decide

/-- C31 (amended): after `second_chance_replace` returns the victim frame `v`,
its cursor is `v`, and the next call on a state `u` with this cursor starts its
scan at frame `v`: it returns `v` again, with `u` unchanged, when frame `v` has
no owner or an owner with `referenced = 0`; when the owner of `v` has
`referenced = 1` the call clears this bit and goes on with the scan at
`(v + 1) mod F`. -/
theorem c_second_chance_cursor (F : Nat) (s t : Machine) (v : Nat)
    (h : second_chance_replace F s = some (v, t)) :
    t.sc_page = v ∧ v < F ∧
    (∀ u : Machine, u.sc_page = t.sc_page →
      (∀ o, (u.coremap v).owner = some o → (u.page_table o).referenced = false) →
      second_chance_replace F u = some (v, u)) ∧
    (∀ (u : Machine) (o : Nat), u.sc_page = t.sc_page → (u.coremap v).owner = some o →
      (u.page_table o).referenced = true →
      second_chance_replace F u =
        (second_chance_scan F F
          { set_pte u o (fun e => { e with referenced := false }) with
            sc_page := (v + 1) % F }).bind
          (fun s1 => if s1.sc_page < F then some (s1.sc_page, s1) else none)) := by
  have hcur : t.sc_page = v ∧ v < F := by
    unfold second_chance_replace at h
    split at h
    · exact absurd h (by simp)
    · split at h
      · rename_i hlt
        simp only [Option.some.injEq, Prod.mk.injEq] at h
        obtain ⟨rfl, rfl⟩ := h
        exact ⟨rfl, hlt⟩
      · exact absurd h (by simp)
  obtain ⟨hc, hv⟩ := hcur
  refine ⟨hc, hv, ?_, ?_⟩
  · intro u hu hfree
    rw [hc] at hu
    have hscan : second_chance_scan F (F + 1) u = some u := by
      unfold second_chance_scan
      rw [hu]
      cases ho : (u.coremap v).owner with
      | none => rfl
      | some o => simp [hfree o ho]
    simp only [second_chance_replace, hscan, hu, hv, if_true]
  · intro u o hu ho href
    rw [hc] at hu
    have hscan : second_chance_scan F (F + 1) u =
        second_chance_scan F F
          { set_pte u o (fun e => { e with referenced := false }) with
            sc_page := (v + 1) % F } := by
      have e : (set_pte u o (fun e => { e with referenced := false })).sc_page = v := hu
      conv_lhs => unfold second_chance_scan
      simp only [hu, ho, href, if_true, e]
    unfold second_chance_replace
    rw [hscan]
    cases second_chance_scan F F
      { set_pte u o (fun e => { e with referenced := false }) with sc_page := (v + 1) % F } with
    | none => rfl
    | some s1 => rfl

theorem c_second_chance_cursor_witness :
    ∃ s t, run (second_chance_replace RAM_PAGES) init_machine [.read 0, .read 4] = some s ∧
      second_chance_replace RAM_PAGES { s with num_pagefault := 3 } = some (2, t) ∧
      t.sc_page = 2 := by
  have hsome : ((run (second_chance_replace RAM_PAGES) init_machine [.read 0, .read 4]).bind
      (fun s => second_chance_replace RAM_PAGES { s with num_pagefault := 3 })).isSome
      = true := by decide
  have hval : ((run (second_chance_replace RAM_PAGES) init_machine [.read 0, .read 4]).bind
      (fun s => second_chance_replace RAM_PAGES { s with num_pagefault := 3 })).map Prod.fst
      = some 2 := by decide
  obtain ⟨⟨v, t⟩, hc⟩ := Option.isSome_iff_exists.mp hsome
  rw [hc] at hval
  simp only [Option.map_some', Option.some.injEq] at hval
  subst hval
  obtain ⟨s, hs, hrep⟩ := Option.bind_eq_some.mp hc
  exact ⟨s, t, hs, hrep, (c_second_chance_cursor RAM_PAGES _ t _ hrep).1⟩

/-! ## FIFO replacement in the two variants -/

theorem c_take_phys_page_no_owner {replace : Policy} {s s1 : Machine} {r : Nat}
    (hrep : replace s = some (r, s1)) (hown : (s1.coremap r).owner = none) :
    take_phys_page replace s = some (r, s1) := by
  simp [take_phys_page, hrep, hown]

theorem c_take_phys_page_returns {replace : Policy} {s s1 : Machine} {r o : Nat}
    (hrep : replace s = some (r, s1)) (hown : (s1.coremap r).owner = some o)
    (hc : (s1.page_table o).modified = true → (s1.page_table o).ondisk = false →
      s1.count < SWAP_PAGES) :
    ∃ t, take_phys_page replace s = some (r, t) := by
  cases hm : (s1.page_table o).modified <;> cases hd : (s1.page_table o).ondisk
  · simp [take_phys_page, hrep, hown, set_pte, set_cme, write_page, new_swap_page, hm, hd]
  · simp [take_phys_page, hrep, hown, set_pte, set_cme, write_page, new_swap_page, hm, hd]
  · have := hc hm hd
    simp [take_phys_page, hrep, hown, set_pte, set_cme, write_page, new_swap_page, hm, hd, this]
  · simp [take_phys_page, hrep, hown, set_pte, set_cme, write_page, new_swap_page, hm, hd]

theorem c_take_phys_page_aborts {replace : Policy} {s s1 : Machine} {r o : Nat}
    (hrep : replace s = some (r, s1)) (hown : (s1.coremap r).owner = some o)
    (hm : (s1.page_table o).modified = true) (hd : (s1.page_table o).ondisk = false)
    (hc : ¬ s1.count < SWAP_PAGES) : take_phys_page replace s = none := by
  simp [take_phys_page, hrep, hown, set_pte, set_cme, write_page, new_swap_page, hm, hd, hc]

theorem c_succ_mod_inj {F f g : Nat} (hf : f < F) (hg : g < F)
    (h : (f + 1) % F = (g + 1) % F) : f = g := by
  by_cases h1 : f + 1 = F
  · by_cases h2 : g + 1 = F
    · omega
    · rw [h1, Nat.mod_self, Nat.mod_eq_of_lt (by omega)] at h
      omega
  · by_cases h2 : g + 1 = F
    · rw [h2, Nat.mod_self, Nat.mod_eq_of_lt (by omega)] at h
      omega
    · rw [Nat.mod_eq_of_lt (by omega), Nat.mod_eq_of_lt (by omega)] at h
      omega

/-- One call of `take_phys_page` in the two variants, from related states: both
abort, or both return, the frame `r` there and the frame `(r + 1) mod F` here,
in related states. -/
theorem c_fifo_take_sim {F : Nat} (hF : 0 < F) {m : Michael.Machine} {c : Machine}
    (hres : Michael.Resident F m) (hsim : FifoSim F m c) :
    (Michael.take_phys_page F (Michael.fifo_page_replace F) m = none ∧
      take_phys_page (fifo_page_replace F) c = none) ∨
    ∃ r m1 c1, Michael.take_phys_page F (Michael.fifo_page_replace F) m = some (r, m1) ∧
      take_phys_page (fifo_page_replace F) c = some ((r + 1) % F, c1) ∧ r < F ∧
      FifoSim F m1 c1 := by
  by_cases h0 : 0 ≤ m.next_unused_page
  · right
    obtain ⟨k, hk⟩ := Int.eq_ofNat_of_zero_le h0
    have hkF : k < F := by
      rcases hres.cold with h | ⟨_, h⟩
      · omega
      · rw [hk] at h
        exact_mod_cast h
    obtain ⟨hcf, hfn⟩ := hsim.cold h0
    have hcf2 : c.fifo_page = k := by
      rw [hk] at hcf
      exact_mod_cast hcf
    have hown : (c.coremap ((k + 1) % F)).owner = none := by
      rw [hsim.owner k hkF]
      exact hres.unused k h0 (by omega)
    have hrep : fifo_page_replace F c
        = some ((k + 1) % F, { c with fifo_page := (k + 1) % F }) := by
      simp [fifo_page_replace, hcf2, Nat.mod_lt _ hF]
    refine ⟨k, _, _, Michael.take_phys_page_cold F _ hk, c_take_phys_page_no_owner hrep hown,
      hkF, ?_⟩
    refine ⟨hsim.inmemory, hsim.page, hsim.modified, hsim.evicted, hsim.ondisk,
      hsim.num_pagefault, hsim.num_diskwrites, hsim.count, hsim.owner, ?_, ?_⟩
    · intro hnn
      have hnn2 : 0 ≤ (if k + 1 = F then (-1 : Int) else ((k + 1 : Nat) : Int)) := hnn
      show (((k + 1) % F : Nat) : Int) = (if k + 1 = F then (-1 : Int) else ((k + 1 : Nat) : Int))
        ∧ m.fifo_next_page = 0
      by_cases hk1 : k + 1 = F
      · rw [if_pos hk1] at hnn2
        omega
      · rw [if_neg hk1, Nat.mod_eq_of_lt (by omega)]
        exact ⟨rfl, hfn⟩
    · intro hneg
      have hneg2 : (if k + 1 = F then (-1 : Int) else ((k + 1 : Nat) : Int)) < 0 := hneg
      show (k + 1) % F = m.fifo_next_page ∧ m.fifo_next_page < F
      by_cases hk1 : k + 1 = F
      · rw [hk1, Nat.mod_self, hfn]
        exact ⟨rfl, hF⟩
      · rw [if_neg hk1] at hneg2
        omega
  · obtain ⟨hcf, hj⟩ := hsim.warm (by omega)
    have hrepm := @Michael.fifo_page_replace_eq F m hj
    have hrepc : fifo_page_replace F c = some ((m.fifo_next_page + 1) % F,
        { c with fifo_page := (m.fifo_next_page + 1) % F }) := by
      simp [fifo_page_replace, hcf, Nat.mod_lt _ hF]
    have hownc := hsim.owner _ hj
    cases hown : (m.coremap m.fifo_next_page).owner with
    | none =>
      right
      rw [hown] at hownc
      refine ⟨_, _, _, Michael.take_phys_page_no_owner h0 hrepm hown,
        c_take_phys_page_no_owner hrepc hownc, hj, ?_⟩
      exact ⟨hsim.inmemory, hsim.page, hsim.modified, hsim.evicted, hsim.ondisk,
        hsim.num_pagefault, hsim.num_diskwrites, hsim.count, hsim.owner,
        fun h => absurd h h0, fun _ => ⟨rfl, Nat.mod_lt _ hF⟩⟩
    | some o =>
      rw [hown] at hownc
      obtain ⟨hin, hpage⟩ := hres.own _ o hown
      have emd := hsim.modified o hin
      have eod := hsim.ondisk o
      have ecnt := hsim.count
      by_cases hab : (m.page_table o).modified = true ∧ (m.page_table o).ondisk = false ∧
          ¬ m.count < SWAP_PAGES
      · left
        refine ⟨Michael.take_phys_page_evict_aborts h0 hrepm hown hab.1 hab.2.1 hab.2.2,
          c_take_phys_page_aborts hrepc hownc (emd.trans hab.1) (eod.trans hab.2.1) ?_⟩
        show ¬ c.count < SWAP_PAGES
        rw [ecnt]
        exact hab.2.2
      · right
        have hok : (m.page_table o).modified = true → (m.page_table o).ondisk = false →
            m.count < SWAP_PAGES := by
          intro a b
          by_contra hc
          exact hab ⟨a, b, hc⟩
        obtain ⟨tm, htm⟩ := Michael.take_phys_page_evict_returns h0 hrepm hown hok
        obtain ⟨tc, htc⟩ := c_take_phys_page_returns hrepc hownc (fun a b => by
          show c.count < SWAP_PAGES
          rw [ecnt]
          exact hok (emd.symm.trans a) (eod.symm.trans b))
        obtain ⟨-, -, etm⟩ := Michael.take_phys_page_evict h0 hrepm hown htm
        obtain ⟨cs1, hcs1, hcc⟩ := c_take_phys_page_cases htc
        rw [hrepc] at hcs1
        simp only [Option.some.injEq, Prod.mk.injEq, true_and] at hcs1
        subst hcs1
        rcases hcc with ⟨hn, -⟩ | ⟨o2, ho2, -, etc⟩
        · rw [hownc] at hn
          exact absurd hn (by simp)
        · rw [hownc] at ho2
          simp only [Option.some.injEq] at ho2
          subst ho2
          refine ⟨_, tm, tc, htm, htc, hj, ?_⟩
          rw [etm, etc]
          refine ⟨?_, ?_, ?_, ?_, ?_, ?_, ?_, ?_, ?_, ?_, ?_⟩
          · intro p
            by_cases hp : p = o
            · subst hp
              simp
            · simp [Function.update_apply, hp, hsim.inmemory p]
          · intro p hp
            by_cases hpo : p = o
            · subst hpo
              simp at hp
            · simp only [Function.update_apply, hpo, if_false] at hp ⊢
              exact hsim.page p hp
          · intro p hp
            by_cases hpo : p = o
            · subst hpo
              simp at hp
            · simp only [Function.update_apply, hpo, if_false] at hp ⊢
              exact hsim.modified p hp
          · intro p hp
            by_cases hpo : p = o
            · subst hpo
              simp
            · simp only [Function.update_apply, hpo, if_false] at hp ⊢
              exact hsim.evicted p hp
          · intro p
            by_cases hpo : p = o
            · subst hpo
              simp [emd, eod]
            · simp only [Function.update_apply, hpo, if_false]
              exact hsim.ondisk p
          · exact hsim.num_pagefault
          · simp [emd, hsim.num_diskwrites]
          · simp [emd, eod, ecnt]
          · intro f hf
            have := hsim.owner f hf
            simp only []
            split
            · by_cases hfo : (f + 1) % F = (m.fifo_next_page + 1) % F
              · rw [hfo, Function.update_same]
                rw [hfo] at this
                exact this
              · rw [Function.update_noteq hfo]
                exact this
            · exact this
          · exact fun h => absurd h h0
          · exact fun _ => ⟨rfl, Nat.mod_lt _ hF⟩

/-- One call of `pagefault` in the two variants, from related states. -/
theorem c_fifo_pagefault_sim {F : Nat} (hF : 0 < F) (hF27 : F ≤ PAGE_FIELD)
    {m : Michael.Machine} {c : Machine} (hres : Michael.Resident F m) (hsim : FifoSim F m c)
    (v : Nat) (hv : (m.page_table v).inmemory = false) :
    (Michael.pagefault F (Michael.fifo_page_replace F) m v = none ∧
      pagefault (fifo_page_replace F) c v = none) ∨
    ∃ m1 c1, Michael.pagefault F (Michael.fifo_page_replace F) m v = some m1 ∧
      pagefault (fifo_page_replace F) c v = some c1 ∧ FifoSim F m1 c1 := by
  have hres0 : Michael.Resident F { m with num_pagefault := m.num_pagefault + 1 } :=
    ⟨hres.res, hres.own, hres.cold, hres.unused⟩
  have hsim0 : FifoSim F { m with num_pagefault := m.num_pagefault + 1 }
      { c with num_pagefault := c.num_pagefault + 1 } :=
    ⟨hsim.inmemory, hsim.page, hsim.modified, hsim.evicted, hsim.ondisk,
      congrArg (fun n => n + 1) hsim.num_pagefault, hsim.num_diskwrites, hsim.count,
      hsim.owner, hsim.cold, hsim.warm⟩
  rcases c_fifo_take_sim hF hres0 hsim0 with ⟨hmn, hcn⟩ | ⟨r, m1, c1, hm1, hc1, hr, hs1⟩
  · left
    constructor
    · unfold Michael.pagefault
      dsimp only
      rw [hmn]
    · unfold pagefault
      dsimp only
      rw [hcn]
  · right
    obtain ⟨tm, htm⟩ := @Michael.pagefault_of_take F _ m m1 v r hm1
    have hex : ∃ tc, pagefault (fifo_page_replace F) c v = some tc := by
      unfold pagefault
      dsimp only
      rw [hc1]
      exact ⟨_, rfl⟩
    obtain ⟨tc, htc⟩ := hex
    obtain ⟨r2, m2, hm2, etm⟩ := Michael.pagefault_some htm
    rw [hm1] at hm2
    simp only [Option.some.injEq, Prod.mk.injEq] at hm2
    obtain ⟨rfl, rfl⟩ := hm2
    obtain ⟨r3, c3, hc3, etc⟩ := c_pagefault_some htc
    rw [hc1] at hc3
    simp only [Option.some.injEq, Prod.mk.injEq] at hc3
    obtain ⟨rfl, rfl⟩ := hc3
    refine ⟨tm, tc, htm, htc, ?_⟩
    have hv1 : (m1.page_table v).inmemory = false :=
      Michael.take_phys_page_inmemory (Michael.fifo_policy_frame F) hm1 v hv
    have hr2 : (r + 1) % F < F := Nat.mod_lt _ hF
    have e1 : r % PAGE_FIELD = r := Nat.mod_eq_of_lt (by omega)
    have e2 : (r + 1) % F % PAGE_FIELD = (r + 1) % F := Nat.mod_eq_of_lt (by omega)
    rw [etm, etc]
    refine ⟨?_, ?_, ?_, ?_, ?_, hs1.num_pagefault, hs1.num_diskwrites, hs1.count, ?_,
      hs1.cold, hs1.warm⟩
    · intro p
      by_cases hp : p = v
      · subst hp
        simp
      · simp [Function.update_apply, hp, hs1.inmemory p]
    · intro p hp
      by_cases hpv : p = v
      · subst hpv
        simp [e1, e2]
      · simp only [Function.update_apply, hpv, if_false] at hp ⊢
        exact hs1.page p hp
    · intro p hp
      by_cases hpv : p = v
      · subst hpv
        simpa using hs1.evicted p hv1
      · simp only [Function.update_apply, hpv, if_false] at hp ⊢
        exact hs1.modified p hp
    · intro p hp
      by_cases hpv : p = v
      · subst hpv
        simp at hp
      · simp only [Function.update_apply, hpv, if_false] at hp ⊢
        exact hs1.evicted p hp
    · intro p
      by_cases hpv : p = v
      · subst hpv
        simpa using hs1.ondisk p
      · simp only [Function.update_apply, hpv, if_false]
        exact hs1.ondisk p
    · intro f hf
      by_cases hfr : f = r
      · subst hfr
        simp
      · have hne : (f + 1) % F ≠ (r + 1) % F := fun h => hfr (c_succ_mod_inj hf hr h)
        simp only [Function.update_apply, hne, hfr, if_false]
        exact hs1.owner f hf

/-- Setting the `referenced` bit, and for a write the `modified` bit, of a page
resident in both variants keeps the states related. -/
theorem c_fifo_sim_touch {F : Nat} {m : Michael.Machine} {c : Machine} (hs : FifoSim F m c)
    (v : Nat) (hv : (m.page_table v).inmemory = true) (w : Bool) :
    FifoSim F
      (if w then Michael.set_pte
          (Michael.set_pte m v (fun e => { e with referenced := true })) v
            (fun e => { e with modified := true })
        else Michael.set_pte m v (fun e => { e with referenced := true }))
      (if w then set_pte (set_pte c v (fun e => { e with referenced := true })) v
            (fun e => { e with modified := true })
        else set_pte c v (fun e => { e with referenced := true })) := by
  cases w
  · simp only [Bool.false_eq_true, if_false]
    refine ⟨?_, ?_, ?_, ?_, ?_, hs.num_pagefault, hs.num_diskwrites, hs.count, hs.owner,
      hs.cold, hs.warm⟩
    · intro p
      by_cases hp : p = v
      · subst hp
        simpa [Michael.set_pte, set_pte] using hs.inmemory p
      · simpa [Michael.set_pte, set_pte, Function.update_apply, hp] using hs.inmemory p
    · intro p hp
      by_cases hpv : p = v
      · subst hpv
        simpa [Michael.set_pte, set_pte] using hs.page p hv
      · simp only [Michael.set_pte, set_pte, Function.update_apply, hpv, if_false] at hp ⊢
        exact hs.page p hp
    · intro p hp
      by_cases hpv : p = v
      · subst hpv
        simpa [Michael.set_pte, set_pte] using hs.modified p hv
      · simp only [Michael.set_pte, set_pte, Function.update_apply, hpv, if_false] at hp ⊢
        exact hs.modified p hp
    · intro p hp
      by_cases hpv : p = v
      · subst hpv
        simp [Michael.set_pte, hv] at hp
      · simp only [Michael.set_pte, set_pte, Function.update_apply, hpv, if_false] at hp ⊢
        exact hs.evicted p hp
    · intro p
      by_cases hpv : p = v
      · subst hpv
        simpa [Michael.set_pte, set_pte] using hs.ondisk p
      · simp only [Michael.set_pte, set_pte, Function.update_apply, hpv, if_false]
        exact hs.ondisk p
  · simp only [if_true]
    refine ⟨?_, ?_, ?_, ?_, ?_, hs.num_pagefault, hs.num_diskwrites, hs.count, hs.owner,
      hs.cold, hs.warm⟩
    · intro p
      by_cases hp : p = v
      · subst hp
        simpa [Michael.set_pte, set_pte] using hs.inmemory p
      · simpa [Michael.set_pte, set_pte, Function.update_apply, hp] using hs.inmemory p
    · intro p hp
      by_cases hpv : p = v
      · subst hpv
        simpa [Michael.set_pte, set_pte] using hs.page p hv
      · simp only [Michael.set_pte, set_pte, Function.update_apply, hpv, if_false] at hp ⊢
        exact hs.page p hp
    · intro p hp
      by_cases hpv : p = v
      · subst hpv
        simp [Michael.set_pte, set_pte]
      · simp only [Michael.set_pte, set_pte, Function.update_apply, hpv, if_false] at hp ⊢
        exact hs.modified p hp
    · intro p hp
      by_cases hpv : p = v
      · subst hpv
        simp [Michael.set_pte, hv] at hp
      · simp only [Michael.set_pte, set_pte, Function.update_apply, hpv, if_false] at hp ⊢
        exact hs.evicted p hp
    · intro p
      by_cases hpv : p = v
      · subst hpv
        simpa [Michael.set_pte, set_pte] using hs.ondisk p
      · simp only [Michael.set_pte, set_pte, Function.update_apply, hpv, if_false]
        exact hs.ondisk p

/-- One call of `translate` in the two variants, from related states. -/
theorem c_fifo_translate_sim {F : Nat} (hF : 0 < F) (hF27 : F ≤ PAGE_FIELD)
    {m : Michael.Machine} {c : Machine} (hres : Michael.Resident F m) (hsim : FifoSim F m c)
    (a : Nat) (w : Bool) :
    (Michael.translate F (Michael.fifo_page_replace F) m a w = none ∧
      translate (fifo_page_replace F) c a w = none) ∨
    ∃ pa pc m1 c1, Michael.translate F (Michael.fifo_page_replace F) m a w = some (pa, m1) ∧
      translate (fifo_page_replace F) c a w = some (pc, c1) ∧ FifoSim F m1 c1 := by
  have hres0 : Michael.Resident F { m with num_memoryaccesses := m.num_memoryaccesses + 1 } :=
    ⟨hres.res, hres.own, hres.cold, hres.unused⟩
  have hsim0 : FifoSim F { m with num_memoryaccesses := m.num_memoryaccesses + 1 } c :=
    ⟨hsim.inmemory, hsim.page, hsim.modified, hsim.evicted, hsim.ondisk,
      hsim.num_pagefault, hsim.num_diskwrites, hsim.count, hsim.owner, hsim.cold, hsim.warm⟩
  have hstep : ((if (m.page_table (a / PAGESIZE)).inmemory = false then
          Michael.pagefault F (Michael.fifo_page_replace F)
            { m with num_memoryaccesses := m.num_memoryaccesses + 1 } (a / PAGESIZE)
        else some { m with num_memoryaccesses := m.num_memoryaccesses + 1 }) = none ∧
      (if (c.page_table (a / PAGESIZE)).inmemory = false then
          pagefault (fifo_page_replace F) c (a / PAGESIZE)
        else some c) = none) ∨
      ∃ m1 c1, (if (m.page_table (a / PAGESIZE)).inmemory = false then
          Michael.pagefault F (Michael.fifo_page_replace F)
            { m with num_memoryaccesses := m.num_memoryaccesses + 1 } (a / PAGESIZE)
        else some { m with num_memoryaccesses := m.num_memoryaccesses + 1 }) = some m1 ∧
      (if (c.page_table (a / PAGESIZE)).inmemory = false then
          pagefault (fifo_page_replace F) c (a / PAGESIZE)
        else some c) = some c1 ∧ FifoSim F m1 c1 ∧
        (m1.page_table (a / PAGESIZE)).inmemory = true := by
    cases hin : (m.page_table (a / PAGESIZE)).inmemory
    · have hcin : (c.page_table (a / PAGESIZE)).inmemory = false :=
        (hsim.inmemory _).trans hin
      rw [hcin]
      simp only [if_true]
      rcases c_fifo_pagefault_sim hF hF27 hres0 hsim0 (a / PAGESIZE) hin with h | h
      · exact Or.inl h
      · obtain ⟨m1, c1, h1, h2, h3⟩ := h
        exact Or.inr ⟨m1, c1, h1, h2, h3, (Michael.pagefault_entry h1).1⟩
    · have hcin : (c.page_table (a / PAGESIZE)).inmemory = true :=
        (hsim.inmemory _).trans hin
      rw [hcin]
      simp only [Bool.true_eq_false, if_false]
      exact Or.inr ⟨_, _, rfl, rfl, hsim0, hin⟩
  rcases hstep with ⟨hmn, hcn⟩ | ⟨m1, c1, hm1, hc1, hs1, hv1⟩
  · left
    constructor
    · unfold Michael.translate
      dsimp only
      rw [hmn]
    · unfold translate
      dsimp only
      rw [hcn]
  · right
    have hexm : ∃ pa tm, Michael.translate F (Michael.fifo_page_replace F) m a w
        = some (pa, tm) := by
      unfold Michael.translate
      dsimp only
      rw [hm1]
      exact ⟨_, _, rfl⟩
    have hexc : ∃ pc tc, translate (fifo_page_replace F) c a w = some (pc, tc) := by
      unfold translate
      dsimp only
      rw [hc1]
      exact ⟨_, _, rfl⟩
    obtain ⟨pa, tm, htm⟩ := hexm
    obtain ⟨pc, tc, htc⟩ := hexc
    obtain ⟨m2, hm2, etm, -⟩ := Michael.translate_some htm
    obtain ⟨c2, hc2, etc, -⟩ := c_translate_some htc
    rw [hm1] at hm2
    rw [hc1] at hc2
    simp only [Option.some.injEq] at hm2 hc2
    subst hm2 hc2
    refine ⟨pa, pc, tm, tc, htm, htc, ?_⟩
    rw [etm, etc]
    exact c_fifo_sim_touch hs1 (a / PAGESIZE) hv1 w

/-- A run of the same accesses in the two variants, from related states: both
abort, or both complete in related states. -/
theorem c_fifo_run_sim {F : Nat} (hF : 0 < F) (hF27 : F ≤ PAGE_FIELD) :
    ∀ (accs : List Access) (m : Michael.Machine) (c : Machine), Michael.Resident F m →
      FifoSim F m c →
      (Michael.run F (Michael.fifo_page_replace F) m accs = none ∧
        run (fifo_page_replace F) c accs = none) ∨
      ∃ m1 c1, Michael.run F (Michael.fifo_page_replace F) m accs = some m1 ∧
        run (fifo_page_replace F) c accs = some c1 ∧ FifoSim F m1 c1 ∧
        Michael.Resident F m1 := by
  intro accs
  induction accs with
  | nil =>
    intro m c hres hsim
    exact Or.inr ⟨m, c, rfl, rfl, hsim, hres⟩
  | cons x rest ih =>
    intro m c hres hsim
    have hacc : (Michael.access F (Michael.fifo_page_replace F) m x = none ∧
        access (fifo_page_replace F) c x = none) ∨
        ∃ r1 r2 m1 c1, Michael.access F (Michael.fifo_page_replace F) m x = some (r1, m1) ∧
          access (fifo_page_replace F) c x = some (r2, c1) ∧ FifoSim F m1 c1 := by
      cases x with
      | read a =>
        rcases c_fifo_translate_sim hF hF27 hres hsim a false with
          ⟨h1, h2⟩ | ⟨pa, pc, m1, c1, h1, h2, h3⟩
        · left
          simp only [Michael.access, Michael.read_memory, access, read_memory, h1, h2]
          exact ⟨trivial, trivial⟩
        · right
          simp only [Michael.access, Michael.read_memory, access, read_memory, h1, h2]
          exact ⟨_, _, _, _, rfl, rfl, h3⟩
      | write a d =>
        rcases c_fifo_translate_sim hF hF27 hres hsim a true with
          ⟨h1, h2⟩ | ⟨pa, pc, m1, c1, h1, h2, h3⟩
        · left
          simp only [Michael.access, Michael.write_memory, access, write_memory, h1, h2]
          exact ⟨trivial, trivial⟩
        · right
          simp only [Michael.access, Michael.write_memory, access, write_memory, h1, h2]
          exact ⟨_, _, _, _, rfl, rfl, h3.inmemory, h3.page, h3.modified, h3.evicted,
            h3.ondisk, h3.num_pagefault, h3.num_diskwrites, h3.count, h3.owner, h3.cold,
            h3.warm⟩
      | xlate a w =>
        rcases c_fifo_translate_sim hF hF27 hres hsim a w with
          ⟨h1, h2⟩ | ⟨pa, pc, m1, c1, h1, h2, h3⟩
        · left
          exact ⟨h1, h2⟩
        · right
          exact ⟨_, _, _, _, h1, h2, h3⟩
    rcases hacc with ⟨h1, h2⟩ | ⟨r1, r2, m1, c1, h1, h2, h3⟩
    · left
      simp only [Michael.run, run, h1, h2]
      exact ⟨trivial, trivial⟩
    · have hres1 := Michael.access_resident (Michael.fifo_policy_frame F) hF27 hres h1
      simp only [Michael.run, run, h1, h2]
      exact ih m1 c1 hres1 h3

theorem c_fifo_sim_init (F : Nat) : FifoSim F Michael.init_machine init_machine :=
  ⟨fun _ => rfl, fun _ h => absurd h (by simp [Michael.init_machine]), fun _ _ => rfl,
    fun _ _ => rfl, fun _ => rfl, rfl, rfl, rfl, fun _ _ => rfl, fun _ => ⟨rfl, rfl⟩,
    fun h => absurd h (by decide)⟩

/-- C38 (FIFO equivalence of the two variants): with FIFO replacement on `F`
frames (`0 < F ≤ 2^27`), a sequence of accesses from the initial state
completes in one variant exactly when it completes in the other, and then the
two variants have the same resident pages, the same `num_pagefault` and the same
`num_diskwrites`, while a page resident in frame `f` of the michael variant is
in frame `(f + 1) mod F` of the c variant.  As this holds for every sequence,
it holds after every access of a longer one. -/
theorem c_fifo_equivalence (F : Nat) (hF : 0 < F) (hF27 : F ≤ PAGE_FIELD)
    (accs : List Access) :
    (Michael.run F (Michael.fifo_page_replace F) Michael.init_machine accs = none ↔
      run (fifo_page_replace F) init_machine accs = none) ∧
    ∀ (m : Michael.Machine) (c : Machine),
      Michael.run F (Michael.fifo_page_replace F) Michael.init_machine accs = some m →
      run (fifo_page_replace F) init_machine accs = some c →
      (∀ p, (c.page_table p).inmemory = (m.page_table p).inmemory) ∧
      c.num_pagefault = m.num_pagefault ∧ c.num_diskwrites = m.num_diskwrites ∧
      (∀ p, (m.page_table p).inmemory = true →
        (m.page_table p).page < F ∧ (c.page_table p).page = ((m.page_table p).page + 1) % F) := by
  rcases c_fifo_run_sim hF hF27 accs Michael.init_machine init_machine
    (Michael.init_resident hF) (c_fifo_sim_init F) with
    ⟨h1, h2⟩ | ⟨m1, c1, h1, h2, h3, h4⟩
  · refine ⟨⟨fun _ => h2, fun _ => h1⟩, fun m c hm _ => ?_⟩
    rw [h1] at hm
    exact absurd hm (by simp)
  · refine ⟨⟨fun h => ?_, fun h => ?_⟩, fun m c hm hc => ?_⟩
    · rw [h1] at h
      exact absurd h (by simp)
    · rw [h2] at h
      exact absurd h (by simp)
    · rw [h1] at hm
      rw [h2] at hc
      simp only [Option.some.injEq] at hm hc
      subst hm hc
      exact ⟨h3.inmemory, h3.num_pagefault, h3.num_diskwrites,
        fun p hp => ⟨(h4.res p hp).1, h3.page p hp⟩⟩

theorem c_fifo_equivalence_witness :
    ∃ (m : Michael.Machine) (c : Machine),
      Michael.run RAM_PAGES (Michael.fifo_page_replace RAM_PAGES) Michael.init_machine
        [.write 0 7, .read 4, .read 8, .read 12, .read 16, .read 20, .read 24, .read 28,
          .read 32, .read 0] = some m ∧
      run (fifo_page_replace RAM_PAGES) init_machine
        [.write 0 7, .read 4, .read 8, .read 12, .read 16, .read 20, .read 24, .read 28,
          .read 32, .read 0] = some c ∧
      (∀ p, (c.page_table p).inmemory = (m.page_table p).inmemory) ∧
      c.num_pagefault = m.num_pagefault ∧ c.num_diskwrites = m.num_diskwrites := by
  have h1 : (Michael.run RAM_PAGES (Michael.fifo_page_replace RAM_PAGES) Michael.init_machine
      [.write 0 7, .read 4, .read 8, .read 12, .read 16, .read 20, .read 24, .read 28,
        .read 32, .read 0]).isSome = true := by decide
  have h2 : (run (fifo_page_replace RAM_PAGES) init_machine
      [.write 0 7, .read 4, .read 8, .read 12, .read 16, .read 20, .read 24, .read 28,
        .read 32, .read 0]).isSome = true := by decide
  obtain ⟨m, hm⟩ := Option.isSome_iff_exists.mp h1
  obtain ⟨c, hc⟩ := Option.isSome_iff_exists.mp h2
  obtain ⟨e1, e2, e3, -⟩ :=
    (c_fifo_equivalence RAM_PAGES (by decide) (by decide) _).2 m c hm hc
  exact ⟨m, c, hm, hc, e1, e2, e3⟩

/-- The frames handed out at the first `RAM_PAGES` faults, on the pages 0 to 7 in
this order: 0, 1, ..., 7 in the michael variant and 1, 2, ..., 7, 0 in the c
variant. -/
theorem c_frame_order_example :
    (Michael.run RAM_PAGES (Michael.fifo_page_replace RAM_PAGES) Michael.init_machine
        [.read 0, .read 4, .read 8, .read 12, .read 16, .read 20, .read 24, .read 28]).map
        (fun m => (List.range RAM_PAGES).map (fun p => (m.page_table p).page))
      = some [0, 1, 2, 3, 4, 5, 6, 7] ∧
    (run (fifo_page_replace RAM_PAGES) init_machine
        [.read 0, .read 4, .read 8, .read 12, .read 16, .read 20, .read 24, .read 28]).map
        (fun c => (List.range RAM_PAGES).map (fun p => (c.page_table p).page))
      = some [1, 2, 3, 4, 5, 6, 7, 0] := by
  decide

end CVariant
